import Mathlib

/-!
pion-net: HTTP message container and incremental request parser.

A shallow embedding of

* `HTTPRequestParser::isChar / isControl / isSpecial / isDigit`
  (include/libpion/HTTPRequestParser.hpp),
* `HTTPRequestParser::parseRequestHeaders` (src/HTTPRequestParser.cpp),
* the header operations of `HTTPMessage` (net/include/pion/net/HTTPMessage.hpp),

followed by theorems about them.

Conventions.  A C++ `char`, promoted to `int` as the classifiers receive it, is an
`Int`; a `std::string` is the list of its characters (`push_back` appends at the
end, `size()` is the length).  `unsigned int` is a `Nat` reduced modulo `2^32`.
-/

namespace pion

/-! ## Characters and strings -/

/-- A `std::string`: its characters in order, each as the `int` it promotes to. -/
abbrev Str := List Int

/-- The characters of a literal, as a `Str`. -/
def str (s : String) : Str := s.toList.map (fun ch => (ch.toNat : Int))

/-- Conversion of an `int` to `unsigned int` (32 bits). -/
def toUnsigned (x : Int) : Nat := (x % 4294967296).toNat

/-- `HTTPRequestParser::isChar`. -/
def isChar (c : Int) : Bool := decide (c ≥ 0) && decide (c ≤ 127)

/-- `HTTPRequestParser::isControl`. -/
def isControl (c : Int) : Bool := (decide (c ≥ 0) && decide (c ≤ 31)) || decide (c = 127)

/-- `HTTPRequestParser::isSpecial`: the `switch` over the nineteen separator characters. -/
def isSpecial (c : Int) : Bool :=
  if c = 40 then true        -- (
  else if c = 41 then true   -- )
  else if c = 60 then true   -- <
  else if c = 62 then true   -- >
  else if c = 64 then true   -- @
  else if c = 44 then true   -- ,
  else if c = 59 then true   -- ;
  else if c = 58 then true   -- :
  else if c = 92 then true   -- backslash
  else if c = 34 then true   -- double quote
  else if c = 47 then true   -- /
  else if c = 91 then true   -- [
  else if c = 93 then true   -- ]
  else if c = 63 then true   -- ?
  else if c = 61 then true   -- =
  else if c = 123 then true  -- opening brace
  else if c = 125 then true  -- closing brace
  else if c = 32 then true   -- SP
  else if c = 9 then true    -- TAB
  else false

/-- `HTTPRequestParser::isDigit`. -/
def isDigit (c : Int) : Bool := decide (c ≥ 48) && decide (c ≤ 57)

/-! ## Limits (static members of HTTPRequestParser) -/

def METHOD_MAX : Nat := 1024
def RESOURCE_MAX : Nat := 256 * 1024
def QUERY_STRING_MAX : Nat := 1024 * 1024
def HEADER_NAME_MAX : Nat := 1024
def HEADER_VALUE_MAX : Nat := 1024 * 1024

/-! ## The string dictionary -/

/-- Modelled from the spec: the container type `HTTPTypes::StringDictionary`
(`Headers` is the same type), declared in HTTPTypes.hpp, which is not among the
sources.  The spec describes it as a multimap from strings to strings that keeps
several entries per key, in insertion order.  The list holds the entries in
insertion order; `equal_range(key)` denotes the entries whose key is `key`, in
that order, and is the pair `(end(), end())` when there is none. -/
abbrev StringDictionary := List (Str × Str)

/-- The entries of `equal_range(key)`, in order. -/
def StringDictionary.equal_range (dict : StringDictionary) (key : Str) : StringDictionary :=
  dict.filter (fun e => decide (e.1 = key))

/-- The entry `find(key)` points to: the first entry with this key, `none` for `end()`. -/
def StringDictionary.find (dict : StringDictionary) (key : Str) : Option (Str × Str) :=
  List.find? (fun e => decide (e.1 = key)) dict

/-- `dict.insert(std::make_pair(key, value))`. -/
def StringDictionary.insert (dict : StringDictionary) (key value : Str) : StringDictionary :=
  dict ++ [(key, value)]

/-- The `else` branch of `changeValue`: the first entry of the range receives the new
value, and the loop erases every further entry of the range. -/
def StringDictionary.assignFirstEraseRest (key value : Str) :
    StringDictionary → StringDictionary
  | [] => []
  | e :: rest =>
    if e.1 = key then (e.1, value) :: rest.filter (fun x => !decide (x.1 = key))
    else e :: StringDictionary.assignFirstEraseRest key value rest

/-- `dict.erase(first, second)` for the range of `key`. -/
def StringDictionary.eraseRange (dict : StringDictionary) (key : Str) : StringDictionary :=
  dict.filter (fun x => !decide (x.1 = key))

/-- `HTTPTypes::STRING_EMPTY`. -/
def STRING_EMPTY : Str := []

/-- Modelled from the spec: `HTTPTypes::HEADER_CONNECTION`, defined in a file that is not
among the sources; the spec names the header `Connection`. -/
def HEADER_CONNECTION : Str := str "Connection"

/-- `HTTPMessage::getValue`. -/
def getValue (dict : StringDictionary) (key : Str) : Str :=
  match dict.find key with
  | none => STRING_EMPTY
  | some e => e.2

/-- `HTTPMessage::changeValue`. -/
def changeValue (dict : StringDictionary) (key value : Str) : StringDictionary :=
  if dict.equal_range key = [] then
    -- no values exist -> add a new key
    dict.insert key value
  else
    -- set the first value found for the key to the new one, remove any remaining values
    StringDictionary.assignFirstEraseRest key value dict

/-- `HTTPMessage::deleteValue`. -/
def deleteValue (dict : StringDictionary) (key : Str) : StringDictionary :=
  if dict.equal_range key = [] then dict else dict.eraseRange key

/-! ## HTTPMessage -/

/-- The data members of `HTTPMessage`. -/
structure HTTPMessage where
  m_is_valid : Bool
  m_chunks_supported : Bool
  m_remote_ip : Nat
  m_version_major : Nat
  m_version_minor : Nat
  m_content_length : Nat
  m_is_chunked : Bool
  m_content_buf : Option Str
  m_chunk_buffers : List Str
  m_headers : StringDictionary
  deriving DecidableEq, Repr

namespace HTTPMessage

/-- The default constructor `HTTPMessage(void)`. -/
def new : HTTPMessage :=
  { m_is_valid := false, m_chunks_supported := false, m_remote_ip := 0,
    m_version_major := 0, m_version_minor := 0, m_content_length := 0,
    m_is_chunked := false, m_content_buf := none, m_chunk_buffers := [],
    m_headers := [] }

def getVersionMajor (m : HTTPMessage) : Nat := m.m_version_major

def getVersionMinor (m : HTTPMessage) : Nat := m.m_version_minor

def getContentLength (m : HTTPMessage) : Nat := m.m_content_length

def getHeader (m : HTTPMessage) (key : Str) : Str := getValue m.m_headers key

def getHeaders (m : HTTPMessage) : StringDictionary := m.m_headers

def hasHeader (m : HTTPMessage) (key : Str) : Bool := (m.m_headers.find key).isSome

def setVersionMajor (m : HTTPMessage) (n : Nat) : HTTPMessage := { m with m_version_major := n }

def setVersionMinor (m : HTTPMessage) (n : Nat) : HTTPMessage := { m with m_version_minor := n }

def addHeader (m : HTTPMessage) (key value : Str) : HTTPMessage :=
  { m with m_headers := m.m_headers.insert key value }

def changeHeader (m : HTTPMessage) (key value : Str) : HTTPMessage :=
  { m with m_headers := changeValue m.m_headers key value }

def deleteHeader (m : HTTPMessage) (key : Str) : HTTPMessage :=
  { m with m_headers := deleteValue m.m_headers key }

/-- `HTTPMessage::checkKeepAlive`. -/
def checkKeepAlive (m : HTTPMessage) : Bool :=
  decide (m.getHeader HEADER_CONNECTION ≠ str "close")
    && (decide (m.getVersionMajor > 1)
        || (decide (m.getVersionMajor ≥ 1) && decide (m.getVersionMinor ≥ 1)))

end HTTPMessage

/-! ## HTTPRequest -/

/-- Modelled from the spec: the class `HTTPRequest` (HTTPRequest.hpp is not among the
sources).  The spec gives a request the members of a message plus the method, the
resource (URI stem), the raw query string and the two parameter dictionaries; the
parser only calls its setters. -/
structure HTTPRequest extends HTTPMessage where
  m_method : Str
  m_resource : Str
  m_query_string : Str
  m_query_params : StringDictionary
  m_cookie_params : StringDictionary
  deriving DecidableEq, Repr

namespace HTTPRequest

/-- A fresh request, as `HTTPRequest::create()` returns it. -/
def create : HTTPRequest :=
  { HTTPMessage.new with
    m_method := [], m_resource := [], m_query_string := [],
    m_query_params := [], m_cookie_params := [] }

def setMethod (r : HTTPRequest) (s : Str) : HTTPRequest := { r with m_method := s }

def setResource (r : HTTPRequest) (s : Str) : HTTPRequest := { r with m_resource := s }

def setQueryString (r : HTTPRequest) (s : Str) : HTTPRequest := { r with m_query_string := s }

def setVersionMajor (r : HTTPRequest) (n : Nat) : HTTPRequest := { r with m_version_major := n }

def setVersionMinor (r : HTTPRequest) (n : Nat) : HTTPRequest := { r with m_version_minor := n }

def addHeader (r : HTTPRequest) (key value : Str) : HTTPRequest :=
  { r with m_headers := r.m_headers.insert key value }

end HTTPRequest

/-! ## HTTPRequestParser -/

/-- `HTTPRequestParser::ParseState`. -/
inductive ParseState where
  | PARSE_METHOD_START | PARSE_METHOD | PARSE_URI_STEM | PARSE_URI_QUERY
  | PARSE_HTTP_VERSION_H | PARSE_HTTP_VERSION_T_1 | PARSE_HTTP_VERSION_T_2
  | PARSE_HTTP_VERSION_P | PARSE_HTTP_VERSION_SLASH
  | PARSE_HTTP_VERSION_MAJOR_START | PARSE_HTTP_VERSION_MAJOR
  | PARSE_HTTP_VERSION_MINOR_START | PARSE_HTTP_VERSION_MINOR
  | PARSE_EXPECTING_NEWLINE | PARSE_EXPECTING_CR
  | PARSE_HEADER_WHITESPACE | PARSE_HEADER_START | PARSE_HEADER_NAME
  | PARSE_SPACE_BEFORE_HEADER_VALUE | PARSE_HEADER_VALUE
  | PARSE_EXPECTING_FINAL_NEWLINE | PARSE_EXPECTING_FINAL_CR
  deriving DecidableEq, Repr

/-- The data members of `HTTPRequestParser` that `parseRequestHeaders` reads or writes. -/
structure HTTPRequestParser where
  m_http_request : HTTPRequest
  m_parse_state : ParseState
  m_method : Str
  m_resource : Str
  m_query_string : Str
  m_header_name : Str
  m_header_value : Str
  deriving DecidableEq, Repr

/-- The parser as its constructor leaves it. -/
def HTTPRequestParser.new : HTTPRequestParser :=
  { m_http_request := HTTPRequest.create, m_parse_state := .PARSE_METHOD_START,
    m_method := [], m_resource := [], m_query_string := [],
    m_header_name := [], m_header_value := [] }

/-- `boost::tribool`. -/
inductive Tribool where
  | false_value | true_value | indeterminate_value
  deriving DecidableEq, Repr

/-- What one pass through the body of the `while` loop does: either it falls through
to `++ptr` with a new parser state, or it returns, having advanced `ptr` by `adv`
itself. -/
inductive Step where
  | next (p : HTTPRequestParser)
  | ret (result : Tribool) (adv : Nat) (p : HTTPRequestParser)
  deriving DecidableEq, Repr

namespace HTTPRequestParser

/-- The body of the `while` loop of `parseRequestHeaders` for the character `c = *ptr`:
the `switch` over `m_parse_state`. -/
def parseStep (p : HTTPRequestParser) (c : Int) : Step :=
  match p.m_parse_state with
  | .PARSE_METHOD_START =>
    if c ≠ 32 ∧ c ≠ 13 ∧ c ≠ 10 then
      if !isChar c || isControl c || isSpecial c then .ret .false_value 0 p
      else .next { p with m_parse_state := .PARSE_METHOD, m_method := [c] }
    else .next p
  | .PARSE_METHOD =>
    if c = 32 then
      .next { p with m_http_request := p.m_http_request.setMethod p.m_method,
                     m_resource := [], m_parse_state := .PARSE_URI_STEM }
    else if !isChar c || isControl c || isSpecial c then .ret .false_value 0 p
    else if p.m_method.length ≥ METHOD_MAX then .ret .false_value 0 p
    else .next { p with m_method := p.m_method ++ [c] }
  | .PARSE_URI_STEM =>
    if c = 32 then
      .next { p with m_http_request := p.m_http_request.setResource p.m_resource,
                     m_parse_state := .PARSE_HTTP_VERSION_H }
    else if c = 63 then
      .next { p with m_http_request := p.m_http_request.setResource p.m_resource,
                     m_query_string := [], m_parse_state := .PARSE_URI_QUERY }
    else if isControl c then .ret .false_value 0 p
    else if p.m_resource.length ≥ RESOURCE_MAX then .ret .false_value 0 p
    else .next { p with m_resource := p.m_resource ++ [c] }
  | .PARSE_URI_QUERY =>
    if c = 32 then
      .next { p with m_http_request := p.m_http_request.setQueryString p.m_query_string,
                     m_parse_state := .PARSE_HTTP_VERSION_H }
    else if isControl c then .ret .false_value 0 p
    else if p.m_query_string.length ≥ QUERY_STRING_MAX then .ret .false_value 0 p
    else .next { p with m_query_string := p.m_query_string ++ [c] }
  | .PARSE_HTTP_VERSION_H =>
    if c ≠ 72 then .ret .false_value 0 p
    else .next { p with m_parse_state := .PARSE_HTTP_VERSION_T_1 }
  | .PARSE_HTTP_VERSION_T_1 =>
    if c ≠ 84 then .ret .false_value 0 p
    else .next { p with m_parse_state := .PARSE_HTTP_VERSION_T_2 }
  | .PARSE_HTTP_VERSION_T_2 =>
    if c ≠ 84 then .ret .false_value 0 p
    else .next { p with m_parse_state := .PARSE_HTTP_VERSION_P }
  | .PARSE_HTTP_VERSION_P =>
    if c ≠ 80 then .ret .false_value 0 p
    else .next { p with m_parse_state := .PARSE_HTTP_VERSION_SLASH }
  | .PARSE_HTTP_VERSION_SLASH =>
    if c ≠ 47 then .ret .false_value 0 p
    else .next { p with m_parse_state := .PARSE_HTTP_VERSION_MAJOR_START }
  | .PARSE_HTTP_VERSION_MAJOR_START =>
    if !isDigit c then .ret .false_value 0 p
    else .next { p with m_http_request := p.m_http_request.setVersionMajor (toUnsigned (c - 48)),
                        m_parse_state := .PARSE_HTTP_VERSION_MAJOR }
  | .PARSE_HTTP_VERSION_MAJOR =>
    if c = 46 then .next { p with m_parse_state := .PARSE_HTTP_VERSION_MINOR_START }
    else if isDigit c then
      let n := toUnsigned ((p.m_http_request.getVersionMajor : Int) * 10 + (c - 48))
      .next { p with m_http_request := p.m_http_request.setVersionMajor n }
    else .ret .false_value 0 p
  | .PARSE_HTTP_VERSION_MINOR_START =>
    if !isDigit c then .ret .false_value 0 p
    else .next { p with m_http_request := p.m_http_request.setVersionMinor (toUnsigned (c - 48)),
                        m_parse_state := .PARSE_HTTP_VERSION_MINOR }
  | .PARSE_HTTP_VERSION_MINOR =>
    if c = 13 then .next { p with m_parse_state := .PARSE_EXPECTING_NEWLINE }
    else if c = 10 then .next { p with m_parse_state := .PARSE_EXPECTING_CR }
    else if isDigit c then
      let n := toUnsigned ((p.m_http_request.getVersionMinor : Int) * 10 + (c - 48))
      .next { p with m_http_request := p.m_http_request.setVersionMinor n }
    else .ret .false_value 0 p
  | .PARSE_EXPECTING_NEWLINE =>
    if c = 10 then .next { p with m_parse_state := .PARSE_HEADER_START }
    else if c = 13 then .ret .true_value 1 p
    else if c = 9 ∨ c = 32 then .next { p with m_parse_state := .PARSE_HEADER_WHITESPACE }
    else if !isChar c || isControl c || isSpecial c then .ret .false_value 0 p
    else .next { p with m_header_name := [c], m_parse_state := .PARSE_HEADER_NAME }
  | .PARSE_EXPECTING_CR =>
    if c = 13 then .next { p with m_parse_state := .PARSE_HEADER_START }
    else if c = 10 then .ret .true_value 1 p
    else if c = 9 ∨ c = 32 then .next { p with m_parse_state := .PARSE_HEADER_WHITESPACE }
    else if !isChar c || isControl c || isSpecial c then .ret .false_value 0 p
    else .next { p with m_header_name := [c], m_parse_state := .PARSE_HEADER_NAME }
  | .PARSE_HEADER_WHITESPACE =>
    if c = 13 then .next { p with m_parse_state := .PARSE_EXPECTING_NEWLINE }
    else if c = 10 then .next { p with m_parse_state := .PARSE_EXPECTING_CR }
    else if c ≠ 9 ∧ c ≠ 32 then
      if !isChar c || isControl c || isSpecial c then .ret .false_value 0 p
      else .next { p with m_header_name := [c], m_parse_state := .PARSE_HEADER_NAME }
    else .next p
  | .PARSE_HEADER_START =>
    if c = 13 then .next { p with m_parse_state := .PARSE_EXPECTING_FINAL_NEWLINE }
    else if c = 10 then .next { p with m_parse_state := .PARSE_EXPECTING_FINAL_CR }
    else if c = 9 ∨ c = 32 then .next { p with m_parse_state := .PARSE_HEADER_WHITESPACE }
    else if !isChar c || isControl c || isSpecial c then .ret .false_value 0 p
    else .next { p with m_header_name := [c], m_parse_state := .PARSE_HEADER_NAME }
  | .PARSE_HEADER_NAME =>
    if c = 58 then
      .next { p with m_header_value := [], m_parse_state := .PARSE_SPACE_BEFORE_HEADER_VALUE }
    else if !isChar c || isControl c || isSpecial c then .ret .false_value 0 p
    else if p.m_header_name.length ≥ HEADER_NAME_MAX then .ret .false_value 0 p
    else .next { p with m_header_name := p.m_header_name ++ [c] }
  | .PARSE_SPACE_BEFORE_HEADER_VALUE =>
    if c = 32 then .next { p with m_parse_state := .PARSE_HEADER_VALUE }
    else if c = 13 then
      .next { p with m_http_request := p.m_http_request.addHeader p.m_header_name p.m_header_value,
                     m_parse_state := .PARSE_EXPECTING_NEWLINE }
    else if c = 10 then
      .next { p with m_http_request := p.m_http_request.addHeader p.m_header_name p.m_header_value,
                     m_parse_state := .PARSE_EXPECTING_CR }
    else if !isChar c || isControl c || isSpecial c then .ret .false_value 0 p
    else .next { p with m_header_value := p.m_header_value ++ [c],
                        m_parse_state := .PARSE_HEADER_VALUE }
  | .PARSE_HEADER_VALUE =>
    if c = 13 then
      .next { p with m_http_request := p.m_http_request.addHeader p.m_header_name p.m_header_value,
                     m_parse_state := .PARSE_EXPECTING_NEWLINE }
    else if c = 10 then
      .next { p with m_http_request := p.m_http_request.addHeader p.m_header_name p.m_header_value,
                     m_parse_state := .PARSE_EXPECTING_CR }
    else if isControl c then .ret .false_value 0 p
    else if p.m_header_value.length ≥ HEADER_VALUE_MAX then .ret .false_value 0 p
    else .next { p with m_header_value := p.m_header_value ++ [c] }
  | .PARSE_EXPECTING_FINAL_NEWLINE =>
    if c = 10 then .ret .true_value 1 p else .ret .true_value 0 p
  | .PARSE_EXPECTING_FINAL_CR =>
    if c = 13 then .ret .true_value 1 p else .ret .true_value 0 p

/-- `HTTPRequestParser::parseRequestHeaders(ptr, len)` on the `len` characters
`buf = ptr[0], ..., ptr[len-1]`.  The result is the tribool returned, the number of
characters by which `ptr` has been advanced, and the parser afterwards. -/
def parseRequestHeaders (p : HTTPRequestParser) : Str → Tribool × Nat × HTTPRequestParser
  | [] => (.indeterminate_value, 0, p)
  | c :: rest =>
    match parseStep p c with
    | .next q =>
      let r := parseRequestHeaders q rest
      (r.1, r.2.1 + 1, r.2.2)
    | .ret result adv q => (result, adv, q)

/-- The same function on a buffer in memory: `mem i` is the character at address `i`,
`ptr` the address passed in and `len` the number of characters between `ptr` and
`end`.  The middle component of the result is the final value of `ptr`. -/
def parseRequestHeadersAt (mem : Nat → Int) :
    HTTPRequestParser → Nat → Nat → Tribool × Nat × HTTPRequestParser
  | p, ptr, 0 => (.indeterminate_value, ptr, p)
  | p, ptr, len + 1 =>
    match parseStep p (mem ptr) with
    | .next q => parseRequestHeadersAt mem q (ptr + 1) len
    | .ret result adv q => (result, ptr + adv, q)

/-- Successive calls of `parseRequestHeaders`, one per fragment, stopping at the first
call that returns true or false; the middle component is the total number of
characters consumed by the calls made. -/
def feedFragments (p : HTTPRequestParser) : List Str → Tribool × Nat × HTTPRequestParser
  | [] => (.indeterminate_value, 0, p)
  | f :: fs =>
    let r := parseRequestHeaders p f
    match r.1 with
    | .indeterminate_value =>
      let r2 := feedFragments r.2.2 fs
      (r2.1, r.2.1 + r2.2.1, r2.2.2)
    | _ => r

end HTTPRequestParser

end pion

namespace pion

/-! ## Sample inputs -/

/-- An HTTP/1.0 message that carries the header `Connection: Keep-Alive`. -/
def keepAliveMessage10 : HTTPMessage :=
  { HTTPMessage.new with
    m_version_major := 1, m_version_minor := 0,
    m_headers := [(str "Connection", str "Keep-Alive")] }

/-! ## Auxiliary notions for the statements about the parser -/

namespace HTTPRequestParser

/-- The test applied to a character of the method or of a header name: it passes when
none of `!isChar(c)`, `isControl(c)`, `isSpecial(c)` holds. -/
def isToken (c : Int) : Bool := !(!isChar c || isControl c || isSpecial c)

/-- The result of a call that follows `n` characters consumed before it. -/
def advance (n : Nat) (r : Tribool × Nat × HTTPRequestParser) :
    Tribool × Nat × HTTPRequestParser :=
  (r.1, n + r.2.1, r.2.2)

/-- The loop consumes all of `a` from state `p` without returning and is then in
state `q`: parsing `a` followed by anything continues from `q`. -/
def RunsTo (p : HTTPRequestParser) (a : Str) (q : HTTPRequestParser) : Prop :=
  ∀ X : Str, parseRequestHeaders p (a ++ X) = advance a.length (parseRequestHeaders q X)

end HTTPRequestParser

namespace HTTPRequestParser

/-- The number that the decimal digits `a` denote when they continue the number `n`:
each digit `c` turns `n` into `n * 10 + (c - '0')`. -/
def digitsFrom (n : Nat) (a : Str) : Nat :=
  a.foldl (fun m c => m * 10 + (c - 48).toNat) n

/-- The value of a string of decimal digits. -/
def digitsValue (a : Str) : Nat := digitsFrom 0 a

end HTTPRequestParser

namespace ParseState

/-- The states that follow the request URI: every state except the start state, the
method, the URI stem and the URI query. -/
def afterURI : ParseState → Bool
  | .PARSE_METHOD_START | .PARSE_METHOD | .PARSE_URI_STEM | .PARSE_URI_QUERY => false
  | _ => true

end ParseState

namespace ParseState

/-- The states in which the request line is being read, after its first character. -/
def inRequestLine : ParseState → Bool
  | .PARSE_METHOD | .PARSE_URI_STEM | .PARSE_URI_QUERY
  | .PARSE_HTTP_VERSION_H | .PARSE_HTTP_VERSION_T_1 | .PARSE_HTTP_VERSION_T_2
  | .PARSE_HTTP_VERSION_P | .PARSE_HTTP_VERSION_SLASH
  | .PARSE_HTTP_VERSION_MAJOR_START | .PARSE_HTTP_VERSION_MAJOR
  | .PARSE_HTTP_VERSION_MINOR_START | .PARSE_HTTP_VERSION_MINOR => true
  | _ => false

end ParseState

/-- The three line terminators the parser accepts. -/
inductive LineEnd where
  | crlf | lf | cr
  deriving DecidableEq, Repr

namespace LineEnd

/-- The characters of a line terminator. -/
def bytes : LineEnd → Str
  | .crlf => [13, 10]
  | .lf => [10]
  | .cr => [13]

/-- The state in which the parser is after a line terminated this way. -/
def lineStart : LineEnd → ParseState
  | .crlf => .PARSE_HEADER_START
  | .lf => .PARSE_EXPECTING_CR
  | .cr => .PARSE_EXPECTING_NEWLINE

end LineEnd

/-- A header line as the glossary writes it, `NAME ":" [SP] VALUE`, without its
terminator. -/
structure HeaderLine where
  name : Str
  space : Bool
  value : Str
  deriving DecidableEq, Repr

namespace HeaderLine

/-- The characters of a header line. -/
def render (h : HeaderLine) : Str :=
  h.name ++ [58] ++ ((if h.space then [32] else []) ++ h.value)

/-- The three parts are what the line shows: the name has no colon, SP, TAB, CR or LF;
the value has no CR or LF; and a value written without the optional space does not
begin with a space. -/
def wellFormed (h : HeaderLine) : Prop :=
  (∀ c ∈ h.name, c ≠ 58 ∧ c ≠ 13 ∧ c ≠ 10 ∧ c ≠ 9 ∧ c ≠ 32)
  ∧ (∀ c ∈ h.value, c ≠ 13 ∧ c ≠ 10)
  ∧ (h.space = false → ∀ c, h.value.head? = some c → c ≠ 32)

instance (h : HeaderLine) : Decidable h.wellFormed :=
  inferInstanceAs (Decidable
    ((∀ c ∈ h.name, c ≠ 58 ∧ c ≠ 13 ∧ c ≠ 10 ∧ c ≠ 9 ∧ c ≠ 32)
      ∧ (∀ c ∈ h.value, c ≠ 13 ∧ c ≠ 10)
      ∧ (h.space = false → ∀ c, h.value.head? = some c → c ≠ 32)))

end HeaderLine

/-- The header lines, each followed by the line terminator. -/
def renderLines (nl : LineEnd) (ls : List HeaderLine) : Str :=
  (ls.map (fun h => h.render ++ nl.bytes)).flatten

namespace HTTPRequestParser

/-- Every input that starts with `a` makes the call from state `p` return false. -/
def FailsOn (p : HTTPRequestParser) (a : Str) : Prop :=
  ∀ X : Str, (parseRequestHeaders p (a ++ X)).1 = .false_value

end HTTPRequestParser
/-- The text is written with CRLF line terminators: CR and LF occur only as the pair
CR LF. -/
def crlfOnly : Str → Bool
  | [] => true
  | [c] => decide (c ≠ 13) && decide (c ≠ 10)
  | c :: d :: rest =>
    if c = 13 then decide (d = 10) && crlfOnly rest
    else decide (c ≠ 10) && crlfOnly (d :: rest)

/-- The text with every pair CR LF replaced by the terminator `nl`. -/
def replaceCRLF (nl : LineEnd) : Str → Str
  | [] => []
  | [c] => [c]
  | c :: d :: rest =>
    if c = 13 ∧ d = 10 then nl.bytes ++ replaceCRLF nl rest
    else c :: replaceCRLF nl (d :: rest)

namespace ParseState

/-- The states that are not entered by a CR or LF. -/
def midLine : ParseState → Bool
  | .PARSE_EXPECTING_NEWLINE | .PARSE_EXPECTING_CR | .PARSE_HEADER_START
  | .PARSE_EXPECTING_FINAL_NEWLINE | .PARSE_EXPECTING_FINAL_CR => false
  | _ => true

end ParseState

namespace HTTPRequestParser

/-- The correspondence between the parser `p` reading a text with CRLF terminators and
the parser `q` reading the same text with the terminator `nl`: they are equal in the
middle of a line, and after a line terminator `p` is in PARSE_HEADER_START where `q`
is in the state that `nl` leads to. -/
def Corresponds (nl : LineEnd) (p q : HTTPRequestParser) : Prop :=
  (q = p ∧ p.m_parse_state.midLine = true)
  ∨ (p.m_parse_state = .PARSE_HEADER_START ∧ q = { p with m_parse_state := nl.lineStart })

end HTTPRequestParser

/-! ## Content length and transfer coding -/

/-- Modelled from the spec: `HTTPTypes::HEADER_CONTENT_LENGTH`, defined in a file that is
not among the sources; the spec names the header `Content-Length`. -/
def HEADER_CONTENT_LENGTH : Str := str "Content-Length"

/-- Modelled from the spec: `HTTPTypes::HEADER_TRANSFER_ENCODING`, defined in a file that
is not among the sources; the spec names the header `Transfer-Encoding`. -/
def HEADER_TRANSFER_ENCODING : Str := str "Transfer-Encoding"

/-- The C library predicate `isspace` in the "C" locale: space, TAB, LF, VT, FF, CR. -/
def isspace (c : Int) : Bool := decide (c = 32) || (decide (9 ≤ c) && decide (c ≤ 13))

/-- The C library function `strtoul(s.c_str(), 0, 10)`, as the C standard describes it:
of the characters before the first NUL it skips leading white space, takes an optional
sign and then the longest run of decimal digits; without digits the result is 0, a
value above `ULONG_MAX` gives `ULONG_MAX`, and a minus sign negates in the unsigned
type.  `ULONG_MAX` is the largest `unsigned long` of the platform. -/
def strtoul (ULONG_MAX : Nat) (s : Str) : Nat :=
  let t := (s.takeWhile (fun c => decide (c ≠ 0))).dropWhile isspace
  let neg := decide (t.head? = some 45)
  let u := if t.head? = some 43 ∨ t.head? = some 45 then t.drop 1 else t
  let v := HTTPRequestParser.digitsValue (u.takeWhile isDigit)
  if v > ULONG_MAX then ULONG_MAX
  else if neg then (ULONG_MAX + 1 - v) % (ULONG_MAX + 1)
  else v

/-- The C library function `tolower` in the "C" locale. -/
def tolower (c : Int) : Int := if 65 ≤ c ∧ c ≤ 90 then c + 32 else c

/-- Two characters are the same when case is ignored: they are equal, or one is an
upper-case ASCII letter and the other the corresponding lower-case letter. -/
def sameIgnoringCase (x y : Int) : Bool :=
  decide (x = y)
  || (decide (65 ≤ x) && decide (x ≤ 90) && decide (y = x + 32))
  || (decide (65 ≤ y) && decide (y ≤ 90) && decide (x = y + 32))

/-- Two strings are equal when compared case-insensitively, character by character. -/
def equalsIgnoringCase : Str → Str → Bool
  | [], [] => true
  | x :: xs, y :: ys => sameIgnoringCase x y && equalsIgnoringCase xs ys
  | _, _ => false

namespace HTTPMessage

def getChunksSupported (m : HTTPMessage) : Bool := m.m_chunks_supported

def isChunked (m : HTTPMessage) : Bool := m.m_is_chunked

/-- `HTTPMessage::updateContentLengthUsingHeader`; `ULONG_MAX` is the largest
`unsigned long`, the type of the value that `strtoul` returns. -/
def updateContentLengthUsingHeader (ULONG_MAX : Nat) (m : HTTPMessage) : HTTPMessage :=
  match m.m_headers.find HEADER_CONTENT_LENGTH with
  | none => { m with m_content_length := 0 }
  | some i => { m with m_content_length := strtoul ULONG_MAX i.2 }

/-- `HTTPMessage::updateTransferCodingUsingHeader`. -/
def updateTransferCodingUsingHeader (m : HTTPMessage) : HTTPMessage :=
  let m1 := { m with m_is_chunked := false }
  match m1.m_headers.find HEADER_TRANSFER_ENCODING with
  | none => m1
  | some i =>
    let lowerCaseHeaderValue := i.2.map tolower
    if lowerCaseHeaderValue = str "chunked" then { m1 with m_is_chunked := true } else m1

end HTTPMessage

/-- A message whose only header is a Transfer-Encoding header with the given value, and
whose is-chunked flag has the given value. -/
def transferEncodingMessage (value : Str) (flag : Bool) : HTTPMessage :=
  { HTTPMessage.new with
    m_is_chunked := flag, m_headers := [(str "Transfer-Encoding", value)] }

/-! ## Preparing a message for sending -/

/-- Modelled from the spec: `HTTPTypes::STRING_CRLF`, defined in a file that is not among
the sources; the spec ends every line with CRLF. -/
def STRING_CRLF : Str := str "\r\n"

/-- Modelled from the spec: `HTTPTypes::HEADER_NAME_VALUE_DELIMITER`, defined in a file
that is not among the sources; the spec gives the separator literal `": "`. -/
def HEADER_NAME_VALUE_DELIMITER : Str := str ": "

/-- The digits of `n`, most significant first, put in front of `acc`; `fuel` bounds the
number of digits. -/
def decimalDigits : Nat → Nat → Str → Str
  | 0, _, acc => acc
  | fuel + 1, n, acc =>
    if n / 10 = 0 then (48 + (n % 10 : Nat) : Int) :: acc
    else decimalDigits fuel (n / 10) ((48 + (n % 10 : Nat) : Int) :: acc)

/-- The library call `boost::lexical_cast<std::string>(n)` for an unsigned integer: its
decimal representation, without leading zeros. -/
def lexical_cast (n : Nat) : Str := decimalDigits (n + 1) n []

namespace HTTPMessage

/-- `HTTPMessage::prepareHeadersForSend`. -/
def prepareHeadersForSend (m : HTTPMessage) (keep_alive using_chunks : Bool) : HTTPMessage :=
  let m1 := m.changeHeader HEADER_CONNECTION (if keep_alive then str "Keep-Alive" else str "close")
  if using_chunks then
    if m1.getChunksSupported then m1.changeHeader HEADER_TRANSFER_ENCODING (str "chunked")
    else m1
  else m1.changeHeader HEADER_CONTENT_LENGTH (lexical_cast m1.getContentLength)

/-- `HTTPMessage::appendHeaders`; a write buffer is the string it wraps. -/
def appendHeaders (m : HTTPMessage) (write_buffers : List Str) : List Str :=
  (m.m_headers.foldl
      (fun wb i => wb ++ [i.1] ++ [HEADER_NAME_VALUE_DELIMITER] ++ [i.2] ++ [STRING_CRLF])
      write_buffers)
    ++ [STRING_CRLF]

/-- `HTTPMessage::prepareBuffersForSend`.  The pure virtual `getFirstLine` is a
parameter; the result is the message with its headers updated and the write buffers. -/
def prepareBuffersForSend (getFirstLine : HTTPMessage → Str) (m : HTTPMessage)
    (write_buffers : List Str) (keep_alive using_chunks : Bool) : HTTPMessage × List Str :=
  let m1 := m.prepareHeadersForSend keep_alive using_chunks
  let wb1 := write_buffers ++ [getFirstLine m1]
  let wb2 := wb1 ++ [STRING_CRLF]
  (m1, m1.appendHeaders wb2)

end HTTPMessage

/-- A message that already carries a Content-Length header and supports chunks. -/
def contentLengthMessage : HTTPMessage :=
  { HTTPMessage.new with
    m_chunks_supported := true, m_headers := [(str "Content-Length", str "5")] }

/-! ## URL-encoded strings and Cookie headers -/

def QUERY_NAME_MAX : Nat := 1024
def QUERY_VALUE_MAX : Nat := 1024 * 1024
def COOKIE_NAME_MAX : Nat := 1024
def COOKIE_VALUE_MAX : Nat := 1024 * 1024

namespace HTTPRequestParser

/-- The enumeration `QueryParseState` of `parseURLEncoded`. -/
inductive QueryParseState where
  | QUERY_PARSE_NAME | QUERY_PARSE_VALUE
  deriving DecidableEq, Repr

/-- The local variables of `parseURLEncoded`, with the dictionary it fills. -/
structure URLEncodedState where
  parse_state : QueryParseState
  query_name : Str
  query_value : Str
  dict : StringDictionary
  deriving DecidableEq, Repr

/-- The body of the `while` loop of `parseURLEncoded` for the character `c = *ptr`;
`none` stands for `return false`. -/
def parseURLEncodedStep (s : URLEncodedState) (c : Int) : Option URLEncodedState :=
  match s.parse_state with
  | .QUERY_PARSE_NAME =>
    if c = 61 then
      if s.query_name = [] then none
      else some { s with parse_state := .QUERY_PARSE_VALUE }
    else if c = 38 then
      if s.query_name = [] then none
      else some { s with dict := s.dict.insert s.query_name s.query_value, query_name := [] }
    else if isControl c || decide (s.query_name.length ≥ QUERY_NAME_MAX) then none
    else some { s with query_name := s.query_name ++ [c] }
  | .QUERY_PARSE_VALUE =>
    if c = 38 then
      some { s with dict := s.dict.insert s.query_name s.query_value,
                    query_name := [], query_value := [], parse_state := .QUERY_PARSE_NAME }
    else if isControl c || decide (s.query_value.length ≥ QUERY_VALUE_MAX) then none
    else some { s with query_value := s.query_value ++ [c] }

/-- The loop of `parseURLEncoded` and the code after it: the result is the boolean
returned and the dictionary as the call leaves it. -/
def parseURLEncodedLoop (s : URLEncodedState) : Str → Bool × StringDictionary
  | [] =>
    (true, if s.query_name ≠ [] then s.dict.insert s.query_name s.query_value else s.dict)
  | c :: rest =>
    match parseURLEncodedStep s c with
    | none => (false, s.dict)
    | some s2 => parseURLEncodedLoop s2 rest

/-- `HTTPRequestParser::parseURLEncoded(dict, ptr, len)` on the `len` characters `buf`. -/
def parseURLEncoded (dict : StringDictionary) (buf : Str) : Bool × StringDictionary :=
  parseURLEncodedLoop
    { parse_state := .QUERY_PARSE_NAME, query_name := [], query_value := [], dict := dict } buf

/-- The enumeration `CookieParseState` of `parseCookieHeader`. -/
inductive CookieParseState where
  | COOKIE_PARSE_NAME | COOKIE_PARSE_VALUE | COOKIE_PARSE_IGNORE
  deriving DecidableEq, Repr

/-- The local variables of `parseCookieHeader`, with the dictionary it fills. -/
structure CookieState where
  parse_state : CookieParseState
  cookie_name : Str
  cookie_value : Str
  value_quote_character : Int
  dict : StringDictionary
  deriving DecidableEq, Repr

/-- The insertion `if (cookie_name[0] != '$') dict.insert(...)`; the character at index
0 of an empty string is the terminating NUL. -/
def insertUnlessDollar (s : CookieState) : StringDictionary :=
  if s.cookie_name.headD 0 ≠ 36 then s.dict.insert s.cookie_name s.cookie_value else s.dict

/-- The body of the `for` loop of `parseCookieHeader` for the character `c`; `none`
stands for `return false`. -/
def parseCookieHeaderStep (s : CookieState) (c : Int) : Option CookieState :=
  match s.parse_state with
  | .COOKIE_PARSE_NAME =>
    if c = 61 then
      if s.cookie_name = [] then none
      else some { s with value_quote_character := 0, parse_state := .COOKIE_PARSE_VALUE }
    else if c = 59 ∨ c = 44 then
      if s.cookie_name ≠ [] then
        some { s with dict := insertUnlessDollar s, cookie_name := [] }
      else some s
    else if c ≠ 32 then
      if isControl c || decide (s.cookie_name.length ≥ COOKIE_NAME_MAX) then none
      else some { s with cookie_name := s.cookie_name ++ [tolower c] }
    else some s
  | .COOKIE_PARSE_VALUE =>
    if s.value_quote_character = 0 then
      if c = 59 ∨ c = 44 then
        some { s with dict := insertUnlessDollar s, cookie_name := [], cookie_value := [],
                      parse_state := .COOKIE_PARSE_NAME }
      else if c = 39 ∨ c = 34 then
        if s.cookie_value = [] then some { s with value_quote_character := c }
        else if s.cookie_value.length ≥ COOKIE_VALUE_MAX then none
        else some { s with cookie_value := s.cookie_value ++ [c] }
      else if c ≠ 32 then
        if isControl c || decide (s.cookie_value.length ≥ COOKIE_VALUE_MAX) then none
        else some { s with cookie_value := s.cookie_value ++ [c] }
      else some s
    else
      if c = s.value_quote_character then
        some { s with dict := insertUnlessDollar s, cookie_name := [], cookie_value := [],
                      parse_state := .COOKIE_PARSE_IGNORE }
      else if s.cookie_value.length ≥ COOKIE_VALUE_MAX then none
      else some { s with cookie_value := s.cookie_value ++ [c] }
  | .COOKIE_PARSE_IGNORE =>
    if c = 59 ∨ c = 44 then some { s with parse_state := .COOKIE_PARSE_NAME }
    else some s

/-- The loop of `parseCookieHeader` and the code after it: the result is the boolean
returned and the dictionary as the call leaves it. -/
def parseCookieHeaderLoop (s : CookieState) : Str → Bool × StringDictionary
  | [] =>
    (true,
      if s.cookie_name ≠ [] ∧ s.cookie_name.headD 0 ≠ 36 then
        s.dict.insert s.cookie_name s.cookie_value
      else s.dict)
  | c :: rest =>
    match parseCookieHeaderStep s c with
    | none => (false, s.dict)
    | some s2 => parseCookieHeaderLoop s2 rest

/-- `HTTPRequestParser::parseCookieHeader(dict, cookie_header)`. -/
def parseCookieHeader (dict : StringDictionary) (cookie_header : Str) :
    Bool × StringDictionary :=
  parseCookieHeaderLoop
    { parse_state := .COOKIE_PARSE_NAME, cookie_name := [], cookie_value := [],
      value_quote_character := 0, dict := dict } cookie_header

end HTTPRequestParser

/-- The serialized form `k_1=v_1&...&k_n=v_n` of a list of pairs. -/
def serializePairs : List (Str × Str) → Str
  | [] => []
  | [p] => p.1 ++ 61 :: p.2
  | p :: q :: rest => p.1 ++ 61 :: p.2 ++ 38 :: serializePairs (q :: rest)

/-- A pair that the serialized form can carry: the key is not empty, has at most
QUERY_NAME_MAX characters and none of them is a control character, `=` or `&`; the
value has at most QUERY_VALUE_MAX characters and none of them is a control character
or `&`. -/
def serializablePair (p : Str × Str) : Prop :=
  p.1 ≠ [] ∧ p.1.length ≤ 1024
  ∧ (∀ c ∈ p.1, isControl c = false ∧ c ≠ 61 ∧ c ≠ 38)
  ∧ p.2.length ≤ 1048576
  ∧ (∀ c ∈ p.2, isControl c = false ∧ c ≠ 38)

instance (p : Str × Str) : Decidable (serializablePair p) :=
  inferInstanceAs (Decidable
    (p.1 ≠ [] ∧ p.1.length ≤ 1024
      ∧ (∀ c ∈ p.1, isControl c = false ∧ c ≠ 61 ∧ c ≠ 38)
      ∧ p.2.length ≤ 1048576
      ∧ (∀ c ∈ p.2, isControl c = false ∧ c ≠ 38)))

/-! ### The scan of a URL-encoded string, in the words of the specification -/

/-- The pair being read after the characters `P` have been scanned: what follows the
last `&`. -/
def currentPair (P : Str) : Str :=
  (P.reverse.takeWhile (fun c => decide (c ≠ 38))).reverse

/-- The current name: the pair being read, up to its first `=`. -/
def currentName (P : Str) : Str :=
  (currentPair P).takeWhile (fun c => decide (c ≠ 61))

/-- The scan is in a value when the pair being read has an `=`. -/
def inValue (P : Str) : Bool := decide (61 ∈ currentPair P)

/-- The current value: what follows the first `=` of the pair being read. -/
def currentValue (P : Str) : Str :=
  ((currentPair P).dropWhile (fun c => decide (c ≠ 61))).drop 1

/-- Meeting the character `c` after the characters `P` is one of the four failures:
`=` or `&` while the current name is empty; a control character; a further name
character when the name already holds 1,024; a further value character when the value
already holds 1,048,576. -/
def offending (P : Str) (c : Int) : Bool :=
  ((decide (c = 61) || decide (c = 38)) && decide (currentName P = []))
  || isControl c
  || (!inValue P && decide (c ≠ 61) && decide (c ≠ 38)
        && decide ((currentName P).length ≥ 1024))
  || (inValue P && decide (c ≠ 38) && decide ((currentValue P).length ≥ 1048576))

namespace HTTPRequestParser

/-- The local variables of `parseURLEncoded` are what the scanned characters `P` say:
in a name, the name read so far and an empty value; in a value, a name that is not
empty and the value read so far. -/
def ScanInv (s : URLEncodedState) (P : Str) : Prop :=
  if inValue P = true then
    s.parse_state = .QUERY_PARSE_VALUE ∧ s.query_name = currentName P
      ∧ currentName P ≠ [] ∧ s.query_value = currentValue P
  else
    s.parse_state = .QUERY_PARSE_NAME ∧ s.query_name = currentName P ∧ s.query_value = []

end HTTPRequestParser

/-! ## Cookie names and values as the header writes them -/

/-- The key made from a cookie name as the header writes it: the spaces are removed
and the ASCII letters are turned into lower case. -/
def cookieKeyOf (w : Str) : Str := (w.filter (fun c => decide (c ≠ 32))).map tolower

/-- A text without its spaces. -/
def withoutSpaces (u : Str) : Str := u.filter (fun c => decide (c ≠ 32))

/-- What the specification says of a pair that `parseCookieHeader` inserts: the key is
a stretch of the header without `=`, `;` and `,`, with the spaces removed and the
letters in lower case; the value is a stretch of the header, byte for byte, with the
spaces removed when it was not quoted. -/
def CookieAsWritten (header : Str) (e : Str × Str) : Prop :=
  (∃ a w b, header = a ++ w ++ b ∧ (∀ c ∈ w, c ≠ 61 ∧ c ≠ 59 ∧ c ≠ 44)
      ∧ e.1 = cookieKeyOf w)
  ∧ (∃ a u b, header = a ++ u ++ b ∧ (e.2 = u ∨ e.2 = withoutSpaces u))

namespace HTTPRequestParser

/-- The local variables of `parseCookieHeader` after the characters `pre` of the header:
the name and the value under construction are stretches of `pre`, the ones at its end
while they are being read. -/
def CookieInv (pre : Str) (s : CookieState) : Prop :=
  (∃ a w b, pre = a ++ w ++ b ∧ (∀ c ∈ w, c ≠ 61 ∧ c ≠ 59 ∧ c ≠ 44)
      ∧ s.cookie_name = cookieKeyOf w
      ∧ (s.parse_state = .COOKIE_PARSE_NAME → b = []))
  ∧ (s.parse_state = .COOKIE_PARSE_IGNORE → s.cookie_name = [])
  ∧ (s.parse_state ≠ .COOKIE_PARSE_VALUE → s.cookie_value = [])
  ∧ (∃ a u b, pre = a ++ u ++ b ∧ (s.cookie_value = u ∨ s.cookie_value = withoutSpaces u)
      ∧ (s.parse_state = .COOKIE_PARSE_VALUE → b = []
          ∧ (s.value_quote_character = 0 → s.cookie_value = withoutSpaces u)
          ∧ (s.value_quote_character ≠ 0 → s.cookie_value = u)))

end HTTPRequestParser

/-- A cookie name as a Cookie header can carry it: not empty, at most `COOKIE_NAME_MAX`
bytes, and free of control characters, of spaces and of the characters `=`, `;` and
`,` that end a name. -/
def cookieName (n : Str) : Prop :=
  n ≠ [] ∧ n.length ≤ COOKIE_NAME_MAX
    ∧ ∀ x ∈ n, isControl x = false ∧ x ≠ 32 ∧ x ≠ 61 ∧ x ≠ 59 ∧ x ≠ 44

instance (n : Str) : Decidable (cookieName n) :=
  inferInstanceAs (Decidable (n ≠ [] ∧ n.length ≤ COOKIE_NAME_MAX
    ∧ ∀ x ∈ n, isControl x = false ∧ x ≠ 32 ∧ x ≠ 61 ∧ x ≠ 59 ∧ x ≠ 44))

/-! ## The accumulators of the request parser -/

namespace HTTPRequestParser

/-- The parser after successive calls of `parseRequestHeaders`, one per buffer, whatever
each call returns: the calls go on after a true or false result as well. -/
def afterCalls (p : HTTPRequestParser) : List Str → HTTPRequestParser
  | [] => p
  | buf :: bufs => afterCalls (parseRequestHeaders p buf).2.2 bufs

/-- The five accumulators are within their limits. -/
def accumulatorsBounded (p : HTTPRequestParser) : Prop :=
  p.m_method.length ≤ METHOD_MAX ∧ p.m_resource.length ≤ RESOURCE_MAX
    ∧ p.m_query_string.length ≤ QUERY_STRING_MAX
    ∧ p.m_header_name.length ≤ HEADER_NAME_MAX
    ∧ p.m_header_value.length ≤ HEADER_VALUE_MAX

/-- The accumulators are within their limits, and the header value is still empty
where the first character of a value is pushed without a test of the size. -/
def AccInv (p : HTTPRequestParser) : Prop :=
  accumulatorsBounded p
    ∧ (p.m_parse_state = .PARSE_SPACE_BEFORE_HEADER_VALUE → p.m_header_value = [])

end HTTPRequestParser

/-! ## PionEngine -/

/-- Modelled from the spec: a server (TCPServer.hpp is not among the sources).  The
spec gives a server its port; `start()` binds to it and begins accepting, which
`m_is_listening` records. -/
structure TCPServer where
  m_tcp_port : Nat
  m_is_listening : Bool
  deriving DecidableEq, Repr

namespace TCPServer

def getPort (s : TCPServer) : Nat := s.m_tcp_port

/-- Modelled from the spec: `TCPServer::start()`. -/
def start (s : TCPServer) : TCPServer := { s with m_is_listening := true }

end TCPServer

/-- Modelled from the spec: `HTTPServer::create(tcp_port)`, a new server for the port
that does not listen yet (HTTPServer.hpp is not among the sources). -/
def HTTPServer.create (tcp_port : Nat) : TCPServer :=
  { m_tcp_port := tcp_port, m_is_listening := false }

/-- A `TCPServerPtr` or `HTTPServerPtr`: a shared pointer, null or pointing to a server. -/
abbrev TCPServerPtr := Option TCPServer

/-- The type `TCPServerMap`, a `std::map` from port to server: at most one entry per
key, kept in ascending order of the keys. -/
abbrev TCPServerMap := List (Nat × TCPServer)

/-- `std::map::find`: the entry with the key, or `none` for `end()`. -/
def TCPServerMap.find (m : TCPServerMap) (key : Nat) : Option (Nat × TCPServer) :=
  List.find? (fun x => decide (x.1 = key)) m

/-- `std::map::insert(value)`: when an entry with the key exists the map is left alone
and the flag is false; otherwise the entry is put in at its place and the flag is
true. -/
def TCPServerMap.insert (m : TCPServerMap) (e : Nat × TCPServer) : TCPServerMap × Bool :=
  match TCPServerMap.find m e.1 with
  | some _ => (m, false)
  | none =>
    (List.takeWhile (fun x => decide (x.1 < e.1)) m
        ++ e :: List.dropWhile (fun x => decide (x.1 < e.1)) m, true)

/-- A thread of the pool; each of them runs `PionEngine::run`. -/
inductive Thread where
  | run
  deriving DecidableEq, Repr

/-- The exceptions that `PionEngine::start` throws. -/
inductive PionException where
  | AlreadyStartedException | NoServersException
  deriving DecidableEq, Repr

/-- The data members of `PionEngine` that `start`, `addServer`, `addHTTPServer` and
`getServer` read or write. -/
structure PionEngine where
  m_servers : TCPServerMap
  m_thread_pool : List Thread
  m_num_threads : Nat
  m_is_running : Bool
  deriving DecidableEq, Repr

namespace PionEngine

/-- `PionEngine::start`: the exception thrown, if any, and the engine afterwards. -/
def start (e : PionEngine) : Option PionException × PionEngine :=
  if e.m_is_running then (some .AlreadyStartedException, e)
  else if e.m_servers.isEmpty then (some .NoServersException, e)
  else
    let e1 := { e with m_servers := List.map (fun (i : Nat × TCPServer) => (i.1, i.2.start)) e.m_servers }
    let e2 := { e1 with m_thread_pool :=
      (List.range e1.m_num_threads).foldl (fun pool _ => pool ++ [Thread.run]) e1.m_thread_pool }
    (none, { e2 with m_is_running := true })

/-- `PionEngine::addServer`. -/
def addServer (e : PionEngine) (tcp_server : TCPServer) : Bool × PionEngine :=
  let result := TCPServerMap.insert e.m_servers (tcp_server.getPort, tcp_server)
  (result.2, { e with m_servers := result.1 })

/-- `PionEngine::addHTTPServer`. -/
def addHTTPServer (e : PionEngine) (tcp_port : Nat) : TCPServerPtr × PionEngine :=
  let http_server := HTTPServer.create tcp_port
  let result := TCPServerMap.insert e.m_servers (tcp_port, http_server)
  (if !result.2 then none else some http_server, { e with m_servers := result.1 })

/-- `PionEngine::getServer`. -/
def getServer (e : PionEngine) (tcp_port : Nat) : TCPServerPtr :=
  match TCPServerMap.find e.m_servers tcp_port with
  | none => none
  | some i => some i.2

/-- The servers of a list registered one after the other with `addServer`. -/
def addServers (e : PionEngine) : List TCPServer → PionEngine
  | [] => e
  | s :: rest => addServers (e.addServer s).2 rest

end PionEngine

/-! ## The content buffer of a message -/

namespace HTTPMessage

/-- `HTTPMessage::setContentLength`. -/
def setContentLength (m : HTTPMessage) (n : Nat) : HTTPMessage := { m with m_content_length := n }

/-- `HTTPMessage::createContentBuffer`: `new char[m_content_length + 1]`, the size being
computed in `size_t`, whose largest value is `SIZE_MAX`; the bytes of the new array are
indeterminate (`fresh i` for the byte at index `i`); then the zero is stored at index
`m_content_length`.  `none` stands for the undefined behaviour of that store when the
index lies outside the array, the size having wrapped around. -/
def createContentBuffer (SIZE_MAX : Nat) (fresh : Nat → Int) (m : HTTPMessage) :
    Option HTTPMessage :=
  let size := (m.m_content_length + 1) % (SIZE_MAX + 1)
  let buf := ((List.range size).map fresh).set m.m_content_length 0
  if m.m_content_length < size then some { m with m_content_buf := some buf }
  else none

/-- `HTTPMessage::clear`. -/
def clear (m : HTTPMessage) : HTTPMessage :=
  { m with m_is_valid := false, m_chunks_supported := false, m_remote_ip := 0,
           m_version_major := 0, m_version_minor := 0, m_content_length := 0,
           m_is_chunked := false, m_content_buf := none, m_chunk_buffers := [],
           m_headers := [] }

/-- The copy constructor `HTTPMessage(const HTTPMessage& http_msg)`: the members are
copied, and when the source has a content buffer a new one is created and the first
`m_content_length` bytes of the source buffer are copied into it.  `none` stands for
undefined behaviour: the store outside the new array, or a `memcpy` that reads beyond
the end of the source buffer. -/
def copy (SIZE_MAX : Nat) (fresh : Nat → Int) (http_msg : HTTPMessage) : Option HTTPMessage :=
  let m : HTTPMessage := { http_msg with m_content_buf := none }
  match http_msg.m_content_buf with
  | none => some m
  | some src =>
    match m.createContentBuffer SIZE_MAX fresh with
    | none => none
    | some m2 =>
      if src.length < m.m_content_length then none
      else
        let copied := m2.m_content_buf.map
          (fun buf => src.take m.m_content_length ++ buf.drop m.m_content_length)
        some { m2 with m_content_buf := copied }

/-- The invariant of the specification: if the content buffer exists, its payload
length equals the content length, that is, the buffer has `m_content_length + 1` bytes
and the byte at index `m_content_length` is zero. -/
def contentBufferInvariant (m : HTTPMessage) : Bool :=
  match m.m_content_buf with
  | none => true
  | some buf =>
    decide (buf.length = m.m_content_length + 1) && decide (buf.get? m.m_content_length = some 0)

end HTTPMessage

/-- A message whose content length is 5 and whose Content-Length header says 7. -/
def bufferSampleMessage : HTTPMessage :=
  (HTTPMessage.new.addHeader HEADER_CONTENT_LENGTH (str "7")).setContentLength 5

/-! ## The read pipeline of the request parser -/

/-- The static member `HTTPRequestParser::POST_CONTENT_MAX`. -/
def POST_CONTENT_MAX : Nat := 1024 * 1024

/-- Modelled from the spec: `HTTPTypes::HEADER_CONTENT_TYPE`, defined in a file that is
not among the sources; the spec names the header `Content-Type`. -/
def HEADER_CONTENT_TYPE : Str := str "Content-Type"

/-- Modelled from the spec: `HTTPTypes::CONTENT_TYPE_URLENCODED`, defined in a file that
is not among the sources; the spec gives the value `application/x-www-form-urlencoded`. -/
def CONTENT_TYPE_URLENCODED : Str := str "application/x-www-form-urlencoded"

/-- Modelled from the spec: `HTTPTypes::HEADER_COOKIE`, defined in a file that is not
among the sources; the spec names the header `Cookie`. -/
def HEADER_COOKIE : Str := str "Cookie"

/-- The bytes `src` stored into a buffer from index `offset` on, as `memcpy` and a
socket read do. -/
def storeBytes (buf : Str) (offset : Nat) (src : Str) : Str :=
  buf.take offset ++ src ++ buf.drop (offset + src.length)

namespace HTTPRequest

/-- Modelled from the spec: `HTTPRequest::setIsValid` (HTTPRequest.hpp is not among the
sources; the same holds for the members below). -/
def setIsValid (r : HTTPRequest) (b : Bool) : HTTPRequest := { r with m_is_valid := b }

def getQueryString (r : HTTPRequest) : Str := r.m_query_string

def getQueryParams (r : HTTPRequest) : StringDictionary := r.m_query_params

def getCookieParams (r : HTTPRequest) : StringDictionary := r.m_cookie_params

/-- Modelled from the spec: `HTTPRequest::setContentLength`. -/
def setContentLength (r : HTTPRequest) (n : Nat) : HTTPRequest := { r with m_content_length := n }

/-- Modelled from the spec: `HTTPRequest::createPostContentBuffer`.  The spec has it
allocate `content_length + 1` bytes with a terminating zero byte; the other bytes of
the new array are indeterminate (`fresh i` for the byte at index `i`). -/
def createPostContentBuffer (fresh : Nat → Int) (r : HTTPRequest) : HTTPRequest :=
  let buf := (List.range r.m_content_length).map fresh ++ [0]
  { r with m_content_buf := some buf }

/-- Modelled from the spec: `HTTPRequest::getPostContent`, the pointer to the content
buffer; a request without a buffer has no bytes to read there. -/
def getPostContent (r : HTTPRequest) : Str := r.m_content_buf.getD []

end HTTPRequest

/-- What `readHeaderBytes` and `readContentBytes` end with: the connection is finished
(`m_tcp_conn->finish()`), the request handler is called with the request, another
`async_read_some` is issued with `readHeaderBytes` as its handler, or an `async_read`
of exactly `count` bytes into the content buffer from index `offset` on is issued with
`readContentBytes` as its handler. -/
inductive ReadOutcome where
  | finish
  | request_handler (request : HTTPRequest)
  | async_read_some (p : HTTPRequestParser)
  | async_read (p : HTTPRequestParser) (offset count : Nat)
  deriving DecidableEq, Repr

namespace HTTPRequestParser

/-- `HTTPRequestParser::readRequest`; `ssl_flag` is `m_tcp_conn->getSSLFlag()` and
`have_ssl` tells whether `PION_HAVE_SSL` is defined. -/
def readRequest (ssl_flag have_ssl : Bool) (p : HTTPRequestParser) : ReadOutcome :=
  if ssl_flag then
    if have_ssl then .async_read_some p else .finish
  else .async_read_some p

/-- The loop of `readContentBytes` over the `Cookie` headers. -/
def parseCookieHeaders (cookie_params : StringDictionary) :
    List (Str × Str) → StringDictionary
  | [] => cookie_params
  | cookie_iterator :: rest =>
    parseCookieHeaders (parseCookieHeader cookie_params cookie_iterator.2).2 rest

/-- `HTTPRequestParser::readContentBytes(read_error, bytes_read)`.  The two calls of
`parseURLEncoded` and the calls of `parseCookieHeader` fill the dictionaries of the
request; a false result is only logged. -/
def readContentBytes (p : HTTPRequestParser) (read_error : Bool) (_bytes_read : Nat) :
    ReadOutcome :=
  if read_error then .finish
  else
    let r := p.m_http_request.setIsValid true
    let r1 : HTTPRequest :=
      if r.getQueryString ≠ [] then
        { r with m_query_params := (parseURLEncoded r.getQueryParams r.getQueryString).2 }
      else r
    let post := r1.getPostContent.take r1.getContentLength
    let r2 : HTTPRequest :=
      if r1.getHeader HEADER_CONTENT_TYPE = CONTENT_TYPE_URLENCODED then
        { r1 with m_query_params := (parseURLEncoded r1.getQueryParams post).2 }
      else r1
    let cookies := parseCookieHeaders r2.getCookieParams (r2.getHeaders.equal_range HEADER_COOKIE)
    .request_handler { r2 with m_cookie_params := cookies }

/-- The lines 78 to 81 of `readHeaderBytes`: the content length of the request. -/
def contentLengthOf (ULONG_MAX : Nat) (r : HTTPRequest) : Nat :=
  if r.hasHeader HEADER_CONTENT_LENGTH then strtoul ULONG_MAX (r.getHeader HEADER_CONTENT_LENGTH)
  else 0

/-- The lines 88 to 146 of `readHeaderBytes`: the content length is not zero; `leftover`
holds the bytes between `read_ptr` and `read_end`. -/
def readPostContent (ssl_flag have_ssl : Bool) (fresh : Nat → Int) (p : HTTPRequestParser)
    (content_length : Nat) (leftover : Str) : ReadOutcome :=
  let r := (p.m_http_request.setContentLength content_length).createPostContentBuffer fresh
  let post_buffer := r.getPostContent
  let bytes_left_in_read_buffer := leftover.length % 4294967296
  let copied : Str × Nat × Nat :=
    if leftover ≠ [] then
      if bytes_left_in_read_buffer ≥ content_length then
        (storeBytes post_buffer 0 (leftover.take content_length), 0, 0)
      else
        (storeBytes post_buffer 0 (leftover.take bytes_left_in_read_buffer),
          content_length - bytes_left_in_read_buffer, bytes_left_in_read_buffer)
    else (post_buffer, content_length, 0)
  let content_bytes_to_read := copied.2.1
  let p1 := { p with m_http_request := { r with m_content_buf := some copied.1 } }
  if content_bytes_to_read = 0 then readContentBytes p1 false 0
  else if ssl_flag then
    if have_ssl then .async_read p1 copied.2.2 content_bytes_to_read else .finish
  else .async_read p1 copied.2.2 content_bytes_to_read

/-- `HTTPRequestParser::readHeaderBytes(read_error, bytes_read)`; `data` holds the
`bytes_read` bytes at the start of `m_read_buffer`, and `ULONG_MAX` is the largest
`unsigned long`. -/
def readHeaderBytes (ULONG_MAX : Nat) (ssl_flag have_ssl : Bool) (fresh : Nat → Int)
    (p : HTTPRequestParser) (read_error : Bool) (data : Str) : ReadOutcome :=
  if read_error then .finish
  else
    let parsed := parseRequestHeaders p data
    let p1 := parsed.2.2
    let leftover := data.drop parsed.2.1
    match parsed.1 with
    | .true_value =>
      let content_length := contentLengthOf ULONG_MAX p1.m_http_request
      if content_length = 0 then readContentBytes p1 read_error 0
      else readPostContent ssl_flag have_ssl fresh p1 content_length leftover
    | .false_value =>
      .request_handler (p1.m_http_request.setIsValid false)
    | .indeterminate_value => readRequest ssl_flag have_ssl p1

/-- The parser once the `count` bytes asked for by `async_read` have been stored in the
content buffer from index `offset` on. -/
def contentRead (p : HTTPRequestParser) (offset : Nat) (bytes : Str) : HTTPRequestParser :=
  let buf := storeBytes p.m_http_request.getPostContent offset bytes
  { p with m_http_request := { p.m_http_request with m_content_buf := some buf } }

end HTTPRequestParser

/-- The request S2 of the specification: a GET with a query string and a Cookie header. -/
def sampleGetRequest : Str :=
  str "GET /a/b?x=1&y=two HTTP/1.1\r\nHost: h\r\nCookie: A=1; B=" ++ [34] ++ str "two" ++ [34]
    ++ str "\r\n\r\n"

/-- The request S3 of the specification: a POST of a form. -/
def samplePostRequest : Str :=
  str "POST /p HTTP/1.1\r\nContent-Type: application/x-www-form-urlencoded\r\nContent-Length: 7\r\n\r\nq=hello"

/-! ### The finalization of a request, in the words of the specification -/

/-- The query parameters once the URI query string, if it is not empty, has been run
through the URL-encoded sub-parser. -/
def uriQueryParams (r : HTTPRequest) : StringDictionary :=
  if r.m_query_string = [] then r.m_query_params
  else (HTTPRequestParser.parseURLEncoded r.m_query_params r.m_query_string).2

/-- The post body: the first `content_length` bytes of the content buffer. -/
def postBody (r : HTTPRequest) : Str := (r.m_content_buf.getD []).take r.m_content_length

/-- The values of the `Cookie` headers, in the order of the headers. -/
def cookieHeaderValues (r : HTTPRequest) : List Str :=
  (r.m_headers.filter (fun e => decide (e.1 = HEADER_COOKIE))).map Prod.snd

/-- The cookie parameters once every `Cookie` header value has been run through the
cookie sub-parser. -/
def cookieParamsOf (r : HTTPRequest) : StringDictionary :=
  (cookieHeaderValues r).foldl (fun d v => (HTTPRequestParser.parseCookieHeader d v).2)
    r.m_cookie_params

/-- The request that the handler receives for the request S2 of the specification. -/
def sampleGetResult : HTTPRequest :=
  { HTTPRequest.create with
    m_is_valid := true, m_version_major := 1, m_version_minor := 1,
    m_headers := [(str "Host", str "h"), (str "Cookie", str "A=1; B=" ++ [34] ++ str "two" ++ [34])],
    m_method := str "GET", m_resource := str "/a/b", m_query_string := str "x=1&y=two",
    m_query_params := [(str "x", str "1"), (str "y", str "two")],
    m_cookie_params := [(str "a", str "1"), (str "b", str "two")] }

/-- The request that the handler receives for the request S3 of the specification. -/
def samplePostResult : HTTPRequest :=
  { HTTPRequest.create with
    m_is_valid := true, m_version_major := 1, m_version_minor := 1,
    m_content_length := 7, m_content_buf := some (str "q=hello" ++ [0]),
    m_headers := [(str "Content-Type", str "application/x-www-form-urlencoded"),
                  (str "Content-Length", str "7")],
    m_method := str "POST", m_resource := str "/p",
    m_query_params := [(str "q", str "hello")] }

/-- A parser whose request has the query string a=1, a form content type and the three
bytes b=2 as its post content. -/
def sampleFormParser : HTTPRequestParser :=
  { HTTPRequestParser.new with
    m_http_request :=
      { HTTPRequest.create with
        m_content_length := 3, m_content_buf := some (str "b=2" ++ [0]),
        m_headers := [(HEADER_CONTENT_TYPE, CONTENT_TYPE_URLENCODED)],
        m_query_string := str "a=1" } }

/-! ### The content buffer after the header read, in the words of the specification -/

/-- The size of the read buffer `m_read_buffer`, a `boost::array<char, 8192>`. -/
def READ_BUFFER_SIZE : Nat := 8192

/-- The content buffer for `n` bytes of content once the leftover `L` of the header read
has been copied to its start: the first `min(|L|, n)` bytes of `L`, the bytes not yet
read (indeterminate, `fresh i` at index `i`), and the terminating zero. -/
def spilledBuffer (fresh : Nat → Int) (n : Nat) (L : Str) : Str :=
  L.take (min L.length n) ++ ((List.range n).map fresh).drop (min L.length n) ++ [0]

/-- The parser whose request has the content length `n` and the content buffer `buf`. -/
def withPostContent (p : HTTPRequestParser) (n : Nat) (buf : Str) : HTTPRequestParser :=
  { p with m_http_request :=
      { p.m_http_request with m_content_length := n, m_content_buf := some buf } }

/-- Complete headers that announce one byte of content more than `POST_CONTENT_MAX`. -/
def overLimitRequest : Str := str "POST /p HTTP/1.1\r\nContent-Length: 1048577\r\n\r\n"

/-! ## The separator characters -/

/-- The nineteen characters the specification lists for `is_special`:
`( ) < > @ , ; : \ " / [ ] ? = { }`, SP and TAB. -/
def specialCharacters : List Int :=
  [40, 41, 60, 62, 64, 44, 59, 58, 92, 34, 47, 91, 93, 63, 61, 123, 125, 32, 9]

/-- A parser whose request has the query string =x, a form content type with the body &,
and the Cookie header =1: the three are malformed. -/
def malformedPartsParser : HTTPRequestParser :=
  { HTTPRequestParser.new with
    m_http_request :=
      { HTTPRequest.create with
        m_content_length := 1, m_content_buf := some (str "&" ++ [0]),
        m_headers := [(HEADER_CONTENT_TYPE, CONTENT_TYPE_URLENCODED), (HEADER_COOKIE, str "=1")],
        m_query_string := str "=x" } }

/-- The outcome is a call of the request handler with a request marked valid. -/
def ReadOutcome.dispatchedValid : ReadOutcome → Bool
  | .request_handler request => request.m_is_valid
  | _ => false

/-- The pairs completed within the characters `P` of a URL-encoded string: one for every
`&` of `P`, made of the current name and the current value of the characters before
that `&`. -/
def completedPairs (P : Str) : List (Str × Str) :=
  ((List.range P.length).filter (fun i => decide (P.get? i = some 38))).map
    (fun i => (currentName (P.take i), currentValue (P.take i)))

/-! ## The passes of the cookie loop -/

namespace HTTPRequestParser

/-- The local variables of `parseCookieHeader` once the loop has gone through the
characters given; `none` when it has returned false on the way. -/
def cookieStateAfter (s : CookieState) : Str → Option CookieState
  | [] => some s
  | c :: rest =>
    match parseCookieHeaderStep s c with
    | none => none
    | some s2 => cookieStateAfter s2 rest

/-- The number of times the body of the `for` loop of `parseCookieHeader` is executed. -/
def cookieLoopPasses (s : CookieState) : Str → Nat
  | [] => 0
  | c :: rest =>
    match parseCookieHeaderStep s c with
    | none => 1
    | some s2 => 1 + cookieLoopPasses s2 rest

/-- The body of the loop evaluates `cookie_name[0]` for the character `c`: at the
insertion in the name state, which the test `! cookie_name.empty()` guards, and at the
two insertions in the value state, at a separator outside quotes and at the closing
quote. -/
def readsFirstNameCharacter (s : CookieState) (c : Int) : Bool :=
  match s.parse_state with
  | .COOKIE_PARSE_NAME =>
    decide (c ≠ 61) && decide (c = 59 ∨ c = 44) && decide (s.cookie_name ≠ [])
  | .COOKIE_PARSE_VALUE =>
    if s.value_quote_character = 0 then decide (c = 59 ∨ c = 44)
    else decide (c = s.value_quote_character)
  | .COOKIE_PARSE_IGNORE => false

/-- The local variables with which `parseCookieHeader` enters its loop. -/
def cookieStart (dict : StringDictionary) : CookieState :=
  { parse_state := .COOKIE_PARSE_NAME, cookie_name := [], cookie_value := [],
    value_quote_character := 0, dict := dict }

end HTTPRequestParser

/-! ### The two framing headers of a message to be sent -/

namespace HTTPMessage

/-- The headers hold a Transfer-Encoding header with the value chunked. -/
def hasChunkedTransferEncoding (m : HTTPMessage) : Bool :=
  decide ((HEADER_TRANSFER_ENCODING, str "chunked") ∈ m.m_headers)

/-- The headers hold exactly one of the two: a Content-Length header, or a
Transfer-Encoding header with the value chunked; not both and not neither. -/
def emitsExactlyOne (m : HTTPMessage) : Bool :=
  xor (m.hasHeader HEADER_CONTENT_LENGTH) m.hasChunkedTransferEncoding

end HTTPMessage

/-- A message with chunk support that carries a Transfer-Encoding header with the value
chunked. -/
def chunkedHeaderMessage : HTTPMessage :=
  { HTTPMessage.new with
    m_chunks_supported := true, m_headers := [(str "Transfer-Encoding", str "chunked")] }

/-- A message with content length 5 whose content buffer holds hello and the
terminating zero. -/
def bufferedSampleMessage : HTTPMessage :=
  { bufferSampleMessage with m_content_buf := some (str "hello" ++ [0]) }

/-! ### The cookies of a Cookie header, as the header writes them

The specification side of the cookie sub-parser: the header is cut into its cookies by
its separators alone, without the loop of `parseCookieHeader` and its states. -/

/-- A byte that can stand in a cookie name as the header writes it: any byte but `=`,
`;` and `,`. -/
def cookieNameByte (c : Int) : Bool := decide (c ≠ 61 ∧ c ≠ 59 ∧ c ≠ 44)

/-- A byte that does not end a cookie: any byte but `;` and `,`. -/
def notSeparator (c : Int) : Bool := decide (c ≠ 59 ∧ c ≠ 44)

/-- The space character. -/
def isSP (c : Int) : Bool := decide (c = 32)

/-- What follows the next `;` or `,` of a text; nothing when there is none. -/
def afterSeparator (t : Str) : Str := (t.dropWhile notSeparator).drop 1

/-- A cookie as the header writes it: the name as written, whether the value is
quoted, and the value as written (between the quotes when it is quoted). -/
structure CookieItem where
  name : Str
  quoted : Bool
  value : Str
  deriving DecidableEq, Repr

/-- The pair that stands for a cookie as written: the key is the name with its spaces
removed and its ASCII letters lowercased; the value is the value byte for byte, a
value that is not quoted being without its spaces. -/
def CookieItem.pair (i : CookieItem) : Str × Str :=
  (cookieKeyOf i.name, if i.quoted then i.value else withoutSpaces i.value)

/-- The cookies of a header, read off its text from left to right; an empty text holds
none.  The name as written runs up to the first `=`, `;` or `,`.  After `;` or `,`, and at the end of the header,
the cookie has no value.  After `=` the value is quoted when its first byte other than
a space is `'` or `"`: it is then what stands between that quote and the next one like
it (or the end of the header), and the next cookie begins after the next `;` or `,`
behind the closing quote; otherwise the value runs up to the next `;` or `,`, behind
which the next cookie begins.  The first argument bounds the number of cookies. -/
def cookieItems : Nat → Str → List CookieItem
  | 0, _ => []
  | fuel + 1, h =>
    if h = [] then []
    else
      match h.dropWhile cookieNameByte with
      | [] => [⟨h.takeWhile cookieNameByte, false, []⟩]
      | c :: r =>
        if c = 61 then
          match r.dropWhile isSP with
          | [] =>
            ⟨h.takeWhile cookieNameByte, false, r.takeWhile notSeparator⟩
              :: cookieItems fuel (afterSeparator r)
          | q :: v =>
            if q = 39 ∨ q = 34 then
              ⟨h.takeWhile cookieNameByte, true, v.takeWhile (fun x => decide (x ≠ q))⟩
                :: cookieItems fuel
                    (afterSeparator ((v.dropWhile (fun x => decide (x ≠ q))).drop 1))
            else
              ⟨h.takeWhile cookieNameByte, false, r.takeWhile notSeparator⟩
                :: cookieItems fuel (afterSeparator r)
        else ⟨h.takeWhile cookieNameByte, false, []⟩ :: cookieItems fuel r

/-- The cookies of a header as it writes them. -/
def cookiesOf (header : Str) : List CookieItem := cookieItems (header.length + 1) header

/-- A pair that `parseCookieHeader` inserts: its name is not empty and does not begin
with `$`. -/
def insertablePair (e : Str × Str) : Bool := decide (e.1 ≠ []) && decide (e.1.headD 0 ≠ 36)

/-- The pairs of the cookies of a list that are inserted, in order. -/
def insertablePairs (items : List CookieItem) : List (Str × Str) :=
  (items.map CookieItem.pair).filter insertablePair

namespace HTTPRequestParser

/-- The loop of `parseCookieHeader`, from the local variables `s` on the text `h`, leaves
the dictionary with the first pairs of `spec` added, all of them when it returns
true. -/
def CookieRefines (s : CookieState) (h : Str) (spec : List (Str × Str)) : Prop :=
  ∃ added rest, (parseCookieHeaderLoop s h).2 = s.dict ++ added ∧ spec = added ++ rest
    ∧ ((parseCookieHeaderLoop s h).1 = true → rest = [])

end HTTPRequestParser

end pion

/-! # Theorems -/

namespace pion

namespace HTTPRequestParser

/-! ## The loop body -/

/-- When the loop body returns, it has advanced `ptr` by at most one character. -/
theorem parseStep_adv_le (p : HTTPRequestParser) (c : Int) (r : Tribool) (adv : Nat)
    (q : HTTPRequestParser) (h : parseStep p c = .ret r adv q) : adv ≤ 1 := by
  unfold parseStep at h
  split at h <;> split_ifs at h <;> simp at h <;> omega

/-- The loop body never returns the indeterminate value. -/
theorem parseStep_ret_ne_indeterminate (p : HTTPRequestParser) (c : Int) (adv : Nat)
    (q : HTTPRequestParser) : parseStep p c ≠ .ret .indeterminate_value adv q := by
  intro h
  unfold parseStep at h
  split at h <;> split_ifs at h <;> simp at h

/-! ## The loop -/

theorem parseRequestHeaders_nil (p : HTTPRequestParser) :
    parseRequestHeaders p [] = (.indeterminate_value, 0, p) := rfl

theorem parseRequestHeaders_cons_next (p q : HTTPRequestParser) (c : Int) (rest : Str)
    (h : parseStep p c = .next q) :
    parseRequestHeaders p (c :: rest)
      = ((parseRequestHeaders q rest).1, (parseRequestHeaders q rest).2.1 + 1,
          (parseRequestHeaders q rest).2.2) := by
  simp [parseRequestHeaders, h]

theorem parseRequestHeaders_cons_ret (p q : HTTPRequestParser) (c : Int) (rest : Str)
    (r : Tribool) (adv : Nat) (h : parseStep p c = .ret r adv q) :
    parseRequestHeaders p (c :: rest) = (r, adv, q) := by
  simp [parseRequestHeaders, h]

/-- The number of characters consumed never exceeds the number available. -/
theorem parseRequestHeaders_consumed_le (p : HTTPRequestParser) (buf : Str) :
    (parseRequestHeaders p buf).2.1 ≤ buf.length := by
  induction buf generalizing p with
  | nil => simp [parseRequestHeaders]
  | cons c rest ih =>
    cases h : parseStep p c with
    | next q =>
      rw [parseRequestHeaders_cons_next p q c rest h]
      have := ih q
      simp only [List.length_cons]
      omega
    | ret r adv q =>
      rw [parseRequestHeaders_cons_ret p q c rest r adv h]
      have := parseStep_adv_le p c r adv q h
      simp only [List.length_cons]
      omega

/-- An indeterminate result means that the whole buffer has been consumed. -/
theorem parseRequestHeaders_indeterminate (p : HTTPRequestParser) (buf : Str)
    (h : (parseRequestHeaders p buf).1 = .indeterminate_value) :
    (parseRequestHeaders p buf).2.1 = buf.length := by
  induction buf generalizing p with
  | nil => simp [parseRequestHeaders]
  | cons c rest ih =>
    cases hs : parseStep p c with
    | next q =>
      rw [parseRequestHeaders_cons_next p q c rest hs] at h ⊢
      simp only [List.length_cons]
      rw [ih q h]
    | ret r adv q =>
      rw [parseRequestHeaders_cons_ret p q c rest r adv hs] at h
      simp only at h
      subst h
      exact absurd hs (parseStep_ret_ne_indeterminate p c adv q)

/-- Parsing a concatenation: the second part is parsed, from the state the first part
left, only when the first part gave the indeterminate value. -/
theorem parseRequestHeaders_append (p : HTTPRequestParser) (a b : Str) :
    parseRequestHeaders p (a ++ b)
      = match (parseRequestHeaders p a).1 with
        | .indeterminate_value =>
          ((parseRequestHeaders (parseRequestHeaders p a).2.2 b).1,
           a.length + (parseRequestHeaders (parseRequestHeaders p a).2.2 b).2.1,
           (parseRequestHeaders (parseRequestHeaders p a).2.2 b).2.2)
        | _ => parseRequestHeaders p a := by
  induction a generalizing p with
  | nil => simp [parseRequestHeaders]
  | cons c rest ih =>
    cases hs : parseStep p c with
    | next q =>
      rw [List.cons_append, parseRequestHeaders_cons_next p q c _ hs,
        parseRequestHeaders_cons_next p q c rest hs, ih q]
      cases h1 : (parseRequestHeaders q rest).1 <;> simp [h1]
      omega
    | ret r adv q =>
      rw [List.cons_append, parseRequestHeaders_cons_ret p q c _ r adv hs,
        parseRequestHeaders_cons_ret p q c rest r adv hs]
      cases r
      · rfl
      · rfl
      · exact absurd hs (parseStep_ret_ne_indeterminate p c adv q)

/-- Feeding fragments one call at a time is the same as one call on their concatenation. -/
theorem feedFragments_eq (p : HTTPRequestParser) (frags : List Str) :
    feedFragments p frags = parseRequestHeaders p frags.flatten := by
  induction frags generalizing p with
  | nil => rfl
  | cons f fs ih =>
    rw [List.flatten_cons, parseRequestHeaders_append]
    simp only [feedFragments]
    cases h1 : (parseRequestHeaders p f).1
    · simp
    · simp
    · simp only
      rw [ih, parseRequestHeaders_indeterminate p f h1]

/-- Claim C1.  For every parser state (the initial one included) and every list of
consecutive fragments, feeding the fragments to successive calls of
parseRequestHeaders, stopping at the first call that returns true or false, gives the
same tribool, the same total number of characters consumed and the same parser and
request fields as one call on the concatenation of the fragments; in particular this
holds for the cut of a sequence into one-character fragments. -/
theorem parse_fragments_agree (p : HTTPRequestParser) (frags : List Str) (S : Str) :
    feedFragments p frags = parseRequestHeaders p frags.flatten
    ∧ feedFragments p (S.map (fun c => [c])) = parseRequestHeaders p S := by
  refine ⟨feedFragments_eq p frags, ?_⟩
  rw [feedFragments_eq]
  congr 1
  induction S with
  | nil => rfl
  | cons c rest ih => simp [ih]

/-! ## The loop on a buffer in memory -/

/-- The loop on memory is the loop on the list of the `len` characters from `ptr` on. -/
theorem parseRequestHeadersAt_eq (mem : Nat → Int) (p : HTTPRequestParser) (ptr len : Nat) :
    parseRequestHeadersAt mem p ptr len
      = ((parseRequestHeaders p ((List.range len).map (fun i => mem (ptr + i)))).1,
         ptr + (parseRequestHeaders p ((List.range len).map (fun i => mem (ptr + i)))).2.1,
         (parseRequestHeaders p ((List.range len).map (fun i => mem (ptr + i)))).2.2) := by
  induction len generalizing p ptr with
  | zero => simp [parseRequestHeadersAt, parseRequestHeaders]
  | succ n ih =>
    have hr : (List.range (n + 1)).map (fun i => mem (ptr + i))
        = mem ptr :: (List.range n).map (fun i => mem (ptr + 1 + i)) := by
      rw [List.range_succ_eq_map]
      simp [List.map_map, Function.comp_def, Nat.add_assoc, Nat.add_comm 1]
    rw [hr]
    cases hs : parseStep p (mem ptr) with
    | next q =>
      rw [parseRequestHeaders_cons_next p q _ _ hs]
      simp only [parseRequestHeadersAt, hs]
      rw [ih]
      simp [Nat.add_assoc, Nat.add_comm 1]
    | ret r adv q =>
      rw [parseRequestHeaders_cons_ret p q _ _ r adv hs]
      simp only [parseRequestHeadersAt, hs]

theorem parseRequestHeadersAt_bounds (mem : Nat → Int) (p : HTTPRequestParser) (ptr len : Nat) :
    ptr ≤ (parseRequestHeadersAt mem p ptr len).2.1
    ∧ (parseRequestHeadersAt mem p ptr len).2.1 ≤ ptr + len := by
  induction len generalizing p ptr with
  | zero => simp [parseRequestHeadersAt]
  | succ n ih =>
    cases hs : parseStep p (mem ptr) with
    | next q =>
      simp only [parseRequestHeadersAt, hs]
      have := ih q (ptr + 1)
      omega
    | ret r adv q =>
      simp only [parseRequestHeadersAt, hs]
      have := parseStep_adv_le p _ r adv q hs
      omega

theorem parseRequestHeadersAt_congr (mem mem2 : Nat → Int) (p : HTTPRequestParser)
    (ptr len : Nat) (h : ∀ i, ptr ≤ i → i < ptr + len → mem2 i = mem i) :
    parseRequestHeadersAt mem2 p ptr len = parseRequestHeadersAt mem p ptr len := by
  induction len generalizing p ptr with
  | zero => simp [parseRequestHeadersAt]
  | succ n ih =>
    have h0 : mem2 ptr = mem ptr := h ptr (Nat.le_refl _) (by omega)
    simp only [parseRequestHeadersAt, h0]
    cases hs : parseStep p (mem ptr) with
    | next q =>
      simp only
      exact ih q (ptr + 1) (fun i h1 h2 => h i (by omega) (by omega))
    | ret r adv q => rfl

/-- Claim C2.  For every parser state, every memory and every len, the call
parseRequestHeaders(ptr, len) leaves ptr between its starting value and that value
plus len (early-return paths included), and its outcome does not change when the
characters outside the len characters starting at ptr are replaced by any others: it
inspects no character at offset len or beyond. -/
theorem parse_stays_in_buffer (p : HTTPRequestParser) (mem other : Nat → Int) (ptr len : Nat) :
    ptr ≤ (parseRequestHeadersAt mem p ptr len).2.1
    ∧ (parseRequestHeadersAt mem p ptr len).2.1 ≤ ptr + len
    ∧ parseRequestHeadersAt (fun i => if ptr ≤ i ∧ i < ptr + len then mem i else other i)
        p ptr len = parseRequestHeadersAt mem p ptr len := by
  refine ⟨(parseRequestHeadersAt_bounds mem p ptr len).1,
    (parseRequestHeadersAt_bounds mem p ptr len).2, ?_⟩
  apply parseRequestHeadersAt_congr
  intro i h1 h2
  simp [h1, h2]

end HTTPRequestParser

/-! ## The header dictionary -/

theorem equal_range_assignFirstEraseRest_self (key value : Str) (dict : StringDictionary)
    (h : dict.equal_range key ≠ []) :
    (StringDictionary.assignFirstEraseRest key value dict).equal_range key = [(key, value)] := by
  induction dict with
  | nil => simp [StringDictionary.equal_range] at h
  | cons e rest ih =>
    by_cases he : e.1 = key
    · simp only [StringDictionary.assignFirstEraseRest, he, if_true,
        StringDictionary.equal_range]
      simp [List.filter_cons, List.filter_filter]
    · have h2 : StringDictionary.equal_range rest key ≠ [] := by
        simpa [StringDictionary.equal_range, List.filter_cons, he] using h
      have := ih h2
      simp only [StringDictionary.equal_range] at this ⊢
      simp [StringDictionary.assignFirstEraseRest, he, List.filter_cons, this]

theorem equal_range_assignFirstEraseRest_other (key value key2 : Str) (dict : StringDictionary)
    (h : key2 ≠ key) :
    (StringDictionary.assignFirstEraseRest key value dict).equal_range key2
      = dict.equal_range key2 := by
  induction dict with
  | nil => rfl
  | cons e rest ih =>
    simp only [StringDictionary.equal_range] at ih ⊢
    by_cases he : e.1 = key
    · have hne : ¬ e.1 = key2 := by rw [he]; exact fun h3 => h h3.symm
      simp only [StringDictionary.assignFirstEraseRest, he, if_true]
      have hk : ¬ key = key2 := fun h3 => h h3.symm
      simp only [List.filter_cons, hk, decide_False, Bool.false_eq_true, if_false, hne,
        List.filter_filter]
      rw [← he]
      apply List.filter_congr
      intro x _
      by_cases hx : x.1 = key2
      · have h4 : ¬ key2 = e.1 := by rw [he]; exact h
        simp [hx, h4]
      · simp [hx]
    · simp only [StringDictionary.assignFirstEraseRest, he, if_false, List.filter_cons, ih]

/-- The range of a key after `changeValue` is the single new entry. -/
theorem equal_range_changeValue_self (dict : StringDictionary) (key value : Str) :
    (changeValue dict key value).equal_range key = [(key, value)] := by
  unfold changeValue
  split
  · rename_i h
    simp only [StringDictionary.equal_range] at h
    simp [StringDictionary.insert, StringDictionary.equal_range, List.filter_append, h]
  · rename_i h
    exact equal_range_assignFirstEraseRest_self key value dict h

/-- The range of any other key is untouched by `changeValue`. -/
theorem equal_range_changeValue_other (dict : StringDictionary) (key value key2 : Str)
    (h : key2 ≠ key) :
    (changeValue dict key value).equal_range key2 = dict.equal_range key2 := by
  unfold changeValue
  split
  · have hk : ¬ key = key2 := fun h3 => h h3.symm
    simp [StringDictionary.insert, StringDictionary.equal_range, List.filter_append, hk]
  · exact equal_range_assignFirstEraseRest_other key value key2 dict h

/-- Claim C10.  For every message, key k and value v: after changeHeader(k, v) the
entries with key k are exactly the one entry (k, v), the entries of every other key
are exactly as before, in the same order, and no other member of the message changes;
this covers a key with several entries and a key that was absent while other keys
were present. -/
theorem changeHeader_replaces_all (m : HTTPMessage) (k v : Str) :
    (m.changeHeader k v).m_headers.equal_range k = [(k, v)]
    ∧ (∀ k2 : Str, k2 ≠ k →
        (m.changeHeader k v).m_headers.equal_range k2 = m.m_headers.equal_range k2)
    ∧ m.changeHeader k v = { m with m_headers := (m.changeHeader k v).m_headers } :=
  ⟨equal_range_changeValue_self m.m_headers k v,
   fun k2 h => equal_range_changeValue_other m.m_headers k v k2 h, rfl⟩

/-! ## Keep-alive -/

/-- Claim C4.  For every message, checkKeepAlive() is true if and only if the value
getHeader("Connection") returns is not the string "close" and the version is at least
1.1, that is, major > 1, or major = 1 and minor >= 1. -/
theorem checkKeepAlive_iff (m : HTTPMessage) :
    m.checkKeepAlive = true
      ↔ (m.getHeader (str "Connection") ≠ str "close"
          ∧ (m.getVersionMajor > 1 ∨ (m.getVersionMajor = 1 ∧ m.getVersionMinor ≥ 1))) := by
  simp only [HTTPMessage.checkKeepAlive, HEADER_CONNECTION, Bool.and_eq_true, Bool.or_eq_true,
    decide_eq_true_eq]
  constructor
  · rintro ⟨h1, h2⟩
    refine ⟨h1, ?_⟩
    omega
  · rintro ⟨h1, h2⟩
    refine ⟨h1, ?_⟩
    omega

/-- Claim C5, as stated, fails: the HTTP/1.0 message carrying the header
Connection: Keep-Alive is not reported as keep-alive. -/
theorem keepAlive_http10_counterexample :
    keepAliveMessage10.getVersionMajor = 1 ∧ keepAliveMessage10.getVersionMinor = 0
    ∧ (str "Connection", str "Keep-Alive") ∈ keepAliveMessage10.getHeaders
    ∧ keepAliveMessage10.getHeader (str "Connection") = str "Keep-Alive"
    ∧ keepAliveMessage10.checkKeepAlive = false := by
  decide

/-- Claim C5, amended.  For every HTTP/1.0 message checkKeepAlive() is false, whatever
headers the message carries. -/
theorem checkKeepAlive_http10 (m : HTTPMessage) (hmajor : m.getVersionMajor = 1)
    (hminor : m.getVersionMinor = 0) : m.checkKeepAlive = false := by
  simp [HTTPMessage.checkKeepAlive, hmajor, hminor]

/-- Claim C5, amended, at the HTTP/1.0 message carrying Connection: Keep-Alive. -/
theorem checkKeepAlive_http10_witness :
    keepAliveMessage10.getVersionMajor = 1 ∧ keepAliveMessage10.getVersionMinor = 0
    ∧ keepAliveMessage10.checkKeepAlive = false :=
  ⟨rfl, rfl, checkKeepAlive_http10 keepAliveMessage10 rfl rfl⟩

namespace HTTPRequestParser

/-! ## Runs of the loop -/

theorem isToken_ne (c d : Int) (h : isToken c = true) (hd : isToken d = false) : c ≠ d := by
  intro h2; subst h2; rw [h] at hd; cases hd

theorem not_token_cond (c : Int) (h : isToken c = true) :
    (!isChar c || isControl c || isSpecial c) = false := by
  unfold isToken at h
  cases hx : (!isChar c || isControl c || isSpecial c)
  · rfl
  · rw [hx] at h; cases h

theorem token_cond (c : Int) (h : ¬ isToken c = true) :
    (!isChar c || isControl c || isSpecial c) = true := by
  unfold isToken at h
  cases hx : (!isChar c || isControl c || isSpecial c)
  · rw [hx] at h; exact absurd rfl h
  · rfl

theorem advance_advance (a b : Nat) (r : Tribool × Nat × HTTPRequestParser) :
    advance a (advance b r) = advance (a + b) r := by
  simp [advance, Nat.add_assoc]

theorem advance_fst (a : Nat) (r : Tribool × Nat × HTTPRequestParser) :
    (advance a r).1 = r.1 := rfl

theorem advance_snd (a : Nat) (r : Tribool × Nat × HTTPRequestParser) :
    (advance a r).2.2 = r.2.2 := rfl

theorem parse_cons_next (p q : HTTPRequestParser) (c : Int) (rest : Str)
    (h : parseStep p c = .next q) :
    parseRequestHeaders p (c :: rest) = advance 1 (parseRequestHeaders q rest) := by
  simp [parseRequestHeaders, h, advance, Nat.add_comm]

theorem runsTo_nil (p : HTTPRequestParser) : RunsTo p [] p := by
  intro X; simp [advance]

theorem runsTo_cons (p q r : HTTPRequestParser) (c : Int) (a : Str)
    (h : parseStep p c = .next q) (h2 : RunsTo q a r) : RunsTo p (c :: a) r := by
  intro X
  rw [List.cons_append, parse_cons_next p q c _ h, h2 X, advance_advance]
  simp [Nat.add_comm]

theorem runsTo_single (p q : HTTPRequestParser) (c : Int)
    (h : parseStep p c = .next q) : RunsTo p [c] q :=
  runsTo_cons p q q c [] h (runsTo_nil q)

theorem runsTo_append (p q r : HTTPRequestParser) (a b : Str)
    (h1 : RunsTo p a q) (h2 : RunsTo q b r) : RunsTo p (a ++ b) r := by
  intro X
  rw [List.append_assoc, h1 (b ++ X), h2 X, advance_advance]
  simp

/-! ## The loop body, state by state -/

theorem parseStep_method_start (p : HTTPRequestParser) (c : Int)
    (h : p.m_parse_state = .PARSE_METHOD_START) :
    parseStep p c =
      if c ≠ 32 ∧ c ≠ 13 ∧ c ≠ 10 then
        if isToken c = false then .ret .false_value 0 p
        else .next { p with m_parse_state := .PARSE_METHOD, m_method := [c] }
      else .next p := by
  unfold parseStep
  rw [h]
  simp only [isToken, Bool.not_eq_false']

theorem parseStep_method (p : HTTPRequestParser) (c : Int)
    (h : p.m_parse_state = .PARSE_METHOD) :
    parseStep p c =
      if c = 32 then
        .next { p with m_http_request := p.m_http_request.setMethod p.m_method,
                       m_resource := [], m_parse_state := .PARSE_URI_STEM }
      else if isToken c = false then .ret .false_value 0 p
      else if p.m_method.length ≥ METHOD_MAX then .ret .false_value 0 p
      else .next { p with m_method := p.m_method ++ [c] } := by
  unfold parseStep
  rw [h]
  simp only [isToken, Bool.not_eq_false']

theorem parseStep_uri_stem (p : HTTPRequestParser) (c : Int)
    (h : p.m_parse_state = .PARSE_URI_STEM) :
    parseStep p c =
      if c = 32 then
        .next { p with m_http_request := p.m_http_request.setResource p.m_resource,
                       m_parse_state := .PARSE_HTTP_VERSION_H }
      else if c = 63 then
        .next { p with m_http_request := p.m_http_request.setResource p.m_resource,
                       m_query_string := [], m_parse_state := .PARSE_URI_QUERY }
      else if isControl c then .ret .false_value 0 p
      else if p.m_resource.length ≥ RESOURCE_MAX then .ret .false_value 0 p
      else .next { p with m_resource := p.m_resource ++ [c] } := by
  unfold parseStep
  rw [h]

theorem parseStep_uri_query (p : HTTPRequestParser) (c : Int)
    (h : p.m_parse_state = .PARSE_URI_QUERY) :
    parseStep p c =
      if c = 32 then
        .next { p with m_http_request := p.m_http_request.setQueryString p.m_query_string,
                       m_parse_state := .PARSE_HTTP_VERSION_H }
      else if isControl c then .ret .false_value 0 p
      else if p.m_query_string.length ≥ QUERY_STRING_MAX then .ret .false_value 0 p
      else .next { p with m_query_string := p.m_query_string ++ [c] } := by
  unfold parseStep
  rw [h]

theorem parseStep_http_version_h (p : HTTPRequestParser) (c : Int)
    (h : p.m_parse_state = .PARSE_HTTP_VERSION_H) :
    parseStep p c =
      if c ≠ 72 then .ret .false_value 0 p
      else .next { p with m_parse_state := .PARSE_HTTP_VERSION_T_1 } := by
  unfold parseStep
  rw [h]

theorem parseStep_http_version_t_1 (p : HTTPRequestParser) (c : Int)
    (h : p.m_parse_state = .PARSE_HTTP_VERSION_T_1) :
    parseStep p c =
      if c ≠ 84 then .ret .false_value 0 p
      else .next { p with m_parse_state := .PARSE_HTTP_VERSION_T_2 } := by
  unfold parseStep
  rw [h]

theorem parseStep_http_version_t_2 (p : HTTPRequestParser) (c : Int)
    (h : p.m_parse_state = .PARSE_HTTP_VERSION_T_2) :
    parseStep p c =
      if c ≠ 84 then .ret .false_value 0 p
      else .next { p with m_parse_state := .PARSE_HTTP_VERSION_P } := by
  unfold parseStep
  rw [h]

theorem parseStep_http_version_p (p : HTTPRequestParser) (c : Int)
    (h : p.m_parse_state = .PARSE_HTTP_VERSION_P) :
    parseStep p c =
      if c ≠ 80 then .ret .false_value 0 p
      else .next { p with m_parse_state := .PARSE_HTTP_VERSION_SLASH } := by
  unfold parseStep
  rw [h]

theorem parseStep_http_version_slash (p : HTTPRequestParser) (c : Int)
    (h : p.m_parse_state = .PARSE_HTTP_VERSION_SLASH) :
    parseStep p c =
      if c ≠ 47 then .ret .false_value 0 p
      else .next { p with m_parse_state := .PARSE_HTTP_VERSION_MAJOR_START } := by
  unfold parseStep
  rw [h]

theorem parseStep_http_version_major_start (p : HTTPRequestParser) (c : Int)
    (h : p.m_parse_state = .PARSE_HTTP_VERSION_MAJOR_START) :
    parseStep p c =
      if !isDigit c then .ret .false_value 0 p
      else .next { p with m_http_request := p.m_http_request.setVersionMajor (toUnsigned (c - 48)),
                          m_parse_state := .PARSE_HTTP_VERSION_MAJOR } := by
  unfold parseStep
  rw [h]

theorem parseStep_http_version_major (p : HTTPRequestParser) (c : Int)
    (h : p.m_parse_state = .PARSE_HTTP_VERSION_MAJOR) :
    parseStep p c =
      if c = 46 then .next { p with m_parse_state := .PARSE_HTTP_VERSION_MINOR_START }
      else if isDigit c then
        let n := toUnsigned ((p.m_http_request.getVersionMajor : Int) * 10 + (c - 48))
        .next { p with m_http_request := p.m_http_request.setVersionMajor n }
      else .ret .false_value 0 p := by
  unfold parseStep
  rw [h]

theorem parseStep_http_version_minor_start (p : HTTPRequestParser) (c : Int)
    (h : p.m_parse_state = .PARSE_HTTP_VERSION_MINOR_START) :
    parseStep p c =
      if !isDigit c then .ret .false_value 0 p
      else .next { p with m_http_request := p.m_http_request.setVersionMinor (toUnsigned (c - 48)),
                          m_parse_state := .PARSE_HTTP_VERSION_MINOR } := by
  unfold parseStep
  rw [h]

theorem parseStep_http_version_minor (p : HTTPRequestParser) (c : Int)
    (h : p.m_parse_state = .PARSE_HTTP_VERSION_MINOR) :
    parseStep p c =
      if c = 13 then .next { p with m_parse_state := .PARSE_EXPECTING_NEWLINE }
      else if c = 10 then .next { p with m_parse_state := .PARSE_EXPECTING_CR }
      else if isDigit c then
        let n := toUnsigned ((p.m_http_request.getVersionMinor : Int) * 10 + (c - 48))
        .next { p with m_http_request := p.m_http_request.setVersionMinor n }
      else .ret .false_value 0 p := by
  unfold parseStep
  rw [h]

theorem parseStep_expecting_newline (p : HTTPRequestParser) (c : Int)
    (h : p.m_parse_state = .PARSE_EXPECTING_NEWLINE) :
    parseStep p c =
      if c = 10 then .next { p with m_parse_state := .PARSE_HEADER_START }
      else if c = 13 then .ret .true_value 1 p
      else if c = 9 ∨ c = 32 then .next { p with m_parse_state := .PARSE_HEADER_WHITESPACE }
      else if isToken c = false then .ret .false_value 0 p
      else .next { p with m_header_name := [c], m_parse_state := .PARSE_HEADER_NAME } := by
  unfold parseStep
  rw [h]
  simp only [isToken, Bool.not_eq_false']

theorem parseStep_expecting_cr (p : HTTPRequestParser) (c : Int)
    (h : p.m_parse_state = .PARSE_EXPECTING_CR) :
    parseStep p c =
      if c = 13 then .next { p with m_parse_state := .PARSE_HEADER_START }
      else if c = 10 then .ret .true_value 1 p
      else if c = 9 ∨ c = 32 then .next { p with m_parse_state := .PARSE_HEADER_WHITESPACE }
      else if isToken c = false then .ret .false_value 0 p
      else .next { p with m_header_name := [c], m_parse_state := .PARSE_HEADER_NAME } := by
  unfold parseStep
  rw [h]
  simp only [isToken, Bool.not_eq_false']

theorem parseStep_header_whitespace (p : HTTPRequestParser) (c : Int)
    (h : p.m_parse_state = .PARSE_HEADER_WHITESPACE) :
    parseStep p c =
      if c = 13 then .next { p with m_parse_state := .PARSE_EXPECTING_NEWLINE }
      else if c = 10 then .next { p with m_parse_state := .PARSE_EXPECTING_CR }
      else if c ≠ 9 ∧ c ≠ 32 then
        if isToken c = false then .ret .false_value 0 p
        else .next { p with m_header_name := [c], m_parse_state := .PARSE_HEADER_NAME }
      else .next p := by
  unfold parseStep
  rw [h]
  simp only [isToken, Bool.not_eq_false']

theorem parseStep_header_start (p : HTTPRequestParser) (c : Int)
    (h : p.m_parse_state = .PARSE_HEADER_START) :
    parseStep p c =
      if c = 13 then .next { p with m_parse_state := .PARSE_EXPECTING_FINAL_NEWLINE }
      else if c = 10 then .next { p with m_parse_state := .PARSE_EXPECTING_FINAL_CR }
      else if c = 9 ∨ c = 32 then .next { p with m_parse_state := .PARSE_HEADER_WHITESPACE }
      else if isToken c = false then .ret .false_value 0 p
      else .next { p with m_header_name := [c], m_parse_state := .PARSE_HEADER_NAME } := by
  unfold parseStep
  rw [h]
  simp only [isToken, Bool.not_eq_false']

theorem parseStep_header_name (p : HTTPRequestParser) (c : Int)
    (h : p.m_parse_state = .PARSE_HEADER_NAME) :
    parseStep p c =
      if c = 58 then
        .next { p with m_header_value := [], m_parse_state := .PARSE_SPACE_BEFORE_HEADER_VALUE }
      else if isToken c = false then .ret .false_value 0 p
      else if p.m_header_name.length ≥ HEADER_NAME_MAX then .ret .false_value 0 p
      else .next { p with m_header_name := p.m_header_name ++ [c] } := by
  unfold parseStep
  rw [h]
  simp only [isToken, Bool.not_eq_false']

theorem parseStep_space_before_header_value (p : HTTPRequestParser) (c : Int)
    (h : p.m_parse_state = .PARSE_SPACE_BEFORE_HEADER_VALUE) :
    parseStep p c =
      if c = 32 then .next { p with m_parse_state := .PARSE_HEADER_VALUE }
      else if c = 13 then
        .next { p with m_http_request := p.m_http_request.addHeader p.m_header_name p.m_header_value,
                       m_parse_state := .PARSE_EXPECTING_NEWLINE }
      else if c = 10 then
        .next { p with m_http_request := p.m_http_request.addHeader p.m_header_name p.m_header_value,
                       m_parse_state := .PARSE_EXPECTING_CR }
      else if isToken c = false then .ret .false_value 0 p
      else .next { p with m_header_value := p.m_header_value ++ [c],
                          m_parse_state := .PARSE_HEADER_VALUE } := by
  unfold parseStep
  rw [h]
  simp only [isToken, Bool.not_eq_false']

theorem parseStep_header_value (p : HTTPRequestParser) (c : Int)
    (h : p.m_parse_state = .PARSE_HEADER_VALUE) :
    parseStep p c =
      if c = 13 then
        .next { p with m_http_request := p.m_http_request.addHeader p.m_header_name p.m_header_value,
                       m_parse_state := .PARSE_EXPECTING_NEWLINE }
      else if c = 10 then
        .next { p with m_http_request := p.m_http_request.addHeader p.m_header_name p.m_header_value,
                       m_parse_state := .PARSE_EXPECTING_CR }
      else if isControl c then .ret .false_value 0 p
      else if p.m_header_value.length ≥ HEADER_VALUE_MAX then .ret .false_value 0 p
      else .next { p with m_header_value := p.m_header_value ++ [c] } := by
  unfold parseStep
  rw [h]

theorem parseStep_expecting_final_newline (p : HTTPRequestParser) (c : Int)
    (h : p.m_parse_state = .PARSE_EXPECTING_FINAL_NEWLINE) :
    parseStep p c =
      if c = 10 then .ret .true_value 1 p else .ret .true_value 0 p := by
  unfold parseStep
  rw [h]

theorem parseStep_expecting_final_cr (p : HTTPRequestParser) (c : Int)
    (h : p.m_parse_state = .PARSE_EXPECTING_FINAL_CR) :
    parseStep p c =
      if c = 13 then .ret .true_value 1 p else .ret .true_value 0 p := by
  unfold parseStep
  rw [h]

/-! ## The five accumulators -/

/-- Characters of the method that pass the test and fit are pushed, one by one. -/
theorem run_method (p : HTTPRequestParser) (M : Str)
    (hst : p.m_parse_state = .PARSE_METHOD)
    (hD : ∀ c ∈ M, c ≠ 32)
    (hV : ∀ c ∈ M, isToken c = true)
    (hlen : p.m_method.length + M.length ≤ METHOD_MAX) :
    RunsTo p M { p with m_method := p.m_method ++ M } := by
  induction M generalizing p with
  | nil => simpa using runsTo_nil p
  | cons c M ih =>
    have hd := hD c (List.mem_cons_self _ _)
    have hv := hV c (List.mem_cons_self _ _)
    simp only [List.length_cons] at hlen
    have hfull : ¬ (p.m_method.length ≥ METHOD_MAX) := by omega
    have hstep : parseStep p c = .next { p with m_method := p.m_method ++ [c] } := by
      rw [parseStep_method p c hst]
      simp [hd, hv, hfull]
    have := ih { p with m_method := p.m_method ++ [c] } hst
      (fun d hd => hD d (List.mem_cons_of_mem _ hd))
      (fun d hd => hV d (List.mem_cons_of_mem _ hd)) (by simp; omega)
    simp only [List.append_assoc, List.singleton_append] at this
    exact runsTo_cons _ _ _ c M hstep this

/-- A method with a character that fails the test, or one that does not fit, makes
the call return false. -/
theorem fail_method (p : HTTPRequestParser) (M X : Str)
    (hst : p.m_parse_state = .PARSE_METHOD)
    (hD : ∀ c ∈ M, c ≠ 32)
    (hbad : ¬ ((∀ c ∈ M, isToken c = true) ∧ p.m_method.length + M.length ≤ METHOD_MAX))
    (hacc : p.m_method.length ≤ METHOD_MAX) :
    (parseRequestHeaders p (M ++ X)).1 = .false_value := by
  induction M generalizing p with
  | nil => simp at hbad; omega
  | cons c M ih =>
    have hd := hD c (List.mem_cons_self _ _)
    rw [List.cons_append]
    by_cases hv : isToken c = true
    · by_cases hfull : p.m_method.length ≥ METHOD_MAX
      · rw [parseRequestHeaders_cons_ret p p c _ .false_value 0
          (by rw [parseStep_method p c hst]; simp [hd, hv, hfull])]
      · rw [parse_cons_next p { p with m_method := p.m_method ++ [c] } c _
          (by rw [parseStep_method p c hst]; simp [hd, hv, hfull])]
        rw [advance_fst]
        apply ih { p with m_method := p.m_method ++ [c] } hst
          (fun d hd => hD d (List.mem_cons_of_mem _ hd))
        · intro ⟨h1, h2⟩
          apply hbad
          refine ⟨?_, ?_⟩
          · intro d hd
            rcases List.mem_cons.1 hd with rfl | hd
            · exact hv
            · exact h1 d hd
          · simp at h2 ⊢; omega
        · simp; omega
    · rw [parseRequestHeaders_cons_ret p p c _ .false_value 0
        (by rw [parseStep_method p c hst]; simp [hd, hv])]

/-- Characters of the resource that pass the test and fit are pushed, one by one. -/
theorem run_uri_stem (p : HTTPRequestParser) (M : Str)
    (hst : p.m_parse_state = .PARSE_URI_STEM)
    (hD : ∀ c ∈ M, c ≠ 32 ∧ c ≠ 63)
    (hV : ∀ c ∈ M, isControl c = false)
    (hlen : p.m_resource.length + M.length ≤ RESOURCE_MAX) :
    RunsTo p M { p with m_resource := p.m_resource ++ M } := by
  induction M generalizing p with
  | nil => simpa using runsTo_nil p
  | cons c M ih =>
    have hd := hD c (List.mem_cons_self _ _)
    have hv := hV c (List.mem_cons_self _ _)
    simp only [List.length_cons] at hlen
    have hfull : ¬ (p.m_resource.length ≥ RESOURCE_MAX) := by omega
    have hstep : parseStep p c = .next { p with m_resource := p.m_resource ++ [c] } := by
      rw [parseStep_uri_stem p c hst]
      simp [hd.1, hd.2, hv, hfull]
    have := ih { p with m_resource := p.m_resource ++ [c] } hst
      (fun d hd => hD d (List.mem_cons_of_mem _ hd))
      (fun d hd => hV d (List.mem_cons_of_mem _ hd)) (by simp; omega)
    simp only [List.append_assoc, List.singleton_append] at this
    exact runsTo_cons _ _ _ c M hstep this

/-- A resource with a character that fails the test, or one that does not fit, makes
the call return false. -/
theorem fail_uri_stem (p : HTTPRequestParser) (M X : Str)
    (hst : p.m_parse_state = .PARSE_URI_STEM)
    (hD : ∀ c ∈ M, c ≠ 32 ∧ c ≠ 63)
    (hbad : ¬ ((∀ c ∈ M, isControl c = false) ∧ p.m_resource.length + M.length ≤ RESOURCE_MAX))
    (hacc : p.m_resource.length ≤ RESOURCE_MAX) :
    (parseRequestHeaders p (M ++ X)).1 = .false_value := by
  induction M generalizing p with
  | nil => simp at hbad; omega
  | cons c M ih =>
    have hd := hD c (List.mem_cons_self _ _)
    rw [List.cons_append]
    by_cases hv : isControl c = false
    · by_cases hfull : p.m_resource.length ≥ RESOURCE_MAX
      · rw [parseRequestHeaders_cons_ret p p c _ .false_value 0
          (by rw [parseStep_uri_stem p c hst]; simp [hd.1, hd.2, hv, hfull])]
      · rw [parse_cons_next p { p with m_resource := p.m_resource ++ [c] } c _
          (by rw [parseStep_uri_stem p c hst]; simp [hd.1, hd.2, hv, hfull])]
        rw [advance_fst]
        apply ih { p with m_resource := p.m_resource ++ [c] } hst
          (fun d hd => hD d (List.mem_cons_of_mem _ hd))
        · intro ⟨h1, h2⟩
          apply hbad
          refine ⟨?_, ?_⟩
          · intro d hd
            rcases List.mem_cons.1 hd with rfl | hd
            · exact hv
            · exact h1 d hd
          · simp at h2 ⊢; omega
        · simp; omega
    · rw [parseRequestHeaders_cons_ret p p c _ .false_value 0
        (by rw [parseStep_uri_stem p c hst]; simp [hd.1, hd.2, hv])]

/-- Characters of the query string that pass the test and fit are pushed, one by one. -/
theorem run_uri_query (p : HTTPRequestParser) (M : Str)
    (hst : p.m_parse_state = .PARSE_URI_QUERY)
    (hD : ∀ c ∈ M, c ≠ 32)
    (hV : ∀ c ∈ M, isControl c = false)
    (hlen : p.m_query_string.length + M.length ≤ QUERY_STRING_MAX) :
    RunsTo p M { p with m_query_string := p.m_query_string ++ M } := by
  induction M generalizing p with
  | nil => simpa using runsTo_nil p
  | cons c M ih =>
    have hd := hD c (List.mem_cons_self _ _)
    have hv := hV c (List.mem_cons_self _ _)
    simp only [List.length_cons] at hlen
    have hfull : ¬ (p.m_query_string.length ≥ QUERY_STRING_MAX) := by omega
    have hstep : parseStep p c = .next { p with m_query_string := p.m_query_string ++ [c] } := by
      rw [parseStep_uri_query p c hst]
      simp [hd, hv, hfull]
    have := ih { p with m_query_string := p.m_query_string ++ [c] } hst
      (fun d hd => hD d (List.mem_cons_of_mem _ hd))
      (fun d hd => hV d (List.mem_cons_of_mem _ hd)) (by simp; omega)
    simp only [List.append_assoc, List.singleton_append] at this
    exact runsTo_cons _ _ _ c M hstep this

/-- A query string with a character that fails the test, or one that does not fit, makes
the call return false. -/
theorem fail_uri_query (p : HTTPRequestParser) (M X : Str)
    (hst : p.m_parse_state = .PARSE_URI_QUERY)
    (hD : ∀ c ∈ M, c ≠ 32)
    (hbad : ¬ ((∀ c ∈ M, isControl c = false) ∧ p.m_query_string.length + M.length ≤ QUERY_STRING_MAX))
    (hacc : p.m_query_string.length ≤ QUERY_STRING_MAX) :
    (parseRequestHeaders p (M ++ X)).1 = .false_value := by
  induction M generalizing p with
  | nil => simp at hbad; omega
  | cons c M ih =>
    have hd := hD c (List.mem_cons_self _ _)
    rw [List.cons_append]
    by_cases hv : isControl c = false
    · by_cases hfull : p.m_query_string.length ≥ QUERY_STRING_MAX
      · rw [parseRequestHeaders_cons_ret p p c _ .false_value 0
          (by rw [parseStep_uri_query p c hst]; simp [hd, hv, hfull])]
      · rw [parse_cons_next p { p with m_query_string := p.m_query_string ++ [c] } c _
          (by rw [parseStep_uri_query p c hst]; simp [hd, hv, hfull])]
        rw [advance_fst]
        apply ih { p with m_query_string := p.m_query_string ++ [c] } hst
          (fun d hd => hD d (List.mem_cons_of_mem _ hd))
        · intro ⟨h1, h2⟩
          apply hbad
          refine ⟨?_, ?_⟩
          · intro d hd
            rcases List.mem_cons.1 hd with rfl | hd
            · exact hv
            · exact h1 d hd
          · simp at h2 ⊢; omega
        · simp; omega
    · rw [parseRequestHeaders_cons_ret p p c _ .false_value 0
        (by rw [parseStep_uri_query p c hst]; simp [hd, hv])]

/-- Characters of the header name that pass the test and fit are pushed, one by one. -/
theorem run_header_name (p : HTTPRequestParser) (M : Str)
    (hst : p.m_parse_state = .PARSE_HEADER_NAME)
    (hD : ∀ c ∈ M, c ≠ 58)
    (hV : ∀ c ∈ M, isToken c = true)
    (hlen : p.m_header_name.length + M.length ≤ HEADER_NAME_MAX) :
    RunsTo p M { p with m_header_name := p.m_header_name ++ M } := by
  induction M generalizing p with
  | nil => simpa using runsTo_nil p
  | cons c M ih =>
    have hd := hD c (List.mem_cons_self _ _)
    have hv := hV c (List.mem_cons_self _ _)
    simp only [List.length_cons] at hlen
    have hfull : ¬ (p.m_header_name.length ≥ HEADER_NAME_MAX) := by omega
    have hstep : parseStep p c = .next { p with m_header_name := p.m_header_name ++ [c] } := by
      rw [parseStep_header_name p c hst]
      simp [hd, hv, hfull]
    have := ih { p with m_header_name := p.m_header_name ++ [c] } hst
      (fun d hd => hD d (List.mem_cons_of_mem _ hd))
      (fun d hd => hV d (List.mem_cons_of_mem _ hd)) (by simp; omega)
    simp only [List.append_assoc, List.singleton_append] at this
    exact runsTo_cons _ _ _ c M hstep this

/-- A header name with a character that fails the test, or one that does not fit, makes
the call return false. -/
theorem fail_header_name (p : HTTPRequestParser) (M X : Str)
    (hst : p.m_parse_state = .PARSE_HEADER_NAME)
    (hD : ∀ c ∈ M, c ≠ 58)
    (hbad : ¬ ((∀ c ∈ M, isToken c = true) ∧ p.m_header_name.length + M.length ≤ HEADER_NAME_MAX))
    (hacc : p.m_header_name.length ≤ HEADER_NAME_MAX) :
    (parseRequestHeaders p (M ++ X)).1 = .false_value := by
  induction M generalizing p with
  | nil => simp at hbad; omega
  | cons c M ih =>
    have hd := hD c (List.mem_cons_self _ _)
    rw [List.cons_append]
    by_cases hv : isToken c = true
    · by_cases hfull : p.m_header_name.length ≥ HEADER_NAME_MAX
      · rw [parseRequestHeaders_cons_ret p p c _ .false_value 0
          (by rw [parseStep_header_name p c hst]; simp [hd, hv, hfull])]
      · rw [parse_cons_next p { p with m_header_name := p.m_header_name ++ [c] } c _
          (by rw [parseStep_header_name p c hst]; simp [hd, hv, hfull])]
        rw [advance_fst]
        apply ih { p with m_header_name := p.m_header_name ++ [c] } hst
          (fun d hd => hD d (List.mem_cons_of_mem _ hd))
        · intro ⟨h1, h2⟩
          apply hbad
          refine ⟨?_, ?_⟩
          · intro d hd
            rcases List.mem_cons.1 hd with rfl | hd
            · exact hv
            · exact h1 d hd
          · simp at h2 ⊢; omega
        · simp; omega
    · rw [parseRequestHeaders_cons_ret p p c _ .false_value 0
        (by rw [parseStep_header_name p c hst]; simp [hd, hv])]

/-- Characters of the header value that pass the test and fit are pushed, one by one. -/
theorem run_header_value (p : HTTPRequestParser) (M : Str)
    (hst : p.m_parse_state = .PARSE_HEADER_VALUE)
    (hD : ∀ c ∈ M, c ≠ 13 ∧ c ≠ 10)
    (hV : ∀ c ∈ M, isControl c = false)
    (hlen : p.m_header_value.length + M.length ≤ HEADER_VALUE_MAX) :
    RunsTo p M { p with m_header_value := p.m_header_value ++ M } := by
  induction M generalizing p with
  | nil => simpa using runsTo_nil p
  | cons c M ih =>
    have hd := hD c (List.mem_cons_self _ _)
    have hv := hV c (List.mem_cons_self _ _)
    simp only [List.length_cons] at hlen
    have hfull : ¬ (p.m_header_value.length ≥ HEADER_VALUE_MAX) := by omega
    have hstep : parseStep p c = .next { p with m_header_value := p.m_header_value ++ [c] } := by
      rw [parseStep_header_value p c hst]
      simp [hd.1, hd.2, hv, hfull]
    have := ih { p with m_header_value := p.m_header_value ++ [c] } hst
      (fun d hd => hD d (List.mem_cons_of_mem _ hd))
      (fun d hd => hV d (List.mem_cons_of_mem _ hd)) (by simp; omega)
    simp only [List.append_assoc, List.singleton_append] at this
    exact runsTo_cons _ _ _ c M hstep this

/-- A header value with a character that fails the test, or one that does not fit, makes
the call return false. -/
theorem fail_header_value (p : HTTPRequestParser) (M X : Str)
    (hst : p.m_parse_state = .PARSE_HEADER_VALUE)
    (hD : ∀ c ∈ M, c ≠ 13 ∧ c ≠ 10)
    (hbad : ¬ ((∀ c ∈ M, isControl c = false) ∧ p.m_header_value.length + M.length ≤ HEADER_VALUE_MAX))
    (hacc : p.m_header_value.length ≤ HEADER_VALUE_MAX) :
    (parseRequestHeaders p (M ++ X)).1 = .false_value := by
  induction M generalizing p with
  | nil => simp at hbad; omega
  | cons c M ih =>
    have hd := hD c (List.mem_cons_self _ _)
    rw [List.cons_append]
    by_cases hv : isControl c = false
    · by_cases hfull : p.m_header_value.length ≥ HEADER_VALUE_MAX
      · rw [parseRequestHeaders_cons_ret p p c _ .false_value 0
          (by rw [parseStep_header_value p c hst]; simp [hd.1, hd.2, hv, hfull])]
      · rw [parse_cons_next p { p with m_header_value := p.m_header_value ++ [c] } c _
          (by rw [parseStep_header_value p c hst]; simp [hd.1, hd.2, hv, hfull])]
        rw [advance_fst]
        apply ih { p with m_header_value := p.m_header_value ++ [c] } hst
          (fun d hd => hD d (List.mem_cons_of_mem _ hd))
        · intro ⟨h1, h2⟩
          apply hbad
          refine ⟨?_, ?_⟩
          · intro d hd
            rcases List.mem_cons.1 hd with rfl | hd
            · exact hv
            · exact h1 d hd
          · simp at h2 ⊢; omega
        · simp; omega
    · rw [parseRequestHeaders_cons_ret p p c _ .false_value 0
        (by rw [parseStep_header_value p c hst]; simp [hd.1, hd.2, hv])]

end HTTPRequestParser

namespace HTTPRequestParser

/-! ## The request line -/

theorem isToken_ne_sp (c : Int) (h : isToken c = true) : c ≠ 32 :=
  isToken_ne c 32 h (by decide)

theorem isToken_ne_cr (c : Int) (h : isToken c = true) : c ≠ 13 :=
  isToken_ne c 13 h (by decide)

theorem isToken_ne_lf (c : Int) (h : isToken c = true) : c ≠ 10 :=
  isToken_ne c 10 h (by decide)

theorem isToken_ne_tab (c : Int) (h : isToken c = true) : c ≠ 9 :=
  isToken_ne c 9 h (by decide)

theorem isToken_ne_colon (c : Int) (h : isToken c = true) : c ≠ 58 :=
  isToken_ne c 58 h (by decide)

theorem isControl_false_ne (c d : Int) (h : isControl c = false) (hd : isControl d = true) :
    c ≠ d := by
  intro h2; subst h2; rw [h] at hd; cases hd

theorem isDigit_bounds (c : Int) (h : isDigit c = true) : 48 ≤ c ∧ c ≤ 57 := by
  simpa [isDigit] using h

theorem toUnsigned_of_lt (x : Int) (h0 : 0 ≤ x) (h1 : x < 4294967296) :
    toUnsigned x = x.toNat := by
  unfold toUnsigned
  rw [Int.emod_eq_of_lt h0 h1]

theorem le_digitsFrom (n : Nat) (a : Str) : n ≤ digitsFrom n a := by
  induction a generalizing n with
  | nil => simp [digitsFrom]
  | cons c a ih =>
    have := ih (n * 10 + (c - 48).toNat)
    simp only [digitsFrom, List.foldl_cons] at this ⊢
    omega

theorem digitsFrom_cons (n : Nat) (c : Int) (a : Str) :
    digitsFrom n (c :: a) = digitsFrom (n * 10 + (c - 48).toNat) a := rfl

/-- A method token from the start state up to the space after it. -/
theorem run_method_token (p : HTTPRequestParser) (M : Str)
    (hst : p.m_parse_state = .PARSE_METHOD_START)
    (hne : M ≠ [])
    (hM : ∀ c ∈ M, isToken c = true)
    (hlen : M.length ≤ METHOD_MAX) :
    RunsTo p (M ++ [32])
      { p with m_http_request := p.m_http_request.setMethod M, m_method := M,
               m_resource := [], m_parse_state := .PARSE_URI_STEM } := by
  cases M with
  | nil => exact absurd rfl hne
  | cons c M =>
    have hc : isToken c = true := hM c (List.mem_cons_self _ _)
    simp only [List.length_cons] at hlen
    have h1 : parseStep p c
        = .next { p with m_parse_state := .PARSE_METHOD, m_method := [c] } := by
      rw [parseStep_method_start p c hst]
      simp [isToken_ne_sp c hc, isToken_ne_cr c hc, isToken_ne_lf c hc, hc]
    have h2 := run_method { p with m_parse_state := .PARSE_METHOD, m_method := [c] } M rfl
      (fun d hd => isToken_ne_sp d (hM d (List.mem_cons_of_mem _ hd)))
      (fun d hd => hM d (List.mem_cons_of_mem _ hd)) (by simp; omega)
    have h3 := runsTo_single
      { p with m_parse_state := .PARSE_METHOD, m_method := [c] ++ M }
      { p with m_http_request := p.m_http_request.setMethod (c :: M), m_method := c :: M,
               m_resource := [], m_parse_state := .PARSE_URI_STEM } 32
      (by rw [parseStep_method _ 32 rfl]; simp)
    exact runsTo_cons _ _ _ c _ h1 (runsTo_append _ _ _ _ _ h2 h3)

/-- A resource without query string, up to the space after it. -/
theorem run_resource (p : HTTPRequestParser) (R : Str)
    (hst : p.m_parse_state = .PARSE_URI_STEM)
    (hacc : p.m_resource = [])
    (hR : ∀ c ∈ R, c ≠ 32 ∧ c ≠ 63)
    (hV : ∀ c ∈ R, isControl c = false)
    (hlen : R.length ≤ RESOURCE_MAX) :
    RunsTo p (R ++ [32])
      { p with m_http_request := p.m_http_request.setResource R, m_resource := R,
               m_parse_state := .PARSE_HTTP_VERSION_H } := by
  have h2 := run_uri_stem p R hst hR hV (by rw [hacc]; simpa using hlen)
  rw [hacc] at h2
  have h3 := runsTo_single
    { p with m_resource := [] ++ R }
    { p with m_http_request := p.m_http_request.setResource R, m_resource := R,
             m_parse_state := .PARSE_HTTP_VERSION_H } 32
    (by rw [parseStep_uri_stem { p with m_resource := [] ++ R } 32 hst]; simp)
  exact runsTo_append _ _ _ _ _ h2 h3

/-- The literal `HTTP/`. -/
theorem run_http_literal (p : HTTPRequestParser)
    (hst : p.m_parse_state = .PARSE_HTTP_VERSION_H) :
    RunsTo p [72, 84, 84, 80, 47] { p with m_parse_state := .PARSE_HTTP_VERSION_MAJOR_START } := by
  refine runsTo_cons _ { p with m_parse_state := .PARSE_HTTP_VERSION_T_1 } _ 72 _
    (by rw [parseStep_http_version_h p 72 hst]; simp) ?_
  refine runsTo_cons _ { p with m_parse_state := .PARSE_HTTP_VERSION_T_2 } _ 84 _
    (by rw [parseStep_http_version_t_1 _ 84 rfl]; simp) ?_
  refine runsTo_cons _ { p with m_parse_state := .PARSE_HTTP_VERSION_P } _ 84 _
    (by rw [parseStep_http_version_t_2 _ 84 rfl]; simp) ?_
  refine runsTo_cons _ { p with m_parse_state := .PARSE_HTTP_VERSION_SLASH } _ 80 _
    (by rw [parseStep_http_version_p _ 80 rfl]; simp) ?_
  exact runsTo_single _ _ 47 (by rw [parseStep_http_version_slash _ 47 rfl]; simp)

/-- Further digits of the major version number. -/
theorem run_major_digits (p : HTTPRequestParser) (a : Str)
    (hst : p.m_parse_state = .PARSE_HTTP_VERSION_MAJOR)
    (ha : ∀ c ∈ a, isDigit c = true)
    (hval : digitsFrom p.m_http_request.m_version_major a < 4294967296) :
    RunsTo p a { p with m_http_request := p.m_http_request.setVersionMajor (digitsFrom p.m_http_request.m_version_major a) } := by
  induction a generalizing p with
  | nil => simpa [digitsFrom, HTTPRequest.setVersionMajor] using runsTo_nil p
  | cons c a ih =>
    have hc := isDigit_bounds c (ha c (List.mem_cons_self _ _))
    rw [digitsFrom_cons] at hval ⊢
    have hle := le_digitsFrom (p.m_http_request.m_version_major * 10 + (c - 48).toNat) a
    have hu : toUnsigned ((p.m_http_request.m_version_major : Int) * 10 + (c - 48))
        = p.m_http_request.m_version_major * 10 + (c - 48).toNat := by
      rw [toUnsigned_of_lt _ (by omega) (by omega)]
      omega
    have hstep : parseStep p c = .next { p with m_http_request := p.m_http_request.setVersionMajor (p.m_http_request.m_version_major * 10 + (c - 48).toNat) } := by
      rw [parseStep_http_version_major p c hst]
      have h46 : c ≠ 46 := by omega
      simp only [if_neg h46, ha c (List.mem_cons_self _ _), if_true, HTTPMessage.getVersionMajor, hu]
    have := ih { p with m_http_request := p.m_http_request.setVersionMajor (p.m_http_request.m_version_major * 10 + (c - 48).toNat) } hst
      (fun d hd => ha d (List.mem_cons_of_mem _ hd)) hval
    exact runsTo_cons _ _ _ c a hstep this

/-- Further digits of the minor version number. -/
theorem run_minor_digits (p : HTTPRequestParser) (a : Str)
    (hst : p.m_parse_state = .PARSE_HTTP_VERSION_MINOR)
    (ha : ∀ c ∈ a, isDigit c = true)
    (hval : digitsFrom p.m_http_request.m_version_minor a < 4294967296) :
    RunsTo p a { p with m_http_request := p.m_http_request.setVersionMinor (digitsFrom p.m_http_request.m_version_minor a) } := by
  induction a generalizing p with
  | nil => simpa [digitsFrom, HTTPRequest.setVersionMinor] using runsTo_nil p
  | cons c a ih =>
    have hc := isDigit_bounds c (ha c (List.mem_cons_self _ _))
    rw [digitsFrom_cons] at hval ⊢
    have hle := le_digitsFrom (p.m_http_request.m_version_minor * 10 + (c - 48).toNat) a
    have hu : toUnsigned ((p.m_http_request.m_version_minor : Int) * 10 + (c - 48))
        = p.m_http_request.m_version_minor * 10 + (c - 48).toNat := by
      rw [toUnsigned_of_lt _ (by omega) (by omega)]
      omega
    have hstep : parseStep p c = .next { p with m_http_request := p.m_http_request.setVersionMinor (p.m_http_request.m_version_minor * 10 + (c - 48).toNat) } := by
      rw [parseStep_http_version_minor p c hst]
      have h13 : c ≠ 13 := by omega
      have h10 : c ≠ 10 := by omega
      simp only [if_neg h13, if_neg h10, ha c (List.mem_cons_self _ _), if_true,
        HTTPMessage.getVersionMinor, hu]
    have := ih { p with m_http_request := p.m_http_request.setVersionMinor (p.m_http_request.m_version_minor * 10 + (c - 48).toNat) } hst
      (fun d hd => ha d (List.mem_cons_of_mem _ hd)) hval
    exact runsTo_cons _ _ _ c a hstep this

end HTTPRequestParser
namespace HTTPRequestParser

/-- The major version number, from its first digit to the dot. -/
theorem run_major (p : HTTPRequestParser) (a : Str)
    (hst : p.m_parse_state = .PARSE_HTTP_VERSION_MAJOR_START)
    (hne : a ≠ [])
    (ha : ∀ c ∈ a, isDigit c = true)
    (hval : digitsValue a < 4294967296) :
    RunsTo p (a ++ [46])
      { p with m_http_request := p.m_http_request.setVersionMajor (digitsValue a),
               m_parse_state := .PARSE_HTTP_VERSION_MINOR_START } := by
  cases a with
  | nil => exact absurd rfl hne
  | cons c a =>
    have hc := isDigit_bounds c (ha c (List.mem_cons_self _ _))
    have hv : digitsFrom (c - 48).toNat a < 4294967296 := by
      simpa [digitsValue, digitsFrom] using hval
    have hle := le_digitsFrom (c - 48).toNat a
    have hu : toUnsigned (c - 48) = (c - 48).toNat :=
      toUnsigned_of_lt _ (by omega) (by omega)
    have h1 : parseStep p c = .next { p with m_http_request := p.m_http_request.setVersionMajor (c - 48).toNat, m_parse_state := .PARSE_HTTP_VERSION_MAJOR } := by
      rw [parseStep_http_version_major_start p c hst]
      simp [ha c (List.mem_cons_self _ _), hu]
    have h2 := run_major_digits { p with m_http_request := p.m_http_request.setVersionMajor (c - 48).toNat, m_parse_state := .PARSE_HTTP_VERSION_MAJOR } a rfl
      (fun d hd => ha d (List.mem_cons_of_mem _ hd)) hv
    have h3 := runsTo_single
      { p with m_http_request := p.m_http_request.setVersionMajor (digitsFrom (c - 48).toNat a), m_parse_state := .PARSE_HTTP_VERSION_MAJOR }
      { p with m_http_request := p.m_http_request.setVersionMajor (digitsFrom (c - 48).toNat a), m_parse_state := .PARSE_HTTP_VERSION_MINOR_START } 46
      (by rw [parseStep_http_version_major _ 46 rfl]; simp)
    have h4 := runsTo_cons _ _ _ c _ h1 (runsTo_append _ _ _ _ _ h2 h3)
    simpa [digitsValue, digitsFrom, HTTPRequest.setVersionMajor] using h4

/-- The minor version number, from its first digit to its last. -/
theorem run_minor (p : HTTPRequestParser) (a : Str)
    (hst : p.m_parse_state = .PARSE_HTTP_VERSION_MINOR_START)
    (hne : a ≠ [])
    (ha : ∀ c ∈ a, isDigit c = true)
    (hval : digitsValue a < 4294967296) :
    RunsTo p a
      { p with m_http_request := p.m_http_request.setVersionMinor (digitsValue a),
               m_parse_state := .PARSE_HTTP_VERSION_MINOR } := by
  cases a with
  | nil => exact absurd rfl hne
  | cons c a =>
    have hc := isDigit_bounds c (ha c (List.mem_cons_self _ _))
    have hv : digitsFrom (c - 48).toNat a < 4294967296 := by
      simpa [digitsValue, digitsFrom] using hval
    have hle := le_digitsFrom (c - 48).toNat a
    have hu : toUnsigned (c - 48) = (c - 48).toNat :=
      toUnsigned_of_lt _ (by omega) (by omega)
    have h1 : parseStep p c = .next { p with m_http_request := p.m_http_request.setVersionMinor (c - 48).toNat, m_parse_state := .PARSE_HTTP_VERSION_MINOR } := by
      rw [parseStep_http_version_minor_start p c hst]
      simp [ha c (List.mem_cons_self _ _), hu]
    have h2 := run_minor_digits { p with m_http_request := p.m_http_request.setVersionMinor (c - 48).toNat, m_parse_state := .PARSE_HTTP_VERSION_MINOR } a rfl
      (fun d hd => ha d (List.mem_cons_of_mem _ hd)) hv
    have h4 := runsTo_cons _ _ _ c _ h1 h2
    simpa [digitsValue, digitsFrom, HTTPRequest.setVersionMinor] using h4

/-- The version `HTTP/a.b`. -/
theorem run_version (p : HTTPRequestParser) (a b : Str)
    (hst : p.m_parse_state = .PARSE_HTTP_VERSION_H)
    (ha0 : a ≠ []) (ha : ∀ c ∈ a, isDigit c = true) (hav : digitsValue a < 4294967296)
    (hb0 : b ≠ []) (hb : ∀ c ∈ b, isDigit c = true) (hbv : digitsValue b < 4294967296) :
    RunsTo p ([72, 84, 84, 80, 47] ++ (a ++ [46]) ++ b)
      { p with m_http_request := (p.m_http_request.setVersionMajor (digitsValue a)).setVersionMinor (digitsValue b),
               m_parse_state := .PARSE_HTTP_VERSION_MINOR } := by
  have h1 := run_http_literal p hst
  have h2 := run_major { p with m_parse_state := .PARSE_HTTP_VERSION_MAJOR_START } a rfl ha0 ha hav
  have h3 := run_minor { p with m_http_request := p.m_http_request.setVersionMajor (digitsValue a), m_parse_state := .PARSE_HTTP_VERSION_MINOR_START } b rfl hb0 hb hbv
  exact runsTo_append _ _ _ _ _ (runsTo_append _ _ _ _ _ h1 h2) h3

/-- After the version, CRLF CRLF ends the request; nothing after it is looked at. -/
theorem parse_crlf_crlf (p : HTTPRequestParser) (X : Str)
    (hst : p.m_parse_state = .PARSE_HTTP_VERSION_MINOR) :
    parseRequestHeaders p ([13, 10, 13, 10] ++ X)
      = (.true_value, 4, { p with m_parse_state := .PARSE_EXPECTING_FINAL_NEWLINE }) := by
  have s1 : parseStep p 13 = .next { p with m_parse_state := .PARSE_EXPECTING_NEWLINE } := by
    rw [parseStep_http_version_minor p 13 hst]; simp
  have s2 : parseStep { p with m_parse_state := .PARSE_EXPECTING_NEWLINE } 10
      = .next { p with m_parse_state := .PARSE_HEADER_START } := by
    rw [parseStep_expecting_newline _ 10 rfl]; simp
  have s3 : parseStep { p with m_parse_state := .PARSE_HEADER_START } 13
      = .next { p with m_parse_state := .PARSE_EXPECTING_FINAL_NEWLINE } := by
    rw [parseStep_header_start _ 13 rfl]; simp
  have s4 : parseStep { p with m_parse_state := .PARSE_EXPECTING_FINAL_NEWLINE } 10
      = .ret .true_value 1 { p with m_parse_state := .PARSE_EXPECTING_FINAL_NEWLINE } := by
    rw [parseStep_expecting_final_newline _ 10 rfl]; simp
  simp only [List.cons_append, List.nil_append]
  rw [parse_cons_next _ _ 13 _ s1, parse_cons_next _ _ 10 _ s2, parse_cons_next _ _ 13 _ s3,
    parseRequestHeaders_cons_ret _ _ 10 _ _ _ s4]
  rfl

/-- Claim C8.  For every method token M (1 to 1,024 characters, each an ASCII
character that is neither control nor special), every resource R (at most 262,144
characters, none a control character, SP or a question mark) and all non-empty strings
of decimal digits a and b with values below 2^32, parsing
M SP R SP HTTP/ a . b CRLF CRLF from the initial state returns true, consumes every
character and leaves a request that differs from a fresh one exactly in method = M,
resource = R, version major = value(a) and minor = value(b): the query string is
empty and there are no headers.  For GET / HTTP/1.0 CRLF CRLF this is GET, "/", 1.0,
content length 0 and keep-alive false. -/
theorem parse_request_line_only (M R a b : Str)
    (hM0 : M ≠ []) (hMlen : M.length ≤ 1024)
    (hM : ∀ c ∈ M, isChar c = true ∧ isControl c = false ∧ isSpecial c = false)
    (hRlen : R.length ≤ 262144)
    (hR : ∀ c ∈ R, isControl c = false ∧ c ≠ 32 ∧ c ≠ 63)
    (ha0 : a ≠ []) (ha : ∀ c ∈ a, isDigit c = true) (hav : digitsValue a < 2 ^ 32)
    (hb0 : b ≠ []) (hb : ∀ c ∈ b, isDigit c = true) (hbv : digitsValue b < 2 ^ 32) :
    (parseRequestHeaders HTTPRequestParser.new
        (M ++ [32] ++ R ++ [32] ++ str "HTTP/" ++ a ++ [46] ++ b ++ [13, 10, 13, 10])).1
      = .true_value
    ∧ (parseRequestHeaders HTTPRequestParser.new
        (M ++ [32] ++ R ++ [32] ++ str "HTTP/" ++ a ++ [46] ++ b ++ [13, 10, 13, 10])).2.1
      = (M ++ [32] ++ R ++ [32] ++ str "HTTP/" ++ a ++ [46] ++ b ++ [13, 10, 13, 10]).length
    ∧ (parseRequestHeaders HTTPRequestParser.new
        (M ++ [32] ++ R ++ [32] ++ str "HTTP/" ++ a ++ [46] ++ b ++ [13, 10, 13, 10])).2.2.m_http_request
      = { HTTPRequest.create with
          m_method := M, m_resource := R, m_query_string := [], m_headers := [],
          m_version_major := digitsValue a, m_version_minor := digitsValue b }
    ∧ (parseRequestHeaders HTTPRequestParser.new (str "GET / HTTP/1.0\r\n\r\n")).1 = .true_value
    ∧ (parseRequestHeaders HTTPRequestParser.new (str "GET / HTTP/1.0\r\n\r\n")).2.1 = 18
    ∧ (parseRequestHeaders HTTPRequestParser.new
        (str "GET / HTTP/1.0\r\n\r\n")).2.2.m_http_request
      = { HTTPRequest.create with
          m_method := str "GET", m_resource := str "/", m_version_major := 1,
          m_version_minor := 0 }
    ∧ (parseRequestHeaders HTTPRequestParser.new
        (str "GET / HTTP/1.0\r\n\r\n")).2.2.m_http_request.getContentLength = 0
    ∧ (parseRequestHeaders HTTPRequestParser.new
        (str "GET / HTTP/1.0\r\n\r\n")).2.2.m_http_request.checkKeepAlive = false := by
  have hMt : ∀ c ∈ M, isToken c = true := by
    intro c hc
    obtain ⟨h1, h2, h3⟩ := hM c hc
    simp [isToken, h1, h2, h3]
  have r1 := run_method_token HTTPRequestParser.new M rfl hM0 hMt hMlen
  have r2 := run_resource
    { HTTPRequestParser.new with
      m_http_request := HTTPRequestParser.new.m_http_request.setMethod M, m_method := M,
      m_resource := [], m_parse_state := .PARSE_URI_STEM } R rfl rfl
    (fun c hc => ⟨(hR c hc).2.1, (hR c hc).2.2⟩)
    (fun c hc => (hR c hc).1) (show R.length ≤ RESOURCE_MAX from hRlen)
  have r3 := run_version
    { HTTPRequestParser.new with
      m_http_request := (HTTPRequestParser.new.m_http_request.setMethod M).setResource R,
      m_method := M, m_resource := R, m_parse_state := .PARSE_HTTP_VERSION_H }
    a b rfl ha0 ha hav hb0 hb hbv
  have r := runsTo_append _ _ _ _ _ (runsTo_append _ _ _ _ _ r1 r2) r3
  have hfin := r [13, 10, 13, 10]
  rw [← List.append_nil [13, 10, 13, 10], parse_crlf_crlf _ [] rfl] at hfin
  have htext : M ++ [32] ++ R ++ [32] ++ str "HTTP/" ++ a ++ [46] ++ b ++ [13, 10, 13, 10]
      = M ++ [32] ++ (R ++ [32]) ++ ([72, 84, 84, 80, 47] ++ (a ++ [46]) ++ b)
          ++ ([13, 10, 13, 10] ++ []) := by
    have : str "HTTP/" = [72, 84, 84, 80, 47] := by decide
    rw [this]
    simp
  rw [htext, hfin]
  refine ⟨rfl, ?_, rfl, ?_, ?_, ?_, ?_, ?_⟩
  · simp [advance]; omega
  · decide
  · decide
  · decide
  · decide
  · decide

end HTTPRequestParser
namespace HTTPRequestParser

/-- Claim C8 at GET / HTTP/1.1: the hypotheses hold and the request is as stated. -/
theorem parse_request_line_only_witness :
    (parseRequestHeaders HTTPRequestParser.new
        ([71, 69, 84] ++ [32] ++ [47] ++ [32] ++ str "HTTP/" ++ [49] ++ [46] ++ [49]
          ++ [13, 10, 13, 10])).1 = .true_value
    ∧ (parseRequestHeaders HTTPRequestParser.new
        ([71, 69, 84] ++ [32] ++ [47] ++ [32] ++ str "HTTP/" ++ [49] ++ [46] ++ [49]
          ++ [13, 10, 13, 10])).2.1 = 18 :=
  ⟨(parse_request_line_only [71, 69, 84] [47] [49] [49] (by decide) (by decide) (by decide)
      (by decide) (by decide) (by decide) (by decide) (by decide) (by decide) (by decide)
      (by decide)).1,
   (parse_request_line_only [71, 69, 84] [47] [49] [49] (by decide) (by decide) (by decide)
      (by decide) (by decide) (by decide) (by decide) (by decide) (by decide) (by decide)
      (by decide)).2.1⟩

end HTTPRequestParser

namespace HTTPRequestParser

/-! ## Fields beyond their limit -/

/-- Parsing continues after a part that gave the indeterminate value. -/
theorem parse_after_indeterminate (p : HTTPRequestParser) (P Y : Str)
    (h : (parseRequestHeaders p P).1 = .indeterminate_value) :
    parseRequestHeaders p (P ++ Y)
      = advance P.length (parseRequestHeaders (parseRequestHeaders p P).2.2 Y) := by
  rw [parseRequestHeaders_append, h]
  rfl

/-- Leading SP, CR and LF are skipped in the start state. -/
theorem run_leading_whitespace (p : HTTPRequestParser) (W : Str)
    (hst : p.m_parse_state = .PARSE_METHOD_START)
    (hW : ∀ c ∈ W, c = 32 ∨ c = 13 ∨ c = 10) : RunsTo p W p := by
  induction W with
  | nil => exact runsTo_nil p
  | cons c W ih =>
    have hc := hW c (List.mem_cons_self _ _)
    have hstep : parseStep p c = .next p := by
      rw [parseStep_method_start p c hst]
      rcases hc with h | h | h <;> simp [h]
    exact runsTo_cons _ _ _ c W hstep (ih (fun d hd => hW d (List.mem_cons_of_mem _ hd)))

/-- A method of more than METHOD_MAX characters. -/
theorem over_method (p : HTTPRequestParser) (M X : Str)
    (hst : p.m_parse_state = .PARSE_METHOD_START)
    (hhead : ∀ c, M.head? = some c → c ≠ 13 ∧ c ≠ 10)
    (hM : ∀ c ∈ M, c ≠ 32)
    (hlen : M.length > METHOD_MAX) :
    (parseRequestHeaders p (M ++ X)).1 = .false_value := by
  cases M with
  | nil => simp at hlen
  | cons c M =>
    have hc32 := hM c (List.mem_cons_self _ _)
    have hc := hhead c rfl
    simp only [List.length_cons] at hlen
    rw [List.cons_append]
    by_cases ht : isToken c = true
    · rw [parse_cons_next p { p with m_parse_state := .PARSE_METHOD, m_method := [c] } c _
        (by rw [parseStep_method_start p c hst]; simp [hc32, hc.1, hc.2, ht]), advance_fst]
      apply fail_method { p with m_parse_state := .PARSE_METHOD, m_method := [c] } M X rfl
        (fun d hd => hM d (List.mem_cons_of_mem _ hd))
      · intro ⟨_, h2⟩
        simp at h2
        omega
      · simp [METHOD_MAX]
    · rw [parseRequestHeaders_cons_ret p p c _ .false_value 0
        (by rw [parseStep_method_start p c hst]; simp [hc32, hc.1, hc.2, ht])]

/-- The first character of a header name, in any of the four states that can start one. -/
theorem parseStep_name_start (p : HTTPRequestParser) (c : Int)
    (hst : p.m_parse_state = .PARSE_HEADER_START ∨ p.m_parse_state = .PARSE_EXPECTING_NEWLINE
      ∨ p.m_parse_state = .PARSE_EXPECTING_CR ∨ p.m_parse_state = .PARSE_HEADER_WHITESPACE)
    (hc : c ≠ 13 ∧ c ≠ 10 ∧ c ≠ 9 ∧ c ≠ 32) :
    parseStep p c =
      if isToken c = false then .ret .false_value 0 p
      else .next { p with m_header_name := [c], m_parse_state := .PARSE_HEADER_NAME } := by
  rcases hst with h | h | h | h
  · rw [parseStep_header_start p c h]; simp [hc.1, hc.2.1, hc.2.2.1, hc.2.2.2]
  · rw [parseStep_expecting_newline p c h]; simp [hc.1, hc.2.1, hc.2.2.1, hc.2.2.2]
  · rw [parseStep_expecting_cr p c h]; simp [hc.1, hc.2.1, hc.2.2.1, hc.2.2.2]
  · rw [parseStep_header_whitespace p c h]; simp [hc.1, hc.2.1, hc.2.2.1, hc.2.2.2]

/-- A header name of more than HEADER_NAME_MAX characters. -/
theorem over_header_name (p : HTTPRequestParser) (N X : Str)
    (hst : p.m_parse_state = .PARSE_HEADER_START ∨ p.m_parse_state = .PARSE_EXPECTING_NEWLINE
      ∨ p.m_parse_state = .PARSE_EXPECTING_CR ∨ p.m_parse_state = .PARSE_HEADER_WHITESPACE)
    (hhead : ∀ c, N.head? = some c → c ≠ 13 ∧ c ≠ 10 ∧ c ≠ 9 ∧ c ≠ 32)
    (hN : ∀ c ∈ N, c ≠ 58)
    (hlen : N.length > HEADER_NAME_MAX) :
    (parseRequestHeaders p (N ++ X)).1 = .false_value := by
  cases N with
  | nil => simp at hlen
  | cons c N =>
    have hc := hhead c rfl
    simp only [List.length_cons] at hlen
    rw [List.cons_append]
    by_cases ht : isToken c = true
    · rw [parse_cons_next p { p with m_header_name := [c], m_parse_state := .PARSE_HEADER_NAME }
        c _ (by rw [parseStep_name_start p c hst hc]; simp [ht]), advance_fst]
      apply fail_header_name { p with m_header_name := [c], m_parse_state := .PARSE_HEADER_NAME }
        N X rfl (fun d hd => hN d (List.mem_cons_of_mem _ hd))
      · intro ⟨_, h2⟩
        simp at h2
        omega
      · simp [HEADER_NAME_MAX]
    · rw [parseRequestHeaders_cons_ret p p c _ .false_value 0
        (by rw [parseStep_name_start p c hst hc]; simp [ht])]

/-- A header value of more than HEADER_VALUE_MAX characters, after the optional space. -/
theorem over_header_value (p : HTTPRequestParser) (sp : Bool) (V X : Str)
    (hst : p.m_parse_state = .PARSE_SPACE_BEFORE_HEADER_VALUE)
    (hacc : p.m_header_value = [])
    (hhead : sp = false → ∀ c, V.head? = some c → c ≠ 32)
    (hV : ∀ c ∈ V, c ≠ 13 ∧ c ≠ 10)
    (hlen : V.length > HEADER_VALUE_MAX) :
    (parseRequestHeaders p ((if sp then [32] else []) ++ V ++ X)).1 = .false_value := by
  cases sp with
  | true =>
    simp only [if_true, List.append_assoc, List.singleton_append, List.cons_append]
    rw [parse_cons_next p { p with m_parse_state := .PARSE_HEADER_VALUE } 32 _
      (by rw [parseStep_space_before_header_value p 32 hst]; simp), advance_fst]
    apply fail_header_value { p with m_parse_state := .PARSE_HEADER_VALUE } V X rfl hV
    · intro ⟨_, h2⟩
      simp [hacc] at h2
      omega
    · simp [hacc]
  | false =>
    cases V with
    | nil => simp at hlen
    | cons c V =>
      have hc32 := hhead rfl c rfl
      have hc := hV c (List.mem_cons_self _ _)
      simp only [List.length_cons] at hlen
      simp only [Bool.false_eq_true, if_false, List.nil_append, List.cons_append]
      by_cases ht : isToken c = true
      · rw [parse_cons_next p { p with m_header_value := p.m_header_value ++ [c], m_parse_state := .PARSE_HEADER_VALUE } c _
          (by rw [parseStep_space_before_header_value p c hst]; simp [hc32, hc.1, hc.2, ht]),
          advance_fst]
        apply fail_header_value { p with m_header_value := p.m_header_value ++ [c], m_parse_state := .PARSE_HEADER_VALUE } V X rfl
          (fun d hd => hV d (List.mem_cons_of_mem _ hd))
        · intro ⟨_, h2⟩
          simp [hacc] at h2
          omega
        · simp [hacc, HEADER_VALUE_MAX]
      · rw [parseRequestHeaders_cons_ret p p c _ .false_value 0
          (by rw [parseStep_space_before_header_value p c hst]; simp [hc32, hc.1, hc.2, ht])]

end HTTPRequestParser
namespace HTTPRequestParser

/-- Claim C3.  A field longer than its limit makes parseRequestHeaders return false,
whatever follows it: (1) a method (the characters after the leading SP, CR, LF up to
the first SP) of more than 1,024 characters; and, for every input P after which the
parser stands at the start of the field, (2) a resource (up to the first SP or
question mark) of more than 262,144 characters, (3) a query string (up to the first
SP) of more than 1,048,576, (4) a header name (up to the colon) of more than 1,024,
(5) a header value (after the colon and the optional space, up to CR or LF) of more
than 1,048,576.  In particular 1,025 times the letter A followed by SP is invalid. -/
theorem over_limit_fields_invalid :
    (∀ W M X : Str, (∀ c ∈ W, c = 32 ∨ c = 13 ∨ c = 10) →
        (∀ c, M.head? = some c → c ≠ 13 ∧ c ≠ 10) → (∀ c ∈ M, c ≠ 32) → M.length > 1024 →
        (parseRequestHeaders HTTPRequestParser.new (W ++ M ++ X)).1 = .false_value)
    ∧ (∀ P R X : Str, (parseRequestHeaders HTTPRequestParser.new P).1 = .indeterminate_value →
        (parseRequestHeaders HTTPRequestParser.new P).2.2.m_parse_state = .PARSE_URI_STEM →
        (parseRequestHeaders HTTPRequestParser.new P).2.2.m_resource = [] →
        (∀ c ∈ R, c ≠ 32 ∧ c ≠ 63) → R.length > 262144 →
        (parseRequestHeaders HTTPRequestParser.new (P ++ R ++ X)).1 = .false_value)
    ∧ (∀ P Q X : Str, (parseRequestHeaders HTTPRequestParser.new P).1 = .indeterminate_value →
        (parseRequestHeaders HTTPRequestParser.new P).2.2.m_parse_state = .PARSE_URI_QUERY →
        (parseRequestHeaders HTTPRequestParser.new P).2.2.m_query_string = [] →
        (∀ c ∈ Q, c ≠ 32) → Q.length > 1048576 →
        (parseRequestHeaders HTTPRequestParser.new (P ++ Q ++ X)).1 = .false_value)
    ∧ (∀ P N X : Str, (parseRequestHeaders HTTPRequestParser.new P).1 = .indeterminate_value →
        ((parseRequestHeaders HTTPRequestParser.new P).2.2.m_parse_state = .PARSE_HEADER_START
          ∨ (parseRequestHeaders HTTPRequestParser.new P).2.2.m_parse_state
              = .PARSE_EXPECTING_NEWLINE
          ∨ (parseRequestHeaders HTTPRequestParser.new P).2.2.m_parse_state = .PARSE_EXPECTING_CR
          ∨ (parseRequestHeaders HTTPRequestParser.new P).2.2.m_parse_state
              = .PARSE_HEADER_WHITESPACE) →
        (∀ c, N.head? = some c → c ≠ 13 ∧ c ≠ 10 ∧ c ≠ 9 ∧ c ≠ 32) →
        (∀ c ∈ N, c ≠ 58) → N.length > 1024 →
        (parseRequestHeaders HTTPRequestParser.new (P ++ N ++ X)).1 = .false_value)
    ∧ (∀ (P : Str) (sp : Bool) (V X : Str),
        (parseRequestHeaders HTTPRequestParser.new P).1 = .indeterminate_value →
        (parseRequestHeaders HTTPRequestParser.new P).2.2.m_parse_state
          = .PARSE_SPACE_BEFORE_HEADER_VALUE →
        (parseRequestHeaders HTTPRequestParser.new P).2.2.m_header_value = [] →
        (sp = false → ∀ c, V.head? = some c → c ≠ 32) →
        (∀ c ∈ V, c ≠ 13 ∧ c ≠ 10) → V.length > 1048576 →
        (parseRequestHeaders HTTPRequestParser.new
          (P ++ ((if sp then [32] else []) ++ V ++ X))).1 = .false_value)
    ∧ (parseRequestHeaders HTTPRequestParser.new (List.replicate 1025 65 ++ [32])).1
        = .false_value := by
  refine ⟨?_, ?_, ?_, ?_, ?_, ?_⟩
  · intro W M X hW hhead hM hlen
    rw [List.append_assoc, run_leading_whitespace HTTPRequestParser.new W rfl hW, advance_fst]
    exact over_method _ M X rfl hhead hM hlen
  · intro P R X hP hst hacc hR hlen
    rw [List.append_assoc, parse_after_indeterminate _ P _ hP, advance_fst]
    apply fail_uri_stem _ R X hst hR
    · intro ⟨_, h2⟩
      rw [hacc] at h2
      simp [RESOURCE_MAX] at h2
      omega
    · simp [hacc]
  · intro P Q X hP hst hacc hQ hlen
    rw [List.append_assoc, parse_after_indeterminate _ P _ hP, advance_fst]
    apply fail_uri_query _ Q X hst hQ
    · intro ⟨_, h2⟩
      rw [hacc] at h2
      simp [QUERY_STRING_MAX] at h2
      omega
    · simp [hacc]
  · intro P N X hP hst hhead hN hlen
    rw [List.append_assoc, parse_after_indeterminate _ P _ hP, advance_fst]
    exact over_header_name _ N X hst hhead hN hlen
  · intro P sp V X hP hst hacc hhead hV hlen
    rw [parse_after_indeterminate _ P _ hP, advance_fst]
    exact over_header_value _ sp V X hst hacc hhead hV hlen
  · apply over_method _ _ _ rfl
    · intro c hc
      rw [List.head?_replicate] at hc
      simp at hc
      omega
    · intro c hc
      have := List.eq_of_mem_replicate hc
      omega
    · rw [List.length_replicate]
      decide

/-- Claim C3 at sample requests: GET followed by a resource of 262,145 letters, and a
header name of 1,025 letters after a request line. -/
theorem over_limit_fields_invalid_witness :
    (parseRequestHeaders HTTPRequestParser.new
        (str "GET " ++ List.replicate 262145 97 ++ [32])).1 = .false_value
    ∧ (parseRequestHeaders HTTPRequestParser.new
        (str "GET / HTTP/1.1\r\n" ++ List.replicate 1025 97 ++ [58])).1 = .false_value :=
  ⟨over_limit_fields_invalid.2.1 (str "GET ") (List.replicate 262145 97) [32]
      (by decide) (by decide) (by decide)
      (fun c hc => by have := List.eq_of_mem_replicate hc; omega)
      (by rw [List.length_replicate]; decide),
   over_limit_fields_invalid.2.2.2.1 (str "GET / HTTP/1.1\r\n") (List.replicate 1025 97) [58]
      (by decide) (by decide)
      (fun c hc => by rw [List.head?_replicate] at hc; simp at hc; omega)
      (fun c hc => by have := List.eq_of_mem_replicate hc; omega)
      (by rw [List.length_replicate]; decide)⟩

end HTTPRequestParser

namespace HTTPRequestParser

/-! ## Resource and query string -/

/-- When the loop body returns, the parser is unchanged. -/
theorem parseStep_ret_unchanged (p : HTTPRequestParser) (c : Int) (r : Tribool) (adv : Nat)
    (q : HTTPRequestParser) (h : parseStep p c = .ret r adv q) : q = p := by
  unfold parseStep at h
  split at h <;> split_ifs at h <;> simp at h <;> exact h.2.2.symm

/-- After the URI the loop body no longer touches method, resource and query string. -/
theorem parseStep_afterURI (p q : HTTPRequestParser) (c : Int)
    (hst : p.m_parse_state.afterURI = true) (h : parseStep p c = .next q) :
    q.m_parse_state.afterURI = true
    ∧ q.m_http_request.m_method = p.m_http_request.m_method
    ∧ q.m_http_request.m_resource = p.m_http_request.m_resource
    ∧ q.m_http_request.m_query_string = p.m_http_request.m_query_string := by
  unfold parseStep at h
  split at h <;> rename_i hs <;> rw [hs] at hst <;> simp [ParseState.afterURI] at hst
    <;> split_ifs at h <;> simp at h <;> subst h
    <;> simp [ParseState.afterURI, hs, HTTPRequest.setVersionMajor, HTTPRequest.setVersionMinor,
      HTTPRequest.addHeader]

theorem parse_afterURI (p : HTTPRequestParser) (X : Str)
    (hst : p.m_parse_state.afterURI = true) :
    (parseRequestHeaders p X).2.2.m_http_request.m_method = p.m_http_request.m_method
    ∧ (parseRequestHeaders p X).2.2.m_http_request.m_resource = p.m_http_request.m_resource
    ∧ (parseRequestHeaders p X).2.2.m_http_request.m_query_string
        = p.m_http_request.m_query_string := by
  induction X generalizing p with
  | nil => simp [parseRequestHeaders]
  | cons c X ih =>
    cases hs : parseStep p c with
    | next q =>
      rw [parse_cons_next p q c X hs, advance_snd]
      obtain ⟨h1, h2, h3, h4⟩ := parseStep_afterURI p q c hst hs
      obtain ⟨i2, i3, i4⟩ := ih q h1
      exact ⟨i2.trans h2, i3.trans h3, i4.trans h4⟩
    | ret r adv q =>
      rw [parseRequestHeaders_cons_ret p q c X r adv hs, parseStep_ret_unchanged p c r adv q hs]
      exact ⟨rfl, rfl, rfl⟩

end HTTPRequestParser
namespace HTTPRequestParser

/-- A method that has a character failing the test, or is too long, is invalid. -/
theorem fail_method_token (p : HTTPRequestParser) (M X : Str)
    (hst : p.m_parse_state = .PARSE_METHOD_START)
    (hM : ∀ c ∈ M, c ≠ 32 ∧ c ≠ 13 ∧ c ≠ 10)
    (hne : M ≠ [])
    (hbad : ¬ ((∀ c ∈ M, isToken c = true) ∧ M.length ≤ METHOD_MAX)) :
    (parseRequestHeaders p (M ++ X)).1 = .false_value := by
  cases M with
  | nil => exact absurd rfl hne
  | cons c M =>
    have hc := hM c (List.mem_cons_self _ _)
    rw [List.cons_append]
    by_cases ht : isToken c = true
    · rw [parse_cons_next p { p with m_parse_state := .PARSE_METHOD, m_method := [c] } c _
        (by rw [parseStep_method_start p c hst]; simp [hc.1, hc.2.1, hc.2.2, ht]), advance_fst]
      apply fail_method { p with m_parse_state := .PARSE_METHOD, m_method := [c] } M X rfl
        (fun d hd => (hM d (List.mem_cons_of_mem _ hd)).1)
      · intro ⟨h1, h2⟩
        apply hbad
        refine ⟨?_, ?_⟩
        · intro d hd
          rcases List.mem_cons.1 hd with rfl | hd
          · exact ht
          · exact h1 d hd
        · simp at h2 ⊢; omega
      · simp [METHOD_MAX]
    · rw [parseRequestHeaders_cons_ret p p c _ .false_value 0
        (by rw [parseStep_method_start p c hst]; simp [hc.1, hc.2.1, hc.2.2, ht])]

/-- The query string of a request that is not rejected: the characters up to the SP. -/
theorem query_of_true (p : HTTPRequestParser) (Q rest : Str)
    (hst : p.m_parse_state = .PARSE_URI_QUERY)
    (hacc : p.m_query_string = [])
    (hQ : ∀ c ∈ Q, c ≠ 32)
    (hok : (parseRequestHeaders p (Q ++ 32 :: rest)).1 = .true_value) :
    (parseRequestHeaders p (Q ++ 32 :: rest)).2.2.m_http_request.m_query_string = Q
    ∧ (parseRequestHeaders p (Q ++ 32 :: rest)).2.2.m_http_request.m_resource
        = p.m_http_request.m_resource := by
  by_cases hval : (∀ c ∈ Q, isControl c = false) ∧ p.m_query_string.length + Q.length ≤ QUERY_STRING_MAX
  · have r1 := run_uri_query p Q hst hQ hval.1 hval.2
    have r2 := runsTo_single { p with m_query_string := p.m_query_string ++ Q }
      { p with m_http_request := p.m_http_request.setQueryString (p.m_query_string ++ Q), m_query_string := p.m_query_string ++ Q, m_parse_state := .PARSE_HTTP_VERSION_H } 32
      (by rw [parseStep_uri_query { p with m_query_string := p.m_query_string ++ Q } 32 hst]; simp)
    have r := runsTo_append _ _ _ _ _ r1 r2 rest
    have e : Q ++ 32 :: rest = Q ++ [32] ++ rest := by simp
    rw [e, r, advance_snd]
    obtain ⟨_, h3, h4⟩ := parse_afterURI { p with m_http_request := p.m_http_request.setQueryString (p.m_query_string ++ Q), m_query_string := p.m_query_string ++ Q, m_parse_state := .PARSE_HTTP_VERSION_H } rest rfl
    rw [h3, h4]
    simp [HTTPRequest.setQueryString, hacc]
  · have := fail_uri_query p Q (32 :: rest) hst hQ hval (by simp [hacc])
    rw [this] at hok
    cases hok

/-- The resource and the query string of a request that is not rejected, from the state
in which the resource starts or continues. -/
theorem uri_of_true (p : HTTPRequestParser) (U rest : Str)
    (hst : p.m_parse_state = .PARSE_URI_STEM)
    (hU : ∀ c ∈ U, c ≠ 32)
    (hok : (parseRequestHeaders p (U ++ 32 :: rest)).1 = .true_value) :
    (parseRequestHeaders p (U ++ 32 :: rest)).2.2.m_http_request.m_resource
      = p.m_resource ++ U.takeWhile (fun c => decide (c ≠ 63))
    ∧ (parseRequestHeaders p (U ++ 32 :: rest)).2.2.m_http_request.m_query_string
      = if 63 ∈ U then (U.dropWhile (fun c => decide (c ≠ 63))).drop 1
        else p.m_http_request.m_query_string := by
  induction U generalizing p with
  | nil =>
    have s1 : parseStep p 32 = .next { p with m_http_request := p.m_http_request.setResource p.m_resource, m_parse_state := .PARSE_HTTP_VERSION_H } := by
      rw [parseStep_uri_stem p 32 hst]; simp
    simp only [List.nil_append]
    rw [parse_cons_next p _ 32 rest s1, advance_snd]
    obtain ⟨_, h3, h4⟩ := parse_afterURI { p with m_http_request := p.m_http_request.setResource p.m_resource, m_parse_state := .PARSE_HTTP_VERSION_H } rest rfl
    rw [h3, h4]
    simp [HTTPRequest.setResource]
  | cons c U ih =>
    have hc32 := hU c (List.mem_cons_self _ _)
    have hU2 : ∀ d ∈ U, d ≠ 32 := fun d hd => hU d (List.mem_cons_of_mem _ hd)
    rw [List.cons_append] at hok ⊢
    by_cases hc63 : c = 63
    · subst hc63
      have s1 : parseStep p 63 = .next { p with m_http_request := p.m_http_request.setResource p.m_resource, m_query_string := [], m_parse_state := .PARSE_URI_QUERY } := by
        rw [parseStep_uri_stem p 63 hst]; simp
      rw [parse_cons_next p _ 63 _ s1, advance_fst] at hok
      rw [parse_cons_next p _ 63 _ s1, advance_snd]
      obtain ⟨h1, h2⟩ := query_of_true { p with m_http_request := p.m_http_request.setResource p.m_resource, m_query_string := [], m_parse_state := .PARSE_URI_QUERY } U rest rfl rfl hU2 hok
      rw [h1, h2]
      simp [HTTPRequest.setResource]
    · by_cases hbad : isControl c = true ∨ p.m_resource.length ≥ RESOURCE_MAX
      · have s1 : parseStep p c = .ret .false_value 0 p := by
          rw [parseStep_uri_stem p c hst]
          rcases hbad with h | h
          · simp [hc32, hc63, h]
          · simp [hc32, hc63, h]
        rw [parseRequestHeaders_cons_ret p p c _ _ _ s1] at hok
        cases hok
      · have hctl : isControl c = false := by
          cases h : isControl c
          · rfl
          · exact absurd (Or.inl h) hbad
        have hfull : ¬ p.m_resource.length ≥ RESOURCE_MAX := fun h => hbad (Or.inr h)
        have s1 : parseStep p c = .next { p with m_resource := p.m_resource ++ [c] } := by
          rw [parseStep_uri_stem p c hst]
          simp [hc32, hc63, hctl, hfull]
        rw [parse_cons_next p _ c _ s1, advance_fst] at hok
        rw [parse_cons_next p _ c _ s1, advance_snd]
        obtain ⟨h1, h2⟩ := ih { p with m_resource := p.m_resource ++ [c] } hst hU2 hok
        rw [h1, h2]
        have hne : (63 : Int) ≠ c := fun h => hc63 h.symm
        simp [List.takeWhile_cons, hc63, List.mem_cons, hne]

/-- Claim C9.  Take a request W M SP U SP rest, where W is leading SP, CR, LF, M is
not empty and has no SP, CR, LF, and U has no SP, so that U is what stands between the
first and the second SP of the request line.  If the call returns true, then: when U
has no question mark, the resource is U and the query string is empty; otherwise the
resource is the part of U before its first question mark and the query string is all
of U after that question mark, unchanged (later question marks included). -/
theorem resource_and_query_of_uri (W M U rest : Str)
    (hW : ∀ c ∈ W, c = 32 ∨ c = 13 ∨ c = 10)
    (hM0 : M ≠ []) (hM : ∀ c ∈ M, c ≠ 32 ∧ c ≠ 13 ∧ c ≠ 10)
    (hU : ∀ c ∈ U, c ≠ 32)
    (hok : (parseRequestHeaders HTTPRequestParser.new
              (W ++ M ++ [32] ++ U ++ [32] ++ rest)).1 = .true_value) :
    (63 ∉ U →
      (parseRequestHeaders HTTPRequestParser.new
          (W ++ M ++ [32] ++ U ++ [32] ++ rest)).2.2.m_http_request.m_resource = U
      ∧ (parseRequestHeaders HTTPRequestParser.new
          (W ++ M ++ [32] ++ U ++ [32] ++ rest)).2.2.m_http_request.m_query_string = [])
    ∧ (63 ∈ U →
      (parseRequestHeaders HTTPRequestParser.new
          (W ++ M ++ [32] ++ U ++ [32] ++ rest)).2.2.m_http_request.m_resource
        = U.takeWhile (fun c => decide (c ≠ 63))
      ∧ (parseRequestHeaders HTTPRequestParser.new
          (W ++ M ++ [32] ++ U ++ [32] ++ rest)).2.2.m_http_request.m_query_string
        = (U.dropWhile (fun c => decide (c ≠ 63))).drop 1) := by
  have e : W ++ M ++ [32] ++ U ++ [32] ++ rest = W ++ (M ++ [32] ++ (U ++ 32 :: rest)) := by
    simp
  rw [e] at hok ⊢
  rw [run_leading_whitespace HTTPRequestParser.new W rfl hW] at hok ⊢
  rw [advance_fst] at hok
  rw [advance_snd]
  by_cases hval : (∀ c ∈ M, isToken c = true) ∧ M.length ≤ METHOD_MAX
  · have r1 := run_method_token HTTPRequestParser.new M rfl hM0 hval.1 hval.2 (U ++ 32 :: rest)
    rw [r1, advance_fst] at hok
    rw [r1, advance_snd]
    obtain ⟨h1, h2⟩ := uri_of_true _ U rest rfl hU hok
    rw [h1, h2]
    constructor
    · intro h63
      have : List.takeWhile (fun c => decide (c ≠ 63)) U = U := by
        rw [List.takeWhile_eq_self_iff]
        intro c hc
        simp only [decide_eq_true_eq]
        intro h
        exact h63 (h ▸ hc)
      rw [this, if_neg h63]
      exact ⟨rfl, rfl⟩
    · intro h63
      rw [if_pos h63]
      exact ⟨rfl, rfl⟩
  · have := fail_method_token HTTPRequestParser.new M ([32] ++ (U ++ 32 :: rest)) rfl hM hM0 hval
    rw [List.append_assoc, this] at hok
    cases hok

end HTTPRequestParser
namespace HTTPRequestParser

/-- Claim C9 at GET /a?x=1?y HTTP/1.1: the resource is /a and the query string x=1?y. -/
theorem resource_and_query_of_uri_witness :
    (parseRequestHeaders HTTPRequestParser.new
        ([] ++ str "GET" ++ [32] ++ str "/a?x=1?y" ++ [32] ++ str "HTTP/1.1\r\n\r\n")).1
      = .true_value
    ∧ (parseRequestHeaders HTTPRequestParser.new
        ([] ++ str "GET" ++ [32] ++ str "/a?x=1?y" ++ [32]
          ++ str "HTTP/1.1\r\n\r\n")).2.2.m_http_request.m_resource = str "/a"
    ∧ (parseRequestHeaders HTTPRequestParser.new
        ([] ++ str "GET" ++ [32] ++ str "/a?x=1?y" ++ [32]
          ++ str "HTTP/1.1\r\n\r\n")).2.2.m_http_request.m_query_string = str "x=1?y" :=
  ⟨by decide,
   (resource_and_query_of_uri [] (str "GET") (str "/a?x=1?y") (str "HTTP/1.1\r\n\r\n")
      (by decide) (by decide) (by decide) (by decide) (by decide)).2 (by decide)⟩

end HTTPRequestParser

namespace HTTPRequestParser

/-! ## Header lines -/

theorem failsOn_append (p : HTTPRequestParser) (a b : Str) (h : FailsOn p a) :
    FailsOn p (a ++ b) := by
  intro X
  rw [List.append_assoc]
  exact h (b ++ X)

theorem failsOn_of_runsTo (p q : HTTPRequestParser) (a b : Str) (h1 : RunsTo p a q)
    (h2 : FailsOn q b) : FailsOn p (a ++ b) := by
  intro X
  rw [List.append_assoc, h1 (b ++ X), advance_fst]
  exact h2 X

theorem failsOn_cons_ret (p : HTTPRequestParser) (c : Int) (a : Str)
    (h : parseStep p c = .ret .false_value 0 p) : FailsOn p (c :: a) := by
  intro X
  rw [List.cons_append, parseRequestHeaders_cons_ret p p c _ _ _ h]

/-- While the request line is read, the loop body returns only to reject. -/
theorem parseStep_inRequestLine_ret (p q : HTTPRequestParser) (c : Int) (r : Tribool)
    (adv : Nat) (hst : p.m_parse_state.inRequestLine = true)
    (h : parseStep p c = .ret r adv q) : r = .false_value := by
  unfold parseStep at h
  split at h <;> rename_i hs <;> rw [hs] at hst <;> simp [ParseState.inRequestLine] at hst
    <;> split_ifs at h <;> simp at h <;> exact h.1.symm

/-- While the request line is read, a character other than CR and LF keeps the parser
in the request line and leaves the headers alone. -/
theorem parseStep_inRequestLine_next (p q : HTTPRequestParser) (c : Int)
    (hst : p.m_parse_state.inRequestLine = true) (hc : c ≠ 13 ∧ c ≠ 10)
    (h : parseStep p c = .next q) :
    q.m_parse_state.inRequestLine = true
    ∧ q.m_http_request.m_headers = p.m_http_request.m_headers := by
  unfold parseStep at h
  split at h <;> rename_i hs <;> rw [hs] at hst <;> simp [ParseState.inRequestLine] at hst
    <;> split_ifs at h <;> simp at h <;> subst h
    <;> first
      | omega
      | simp [ParseState.inRequestLine, hs, HTTPRequest.setVersionMajor,
          HTTPRequest.setVersionMinor, HTTPRequest.setMethod, HTTPRequest.setResource,
          HTTPRequest.setQueryString]

/-- CR or LF in the request line is accepted only after the minor version number. -/
theorem parseStep_inRequestLine_newline (p q : HTTPRequestParser) (c : Int)
    (hst : p.m_parse_state.inRequestLine = true) (hc : c = 13 ∨ c = 10)
    (h : parseStep p c = .next q) :
    p.m_parse_state = .PARSE_HTTP_VERSION_MINOR := by
  unfold parseStep at h
  split at h <;> rename_i hs <;> rw [hs] at hst <;> simp [ParseState.inRequestLine] at hst
    <;> first
      | exact hs
      | (rcases hc with hc | hc <;> subst hc <;> simp [isControl, isDigit, isChar] at h)

/-- A request line without CR and LF, after its first character: either the request is
rejected, or the parser is still in the request line with the headers untouched. -/
theorem request_line_scan (p : HTTPRequestParser) (L : Str)
    (hst : p.m_parse_state.inRequestLine = true)
    (hL : ∀ c ∈ L, c ≠ 13 ∧ c ≠ 10) :
    FailsOn p L
    ∨ ∃ q, RunsTo p L q ∧ q.m_parse_state.inRequestLine = true
        ∧ q.m_http_request.m_headers = p.m_http_request.m_headers := by
  induction L generalizing p with
  | nil => exact Or.inr ⟨p, runsTo_nil p, hst, rfl⟩
  | cons c L ih =>
    have hc := hL c (List.mem_cons_self _ _)
    cases hs : parseStep p c with
    | next q =>
      obtain ⟨h1, h2⟩ := parseStep_inRequestLine_next p q c hst hc hs
      rcases ih q h1 (fun d hd => hL d (List.mem_cons_of_mem _ hd)) with hf | ⟨r, hr, hr1, hr2⟩
      · left
        exact failsOn_of_runsTo p q [c] L (runsTo_single p q c hs) hf
      · right
        exact ⟨r, runsTo_cons p q r c L hs hr, hr1, hr2.trans h2⟩
    | ret r adv q =>
      left
      have hr := parseStep_inRequestLine_ret p q c r adv hst hs
      subst hr
      intro X
      rw [List.cons_append, parseRequestHeaders_cons_ret p q c _ _ _ hs]

end HTTPRequestParser
namespace HTTPRequestParser

/-- The terminator of the request line. -/
theorem run_request_line_end (nl : LineEnd) (p : HTTPRequestParser)
    (hst : p.m_parse_state = .PARSE_HTTP_VERSION_MINOR) :
    RunsTo p nl.bytes { p with m_parse_state := nl.lineStart } := by
  cases nl with
  | crlf =>
    exact runsTo_cons p { p with m_parse_state := .PARSE_EXPECTING_NEWLINE } _ 13 [10]
      (by rw [parseStep_http_version_minor p 13 hst]; simp)
      (runsTo_single _ _ 10 (by rw [parseStep_expecting_newline _ 10 rfl]; simp [LineEnd.lineStart]))
  | lf =>
    exact runsTo_single p _ 10
      (by rw [parseStep_http_version_minor p 10 hst]; simp [LineEnd.lineStart])
  | cr =>
    exact runsTo_single p _ 13
      (by rw [parseStep_http_version_minor p 13 hst]; simp [LineEnd.lineStart])

/-- The terminator of a header line commits the header. -/
theorem run_header_line_end (nl : LineEnd) (p : HTTPRequestParser)
    (hst : p.m_parse_state = .PARSE_SPACE_BEFORE_HEADER_VALUE
      ∨ p.m_parse_state = .PARSE_HEADER_VALUE) :
    RunsTo p nl.bytes
      { p with m_http_request := p.m_http_request.addHeader p.m_header_name p.m_header_value,
               m_parse_state := nl.lineStart } := by
  have h13 : parseStep p 13 = .next { p with m_http_request := p.m_http_request.addHeader p.m_header_name p.m_header_value, m_parse_state := .PARSE_EXPECTING_NEWLINE } := by
    rcases hst with h | h
    · rw [parseStep_space_before_header_value p 13 h]; simp
    · rw [parseStep_header_value p 13 h]; simp
  have h10 : parseStep p 10 = .next { p with m_http_request := p.m_http_request.addHeader p.m_header_name p.m_header_value, m_parse_state := .PARSE_EXPECTING_CR } := by
    rcases hst with h | h
    · rw [parseStep_space_before_header_value p 10 h]; simp
    · rw [parseStep_header_value p 10 h]; simp
  cases nl with
  | crlf =>
    exact runsTo_cons p _ _ 13 [10] h13
      (runsTo_single _ _ 10 (by rw [parseStep_expecting_newline _ 10 rfl]; simp [LineEnd.lineStart]))
  | lf => exact runsTo_single p _ 10 h10
  | cr => exact runsTo_single p _ 13 h13

/-- The terminator of the empty line that ends the headers: the call returns true and
does not look at what follows. -/
theorem parse_final_line_end (nl : LineEnd) (p : HTTPRequestParser) (X : Str)
    (hst : p.m_parse_state = nl.lineStart) :
    (parseRequestHeaders p (nl.bytes ++ X)).1 = .true_value
    ∧ (parseRequestHeaders p (nl.bytes ++ X)).2.1 = nl.bytes.length
    ∧ (parseRequestHeaders p (nl.bytes ++ X)).2.2.m_http_request = p.m_http_request := by
  cases nl with
  | crlf =>
    have s1 : parseStep p 13 = .next { p with m_parse_state := .PARSE_EXPECTING_FINAL_NEWLINE } := by
      rw [parseStep_header_start p 13 hst]; simp
    have s2 : parseStep { p with m_parse_state := .PARSE_EXPECTING_FINAL_NEWLINE } 10
        = .ret .true_value 1 { p with m_parse_state := .PARSE_EXPECTING_FINAL_NEWLINE } := by
      rw [parseStep_expecting_final_newline _ 10 rfl]; simp
    simp only [LineEnd.bytes, List.cons_append, List.nil_append]
    rw [parse_cons_next _ _ 13 _ s1, parseRequestHeaders_cons_ret _ _ 10 _ _ _ s2]
    exact ⟨rfl, rfl, rfl⟩
  | lf =>
    have s1 : parseStep p 10 = .ret .true_value 1 p := by
      rw [parseStep_expecting_cr p 10 hst]; simp
    simp only [LineEnd.bytes, List.cons_append, List.nil_append]
    rw [parseRequestHeaders_cons_ret _ _ 10 _ _ _ s1]
    exact ⟨rfl, rfl, rfl⟩
  | cr =>
    have s1 : parseStep p 13 = .ret .true_value 1 p := by
      rw [parseStep_expecting_newline p 13 hst]; simp
    simp only [LineEnd.bytes, List.cons_append, List.nil_append]
    rw [parseRequestHeaders_cons_ret _ _ 13 _ _ _ s1]
    exact ⟨rfl, rfl, rfl⟩

theorem lineStart_cases (nl : LineEnd) (p : HTTPRequestParser)
    (hst : p.m_parse_state = nl.lineStart) :
    p.m_parse_state = .PARSE_HEADER_START ∨ p.m_parse_state = .PARSE_EXPECTING_NEWLINE
      ∨ p.m_parse_state = .PARSE_EXPECTING_CR ∨ p.m_parse_state = .PARSE_HEADER_WHITESPACE := by
  cases nl <;> simp [LineEnd.lineStart] at hst <;> simp [hst]

/-- A header name and its colon, at the start of a line. -/
theorem name_scan (p : HTTPRequestParser) (name : Str)
    (hst : p.m_parse_state = .PARSE_HEADER_START ∨ p.m_parse_state = .PARSE_EXPECTING_NEWLINE
      ∨ p.m_parse_state = .PARSE_EXPECTING_CR ∨ p.m_parse_state = .PARSE_HEADER_WHITESPACE)
    (hname : ∀ c ∈ name, c ≠ 58 ∧ c ≠ 13 ∧ c ≠ 10 ∧ c ≠ 9 ∧ c ≠ 32) :
    FailsOn p (name ++ [58])
    ∨ RunsTo p (name ++ [58])
        { p with m_header_name := name, m_header_value := [],
                 m_parse_state := .PARSE_SPACE_BEFORE_HEADER_VALUE } := by
  cases name with
  | nil =>
    left
    apply failsOn_cons_ret
    rw [parseStep_name_start p 58 hst (by decide)]
    simp [show isToken 58 = false by decide]
  | cons c ns =>
    have hc := hname c (List.mem_cons_self _ _)
    by_cases ht : isToken c = true
    · have s1 : parseStep p c = .next { p with m_header_name := [c], m_parse_state := .PARSE_HEADER_NAME } := by
        rw [parseStep_name_start p c hst ⟨hc.2.1, hc.2.2.1, hc.2.2.2.1, hc.2.2.2.2⟩]
        simp [ht]
      by_cases hval : (∀ d ∈ ns, isToken d = true) ∧ 1 + ns.length ≤ HEADER_NAME_MAX
      · right
        have r1 := run_header_name { p with m_header_name := [c], m_parse_state := .PARSE_HEADER_NAME } ns rfl
          (fun d hd => (hname d (List.mem_cons_of_mem _ hd)).1) hval.1 (by simpa using hval.2)
        have r2 := runsTo_single
          { p with m_header_name := [c] ++ ns, m_parse_state := .PARSE_HEADER_NAME }
          { p with m_header_name := c :: ns, m_header_value := [], m_parse_state := .PARSE_SPACE_BEFORE_HEADER_VALUE } 58
          (by rw [parseStep_header_name _ 58 rfl]; simp)
        exact runsTo_cons _ _ _ c _ s1 (runsTo_append _ _ _ _ _ r1 r2)
      · left
        have hf : FailsOn { p with m_header_name := [c], m_parse_state := .PARSE_HEADER_NAME } ns :=
          fun X => fail_header_name _ ns X rfl
            (fun d hd => (hname d (List.mem_cons_of_mem _ hd)).1) (by simpa using hval)
            (by simp [HEADER_NAME_MAX])
        exact failsOn_of_runsTo p _ [c] (ns ++ [58]) (runsTo_single p _ c s1)
          (failsOn_append _ ns [58] hf)
    · left
      apply failsOn_cons_ret
      rw [parseStep_name_start p c hst ⟨hc.2.1, hc.2.2.1, hc.2.2.2.1, hc.2.2.2.2⟩]
      simp [ht]

/-- The optional space and the value of a header, after the colon. -/
theorem value_scan (p : HTTPRequestParser) (sp : Bool) (value : Str)
    (hst : p.m_parse_state = .PARSE_SPACE_BEFORE_HEADER_VALUE)
    (hacc : p.m_header_value = [])
    (hv : ∀ c ∈ value, c ≠ 13 ∧ c ≠ 10)
    (hhead : sp = false → ∀ c, value.head? = some c → c ≠ 32) :
    FailsOn p ((if sp then [32] else []) ++ value)
    ∨ ∃ q, RunsTo p ((if sp then [32] else []) ++ value) q
        ∧ (q.m_parse_state = .PARSE_SPACE_BEFORE_HEADER_VALUE
            ∨ q.m_parse_state = .PARSE_HEADER_VALUE)
        ∧ q.m_header_value = value ∧ q.m_header_name = p.m_header_name
        ∧ q.m_http_request = p.m_http_request := by
  cases sp with
  | true =>
    have s1 : parseStep p 32 = .next { p with m_parse_state := .PARSE_HEADER_VALUE } := by
      rw [parseStep_space_before_header_value p 32 hst]; simp
    simp only [if_true]
    by_cases hval : (∀ c ∈ value, isControl c = false) ∧ value.length ≤ HEADER_VALUE_MAX
    · right
      have r1 := run_header_value { p with m_parse_state := .PARSE_HEADER_VALUE } value rfl hv
        hval.1 (by simpa [hacc] using hval.2)
      refine ⟨_, runsTo_append _ _ _ _ _ (runsTo_single p _ 32 s1) r1, Or.inr rfl, ?_, rfl, rfl⟩
      simp [hacc]
    · left
      have hf : FailsOn { p with m_parse_state := .PARSE_HEADER_VALUE } value :=
        fun X => fail_header_value _ value X rfl hv (by simpa [hacc] using hval) (by simp [hacc])
      exact failsOn_of_runsTo p _ [32] value (runsTo_single p _ 32 s1) hf
  | false =>
    simp only [Bool.false_eq_true, if_false, List.nil_append]
    cases value with
    | nil => exact Or.inr ⟨p, runsTo_nil p, Or.inl hst, hacc, rfl, rfl⟩
    | cons c vs =>
      have hc := hv c (List.mem_cons_self _ _)
      have hc32 := hhead rfl c rfl
      by_cases ht : isToken c = true
      · have s1 : parseStep p c = .next { p with m_header_value := p.m_header_value ++ [c], m_parse_state := .PARSE_HEADER_VALUE } := by
          rw [parseStep_space_before_header_value p c hst]
          simp [hc32, hc.1, hc.2, ht]
        by_cases hval : (∀ d ∈ vs, isControl d = false) ∧ 1 + vs.length ≤ HEADER_VALUE_MAX
        · right
          have r1 := run_header_value { p with m_header_value := p.m_header_value ++ [c], m_parse_state := .PARSE_HEADER_VALUE } vs rfl
            (fun d hd => hv d (List.mem_cons_of_mem _ hd)) hval.1 (by simpa [hacc] using hval.2)
          refine ⟨_, runsTo_cons _ _ _ c _ s1 r1, Or.inr rfl, ?_, rfl, rfl⟩
          simp [hacc]
        · left
          have hf : FailsOn { p with m_header_value := p.m_header_value ++ [c], m_parse_state := .PARSE_HEADER_VALUE } vs :=
            fun X => fail_header_value _ vs X rfl
              (fun d hd => hv d (List.mem_cons_of_mem _ hd)) (by simpa [hacc] using hval)
              (by simp [hacc, HEADER_VALUE_MAX])
          exact failsOn_of_runsTo p _ [c] vs (runsTo_single p _ c s1) hf
      · left
        apply failsOn_cons_ret
        rw [parseStep_space_before_header_value p c hst]
        simp [hc32, hc.1, hc.2, ht]

end HTTPRequestParser
namespace HTTPRequestParser

/-- One header line with its terminator: either the request is rejected, or the header
(name, value) is added and the parser is at the start of the next line. -/
theorem header_line_scan (nl : LineEnd) (p : HTTPRequestParser) (h : HeaderLine)
    (hst : p.m_parse_state = nl.lineStart) (hwf : h.wellFormed) :
    FailsOn p (h.render ++ nl.bytes)
    ∨ ∃ q, RunsTo p (h.render ++ nl.bytes) q ∧ q.m_parse_state = nl.lineStart
        ∧ q.m_http_request = p.m_http_request.addHeader h.name h.value := by
  obtain ⟨hname, hvalue, hhead⟩ := hwf
  unfold HeaderLine.render
  rcases name_scan p h.name (lineStart_cases nl p hst) hname with hf | r1
  · left
    rw [List.append_assoc]
    exact failsOn_append _ _ _ hf
  · rcases value_scan { p with m_header_name := h.name, m_header_value := [], m_parse_state := .PARSE_SPACE_BEFORE_HEADER_VALUE } h.space h.value rfl rfl hvalue hhead with hf | ⟨q, r2, hq1, hq2, hq3, hq4⟩
    · left
      exact failsOn_append _ _ _ (failsOn_of_runsTo _ _ _ _ r1 hf)
    · right
      have r3 := run_header_line_end nl q hq1
      refine ⟨_, runsTo_append _ _ _ _ _ (runsTo_append _ _ _ _ _ r1 r2) r3, rfl, ?_⟩
      simp only [hq2, hq3, hq4]

/-- The header lines in sequence: either the request is rejected, or every line has
added its header, in order. -/
theorem header_lines_scan (nl : LineEnd) (p : HTTPRequestParser) (ls : List HeaderLine)
    (hst : p.m_parse_state = nl.lineStart) (hwf : ∀ h ∈ ls, h.wellFormed) :
    FailsOn p (renderLines nl ls)
    ∨ ∃ q, RunsTo p (renderLines nl ls) q ∧ q.m_parse_state = nl.lineStart
        ∧ q.m_http_request.m_headers
            = p.m_http_request.m_headers ++ ls.map (fun h => (h.name, h.value)) := by
  induction ls generalizing p with
  | nil => exact Or.inr ⟨p, runsTo_nil p, hst, by simp⟩
  | cons h ls ih =>
    have e : renderLines nl (h :: ls) = (h.render ++ nl.bytes) ++ renderLines nl ls := by
      simp [renderLines]
    rw [e]
    rcases header_line_scan nl p h hst (hwf h (List.mem_cons_self _ _)) with hf | ⟨q, r1, hq1, hq2⟩
    · left
      exact failsOn_append _ _ _ hf
    · rcases ih q hq1 (fun k hk => hwf k (List.mem_cons_of_mem _ hk)) with hf | ⟨r, r2, hr1, hr2⟩
      · left
        exact failsOn_of_runsTo _ _ _ _ r1 hf
      · right
        refine ⟨r, runsTo_append _ _ _ _ _ r1 r2, hr1, ?_⟩
        rw [hr2, hq2]
        simp [HTTPRequest.addHeader, StringDictionary.insert]

/-- A request line, from the start state to the end of its terminator. -/
theorem request_line_and_end_scan (nl : LineEnd) (L : Str)
    (hne : L ≠ [])
    (hhead : ∀ c, L.head? = some c → c ≠ 32)
    (hL : ∀ c ∈ L, c ≠ 13 ∧ c ≠ 10) :
    FailsOn HTTPRequestParser.new (L ++ nl.bytes)
    ∨ ∃ q, RunsTo HTTPRequestParser.new (L ++ nl.bytes) q ∧ q.m_parse_state = nl.lineStart
        ∧ q.m_http_request.m_headers = [] := by
  cases L with
  | nil => exact absurd rfl hne
  | cons c L =>
    have hc := hL c (List.mem_cons_self _ _)
    have hc32 := hhead c rfl
    by_cases ht : isToken c = true
    · have s1 : parseStep HTTPRequestParser.new c = .next { HTTPRequestParser.new with m_parse_state := .PARSE_METHOD, m_method := [c] } := by
        rw [parseStep_method_start _ c rfl]
        simp [hc32, hc.1, hc.2, ht]
      rcases request_line_scan { HTTPRequestParser.new with m_parse_state := .PARSE_METHOD, m_method := [c] } L rfl
        (fun d hd => hL d (List.mem_cons_of_mem _ hd)) with hf | ⟨q, r1, hq1, hq2⟩
      · left
        exact failsOn_append _ _ _ (failsOn_of_runsTo _ _ [c] L (runsTo_single _ _ c s1) hf)
      · by_cases hm : q.m_parse_state = .PARSE_HTTP_VERSION_MINOR
        · right
          refine ⟨_, runsTo_append _ _ _ _ _ (runsTo_cons _ _ _ c L s1 r1)
            (run_request_line_end nl q hm), rfl, ?_⟩
          simpa using hq2
        · left
          have hnl : ∃ d ds, nl.bytes = d :: ds ∧ (d = 13 ∨ d = 10) := by
            cases nl
            · exact ⟨13, [10], rfl, Or.inl rfl⟩
            · exact ⟨10, [], rfl, Or.inr rfl⟩
            · exact ⟨13, [], rfl, Or.inl rfl⟩
          obtain ⟨d, ds, hd1, hd2⟩ := hnl
          rw [hd1]
          apply failsOn_of_runsTo _ q (c :: L) (d :: ds) (runsTo_cons _ _ _ c L s1 r1)
          intro X
          rw [List.cons_append]
          cases hs : parseStep q d with
          | next q2 => exact absurd (parseStep_inRequestLine_newline q q2 d hq1 hd2 hs) hm
          | ret r adv q2 =>
            rw [parseRequestHeaders_cons_ret q q2 d _ r adv hs]
            exact parseStep_inRequestLine_ret q q2 d r adv hq1 hs
    · left
      apply failsOn_append
      apply failsOn_cons_ret
      rw [parseStep_method_start _ c rfl]
      simp [hc32, hc.1, hc.2, ht]

end HTTPRequestParser
namespace HTTPRequestParser

end HTTPRequestParser

namespace HTTPRequestParser

/-! ## Bare CR and bare LF as line terminators -/

theorem parseStep_midLine_ret (p q : HTTPRequestParser) (c : Int) (r : Tribool) (adv : Nat)
    (hst : p.m_parse_state.midLine = true) (h : parseStep p c = .ret r adv q) :
    r = .false_value := by
  unfold parseStep at h
  split at h <;> rename_i hs <;> rw [hs] at hst <;> simp [ParseState.midLine] at hst
    <;> split_ifs at h <;> simp at h <;> exact h.1.symm

theorem parseStep_midLine_next (p q : HTTPRequestParser) (c : Int)
    (hst : p.m_parse_state.midLine = true) (hc : c ≠ 13 ∧ c ≠ 10)
    (h : parseStep p c = .next q) : q.m_parse_state.midLine = true := by
  unfold parseStep at h
  split at h <;> rename_i hs <;> rw [hs] at hst <;> simp [ParseState.midLine] at hst
    <;> split_ifs at h <;> simp at h <;> subst h
    <;> first
      | omega
      | simp [ParseState.midLine, hs]

/-- At the start of a line, a character other than CR and LF is treated in the same way
in the three states that a line terminator can lead to. -/
theorem parseStep_lineStart (nl : LineEnd) (p : HTTPRequestParser) (c : Int)
    (hst : p.m_parse_state = .PARSE_HEADER_START) (hc : c ≠ 13 ∧ c ≠ 10) :
    (∃ q, parseStep p c = .next q ∧ parseStep { p with m_parse_state := nl.lineStart } c = .next q
        ∧ q.m_parse_state.midLine = true)
    ∨ ((∃ q, parseStep p c = .ret .false_value 0 q)
        ∧ ∃ q, parseStep { p with m_parse_state := nl.lineStart } c = .ret .false_value 0 q) := by
  have e : parseStep { p with m_parse_state := nl.lineStart } c
      = if c = 9 ∨ c = 32 then .next { p with m_parse_state := .PARSE_HEADER_WHITESPACE }
        else if isToken c = false then .ret .false_value 0 { p with m_parse_state := nl.lineStart }
        else .next { p with m_header_name := [c], m_parse_state := .PARSE_HEADER_NAME } := by
    cases nl
    · rw [parseStep_header_start _ c rfl]; simp [hc.1, hc.2]
    · rw [parseStep_expecting_cr _ c rfl]; simp [hc.1, hc.2]
    · rw [parseStep_expecting_newline _ c rfl]; simp [hc.1, hc.2]
  rw [e, parseStep_header_start p c hst]
  simp only [if_neg hc.1, if_neg hc.2]
  by_cases h1 : c = 9 ∨ c = 32
  · left
    exact ⟨{ p with m_parse_state := .PARSE_HEADER_WHITESPACE }, by simp [h1], by simp [h1], rfl⟩
  · by_cases h2 : isToken c = false
    · right
      exact ⟨⟨p, by simp [h1, h2]⟩,
        ⟨{ p with m_parse_state := nl.lineStart }, by simp [h1, h2]⟩⟩
    · left
      exact ⟨{ p with m_header_name := [c], m_parse_state := .PARSE_HEADER_NAME },
        by simp [h1, h2], by simp [h1, h2], rfl⟩

/-- In the middle of a line, CR LF on one side and the terminator `nl` on the other
lead to corresponding states, unless CR is rejected. -/
theorem crlf_midLine (nl : LineEnd) (p q1 : HTTPRequestParser)
    (hst : p.m_parse_state.midLine = true) (h : parseStep p 13 = .next q1) :
    ∃ q2 q3, RunsTo p [13, 10] q2 ∧ RunsTo p nl.bytes q3 ∧ Corresponds nl q2 q3 := by
  have hs10 : ∀ q : HTTPRequestParser, q.m_parse_state = .PARSE_EXPECTING_NEWLINE →
      parseStep q 10 = .next { q with m_parse_state := .PARSE_HEADER_START } := by
    intro q hq
    rw [parseStep_expecting_newline q 10 hq]; simp
  cases hs : p.m_parse_state <;> rw [hs] at hst <;> simp [ParseState.midLine] at hst
  case PARSE_METHOD_START =>
    have s13 : parseStep p 13 = .next p := by rw [parseStep_method_start p 13 hs]; simp
    have s10 : parseStep p 10 = .next p := by rw [parseStep_method_start p 10 hs]; simp
    refine ⟨p, p, runsTo_cons p p p 13 [10] s13 (runsTo_single p p 10 s10), ?_,
      Or.inl ⟨rfl, by rw [hs]; rfl⟩⟩
    cases nl
    · exact runsTo_cons p p p 13 [10] s13 (runsTo_single p p 10 s10)
    · exact runsTo_single p p 10 s10
    · exact runsTo_single p p 13 s13
  case PARSE_HTTP_VERSION_MINOR =>
    have s13 : parseStep p 13 = .next { p with m_parse_state := .PARSE_EXPECTING_NEWLINE } := by
      rw [parseStep_http_version_minor p 13 hs]; simp
    have s10 : parseStep p 10 = .next { p with m_parse_state := .PARSE_EXPECTING_CR } := by
      rw [parseStep_http_version_minor p 10 hs]; simp
    refine ⟨{ p with m_parse_state := .PARSE_HEADER_START },
      { p with m_parse_state := nl.lineStart },
      runsTo_cons p _ _ 13 [10] s13 (runsTo_single _ _ 10 (hs10 _ rfl)), ?_, Or.inr ⟨rfl, rfl⟩⟩
    cases nl
    · exact runsTo_cons p _ _ 13 [10] s13 (runsTo_single _ _ 10 (hs10 _ rfl))
    · exact runsTo_single p _ 10 s10
    · exact runsTo_single p _ 13 s13
  case PARSE_HEADER_WHITESPACE =>
    have s13 : parseStep p 13 = .next { p with m_parse_state := .PARSE_EXPECTING_NEWLINE } := by
      rw [parseStep_header_whitespace p 13 hs]; simp
    have s10 : parseStep p 10 = .next { p with m_parse_state := .PARSE_EXPECTING_CR } := by
      rw [parseStep_header_whitespace p 10 hs]; simp
    refine ⟨{ p with m_parse_state := .PARSE_HEADER_START },
      { p with m_parse_state := nl.lineStart },
      runsTo_cons p _ _ 13 [10] s13 (runsTo_single _ _ 10 (hs10 _ rfl)), ?_, Or.inr ⟨rfl, rfl⟩⟩
    cases nl
    · exact runsTo_cons p _ _ 13 [10] s13 (runsTo_single _ _ 10 (hs10 _ rfl))
    · exact runsTo_single p _ 10 s10
    · exact runsTo_single p _ 13 s13
  case PARSE_SPACE_BEFORE_HEADER_VALUE =>
    have r1 := run_header_line_end .crlf p (Or.inl hs)
    have r2 := run_header_line_end nl p (Or.inl hs)
    exact ⟨_, _, r1, r2, Or.inr ⟨rfl, rfl⟩⟩
  case PARSE_HEADER_VALUE =>
    have r1 := run_header_line_end .crlf p (Or.inr hs)
    have r2 := run_header_line_end nl p (Or.inr hs)
    exact ⟨_, _, r1, r2, Or.inr ⟨rfl, rfl⟩⟩
  all_goals
    exfalso
    unfold parseStep at h
    rw [hs] at h
    simp [isControl, isChar, isDigit] at h

end HTTPRequestParser
namespace HTTPRequestParser

theorem corresponds_ret_false (nl : LineEnd) (p q q2 : HTTPRequestParser) (c : Int)
    (r : Tribool) (adv : Nat) (hrel : Corresponds nl p q) (hc : c ≠ 13 ∧ c ≠ 10)
    (h : parseStep p c = .ret r adv q2) : r = .false_value := by
  rcases hrel with ⟨_, hmid⟩ | ⟨hhs, _⟩
  · exact parseStep_midLine_ret p q2 c r adv hmid h
  · rcases parseStep_lineStart nl p c hhs hc with ⟨q1, e1, _, _⟩ | ⟨⟨q1, e1⟩, _⟩
    · rw [h] at e1; cases e1
    · rw [h] at e1
      injection e1 with e1 _ _

theorem replaceCRLF_crlf_cons (nl : LineEnd) (rest : Str) :
    replaceCRLF nl (13 :: 10 :: rest) = nl.bytes ++ replaceCRLF nl rest := by
  simp [replaceCRLF]

theorem replaceCRLF_cons (nl : LineEnd) (c d : Int) (rest : Str) (h : c ≠ 13) :
    replaceCRLF nl (c :: d :: rest) = c :: replaceCRLF nl (d :: rest) := by
  simp [replaceCRLF, h]

/-- A text with CRLF terminators that is parsed to the end with result true is parsed
in the same way, to the same request, when its terminators are replaced. -/
theorem crlf_simulation (nl : LineEnd) (T : Str) (p q : HTTPRequestParser)
    (hT : crlfOnly T = true) (hrel : Corresponds nl p q)
    (h1 : (parseRequestHeaders p T).1 = .true_value)
    (h2 : (parseRequestHeaders p T).2.1 = T.length) :
    (parseRequestHeaders q (replaceCRLF nl T)).1 = .true_value
    ∧ (parseRequestHeaders q (replaceCRLF nl T)).2.1 = (replaceCRLF nl T).length
    ∧ (parseRequestHeaders q (replaceCRLF nl T)).2.2.m_http_request
        = (parseRequestHeaders p T).2.2.m_http_request := by
  induction T using crlfOnly.induct generalizing p q with
  | case1 => simp [parseRequestHeaders] at h1
  | case2 c =>
    have hc : c ≠ 13 ∧ c ≠ 10 := by simpa [crlfOnly] using hT
    exfalso
    cases hs : parseStep p c with
    | next q1 =>
      rw [parse_cons_next p q1 c [] hs] at h1
      simp [advance, parseRequestHeaders] at h1
    | ret r adv q1 =>
      rw [parseRequestHeaders_cons_ret p q1 c [] r adv hs] at h1
      have := corresponds_ret_false nl p q q1 c r adv hrel hc hs
      rw [this] at h1
      cases h1
  | case3 d rest ih =>
    have hd : d = 10 ∧ crlfOnly rest = true := by simpa [crlfOnly] using hT
    obtain ⟨rfl, hrest⟩ := hd
    rw [replaceCRLF_crlf_cons]
    rcases hrel with ⟨hq, hmid⟩ | ⟨hhs, rfl⟩
    · rw [hq]
      cases hs : parseStep p 13 with
      | next q1 =>
        obtain ⟨q2, q3, r1, r2, hcor⟩ := crlf_midLine nl p q1 hmid hs
        have e1 : parseRequestHeaders p (13 :: 10 :: rest)
            = advance 2 (parseRequestHeaders q2 rest) := r1 rest
        rw [e1] at h1 h2 ⊢
        rw [r2 (replaceCRLF nl rest)]
        simp only [advance, List.length_cons] at h1 h2
        obtain ⟨i1, i2, i3⟩ := ih q2 q3 hrest hcor h1 (by omega)
        refine ⟨i1, ?_, i3⟩
        simp only [advance, List.length_append]
        omega
      | ret r adv q1 =>
        rw [parseRequestHeaders_cons_ret p q1 13 _ r adv hs] at h1
        have := parseStep_midLine_ret p q1 13 r adv hmid hs
        rw [this] at h1
        cases h1
    · obtain ⟨_, f2, f3⟩ := parse_final_line_end .crlf p rest hhs
      have f2b : (parseRequestHeaders p (13 :: 10 :: rest)).2.1 = 2 := f2
      have f3b : (parseRequestHeaders p (13 :: 10 :: rest)).2.2.m_http_request
          = p.m_http_request := f3
      rw [f2b] at h2
      have hnil : rest = [] := by
        cases rest with
        | nil => rfl
        | cons x xs => simp at h2
      subst hnil
      obtain ⟨g1, g2, g3⟩ := parse_final_line_end nl
        { p with m_parse_state := nl.lineStart } (replaceCRLF nl []) rfl
      refine ⟨g1, ?_, ?_⟩
      · rw [g2]; simp [replaceCRLF]
      · rw [g3, f3b]
  | case4 c d rest hc13 ih =>
    have hc : c ≠ 10 ∧ crlfOnly (d :: rest) = true := by simpa [crlfOnly, hc13] using hT
    obtain ⟨hc10, hrest⟩ := hc
    rw [replaceCRLF_cons nl c d rest hc13]
    rcases hrel with ⟨hq, hmid⟩ | ⟨hhs, rfl⟩
    · rw [hq]
      cases hs : parseStep p c with
      | next q1 =>
        have hm := parseStep_midLine_next p q1 c hmid ⟨hc13, hc10⟩ hs
        rw [parse_cons_next p q1 c _ hs] at h1 h2 ⊢
        rw [parse_cons_next p q1 c _ hs]
        simp only [advance, List.length_cons] at h1 h2
        obtain ⟨i1, i2, i3⟩ := ih q1 q1 hrest (Or.inl ⟨rfl, hm⟩) h1
          (by simp only [List.length_cons]; omega)
        refine ⟨i1, ?_, i3⟩
        simp only [advance, List.length_cons]
        omega
      | ret r adv q1 =>
        rw [parseRequestHeaders_cons_ret p q1 c _ r adv hs] at h1
        have := parseStep_midLine_ret p q1 c r adv hmid hs
        rw [this] at h1
        cases h1
    · rcases parseStep_lineStart nl p c hhs ⟨hc13, hc10⟩ with ⟨q1, e1, e2, hm⟩ | ⟨⟨q1, e1⟩, _⟩
      · rw [parse_cons_next p q1 c _ e1] at h1 h2 ⊢
        rw [parse_cons_next _ q1 c _ e2]
        simp only [advance, List.length_cons] at h1 h2
        obtain ⟨i1, i2, i3⟩ := ih q1 q1 hrest (Or.inl ⟨rfl, hm⟩) h1
          (by simp only [List.length_cons]; omega)
        refine ⟨i1, ?_, i3⟩
        simp only [advance, List.length_cons]
        omega
      · rw [parseRequestHeaders_cons_ret p q1 c _ _ _ e1] at h1
        cases h1

/-- Claim C7.  For every request text in which CR and LF occur only as the pair CR LF
and which parseRequestHeaders, from the initial state, parses with result true
consuming all of its characters: the text with every CR LF replaced by a bare LF, and
the text with every CR LF replaced by a bare CR, also give true, are consumed entirely
and yield the same request (method, resource, query string, version, headers).  For
example the bare-LF text of GET / HTTP/1.1 with the header Host: h gives the same
request as its CRLF form. -/
theorem bare_terminators_same_request (T : Str)
    (hT : crlfOnly T = true)
    (h1 : (parseRequestHeaders HTTPRequestParser.new T).1 = .true_value)
    (h2 : (parseRequestHeaders HTTPRequestParser.new T).2.1 = T.length) :
    ((parseRequestHeaders HTTPRequestParser.new (replaceCRLF .lf T)).1 = .true_value
      ∧ (parseRequestHeaders HTTPRequestParser.new (replaceCRLF .lf T)).2.1
          = (replaceCRLF .lf T).length
      ∧ (parseRequestHeaders HTTPRequestParser.new (replaceCRLF .lf T)).2.2.m_http_request
          = (parseRequestHeaders HTTPRequestParser.new T).2.2.m_http_request)
    ∧ ((parseRequestHeaders HTTPRequestParser.new (replaceCRLF .cr T)).1 = .true_value
      ∧ (parseRequestHeaders HTTPRequestParser.new (replaceCRLF .cr T)).2.1
          = (replaceCRLF .cr T).length
      ∧ (parseRequestHeaders HTTPRequestParser.new (replaceCRLF .cr T)).2.2.m_http_request
          = (parseRequestHeaders HTTPRequestParser.new T).2.2.m_http_request)
    ∧ ((parseRequestHeaders HTTPRequestParser.new (str "GET / HTTP/1.1\nHost: h\n\n")).1
          = .true_value
      ∧ (parseRequestHeaders HTTPRequestParser.new
            (str "GET / HTTP/1.1\nHost: h\n\n")).2.2.m_http_request
          = (parseRequestHeaders HTTPRequestParser.new
              (str "GET / HTTP/1.1\r\nHost: h\r\n\r\n")).2.2.m_http_request) :=
  ⟨crlf_simulation .lf T _ _ hT (Or.inl ⟨rfl, rfl⟩) h1 h2,
   crlf_simulation .cr T _ _ hT (Or.inl ⟨rfl, rfl⟩) h1 h2,
   by decide, by decide⟩

/-- Claim C7 at GET / HTTP/1.1 with the header Host: h, written with CRLF. -/
theorem bare_terminators_same_request_witness :
    replaceCRLF .lf (str "GET / HTTP/1.1\r\nHost: h\r\n\r\n") = str "GET / HTTP/1.1\nHost: h\n\n"
    ∧ (parseRequestHeaders HTTPRequestParser.new
        (replaceCRLF .lf (str "GET / HTTP/1.1\r\nHost: h\r\n\r\n"))).1 = .true_value
    ∧ (parseRequestHeaders HTTPRequestParser.new
        (replaceCRLF .cr (str "GET / HTTP/1.1\r\nHost: h\r\n\r\n"))).2.2.m_http_request
      = (parseRequestHeaders HTTPRequestParser.new
          (str "GET / HTTP/1.1\r\nHost: h\r\n\r\n")).2.2.m_http_request :=
  ⟨by decide,
   (bare_terminators_same_request (str "GET / HTTP/1.1\r\nHost: h\r\n\r\n")
      (by decide) (by decide) (by decide)).1.1,
   (bare_terminators_same_request (str "GET / HTTP/1.1\r\nHost: h\r\n\r\n")
      (by decide) (by decide) (by decide)).2.1.2.2⟩

end HTTPRequestParser

/-! ## Looking up and deleting headers -/

theorem find_eq_none_iff (dict : StringDictionary) (key : Str) :
    dict.find key = none ↔ ∀ e ∈ dict, e.1 ≠ key := by
  simp [StringDictionary.find, List.find?_eq_none]

theorem find_isSome_iff (dict : StringDictionary) (key : Str) :
    (dict.find key).isSome = true ↔ ∃ v, (key, v) ∈ dict := by
  rw [Option.isSome_iff_ne_none, Ne, find_eq_none_iff]
  constructor
  · intro h
    by_contra hc
    apply h
    intro e he heq
    apply hc
    exact ⟨e.2, by rw [← heq]; exact he⟩
  · rintro ⟨v, hv⟩ h
    exact h (key, v) hv rfl

theorem find_first (pre post : StringDictionary) (key v : Str)
    (hpre : ∀ e ∈ pre, e.1 ≠ key) :
    StringDictionary.find (pre ++ (key, v) :: post) key = some (key, v) := by
  induction pre with
  | nil => simp [StringDictionary.find]
  | cons e pre ih =>
    have he : ¬ e.1 = key := hpre e (List.mem_cons_self _ _)
    have := ih (fun x hx => hpre x (List.mem_cons_of_mem _ hx))
    simp only [StringDictionary.find] at this ⊢
    simp [List.find?_cons, he, this]

theorem equal_range_eq_nil_iff (dict : StringDictionary) (key : Str) :
    dict.equal_range key = [] ↔ ∀ e ∈ dict, e.1 ≠ key := by
  simp [StringDictionary.equal_range, List.filter_eq_nil_iff]

/-- Claim C11.  For every message and key k: hasHeader(k) is true if and only if an
entry with key k exists; getHeader(k) is the value of the first entry with key k (the
entry before which no entry has key k) when there is one and the empty string when
there is none; and after addHeader(k, a) and addHeader(k, b) on a message without k,
getHeader(k) is a. -/
theorem hasHeader_getHeader_first (m : HTTPMessage) (k a b : Str) :
    (m.hasHeader k = true ↔ ∃ v, (k, v) ∈ m.getHeaders)
    ∧ (∀ (pre post : StringDictionary) (v : Str), m.getHeaders = pre ++ (k, v) :: post →
        (∀ e ∈ pre, e.1 ≠ k) → m.getHeader k = v)
    ∧ ((∀ e ∈ m.getHeaders, e.1 ≠ k) → m.getHeader k = [])
    ∧ (m.hasHeader k = false → ((m.addHeader k a).addHeader k b).getHeader k = a) := by
  refine ⟨find_isSome_iff m.m_headers k, ?_, ?_, ?_⟩
  · intro pre post v hm hpre
    simp only [HTTPMessage.getHeaders] at hm
    simp only [HTTPMessage.getHeader, getValue, hm, find_first pre post k v hpre]
  · intro h
    simp only [HTTPMessage.getHeader, getValue, (find_eq_none_iff m.m_headers k).2 h]
    rfl
  · intro h
    have hnone : ∀ e ∈ m.m_headers, e.1 ≠ k := by
      rw [← find_eq_none_iff]
      simpa [HTTPMessage.hasHeader] using h
    have e : ((m.addHeader k a).addHeader k b).m_headers = m.m_headers ++ (k, a) :: [(k, b)] := by
      simp [HTTPMessage.addHeader, StringDictionary.insert]
    simp only [HTTPMessage.getHeader, getValue, e, find_first m.m_headers [(k, b)] k a hnone]

theorem equal_range_eraseRange_self (dict : StringDictionary) (key : Str) :
    (dict.eraseRange key).equal_range key = [] := by
  simp [StringDictionary.eraseRange, StringDictionary.equal_range, List.filter_filter]

theorem equal_range_eraseRange_other (dict : StringDictionary) (key key2 : Str)
    (h : key2 ≠ key) :
    (dict.eraseRange key).equal_range key2 = dict.equal_range key2 := by
  simp only [StringDictionary.eraseRange, StringDictionary.equal_range, List.filter_filter]
  apply List.filter_congr
  intro x _
  by_cases hx : x.1 = key2
  · simp [hx, h]
  · simp [hx]

theorem equal_range_deleteValue_self (dict : StringDictionary) (key : Str) :
    (deleteValue dict key).equal_range key = [] := by
  unfold deleteValue
  split
  · assumption
  · exact equal_range_eraseRange_self dict key

theorem equal_range_deleteValue_other (dict : StringDictionary) (key key2 : Str)
    (h : key2 ≠ key) :
    (deleteValue dict key).equal_range key2 = dict.equal_range key2 := by
  unfold deleteValue
  split
  · rfl
  · exact equal_range_eraseRange_other dict key key2 h

/-- Claim C12.  For every message and key k: after deleteHeader(k) no entry with key k
remains, so that hasHeader(k) is false and getHeader(k) is empty; the entries of every
other key are as before, in the same order; no other member of the message changes;
and deleting a key that has no entry leaves the message as it was. -/
theorem deleteHeader_removes_all (m : HTTPMessage) (k : Str) :
    (∀ e ∈ (m.deleteHeader k).getHeaders, e.1 ≠ k)
    ∧ (m.deleteHeader k).hasHeader k = false
    ∧ (m.deleteHeader k).getHeader k = []
    ∧ (∀ k2 : Str, k2 ≠ k →
        (m.deleteHeader k).getHeaders.equal_range k2 = m.getHeaders.equal_range k2)
    ∧ m.deleteHeader k = { m with m_headers := (m.deleteHeader k).getHeaders }
    ∧ (m.hasHeader k = false → m.deleteHeader k = m) := by
  have h0 : ∀ e ∈ (m.deleteHeader k).m_headers, e.1 ≠ k := by
    rw [← equal_range_eq_nil_iff]
    exact equal_range_deleteValue_self m.m_headers k
  have h1 : (m.deleteHeader k).m_headers.find k = none := (find_eq_none_iff _ k).2 h0
  refine ⟨h0, ?_, ?_, ?_, rfl, ?_⟩
  · simp [HTTPMessage.hasHeader, h1]
  · simp only [HTTPMessage.getHeader, getValue, h1]
    rfl
  · intro k2 hk2
    exact equal_range_deleteValue_other m.m_headers k k2 hk2
  · intro h
    have hnone : ∀ e ∈ m.m_headers, e.1 ≠ k := by
      rw [← find_eq_none_iff]
      simpa [HTTPMessage.hasHeader] using h
    have : m.m_headers.equal_range k = [] := (equal_range_eq_nil_iff _ k).2 hnone
    simp [HTTPMessage.deleteHeader, deleteValue, this]

/-! ## Content length and transfer coding -/

theorem takeWhile_eq_self_of_all {α : Type} (f : α → Bool) (l : List α)
    (h : ∀ x ∈ l, f x = true) : l.takeWhile f = l := by
  rw [List.takeWhile_eq_self_iff]
  exact h

/-- On a string of decimal digits whose value fits, `strtoul` returns the value. -/
theorem strtoul_digits (ULONG_MAX : Nat) (d : Str) (hd : ∀ c ∈ d, isDigit c = true)
    (hv : HTTPRequestParser.digitsValue d ≤ ULONG_MAX) :
    strtoul ULONG_MAX d = HTTPRequestParser.digitsValue d := by
  have hb : ∀ c ∈ d, 48 ≤ c ∧ c ≤ 57 := fun c hc => HTTPRequestParser.isDigit_bounds c (hd c hc)
  have h1 : d.takeWhile (fun c => decide (c ≠ 0)) = d := by
    apply takeWhile_eq_self_of_all
    intro c hc
    have := hb c hc
    simp only [decide_eq_true_eq]
    omega
  have h2 : d.dropWhile isspace = d := by
    cases d with
    | nil => rfl
    | cons c d =>
      have := hb c (List.mem_cons_self _ _)
      have hs : isspace c = false := by
        simp only [isspace, Bool.or_eq_false_iff, Bool.and_eq_false_iff, decide_eq_false_iff_not]
        omega
      simp [List.dropWhile_cons, hs]
  have h3 : d.head? ≠ some 43 ∧ d.head? ≠ some 45 := by
    cases d with
    | nil => simp
    | cons c d =>
      have := hb c (List.mem_cons_self _ _)
      simp only [List.head?_cons, ne_eq, Option.some.injEq]
      omega
  have h4 : d.takeWhile isDigit = d := takeWhile_eq_self_of_all isDigit d hd
  unfold strtoul
  simp only [h1, h2, h3.1, h3.2, or_self, if_false, h4, decide_False, Bool.false_eq_true]
  rw [if_neg (by omega)]

/-- Claim C13.  updateContentLengthUsingHeader sets the content length to 0 when the
message has no Content-Length header, and when the first Content-Length value is
empty; it sets it to the base-10 value of the first Content-Length value when that
value is a string of decimal digits whose value is at most ULONG_MAX, the largest
value of the unsigned type that strtoul returns; and it changes no other member. -/
theorem updateContentLength_spec (ULONG_MAX : Nat) (m : HTTPMessage) :
    (m.hasHeader (str "Content-Length") = false →
        (m.updateContentLengthUsingHeader ULONG_MAX).getContentLength = 0)
    ∧ (∀ (pre post : StringDictionary) (d : Str),
        m.getHeaders = pre ++ (str "Content-Length", d) :: post →
        (∀ e ∈ pre, e.1 ≠ str "Content-Length") →
        (d = [] → (m.updateContentLengthUsingHeader ULONG_MAX).getContentLength = 0)
        ∧ ((∀ c ∈ d, isDigit c = true) → HTTPRequestParser.digitsValue d ≤ ULONG_MAX →
            (m.updateContentLengthUsingHeader ULONG_MAX).getContentLength
              = HTTPRequestParser.digitsValue d))
    ∧ m.updateContentLengthUsingHeader ULONG_MAX
        = { m with m_content_length :=
              (m.updateContentLengthUsingHeader ULONG_MAX).getContentLength } := by
  refine ⟨?_, ?_, ?_⟩
  · intro h
    have hn : m.m_headers.find HEADER_CONTENT_LENGTH = none := by
      simpa [HTTPMessage.hasHeader] using h
    simp [HTTPMessage.updateContentLengthUsingHeader, hn, HTTPMessage.getContentLength]
  · intro pre post d hm hpre
    have hf : m.m_headers.find HEADER_CONTENT_LENGTH = some (str "Content-Length", d) := by
      simp only [HTTPMessage.getHeaders] at hm
      rw [hm]
      exact find_first pre post _ d hpre
    have hval : (m.updateContentLengthUsingHeader ULONG_MAX).getContentLength
        = strtoul ULONG_MAX d := by
      simp [HTTPMessage.updateContentLengthUsingHeader, hf, HTTPMessage.getContentLength]
    rw [hval]
    constructor
    · intro hd
      subst hd
      exact strtoul_digits ULONG_MAX [] (by simp) (Nat.zero_le _)
    · intro hd hv
      exact strtoul_digits ULONG_MAX d hd hv
  · unfold HTTPMessage.updateContentLengthUsingHeader
    split <;> rfl

theorem tolower_eq_iff (x y : Int) : tolower x = tolower y ↔ sameIgnoringCase x y = true := by
  simp only [tolower, sameIgnoringCase, Bool.or_eq_true, Bool.and_eq_true, decide_eq_true_eq]
  split_ifs <;> omega

theorem map_tolower_eq_iff (a b : Str) :
    a.map tolower = b.map tolower ↔ equalsIgnoringCase a b = true := by
  induction a generalizing b with
  | nil => cases b <;> simp [equalsIgnoringCase]
  | cons x xs ih =>
    cases b with
    | nil => simp [equalsIgnoringCase]
    | cons y ys =>
      simp only [List.map_cons, List.cons.injEq, equalsIgnoringCase, Bool.and_eq_true,
        tolower_eq_iff, ih]

/-- Claim C14.  updateTransferCodingUsingHeader leaves the is-chunked flag true exactly
when a Transfer-Encoding header exists and its first value equals "chunked" when
compared case-insensitively; otherwise the flag is false whatever it was before; the
headers and all other members are unchanged.  "Chunked" and "CHUNKED" give true, and
"gzip" and a message without the header give false, also when the flag was true. -/
theorem updateTransferCoding_spec (m : HTTPMessage) :
    (m.updateTransferCodingUsingHeader.isChunked = true
      ↔ ∃ (pre post : StringDictionary) (v : Str),
          m.getHeaders = pre ++ (str "Transfer-Encoding", v) :: post
          ∧ (∀ e ∈ pre, e.1 ≠ str "Transfer-Encoding")
          ∧ equalsIgnoringCase v (str "chunked") = true)
    ∧ m.updateTransferCodingUsingHeader
        = { m with m_is_chunked := m.updateTransferCodingUsingHeader.isChunked }
    ∧ (transferEncodingMessage (str "Chunked") false).updateTransferCodingUsingHeader.isChunked
        = true
    ∧ (transferEncodingMessage (str "CHUNKED") false).updateTransferCodingUsingHeader.isChunked
        = true
    ∧ (transferEncodingMessage (str "gzip") true).updateTransferCodingUsingHeader.isChunked
        = false
    ∧ ({ HTTPMessage.new with m_is_chunked := true }).updateTransferCodingUsingHeader.isChunked
        = false := by
  refine ⟨?_, ?_, by decide, by decide, by decide, by decide⟩
  · have hlow : (str "chunked").map tolower = str "chunked" := by decide
    cases hf : m.m_headers.find HEADER_TRANSFER_ENCODING with
    | none =>
      have hnone := (find_eq_none_iff _ _).1 hf
      simp only [HTTPMessage.updateTransferCodingUsingHeader, hf, HTTPMessage.isChunked]
      constructor
      · intro h; cases h
      · rintro ⟨pre, post, v, hm, _, _⟩
        exfalso
        simp only [HTTPMessage.getHeaders] at hm
        exact hnone (str "Transfer-Encoding", v) (by rw [hm]; simp) rfl
    | some i =>
      have hflag : m.updateTransferCodingUsingHeader.isChunked
          = decide (i.2.map tolower = str "chunked") := by
        simp only [HTTPMessage.updateTransferCodingUsingHeader, hf, HTTPMessage.isChunked]
        split <;> simp_all
      rw [hflag, decide_eq_true_eq]
      constructor
      · intro h
        simp only [StringDictionary.find] at hf
        have hk : i.1 = HEADER_TRANSFER_ENCODING := by
          simpa using List.find?_some hf
        obtain ⟨_, pre, post, hm, hpre⟩ := List.find?_eq_some.1 hf
        refine ⟨pre, post, i.2, ?_, ?_, ?_⟩
        · simp only [HTTPMessage.getHeaders]
          rw [hm]
          congr 2
          exact Prod.ext hk rfl
        · intro e he
          simpa using hpre e he
        · rw [← map_tolower_eq_iff, hlow]
          exact h
      · rintro ⟨pre, post, v, hm, hpre, hv⟩
        simp only [HTTPMessage.getHeaders] at hm
        have : m.m_headers.find HEADER_TRANSFER_ENCODING = some (str "Transfer-Encoding", v) := by
          rw [hm]
          exact find_first pre post _ v hpre
        rw [this] at hf
        injection hf with hf
        subst hf
        rw [← map_tolower_eq_iff, hlow] at hv
        exact hv
  · unfold HTTPMessage.updateTransferCodingUsingHeader
    simp only
    split
    · rfl
    · split <;> rfl

/-! ## Preparing a message for sending -/

theorem digitsFrom_append (n : Nat) (a b : Str) :
    HTTPRequestParser.digitsFrom n (a ++ b)
      = HTTPRequestParser.digitsFrom (HTTPRequestParser.digitsFrom n a) b := by
  simp [HTTPRequestParser.digitsFrom, List.foldl_append]

/-- The digits that `decimalDigits` puts in front of `acc` are decimal digits and
denote `n`. -/
theorem decimalDigits_spec (fuel n : Nat) (acc : Str) (h : n < fuel) :
    ∃ ds : Str, decimalDigits fuel n acc = ds ++ acc ∧ ds ≠ []
      ∧ (∀ c ∈ ds, isDigit c = true) ∧ HTTPRequestParser.digitsFrom 0 ds = n := by
  induction fuel generalizing n acc with
  | zero => omega
  | succ fuel ih =>
    have hmod : n % 10 < 10 := Nat.mod_lt _ (by decide)
    have hdig : isDigit (48 + (n % 10 : Nat) : Int) = true := by
      simp only [isDigit, Bool.and_eq_true, decide_eq_true_eq]
      omega
    by_cases hz : n / 10 = 0
    · refine ⟨[(48 + (n % 10 : Nat) : Int)], by rw [decimalDigits, if_pos hz]; rfl, by simp,
        ?_, ?_⟩
      · intro c hc
        rw [List.mem_singleton.1 hc]
        exact hdig
      · simp only [HTTPRequestParser.digitsFrom, List.foldl_cons, List.foldl_nil]
        omega
    · obtain ⟨ds, h1, _, h3, h4⟩ := ih (n / 10) ((48 + (n % 10 : Nat) : Int) :: acc) (by omega)
      refine ⟨ds ++ [(48 + (n % 10 : Nat) : Int)], ?_, by simp, ?_, ?_⟩
      · rw [decimalDigits, if_neg hz, h1, List.append_assoc]
        rfl
      · intro c hc
        rcases List.mem_append.1 hc with hc | hc
        · exact h3 c hc
        · rw [List.mem_singleton.1 hc]
          exact hdig
      · rw [digitsFrom_append, h4]
        simp only [HTTPRequestParser.digitsFrom, List.foldl_cons, List.foldl_nil]
        omega

/-- The string `lexical_cast n` is a non-empty string of decimal digits with value `n`. -/
theorem lexical_cast_spec (n : Nat) :
    lexical_cast n ≠ [] ∧ (∀ c ∈ lexical_cast n, isDigit c = true)
      ∧ HTTPRequestParser.digitsValue (lexical_cast n) = n := by
  obtain ⟨ds, h1, h2, h3, h4⟩ := decimalDigits_spec (n + 1) n [] (Nat.lt_succ_self n)
  have : lexical_cast n = ds := by simp [lexical_cast, h1]
  rw [this]
  exact ⟨h2, h3, h4⟩

theorem changeHeader_headers (m : HTTPMessage) (k v : Str) :
    (m.changeHeader k v).m_headers = changeValue m.m_headers k v := rfl

theorem equal_range_exists_iff (dict : StringDictionary) (key : Str) :
    dict.equal_range key ≠ [] ↔ ∃ v, (key, v) ∈ dict := by
  rw [Ne, equal_range_eq_nil_iff]
  constructor
  · intro h
    by_contra hc
    apply h
    intro e he heq
    exact hc ⟨e.2, by rw [← heq]; exact he⟩
  · rintro ⟨v, hv⟩ h
    exact h (key, v) hv rfl

theorem mem_equal_range_iff (dict : StringDictionary) (key : Str) (e : Str × Str) :
    e ∈ dict.equal_range key ↔ e ∈ dict ∧ e.1 = key := by
  simp [StringDictionary.equal_range]

/-- The headers after `prepareHeadersForSend`, key by key. -/
theorem prepareHeadersForSend_ranges (m : HTTPMessage) (keep_alive using_chunks : Bool) :
    (m.prepareHeadersForSend keep_alive using_chunks).m_headers.equal_range HEADER_CONNECTION
      = [(HEADER_CONNECTION, if keep_alive then str "Keep-Alive" else str "close")]
    ∧ (m.prepareHeadersForSend keep_alive using_chunks).m_headers.equal_range
          HEADER_CONTENT_LENGTH
        = (if using_chunks then m.m_headers.equal_range HEADER_CONTENT_LENGTH
           else [(HEADER_CONTENT_LENGTH, lexical_cast m.m_content_length)])
    ∧ (m.prepareHeadersForSend keep_alive using_chunks).m_headers.equal_range
          HEADER_TRANSFER_ENCODING
        = (if using_chunks = true ∧ m.m_chunks_supported = true
           then [(HEADER_TRANSFER_ENCODING, str "chunked")]
           else m.m_headers.equal_range HEADER_TRANSFER_ENCODING) := by
  have h1 : HEADER_CONNECTION ≠ HEADER_CONTENT_LENGTH := by decide
  have h2 : HEADER_CONNECTION ≠ HEADER_TRANSFER_ENCODING := by decide
  have h3 : HEADER_CONTENT_LENGTH ≠ HEADER_TRANSFER_ENCODING := by decide
  unfold HTTPMessage.prepareHeadersForSend
  cases using_chunks with
  | true =>
    cases hs : m.m_chunks_supported with
    | true =>
      simp only [HTTPMessage.getChunksSupported, HTTPMessage.changeHeader, hs, if_true,
        and_self]
      refine ⟨?_, ?_, ?_⟩
      · rw [equal_range_changeValue_other _ _ _ _ h2, equal_range_changeValue_self]
      · rw [equal_range_changeValue_other _ _ _ _ h3,
          equal_range_changeValue_other _ _ _ _ h1.symm]
      · rw [equal_range_changeValue_self]
    | false =>
      simp only [HTTPMessage.getChunksSupported, HTTPMessage.changeHeader, hs, if_true,
        Bool.false_eq_true, if_false, and_false]
      refine ⟨?_, ?_, ?_⟩
      · rw [equal_range_changeValue_self]
      · rw [equal_range_changeValue_other _ _ _ _ h1.symm]
      · rw [equal_range_changeValue_other _ _ _ _ h2.symm]
  | false =>
    simp only [HTTPMessage.getContentLength, HTTPMessage.changeHeader, Bool.false_eq_true,
      if_false, false_and]
    refine ⟨?_, ?_, ?_⟩
    · rw [equal_range_changeValue_other _ _ _ _ h1, equal_range_changeValue_self]
    · rw [equal_range_changeValue_self]
    · rw [equal_range_changeValue_other _ _ _ _ h3.symm,
        equal_range_changeValue_other _ _ _ _ h2.symm]

theorem hasHeader_congr (m m2 : HTTPMessage) (k : Str)
    (h : m2.m_headers.equal_range k = m.m_headers.equal_range k) :
    m2.hasHeader k = m.hasHeader k := by
  have key : ∀ x : HTTPMessage, x.hasHeader k = true ↔ x.m_headers.equal_range k ≠ [] := by
    intro x
    rw [equal_range_exists_iff]
    exact find_isSome_iff x.m_headers k
  cases h1 : m2.hasHeader k <;> cases h2 : m.hasHeader k <;> try rfl
  · have := (key m).1 h2
    rw [← h, ← key m2, h1] at this
    cases this
  · have := (key m2).1 h1
    rw [h, ← key m, h2] at this
    cases this

theorem hasChunked_congr (m m2 : HTTPMessage)
    (h : m2.m_headers.equal_range HEADER_TRANSFER_ENCODING
      = m.m_headers.equal_range HEADER_TRANSFER_ENCODING) :
    m2.hasChunkedTransferEncoding = m.hasChunkedTransferEncoding := by
  have key : ∀ x : HTTPMessage, x.hasChunkedTransferEncoding = true
      ↔ (HEADER_TRANSFER_ENCODING, str "chunked")
          ∈ x.m_headers.equal_range HEADER_TRANSFER_ENCODING := by
    intro x
    rw [mem_equal_range_iff]
    simp [HTTPMessage.hasChunkedTransferEncoding]
  cases h1 : m2.hasChunkedTransferEncoding <;> cases h2 : m.hasChunkedTransferEncoding <;>
    try rfl
  · have := (key m).1 h2
    rw [← h, ← key m2, h1] at this
    cases this
  · have := (key m2).1 h1
    rw [h, ← key m, h2] at this
    cases this

/-- Claim C15, as stated, fails in both directions.  With using_chunks on a message that
does not support chunks, a message without headers ends with neither a Content-Length
nor a Transfer-Encoding header.  With using_chunks on a message that supports chunks
and already carries a Content-Length header, it ends with both; and without
using_chunks a message that already carries a Transfer-Encoding header with the value
chunked ends with both as well. -/
theorem prepareHeaders_counterexample :
    (HTTPMessage.new.prepareHeadersForSend true true).hasHeader (str "Content-Length") = false
    ∧ (HTTPMessage.new.prepareHeadersForSend true true).hasHeader (str "Transfer-Encoding")
        = false
    ∧ (contentLengthMessage.prepareHeadersForSend true true).hasHeader (str "Content-Length")
        = true
    ∧ (str "Transfer-Encoding", str "chunked")
        ∈ (contentLengthMessage.prepareHeadersForSend true true).getHeaders
    ∧ (chunkedHeaderMessage.prepareHeadersForSend true false).hasHeader (str "Content-Length")
        = true
    ∧ (str "Transfer-Encoding", str "chunked")
        ∈ (chunkedHeaderMessage.prepareHeadersForSend true false).getHeaders
    ∧ (HTTPMessage.new.prepareHeadersForSend true true).emitsExactlyOne = false
    ∧ (contentLengthMessage.prepareHeadersForSend true true).emitsExactlyOne = false
    ∧ (chunkedHeaderMessage.prepareHeadersForSend true false).emitsExactlyOne = false := by
  decide

/-- Claim C15, amended.  For every message, whatever its headers and its
chunks-supported flag, and for both values of keep_alive and using_chunks: after
prepareHeadersForSend the headers hold exactly one of a Content-Length header and a
Transfer-Encoding header with the value chunked, not both and not neither, if and
only if one of these holds: using_chunks is false and no Transfer-Encoding header
with the value chunked was there before; using_chunks is true, chunks are supported
and no Content-Length header was there before; using_chunks is true, chunks are not
supported and the headers before already held exactly one of the two.  A header of
the kind that is written replaces every header of that kind that was there before:
without using_chunks there is one Content-Length entry, the decimal content length;
with using_chunks and chunk support there is one Transfer-Encoding entry, chunked. -/
theorem prepareHeaders_exactly_one (m : HTTPMessage) (keep_alive using_chunks : Bool) :
    ((m.prepareHeadersForSend keep_alive using_chunks).emitsExactlyOne = true
      ↔ (using_chunks = false ∧ m.hasChunkedTransferEncoding = false)
        ∨ (using_chunks = true ∧ m.getChunksSupported = true
            ∧ m.hasHeader (str "Content-Length") = false)
        ∨ (using_chunks = true ∧ m.getChunksSupported = false ∧ m.emitsExactlyOne = true))
    ∧ (using_chunks = false →
        (m.prepareHeadersForSend keep_alive using_chunks).getHeaders.equal_range
            (str "Content-Length")
          = [(str "Content-Length", lexical_cast m.getContentLength)]
        ∧ (m.prepareHeadersForSend keep_alive using_chunks).getHeaders.equal_range
            (str "Transfer-Encoding")
          = m.getHeaders.equal_range (str "Transfer-Encoding"))
    ∧ (using_chunks = true → m.getChunksSupported = true →
        (m.prepareHeadersForSend keep_alive using_chunks).getHeaders.equal_range
            (str "Transfer-Encoding")
          = [(str "Transfer-Encoding", str "chunked")]
        ∧ (m.prepareHeadersForSend keep_alive using_chunks).getHeaders.equal_range
            (str "Content-Length")
          = m.getHeaders.equal_range (str "Content-Length"))
    ∧ (using_chunks = true → m.getChunksSupported = false →
        (m.prepareHeadersForSend keep_alive using_chunks).getHeaders.equal_range
            (str "Transfer-Encoding")
          = m.getHeaders.equal_range (str "Transfer-Encoding")
        ∧ (m.prepareHeadersForSend keep_alive using_chunks).getHeaders.equal_range
            (str "Content-Length")
          = m.getHeaders.equal_range (str "Content-Length")) := by
  obtain ⟨_, r2, r3⟩ := prepareHeadersForSend_ranges m keep_alive using_chunks
  have hone : ∀ x : HTTPMessage, x.m_headers.equal_range HEADER_CONTENT_LENGTH ≠ [] →
      x.hasHeader HEADER_CONTENT_LENGTH = true := by
    intro x hx
    rw [equal_range_exists_iff] at hx
    exact (find_isSome_iff x.m_headers _).2 hx
  have hch : ∀ x : HTTPMessage, (HEADER_TRANSFER_ENCODING, str "chunked")
      ∈ x.m_headers.equal_range HEADER_TRANSFER_ENCODING →
      x.hasChunkedTransferEncoding = true := by
    intro x hx
    rw [mem_equal_range_iff] at hx
    simpa [HTTPMessage.hasChunkedTransferEncoding] using hx.1
  cases using_chunks with
  | false =>
    simp only [Bool.false_eq_true, if_false, false_and] at r2 r3
    refine ⟨?_, ?_, ?_, ?_⟩
    rotate_left
    · intro _; exact ⟨r2, r3⟩
    · intro h; cases h
    · intro h; cases h
    have h1 := hone (m.prepareHeadersForSend keep_alive false) (by rw [r2]; simp)
    have h2 := hasChunked_congr m (m.prepareHeadersForSend keep_alive false) r3
    show xor ((m.prepareHeadersForSend keep_alive false).hasHeader HEADER_CONTENT_LENGTH)
        (m.prepareHeadersForSend keep_alive false).hasChunkedTransferEncoding = true ↔ _
    rw [h1, h2]
    cases m.hasChunkedTransferEncoding <;> simp
  | true =>
    cases hs : m.m_chunks_supported with
    | true =>
      simp only [if_true, hs, and_self] at r2 r3
      refine ⟨?_, ?_, ?_, ?_⟩
      rotate_left
      · intro h; cases h
      · intro _ _; exact ⟨r3, r2⟩
      · intro _ h
        simp only [HTTPMessage.getChunksSupported, hs] at h
        cases h
      · have h1 := hch (m.prepareHeadersForSend keep_alive true) (by rw [r3]; simp)
        have h2 := hasHeader_congr m (m.prepareHeadersForSend keep_alive true)
          HEADER_CONTENT_LENGTH r2
        show xor ((m.prepareHeadersForSend keep_alive true).hasHeader HEADER_CONTENT_LENGTH)
            (m.prepareHeadersForSend keep_alive true).hasChunkedTransferEncoding = true ↔ _
        rw [h1, h2]
        have e : m.hasHeader (str "Content-Length") = m.hasHeader HEADER_CONTENT_LENGTH := rfl
        rw [e]
        cases m.hasHeader HEADER_CONTENT_LENGTH <;> simp [HTTPMessage.getChunksSupported, hs]
    | false =>
      simp only [if_true, hs, Bool.false_eq_true, and_false, if_false] at r2 r3
      refine ⟨?_, ?_, ?_, ?_⟩
      rotate_left
      · intro h; cases h
      · intro _ h
        simp only [HTTPMessage.getChunksSupported, hs] at h
        cases h
      · intro _ _; exact ⟨r3, r2⟩
      · have h1 := hasChunked_congr m (m.prepareHeadersForSend keep_alive true) r3
        have h2 := hasHeader_congr m (m.prepareHeadersForSend keep_alive true)
          HEADER_CONTENT_LENGTH r2
        show xor ((m.prepareHeadersForSend keep_alive true).hasHeader HEADER_CONTENT_LENGTH)
            (m.prepareHeadersForSend keep_alive true).hasChunkedTransferEncoding = true ↔ _
        rw [h1, h2]
        simp [HTTPMessage.getChunksSupported, hs, HTTPMessage.emitsExactlyOne]

/-- Claim C15, amended, at a message that supports chunks and already carries a
Transfer-Encoding header: with using_chunks the header is replaced and the message ends
with exactly one of the two. -/
theorem prepareHeaders_exactly_one_witness :
    (chunkedHeaderMessage.prepareHeadersForSend true true).emitsExactlyOne = true :=
  (prepareHeaders_exactly_one chunkedHeaderMessage true true).1.2
    (Or.inr (Or.inl ⟨rfl, by decide, by decide⟩))

/-- Claim C16.  For every message, after prepareHeadersForSend(keep_alive, false) the
headers hold exactly one Connection entry, with value Keep-Alive when keep_alive is
true and close otherwise, whatever Connection entries were there before, and exactly
one Content-Length entry, whose value is the decimal representation of
getContentLength(): a non-empty string of decimal digits that denotes that number. -/
theorem prepareHeaders_connection_and_length (m : HTTPMessage) (keep_alive : Bool) :
    (m.prepareHeadersForSend keep_alive false).getHeaders.equal_range (str "Connection")
      = [(str "Connection", if keep_alive then str "Keep-Alive" else str "close")]
    ∧ (m.prepareHeadersForSend keep_alive false).getHeaders.equal_range (str "Content-Length")
      = [(str "Content-Length", lexical_cast m.getContentLength)]
    ∧ lexical_cast m.getContentLength ≠ []
    ∧ (∀ c ∈ lexical_cast m.getContentLength, isDigit c = true)
    ∧ HTTPRequestParser.digitsValue (lexical_cast m.getContentLength) = m.getContentLength
    ∧ lexical_cast 0 = str "0" ∧ lexical_cast 1048576 = str "1048576" := by
  obtain ⟨r1, r2, _⟩ := prepareHeadersForSend_ranges m keep_alive false
  obtain ⟨l1, l2, l3⟩ := lexical_cast_spec m.getContentLength
  simp only [Bool.false_eq_true, if_false] at r2
  exact ⟨r1, r2, l1, l2, l3, by decide, by rfl⟩

theorem appendHeaders_eq (m : HTTPMessage) (wb : List Str) :
    m.appendHeaders wb
      = wb ++ (m.m_headers.map
            (fun i => [i.1, HEADER_NAME_VALUE_DELIMITER, i.2, STRING_CRLF])).flatten
          ++ [STRING_CRLF] := by
  unfold HTTPMessage.appendHeaders
  congr 1
  generalize m.m_headers = hs
  induction hs generalizing wb with
  | nil => simp
  | cons i hs ih =>
    rw [List.foldl_cons, ih]
    simp

/-- Claim C17.  After prepareBuffersForSend on an empty buffer list, the write buffers
are: the first line, CRLF, then for each header entry, in the iteration order of the
headers left by prepareHeadersForSend, the four buffers name, ": ", value, CRLF, and
one final CRLF.  Their concatenation is the first line, CRLF, every header as
name ": " value CRLF, and the blank line; and there are 2 + 4*N + 1 buffers for N
header entries. -/
theorem prepareBuffers_layout (getFirstLine : HTTPMessage → Str) (m : HTTPMessage)
    (keep_alive using_chunks : Bool) :
    (HTTPMessage.prepareBuffersForSend getFirstLine m [] keep_alive using_chunks).1
      = m.prepareHeadersForSend keep_alive using_chunks
    ∧ (HTTPMessage.prepareBuffersForSend getFirstLine m [] keep_alive using_chunks).2
      = [getFirstLine (m.prepareHeadersForSend keep_alive using_chunks), str "\r\n"]
        ++ ((m.prepareHeadersForSend keep_alive using_chunks).getHeaders.map
              (fun i => [i.1, str ": ", i.2, str "\r\n"])).flatten
        ++ [str "\r\n"]
    ∧ (HTTPMessage.prepareBuffersForSend getFirstLine m [] keep_alive using_chunks).2.flatten
      = getFirstLine (m.prepareHeadersForSend keep_alive using_chunks) ++ str "\r\n"
        ++ ((m.prepareHeadersForSend keep_alive using_chunks).getHeaders.map
              (fun i => i.1 ++ str ": " ++ i.2 ++ str "\r\n")).flatten
        ++ str "\r\n"
    ∧ (HTTPMessage.prepareBuffersForSend getFirstLine m [] keep_alive using_chunks).2.length
      = 2 + 4 * (m.prepareHeadersForSend keep_alive using_chunks).getHeaders.length + 1 := by
  have e : (HTTPMessage.prepareBuffersForSend getFirstLine m [] keep_alive using_chunks).2
      = [getFirstLine (m.prepareHeadersForSend keep_alive using_chunks), str "\r\n"]
        ++ ((m.prepareHeadersForSend keep_alive using_chunks).getHeaders.map
              (fun i => [i.1, str ": ", i.2, str "\r\n"])).flatten
        ++ [str "\r\n"] := by
    simp only [HTTPMessage.prepareBuffersForSend, appendHeaders_eq, HTTPMessage.getHeaders]
    rfl
  refine ⟨rfl, e, ?_, ?_⟩
  · rw [e]
    generalize (m.prepareHeadersForSend keep_alive using_chunks).getHeaders = hs
    simp only [List.flatten_append, List.flatten_cons, List.flatten_nil, List.append_nil,
      List.append_assoc]
    congr 2
    induction hs with
    | nil => rfl
    | cons i hs ih =>
      simp only [List.map_cons, List.flatten_cons, List.flatten_append, ih, List.flatten_nil,
        List.append_nil, List.append_assoc]
  · rw [e]
    generalize (m.prepareHeadersForSend keep_alive using_chunks).getHeaders = hs
    simp only [List.length_append, List.length_cons, List.length_nil]
    have : ((hs.map (fun i : Str × Str => [i.1, str ": ", i.2, str "\r\n"])).flatten).length
        = 4 * hs.length := by
      induction hs with
      | nil => rfl
      | cons i hs ih =>
        simp only [List.map_cons, List.flatten_cons, List.length_append, ih, List.length_cons,
          List.length_nil]
        omega
    omega

namespace HTTPRequestParser

/-! ## Cookie attributes that begin with a dollar sign -/

theorem insertUnlessDollar_keys (s : CookieState)
    (h : ∀ e ∈ s.dict, e.1.head? ≠ some 36) :
    ∀ e ∈ insertUnlessDollar s, e.1.head? ≠ some 36 := by
  unfold insertUnlessDollar
  split
  · rename_i hne
    intro e he
    simp only [StringDictionary.insert, List.mem_append, List.mem_singleton] at he
    rcases he with he | he
    · exact h e he
    · subst he
      intro h36
      apply hne
      cases hn : s.cookie_name with
      | nil => simp [hn] at h36
      | cons x xs =>
        simp only [hn, List.head?_cons, Option.some.injEq] at h36
        simp [h36]
  · exact h

/-- One pass of the loop body leaves the dictionary alone or makes the guarded insertion. -/
theorem parseCookieHeaderStep_dict (s s2 : CookieState) (c : Int)
    (h : parseCookieHeaderStep s c = some s2) :
    s2.dict = s.dict ∨ s2.dict = insertUnlessDollar s := by
  unfold parseCookieHeaderStep at h
  split at h <;> split_ifs at h <;> simp at h <;> subst h <;> simp

theorem parseCookieHeaderLoop_keys (s : CookieState) (header : Str)
    (h : ∀ e ∈ s.dict, e.1.head? ≠ some 36) :
    ∀ e ∈ (parseCookieHeaderLoop s header).2, e.1.head? ≠ some 36 := by
  induction header generalizing s with
  | nil =>
    simp only [parseCookieHeaderLoop]
    split
    · rename_i hc
      have := insertUnlessDollar_keys s h
      rw [insertUnlessDollar, if_pos hc.2] at this
      exact this
    · exact h
  | cons c rest ih =>
    simp only [parseCookieHeaderLoop]
    cases hs : parseCookieHeaderStep s c with
    | none => exact h
    | some s2 =>
      apply ih s2
      rcases parseCookieHeaderStep_dict s s2 c hs with hd | hd
      · rw [hd]; exact h
      · rw [hd]; exact insertUnlessDollar_keys s h

/-- Claim C20.  For every Cookie header string and every dictionary without a key that
begins with a dollar sign, the dictionary after parseCookieHeader, whether it returns
true or false, has no key that begins with a dollar sign.  For example the pairs
$Path=/ and $Domain=x are consumed without being inserted while the pairs before and
after them are inserted, also when the call fails later on. -/
theorem cookie_dollar_names_filtered (dict : StringDictionary) (header : Str)
    (h : ∀ e ∈ dict, e.1.head? ≠ some 36) :
    (∀ e ∈ (parseCookieHeader dict header).2, e.1.head? ≠ some 36)
    ∧ parseCookieHeader [] (str "A=1; $Path=/; B=2")
        = (true, [(str "a", str "1"), (str "b", str "2")])
    ∧ parseCookieHeader [] (str "$Version=1; A=1; $Domain=x, B=2")
        = (true, [(str "a", str "1"), (str "b", str "2")])
    ∧ parseCookieHeader [] (str "A=1; $Path=/; =2") = (false, [(str "a", str "1")]) :=
  ⟨parseCookieHeaderLoop_keys _ header h, by decide, by decide, by decide⟩

/-- Claim C20 at a dictionary with one entry and a header with a $Path attribute. -/
theorem cookie_dollar_names_filtered_witness :
    ((parseCookieHeader [(str "x", str "0")] (str "A=1; $Path=/")).2.all
        (fun e => decide (e.1.head? ≠ some 36))) = true :=
  List.all_eq_true.2 (fun e he => decide_eq_true
    ((cookie_dollar_names_filtered [(str "x", str "0")] (str "A=1; $Path=/")
      (by decide)).1 e he))

end HTTPRequestParser

namespace HTTPRequestParser

/-! ## URL-encoded strings -/

theorem parseURLEncodedLoop_cons_some (s s2 : URLEncodedState) (c : Int) (rest : Str)
    (h : parseURLEncodedStep s c = some s2) :
    parseURLEncodedLoop s (c :: rest) = parseURLEncodedLoop s2 rest := by
  simp [parseURLEncodedLoop, h]

theorem parseURLEncodedLoop_cons_none (s : URLEncodedState) (c : Int) (rest : Str)
    (h : parseURLEncodedStep s c = none) :
    parseURLEncodedLoop s (c :: rest) = (false, s.dict) := by
  simp [parseURLEncodedLoop, h]

/-- Characters of a name that pass the tests and fit are pushed, one by one. -/
theorem url_run_name (s : URLEncodedState) (K X : Str)
    (hst : s.parse_state = .QUERY_PARSE_NAME)
    (hK : ∀ c ∈ K, isControl c = false ∧ c ≠ 61 ∧ c ≠ 38)
    (hlen : s.query_name.length + K.length ≤ QUERY_NAME_MAX) :
    parseURLEncodedLoop s (K ++ X)
      = parseURLEncodedLoop { s with query_name := s.query_name ++ K } X := by
  induction K generalizing s with
  | nil => simp
  | cons c K ih =>
    obtain ⟨h1, h2, h3⟩ := hK c (List.mem_cons_self _ _)
    simp only [List.length_cons] at hlen
    have hfull : ¬ s.query_name.length ≥ QUERY_NAME_MAX := by omega
    have hstep : parseURLEncodedStep s c = some { s with query_name := s.query_name ++ [c] } := by
      simp [parseURLEncodedStep, hst, h1, h2, h3, hfull]
    rw [List.cons_append, parseURLEncodedLoop_cons_some s _ c _ hstep,
      ih { s with query_name := s.query_name ++ [c] } hst
        (fun d hd => hK d (List.mem_cons_of_mem _ hd)) (by simp; omega)]
    simp

/-- Characters of a value that pass the tests and fit are pushed, one by one. -/
theorem url_run_value (s : URLEncodedState) (V X : Str)
    (hst : s.parse_state = .QUERY_PARSE_VALUE)
    (hV : ∀ c ∈ V, isControl c = false ∧ c ≠ 38)
    (hlen : s.query_value.length + V.length ≤ QUERY_VALUE_MAX) :
    parseURLEncodedLoop s (V ++ X)
      = parseURLEncodedLoop { s with query_value := s.query_value ++ V } X := by
  induction V generalizing s with
  | nil => simp
  | cons c V ih =>
    obtain ⟨h1, h3⟩ := hV c (List.mem_cons_self _ _)
    simp only [List.length_cons] at hlen
    have hfull : ¬ s.query_value.length ≥ QUERY_VALUE_MAX := by omega
    have hstep : parseURLEncodedStep s c = some { s with query_value := s.query_value ++ [c] } := by
      simp [parseURLEncodedStep, hst, h1, h3, hfull]
    rw [List.cons_append, parseURLEncodedLoop_cons_some s _ c _ hstep,
      ih { s with query_value := s.query_value ++ [c] } hst
        (fun d hd => hV d (List.mem_cons_of_mem _ hd)) (by simp; omega)]
    simp

/-- A pair `k=v`, from the start of a name to the end of the value. -/
theorem url_run_pair (d : StringDictionary) (p : Str × Str) (X : Str)
    (hp : serializablePair p) :
    parseURLEncodedLoop
        { parse_state := .QUERY_PARSE_NAME, query_name := [], query_value := [], dict := d }
        (p.1 ++ 61 :: p.2 ++ X)
      = parseURLEncodedLoop
        { parse_state := .QUERY_PARSE_VALUE, query_name := p.1, query_value := p.2, dict := d }
        X := by
  obtain ⟨h1, h2, h3, h4, h5⟩ := hp
  have e : p.1 ++ 61 :: p.2 ++ X = p.1 ++ (61 :: (p.2 ++ X)) := by simp
  rw [e, url_run_name _ p.1 _ rfl h3 (by simpa [QUERY_NAME_MAX] using h2)]
  have hstep : parseURLEncodedStep
      { parse_state := .QUERY_PARSE_NAME, query_name := [] ++ p.1, query_value := [], dict := d }
      61 = some { parse_state := .QUERY_PARSE_VALUE, query_name := p.1, query_value := [],
                  dict := d } := by
    simp [parseURLEncodedStep, h1]
  rw [parseURLEncodedLoop_cons_some _ _ 61 _ hstep,
    url_run_value _ p.2 _ rfl h5 (by simpa [QUERY_VALUE_MAX] using h4)]
  simp

/-- A pair followed by `&` is inserted and the next name starts. -/
theorem url_pair_amp (d : StringDictionary) (p : Str × Str) (X : Str)
    (hp : serializablePair p) :
    parseURLEncodedLoop
        { parse_state := .QUERY_PARSE_NAME, query_name := [], query_value := [], dict := d }
        (p.1 ++ 61 :: p.2 ++ 38 :: X)
      = parseURLEncodedLoop
        { parse_state := .QUERY_PARSE_NAME, query_name := [], query_value := [],
          dict := d ++ [p] } X := by
  rw [url_run_pair d p (38 :: X) hp]
  rw [parseURLEncodedLoop_cons_some _
    { parse_state := .QUERY_PARSE_NAME, query_name := [], query_value := [], dict := d ++ [p] }
    38 _ (by simp [parseURLEncodedStep, StringDictionary.insert])]

/-- The last pair, without `&`, is inserted at the end of the input. -/
theorem url_pair_last (d : StringDictionary) (p : Str × Str) (hp : serializablePair p) :
    parseURLEncodedLoop
        { parse_state := .QUERY_PARSE_NAME, query_name := [], query_value := [], dict := d }
        (p.1 ++ 61 :: p.2)
      = (true, d ++ [p]) := by
  have := url_run_pair d p [] hp
  simp only [List.append_nil] at this
  rw [this]
  simp [parseURLEncodedLoop, hp.1, StringDictionary.insert]

theorem url_serialized (pairs : List (Str × Str)) (d : StringDictionary)
    (h : ∀ p ∈ pairs, serializablePair p) :
    parseURLEncodedLoop
        { parse_state := .QUERY_PARSE_NAME, query_name := [], query_value := [], dict := d }
        (serializePairs pairs)
      = (true, d ++ pairs) := by
  induction pairs generalizing d with
  | nil => simp [serializePairs, parseURLEncodedLoop]
  | cons p ps ih =>
    cases ps with
    | nil => simpa [serializePairs] using url_pair_last d p (h p (List.mem_cons_self _ _))
    | cons q rest =>
      simp only [serializePairs]
      rw [url_pair_amp d p _ (h p (List.mem_cons_self _ _)),
        ih (d ++ [p]) (fun x hx => h x (List.mem_cons_of_mem _ hx))]
      simp

theorem url_serialized_amp (pairs : List (Str × Str)) (d : StringDictionary)
    (hne : pairs ≠ []) (h : ∀ p ∈ pairs, serializablePair p) :
    parseURLEncodedLoop
        { parse_state := .QUERY_PARSE_NAME, query_name := [], query_value := [], dict := d }
        (serializePairs pairs ++ [38])
      = (true, d ++ pairs) := by
  induction pairs generalizing d with
  | nil => exact absurd rfl hne
  | cons p ps ih =>
    cases ps with
    | nil =>
      have e : serializePairs [p] ++ [38] = p.1 ++ 61 :: p.2 ++ 38 :: [] := by
        simp [serializePairs]
      rw [e, url_pair_amp d p [] (h p (List.mem_cons_self _ _))]
      simp [parseURLEncodedLoop]
    | cons q rest =>
      have e : serializePairs (p :: q :: rest) ++ [38]
          = p.1 ++ 61 :: p.2 ++ 38 :: (serializePairs (q :: rest) ++ [38]) := by
        simp [serializePairs]
      rw [e, url_pair_amp d p _ (h p (List.mem_cons_self _ _)),
        ih (d ++ [p]) (by simp) (fun x hx => h x (List.mem_cons_of_mem _ hx))]
      simp

/-- Claim C19, as stated, fails: the pair with key a&b and value 1 has a non-empty key
and no control character, but the serialized form a&b=1 is read as the two pairs
(a, empty) and (b, 1). -/
theorem url_round_trip_counterexample :
    (str "a&b" ≠ [] ∧ (∀ c ∈ str "a&b", isControl c = false)
      ∧ (∀ c ∈ str "1", isControl c = false))
    ∧ serializePairs [(str "a&b", str "1")] = str "a&b=1"
    ∧ parseURLEncoded [] (serializePairs [(str "a&b", str "1")])
        = (true, [(str "a", []), (str "b", str "1")])
    ∧ parseURLEncoded [] (serializePairs [(str "a&b", str "1")])
        ≠ (true, [(str "a&b", str "1")]) := by
  decide

/-- Claim C19, amended.  For every list of pairs in which every key is not empty, has
at most 1,024 characters and no control character, = or &, and every value has at most
1,048,576 characters and no control character or &: parseURLEncoded on the serialized
form k_1=v_1&...&k_n=v_n with an empty dictionary returns true and yields exactly
those pairs, in order, each key and value character for character; the last pair needs
no terminating &, and when the list is not empty a trailing & changes nothing. -/
theorem url_round_trip (pairs : List (Str × Str))
    (h : ∀ p ∈ pairs, serializablePair p) :
    parseURLEncoded [] (serializePairs pairs) = (true, pairs)
    ∧ (pairs ≠ [] → parseURLEncoded [] (serializePairs pairs ++ [38]) = (true, pairs)) := by
  constructor
  · simpa [parseURLEncoded] using url_serialized pairs [] h
  · intro hne
    simpa [parseURLEncoded] using url_serialized_amp pairs [] hne h

/-- Claim C19, amended, at the pairs x=1 and y=two, where the key a%26b shows that
nothing is percent-decoded. -/
theorem url_round_trip_witness :
    serializePairs [(str "x", str "1"), (str "a%26b", str "two")] = str "x=1&a%26b=two"
    ∧ parseURLEncoded [] (serializePairs [(str "x", str "1"), (str "a%26b", str "two")])
        = (true, [(str "x", str "1"), (str "a%26b", str "two")]) :=
  ⟨by decide,
   (url_round_trip [(str "x", str "1"), (str "a%26b", str "two")] (by decide)).1⟩

end HTTPRequestParser

namespace HTTPRequestParser

theorem currentPair_snoc (P : Str) (c : Int) :
    currentPair (P ++ [c]) = if c = 38 then [] else currentPair P ++ [c] := by
  unfold currentPair
  rw [List.reverse_append, List.reverse_singleton, List.singleton_append, List.takeWhile_cons]
  by_cases h : c = 38
  · simp [h]
  · simp [h]

theorem takeWhile_snoc_of_mem (l : Str) (c : Int) (h : 61 ∈ l) :
    (l ++ [c]).takeWhile (fun x => decide (x ≠ 61)) = l.takeWhile (fun x => decide (x ≠ 61)) := by
  induction l with
  | nil => simp at h
  | cons x xs ih =>
    by_cases hx : x = 61
    · simp [List.takeWhile_cons, hx]
    · have : 61 ∈ xs := by
        rcases List.mem_cons.1 h with h | h
        · exact absurd h.symm hx
        · exact h
      simpa [List.takeWhile_cons, hx] using ih this

theorem dropWhile_snoc_of_mem (l : Str) (c : Int) (h : 61 ∈ l) :
    ((l ++ [c]).dropWhile (fun x => decide (x ≠ 61))).drop 1
      = (l.dropWhile (fun x => decide (x ≠ 61))).drop 1 ++ [c] := by
  induction l with
  | nil => simp at h
  | cons x xs ih =>
    by_cases hx : x = 61
    · simp [List.dropWhile_cons, hx]
    · have : 61 ∈ xs := by
        rcases List.mem_cons.1 h with h | h
        · exact absurd h.symm hx
        · exact h
      simpa [List.dropWhile_cons, hx] using ih this

theorem takeWhile_of_not_mem (l : Str) (h : 61 ∉ l) :
    l.takeWhile (fun x => decide (x ≠ 61)) = l := by
  rw [List.takeWhile_eq_self_iff]
  intro x hx
  simp only [decide_eq_true_eq]
  intro h2
  exact h (h2 ▸ hx)

theorem dropWhile_of_not_mem (l : Str) (h : 61 ∉ l) :
    l.dropWhile (fun x => decide (x ≠ 61)) = [] := by
  rw [List.dropWhile_eq_nil_iff]
  intro x hx
  simp only [decide_eq_true_eq]
  intro h2
  exact h (h2 ▸ hx)

theorem scanInv_nil (d : StringDictionary) :
    ScanInv { parse_state := .QUERY_PARSE_NAME, query_name := [], query_value := [], dict := d }
      [] := by
  simp [ScanInv, inValue, currentPair, currentName]

/-- The loop body returns false exactly on an offending character, and otherwise keeps
the local variables in step with the characters scanned. -/
theorem scanInv_step (s : URLEncodedState) (P : Str) (c : Int) (h : ScanInv s P) :
    (parseURLEncodedStep s c = none ↔ offending P c = true)
    ∧ ∀ s2, parseURLEncodedStep s c = some s2 → ScanInv s2 (P ++ [c]) := by
  unfold ScanInv at h
  by_cases hin : inValue P = true
  · rw [if_pos hin] at h
    obtain ⟨hst, hname, hne, hval⟩ := h
    have hmem : 61 ∈ currentPair P := by simpa [inValue] using hin
    constructor
    · simp only [parseURLEncodedStep, hst, offending, hin, hne, hval]
      by_cases h38 : c = 38
      · subst h38
        simp [isControl]
      · by_cases hc : isControl c = true
        · simp [h38, hc]
        · simp only [Bool.not_eq_true] at hc
          by_cases hfull : (currentValue P).length ≥ QUERY_VALUE_MAX
          · have hfull2 : (currentValue P).length ≥ 1048576 := hfull
            simp [h38, hc, hfull, hfull2]
          · have hfull2 : ¬ (currentValue P).length ≥ 1048576 := hfull
            simp [h38, hc, hfull, hfull2]
    · intro s2 hs2
      simp only [parseURLEncodedStep, hst] at hs2
      by_cases h38 : c = 38
      · subst h38
        simp only [if_true, Option.some.injEq] at hs2
        subst hs2
        have hp : currentPair (P ++ [38]) = [] := by simp [currentPair_snoc]
        simp [ScanInv, inValue, currentName, hp]
      · rw [if_neg h38] at hs2
        split_ifs at hs2
        simp only [Option.some.injEq] at hs2
        subst hs2
        have hp : currentPair (P ++ [c]) = currentPair P ++ [c] := by
          simp [currentPair_snoc, h38]
        have hin2 : inValue (P ++ [c]) = true := by simp [inValue, hp, hmem]
        rw [ScanInv, if_pos hin2]
        refine ⟨rfl, ?_, ?_, ?_⟩
        · simp only [currentName, hp, takeWhile_snoc_of_mem _ c hmem]
          exact hname
        · simp only [currentName, hp, takeWhile_snoc_of_mem _ c hmem]
          exact hne
        · simp only [currentValue, hp, dropWhile_snoc_of_mem _ c hmem]
          rw [hval]
          rfl
  · rw [if_neg hin] at h
    obtain ⟨hst, hname, hval⟩ := h
    have hmem : 61 ∉ currentPair P := by simpa [inValue] using hin
    have hcn : currentName P = currentPair P := takeWhile_of_not_mem _ hmem
    simp only [Bool.not_eq_true] at hin
    constructor
    · simp only [parseURLEncodedStep, hst, offending, hin, hname]
      by_cases h61 : c = 61
      · subst h61
        by_cases hn : currentName P = [] <;> simp [hn, isControl]
      · by_cases h38 : c = 38
        · subst h38
          by_cases hn : currentName P = [] <;> simp [hn, isControl]
        · by_cases hc : isControl c = true
          · simp [h61, h38, hc]
          · simp only [Bool.not_eq_true] at hc
            by_cases hfull : (currentName P).length ≥ QUERY_NAME_MAX
            · have hfull2 : (currentName P).length ≥ 1024 := hfull
              simp [h61, h38, hc, hfull, hfull2]
            · have hfull2 : ¬ (currentName P).length ≥ 1024 := hfull
              simp [h61, h38, hc, hfull, hfull2]
    · intro s2 hs2
      simp only [parseURLEncodedStep, hst] at hs2
      by_cases h61 : c = 61
      · subst h61
        simp only [if_true] at hs2
        split_ifs at hs2 with hn
        simp only [Option.some.injEq] at hs2
        subst hs2
        have hp : currentPair (P ++ [61]) = currentPair P ++ [61] := by
          simp [currentPair_snoc]
        have hin2 : inValue (P ++ [61]) = true := by simp [inValue, hp]
        have htw : (currentPair P ++ [61]).takeWhile (fun x => decide (x ≠ 61))
            = currentPair P := by
          rw [List.takeWhile_append_of_pos (by
            intro x hx
            simp only [decide_eq_true_eq]
            intro h2
            exact hmem (h2 ▸ hx))]
          simp
        have hdw : (currentPair P ++ [61]).dropWhile (fun x => decide (x ≠ 61)) = [61] := by
          rw [List.dropWhile_append_of_pos (by
            intro x hx
            simp only [decide_eq_true_eq]
            intro h2
            exact hmem (h2 ▸ hx))]
          simp
        rw [ScanInv, if_pos hin2]
        refine ⟨rfl, ?_, ?_, ?_⟩
        · simp only [currentName, hp, htw]
          rw [hname, hcn]
        · simp only [currentName, hp, htw]
          rw [← hcn, ← hname]
          exact hn
        · simp only [currentValue, hp, hdw]
          exact hval
      · rw [if_neg h61] at hs2
        by_cases h38 : c = 38
        · subst h38
          simp only [if_true] at hs2
          split_ifs at hs2 with hn
          simp only [Option.some.injEq] at hs2
          subst hs2
          have hp : currentPair (P ++ [38]) = [] := by simp [currentPair_snoc]
          simp [ScanInv, inValue, currentName, hp, hval]
        · rw [if_neg h38] at hs2
          split_ifs at hs2
          simp only [Option.some.injEq] at hs2
          subst hs2
          have hp : currentPair (P ++ [c]) = currentPair P ++ [c] := by
            simp [currentPair_snoc, h38]
          have hmem2 : 61 ∉ currentPair (P ++ [c]) := by
            rw [hp]
            simp only [List.mem_append, List.mem_singleton, not_or]
            exact ⟨hmem, fun h => h61 h.symm⟩
          have hin2 : ¬ inValue (P ++ [c]) = true := by simpa [inValue] using hmem2
          rw [ScanInv, if_neg hin2]
          refine ⟨rfl, ?_, hval⟩
          simp only [currentName]
          rw [takeWhile_of_not_mem _ hmem2, hp, hname, hcn]

/-- From corresponding local variables, the call returns false exactly when the rest
of the input has an offending character. -/
theorem parseURLEncodedLoop_false_iff (s : URLEncodedState) (P rest : Str)
    (h : ScanInv s P) :
    (parseURLEncodedLoop s rest).1 = false
      ↔ ∃ (Q : Str) (c : Int) (R : Str), rest = Q ++ c :: R ∧ offending (P ++ Q) c = true := by
  induction rest generalizing s P with
  | nil => simp [parseURLEncodedLoop]
  | cons c rest ih =>
    obtain ⟨h1, h2⟩ := scanInv_step s P c h
    cases hs : parseURLEncodedStep s c with
    | none =>
      rw [parseURLEncodedLoop_cons_none s c rest hs]
      simp only [true_iff]
      exact ⟨[], c, rest, rfl, by simpa using h1.1 hs⟩
    | some s2 =>
      rw [parseURLEncodedLoop_cons_some s s2 c rest hs, ih s2 (P ++ [c]) (h2 s2 hs)]
      have hnot : ¬ offending P c = true := by
        intro ho
        rw [h1.2 ho] at hs
        cases hs
      constructor
      · rintro ⟨Q, c2, R, hr, ho⟩
        exact ⟨c :: Q, c2, R, by rw [hr]; rfl, by simpa using ho⟩
      · rintro ⟨Q, c2, R, hr, ho⟩
        cases Q with
        | nil =>
          simp only [List.nil_append, List.cons.injEq] at hr
          obtain ⟨rfl, _⟩ := hr
          simp only [List.append_nil] at ho
          exact absurd ho hnot
        | cons q Q =>
          simp only [List.cons_append, List.cons.injEq] at hr
          obtain ⟨rfl, hr⟩ := hr
          exact ⟨Q, c2, R, hr, by simpa using ho⟩

/-- Claim C18.  parseURLEncoded returns false if and only if the input has a character
c, met after the characters P, for which one of these holds: c is = or & while the
current name (the characters after the last & of P, up to the first = among them) is
empty; c is a control character (0 to 31, or 127); c is a further name character when
the current name already holds 1,024 characters; c is a further value character when
the current value already holds 1,048,576.  In every other case it returns true: the
inputs a=, a and a&b=1 with an empty value are accepted, while =v, &a=1 and a=1&&b=2
with an empty name are rejected. -/
theorem parseURLEncoded_false_iff (dict : StringDictionary) (buf : Str) :
    ((parseURLEncoded dict buf).1 = false
      ↔ ∃ (P : Str) (c : Int) (R : Str), buf = P ++ c :: R ∧ offending P c = true)
    ∧ ((parseURLEncoded dict buf).1 = true
      ↔ ∀ (P : Str) (c : Int) (R : Str), buf = P ++ c :: R → offending P c = false)
    ∧ (parseURLEncoded [] (str "a=")).1 = true
    ∧ (parseURLEncoded [] (str "a")).1 = true
    ∧ (parseURLEncoded [] (str "a&b=1")).1 = true
    ∧ (parseURLEncoded [] (str "=v")).1 = false
    ∧ (parseURLEncoded [] (str "&a=1")).1 = false
    ∧ (parseURLEncoded [] (str "a=1&&b=2")).1 = false := by
  have key : (parseURLEncoded dict buf).1 = false
      ↔ ∃ (P : Str) (c : Int) (R : Str), buf = P ++ c :: R ∧ offending P c = true := by
    have := parseURLEncodedLoop_false_iff _ [] buf (scanInv_nil dict)
    simpa [parseURLEncoded] using this
  refine ⟨key, ?_, by decide, by decide, by decide, by decide, by decide, by decide⟩
  rw [← Bool.not_eq_false, key]
  constructor
  · intro h P c R hb
    cases ho : offending P c
    · rfl
    · exact absurd ⟨P, c, R, hb, ho⟩ h
  · rintro h ⟨P, c, R, hb, ho⟩
    rw [h P c R hb] at ho
    cases ho

end HTTPRequestParser

namespace HTTPRequestParser

/-! ## Cookie names are lowercased, values are kept -/

theorem tolower_not_upper (c : Int) : ¬ (65 ≤ tolower c ∧ tolower c ≤ 90) := by
  unfold tolower
  split_ifs with h <;> omega

theorem tolower_ne_space (c : Int) (h : c ≠ 32) : tolower c ≠ 32 := by
  unfold tolower
  split_ifs with h2 <;> omega

theorem cookieKeyOf_chars (w : Str) :
    ∀ c ∈ cookieKeyOf w, c ≠ 32 ∧ ¬ (65 ≤ c ∧ c ≤ 90) := by
  intro c hc
  simp only [cookieKeyOf, List.mem_map, List.mem_filter, decide_eq_true_eq] at hc
  obtain ⟨x, ⟨_, hx⟩, rfl⟩ := hc
  exact ⟨tolower_ne_space x hx, tolower_not_upper x⟩

theorem cookieKeyOf_snoc (w : Str) (c : Int) (h : c ≠ 32) :
    cookieKeyOf (w ++ [c]) = cookieKeyOf w ++ [tolower c] := by
  simp [cookieKeyOf, List.filter_append, h]

theorem cookieKeyOf_snoc_space (w : Str) : cookieKeyOf (w ++ [32]) = cookieKeyOf w := by
  simp [cookieKeyOf, List.filter_append]

theorem withoutSpaces_snoc (u : Str) (c : Int) (h : c ≠ 32) :
    withoutSpaces (u ++ [c]) = withoutSpaces u ++ [c] := by
  simp [withoutSpaces, List.filter_append, h]

theorem withoutSpaces_snoc_space (u : Str) : withoutSpaces (u ++ [32]) = withoutSpaces u := by
  simp [withoutSpaces, List.filter_append]

/-- What one pass of the loop body does to the dictionary, the name and the value. -/
theorem parseCookieHeaderStep_cases (s s2 : CookieState) (c : Int)
    (h : parseCookieHeaderStep s c = some s2) :
    (s2.dict = s.dict ∨ s2.dict = s.dict ++ [(s.cookie_name, s.cookie_value)])
    ∧ ((s.parse_state = .COOKIE_PARSE_NAME ∧ s2.parse_state = .COOKIE_PARSE_NAME
          ∧ c ≠ 61 ∧ c ≠ 59 ∧ c ≠ 44 ∧ c ≠ 32 ∧ s2.cookie_name = s.cookie_name ++ [tolower c])
        ∨ (s.parse_state = .COOKIE_PARSE_NAME ∧ s2.parse_state = .COOKIE_PARSE_NAME
          ∧ c = 32 ∧ s2.cookie_name = s.cookie_name)
        ∨ (s2.cookie_name = [] ∧ s2.parse_state ≠ .COOKIE_PARSE_VALUE)
        ∨ (s2.cookie_name = s.cookie_name ∧ s2.parse_state = .COOKIE_PARSE_VALUE)
        ∨ (s.parse_state = .COOKIE_PARSE_IGNORE ∧ s2.cookie_name = s.cookie_name
          ∧ s2.parse_state ≠ .COOKIE_PARSE_VALUE))
    ∧ ((s2.parse_state ≠ .COOKIE_PARSE_VALUE
          ∧ (s2.cookie_value = [] ∨ (s.parse_state ≠ .COOKIE_PARSE_VALUE
              ∧ s2.cookie_value = s.cookie_value)))
        ∨ (s.parse_state = .COOKIE_PARSE_NAME ∧ s2.parse_state = .COOKIE_PARSE_VALUE
          ∧ s2.cookie_value = s.cookie_value ∧ s2.value_quote_character = 0)
        ∨ (s.parse_state = .COOKIE_PARSE_VALUE ∧ s2.parse_state = .COOKIE_PARSE_VALUE
          ∧ s2.value_quote_character = s.value_quote_character
          ∧ s2.cookie_value = s.cookie_value ++ [c]
          ∧ (s.value_quote_character = 0 → c ≠ 32))
        ∨ (s.parse_state = .COOKIE_PARSE_VALUE ∧ s2.parse_state = .COOKIE_PARSE_VALUE
          ∧ s.value_quote_character = 0 ∧ s2.value_quote_character = 0 ∧ c = 32
          ∧ s2.cookie_value = s.cookie_value)
        ∨ (s.parse_state = .COOKIE_PARSE_VALUE ∧ s2.parse_state = .COOKIE_PARSE_VALUE
          ∧ s.value_quote_character = 0 ∧ s2.value_quote_character = c ∧ c ≠ 0
          ∧ s.cookie_value = [] ∧ s2.cookie_value = [])) := by
  unfold parseCookieHeaderStep at h
  split at h <;> rename_i hs <;> split_ifs at h <;> simp at h <;> subst h <;>
    simp_all [insertUnlessDollar, StringDictionary.insert] <;> omega

end HTTPRequestParser

namespace HTTPRequestParser

theorem cookieInv_start (dict : StringDictionary) :
    CookieInv [] { parse_state := .COOKIE_PARSE_NAME, cookie_name := [], cookie_value := [],
                   value_quote_character := 0, dict := dict } := by
  refine ⟨⟨[], [], [], rfl, by simp, rfl, fun _ => rfl⟩, by simp, by simp,
    ⟨[], [], [], rfl, Or.inl rfl, by simp⟩⟩

/-- The loop body keeps the name and the value in step with the header. -/
theorem cookieInv_step (pre : Str) (s s2 : CookieState) (c : Int)
    (hinv : CookieInv pre s) (h : parseCookieHeaderStep s c = some s2) :
    CookieInv (pre ++ [c]) s2 := by
  obtain ⟨_, hname, hvalue⟩ := parseCookieHeaderStep_cases s s2 c h
  obtain ⟨⟨a, w, b, hpre, hsep, hkey, hb⟩, hign, hnv, ⟨a2, u, b2, hpre2, hval, hb2⟩⟩ := hinv
  have hempty : ∀ x ∈ ([] : Str), x ≠ 61 ∧ x ≠ 59 ∧ x ≠ 44 := by simp
  refine ⟨?_, ?_, ?_, ?_⟩
  · rcases hname with ⟨h1, h2, h61, h59, h44, h32, hn⟩ | ⟨h1, h2, h32, hn⟩ | ⟨hn, h2⟩
        | ⟨hn, h2⟩ | ⟨h1, hn, h2⟩
    · have hbe := hb h1
      subst hbe
      refine ⟨a, w ++ [c], [], by simp [hpre], ?_, ?_, fun _ => rfl⟩
      · intro x hx
        simp only [List.mem_append, List.mem_singleton] at hx
        rcases hx with hx | hx
        · exact hsep x hx
        · subst hx; exact ⟨h61, h59, h44⟩
      · rw [hn, hkey, cookieKeyOf_snoc w c h32]
    · have hbe := hb h1
      subst hbe
      refine ⟨a, w ++ [c], [], by simp [hpre], ?_, ?_, fun _ => rfl⟩
      · intro x hx
        simp only [List.mem_append, List.mem_singleton] at hx
        rcases hx with hx | hx
        · exact hsep x hx
        · subst hx; subst h32; decide
      · subst h32
        rw [hn, hkey, cookieKeyOf_snoc_space]
    · exact ⟨pre ++ [c], [], [], by simp, hempty, by rw [hn]; rfl, fun _ => rfl⟩
    · refine ⟨a, w, b ++ [c], by simp [hpre], hsep, by rw [hn, hkey], ?_⟩
      intro h3; rw [h2] at h3; cases h3
    · have := hign h1
      exact ⟨pre ++ [c], [], [], by simp, hempty, by rw [hn, this]; rfl, fun _ => rfl⟩
  · intro h3
    rcases hname with ⟨h1, h2, _⟩ | ⟨h1, h2, _⟩ | ⟨hn, _⟩ | ⟨_, h2⟩ | ⟨h1, hn, _⟩
    · rw [h2] at h3; cases h3
    · rw [h2] at h3; cases h3
    · exact hn
    · rw [h2] at h3; cases h3
    · rw [hn]; exact hign h1
  · intro h3
    rcases hvalue with ⟨_, hv | ⟨h1, hv⟩⟩ | ⟨_, h2, _⟩ | ⟨_, h2, _⟩ | ⟨_, h2, _⟩ | ⟨_, h2, _⟩
    · exact hv
    · rw [hv]; exact hnv h1
    all_goals exact absurd h2 h3
  · rcases hvalue with ⟨h2, hv | ⟨h1, hv⟩⟩ | ⟨h1, h2, hv, hq⟩ | ⟨h1, h2, hq, hv, h32⟩
        | ⟨h1, h2, hq, hq2, h32, hv⟩ | ⟨h1, h2, hq, hq2, hc0, hv, hv2⟩
    · exact ⟨pre ++ [c], [], [], by simp, Or.inl hv, fun h3 => absurd h3 h2⟩
    · have : s.cookie_value = [] := hnv h1
      exact ⟨pre ++ [c], [], [], by simp, Or.inl (by rw [hv, this]),
        fun h3 => absurd h3 h2⟩
    · have : s.cookie_value = [] := hnv (by rw [h1]; decide)
      refine ⟨pre ++ [c], [], [], by simp, Or.inl (by rw [hv, this]), fun _ => ⟨rfl, ?_, ?_⟩⟩
      · intro _; rw [hv, this]; rfl
      · intro _; rw [hv, this]
    · obtain ⟨hbe, hu0, hu1⟩ := hb2 h1
      subst hbe
      by_cases hz : s.value_quote_character = 0
      · have hvu := hu0 hz
        have hw : s2.cookie_value = withoutSpaces (u ++ [c]) := by
          rw [hv, hvu, withoutSpaces_snoc u c (h32 hz)]
        refine ⟨a2, u ++ [c], [], by simp [hpre2], Or.inr hw, fun _ => ⟨rfl, ?_, ?_⟩⟩
        · intro _; exact hw
        · intro hne; rw [hq] at hne; exact absurd hz hne
      · have hvu := hu1 hz
        have hw : s2.cookie_value = u ++ [c] := by rw [hv, hvu]
        refine ⟨a2, u ++ [c], [], by simp [hpre2], Or.inl hw, fun _ => ⟨rfl, ?_, ?_⟩⟩
        · intro he; rw [hq] at he; exact absurd he hz
        · intro _; exact hw
    · obtain ⟨hbe, hu0, _⟩ := hb2 h1
      subst hbe
      subst h32
      have hw : s2.cookie_value = withoutSpaces (u ++ [32]) := by
        rw [hv, hu0 hq, withoutSpaces_snoc_space]
      refine ⟨a2, u ++ [32], [], by simp [hpre2], Or.inr hw, fun _ => ⟨rfl, ?_, ?_⟩⟩
      · intro _; exact hw
      · intro hne; exact absurd hq2 hne
    · refine ⟨pre ++ [c], [], [], by simp, Or.inl hv2, fun _ => ⟨rfl, ?_, ?_⟩⟩
      · intro _; rw [hv2]; rfl
      · intro _; exact hv2

theorem cookieAsWritten_append (pre rest : Str) (e : Str × Str)
    (h : CookieAsWritten pre e) : CookieAsWritten (pre ++ rest) e := by
  obtain ⟨⟨a, w, b, hpre, hsep, hkey⟩, ⟨a2, u, b2, hpre2, hval⟩⟩ := h
  exact ⟨⟨a, w, b ++ rest, by simp [hpre], hsep, hkey⟩,
    ⟨a2, u, b2 ++ rest, by simp [hpre2], hval⟩⟩

theorem cookieInv_pair (pre : Str) (s : CookieState) (h : CookieInv pre s) :
    CookieAsWritten pre (s.cookie_name, s.cookie_value) := by
  obtain ⟨⟨a, w, b, hpre, hsep, hkey, _⟩, _, _, ⟨a2, u, b2, hpre2, hval, _⟩⟩ := h
  exact ⟨⟨a, w, b, hpre, hsep, hkey⟩, ⟨a2, u, b2, hpre2, hval⟩⟩

/-- Every pair the loop adds to the dictionary is written in the header. -/
theorem parseCookieHeaderLoop_asWritten (rest pre : Str) (s : CookieState)
    (hinv : CookieInv pre s) :
    ∃ added, (parseCookieHeaderLoop s rest).2 = s.dict ++ added
      ∧ ∀ e ∈ added, CookieAsWritten (pre ++ rest) e := by
  induction rest generalizing pre s with
  | nil =>
    simp only [parseCookieHeaderLoop]
    split
    · refine ⟨[(s.cookie_name, s.cookie_value)], rfl, ?_⟩
      intro e he
      simp only [List.mem_singleton] at he
      subst he
      simpa using cookieInv_pair pre s hinv
    · exact ⟨[], by simp, by simp⟩
  | cons c rest ih =>
    simp only [parseCookieHeaderLoop]
    cases hs : parseCookieHeaderStep s c with
    | none => exact ⟨[], by simp, by simp⟩
    | some s2 =>
      obtain ⟨added, hadd, hgood⟩ := ih (pre ++ [c]) s2 (cookieInv_step pre s s2 c hinv hs)
      have hgood2 : ∀ e ∈ added, CookieAsWritten (pre ++ c :: rest) e := by
        intro e he
        have := hgood e he
        simpa using this
      rcases (parseCookieHeaderStep_cases s s2 c hs).1 with hd | hd
      · exact ⟨added, by simp only [hadd, hd], hgood2⟩
      · refine ⟨(s.cookie_name, s.cookie_value) :: added, by simp [hadd, hd], ?_⟩
        intro e he
        simp only [List.mem_cons] at he
        rcases he with he | he
        · subst he
          exact cookieAsWritten_append pre (c :: rest) _ (cookieInv_pair pre s hinv)
        · exact hgood2 e he

end HTTPRequestParser

namespace HTTPRequestParser

/-! ## Quoted cookie values -/

theorem parseCookieHeaderLoop_cons_some (s s2 : CookieState) (c : Int) (rest : Str)
    (h : parseCookieHeaderStep s c = some s2) :
    parseCookieHeaderLoop s (c :: rest) = parseCookieHeaderLoop s2 rest := by
  simp [parseCookieHeaderLoop, h]

/-- The characters of a name are pushed in lower case, one by one. -/
theorem cookie_run_name (n X : Str) (s : CookieState)
    (hst : s.parse_state = .COOKIE_PARSE_NAME)
    (hn : ∀ x ∈ n, isControl x = false ∧ x ≠ 32 ∧ x ≠ 61 ∧ x ≠ 59 ∧ x ≠ 44)
    (hlen : s.cookie_name.length + n.length ≤ COOKIE_NAME_MAX) :
    parseCookieHeaderLoop s (n ++ X)
      = parseCookieHeaderLoop { s with cookie_name := s.cookie_name ++ n.map tolower } X := by
  induction n generalizing s with
  | nil => simp
  | cons c n ih =>
    obtain ⟨h1, h2, h3, h4, h5⟩ := hn c (List.mem_cons_self _ _)
    simp only [List.length_cons] at hlen
    have hfull : ¬ s.cookie_name.length ≥ COOKIE_NAME_MAX := by omega
    have hstep : parseCookieHeaderStep s c
        = some { s with cookie_name := s.cookie_name ++ [tolower c] } := by
      simp [parseCookieHeaderStep, hst, h1, h2, h3, h4, h5, hfull]
    rw [List.cons_append, parseCookieHeaderLoop_cons_some s _ c _ hstep,
      ih { s with cookie_name := s.cookie_name ++ [tolower c] } hst
        (fun d hd => hn d (List.mem_cons_of_mem _ hd)) (by simp; omega)]
    simp

/-- Inside the quotes every character but the quote is pushed as it is. -/
theorem cookie_run_quoted (q X : Str) (s : CookieState)
    (hst : s.parse_state = .COOKIE_PARSE_VALUE) (hquote : s.value_quote_character ≠ 0)
    (hq : s.value_quote_character ∉ q)
    (hlen : s.cookie_value.length + q.length ≤ COOKIE_VALUE_MAX) :
    parseCookieHeaderLoop s (q ++ X)
      = parseCookieHeaderLoop { s with cookie_value := s.cookie_value ++ q } X := by
  induction q generalizing s with
  | nil => simp
  | cons c q ih =>
    simp only [List.mem_cons, not_or] at hq
    simp only [List.length_cons] at hlen
    have hfull : ¬ s.cookie_value.length ≥ COOKIE_VALUE_MAX := by omega
    have hne : ¬ c = s.value_quote_character := fun h => hq.1 h.symm
    have hstep : parseCookieHeaderStep s c
        = some { s with cookie_value := s.cookie_value ++ [c] } := by
      simp [parseCookieHeaderStep, hst, hquote, hne, hfull]
    rw [List.cons_append, parseCookieHeaderLoop_cons_some s _ c _ hstep,
      ih { s with cookie_value := s.cookie_value ++ [c] } hst hquote hq.2 (by simp; omega)]
    simp

/-- After the closing quote everything up to the next separator is skipped. -/
theorem cookie_run_ignore (t X : Str) (s : CookieState)
    (hst : s.parse_state = .COOKIE_PARSE_IGNORE) (ht : ∀ x ∈ t, x ≠ 59 ∧ x ≠ 44) :
    parseCookieHeaderLoop s (t ++ X) = parseCookieHeaderLoop s X := by
  induction t with
  | nil => simp
  | cons c t ih =>
    obtain ⟨h1, h2⟩ := ht c (List.mem_cons_self _ _)
    have hstep : parseCookieHeaderStep s c = some s := by
      simp [parseCookieHeaderStep, hst, h1, h2]
    rw [List.cons_append, parseCookieHeaderLoop_cons_some s _ c _ hstep,
      ih (fun d hd => ht d (List.mem_cons_of_mem _ hd))]

/-- While a name is read the quote character of the last value plays no part. -/
theorem cookie_name_quote (rest : Str) (nm v : Str) (x y : Int) (d : StringDictionary) :
    parseCookieHeaderLoop
        { parse_state := .COOKIE_PARSE_NAME, cookie_name := nm, cookie_value := v,
          value_quote_character := x, dict := d } rest
      = parseCookieHeaderLoop
        { parse_state := .COOKIE_PARSE_NAME, cookie_name := nm, cookie_value := v,
          value_quote_character := y, dict := d } rest := by
  induction rest generalizing nm d with
  | nil => simp [parseCookieHeaderLoop]
  | cons c rest ih =>
    simp only [parseCookieHeaderLoop, parseCookieHeaderStep, insertUnlessDollar]
    split_ifs <;> first | rfl | exact ih _ _

theorem map_tolower_head (n : Str) (h : n.head? ≠ some 36) :
    (n.map tolower).headD 0 ≠ 36 := by
  cases n with
  | nil => simp
  | cons x xs =>
    simp only [List.head?_cons, ne_eq, Option.some.injEq] at h
    simp only [List.map_cons, List.headD_cons, tolower]
    split_ifs with hx <;> omega

/-- A name, `=`, a quoted text, and what follows the closing quote up to the end of the
header or the next separator: one pair is inserted. -/
theorem cookie_quoted_pair (s : CookieState) (n q t : Str) (c : Int)
    (hst : s.parse_state = .COOKIE_PARSE_NAME) (hn0 : s.cookie_name = [])
    (hv0 : s.cookie_value = [])
    (hn : cookieName n) (hd : n.head? ≠ some 36) (hc : c = 39 ∨ c = 34)
    (hq : q.length ≤ COOKIE_VALUE_MAX) (hqc : c ∉ q) (ht : ∀ x ∈ t, x ≠ 59 ∧ x ≠ 44)
    (X : Str) :
    parseCookieHeaderLoop s (n ++ [61, c] ++ q ++ [c] ++ t ++ X)
      = parseCookieHeaderLoop
          { parse_state := .COOKIE_PARSE_IGNORE, cookie_name := [], cookie_value := [],
            value_quote_character := c, dict := s.dict.insert (n.map tolower) q } X := by
  obtain ⟨hne, hlen, hchars⟩ := hn
  have hc0 : c ≠ 0 := by rcases hc with h | h <;> omega
  have hc1 : ¬ (c = 59 ∨ c = 44) := by rcases hc with h | h <;> omega
  have hhead : ¬ (n.map tolower).headD 0 = 36 := map_tolower_head n hd
  have hmap : n.map tolower ≠ [] := by simpa using hne
  simp only [List.append_assoc]
  rw [cookie_run_name n _ s hst hchars (by rw [hn0]; simpa using hlen)]
  simp only [hn0, List.nil_append, List.cons_append]
  rw [parseCookieHeaderLoop_cons_some _
        { s with cookie_name := n.map tolower, value_quote_character := 0,
                 parse_state := .COOKIE_PARSE_VALUE } 61 _
        (by simp [parseCookieHeaderStep, hst, hmap]),
      parseCookieHeaderLoop_cons_some _
        { s with cookie_name := n.map tolower, value_quote_character := c,
                 parse_state := .COOKIE_PARSE_VALUE } c _
        (by simp only [parseCookieHeaderStep, if_true, if_neg hc1, if_pos hc, hv0]),
      cookie_run_quoted q _ _ rfl hc0 hqc (by simpa [hv0] using hq)]
  simp only [hv0, List.nil_append]
  rw [parseCookieHeaderLoop_cons_some _
        { parse_state := .COOKIE_PARSE_IGNORE, cookie_name := [], cookie_value := [],
          value_quote_character := c, dict := s.dict.insert (n.map tolower) q } c _
        (by simp only [parseCookieHeaderStep, if_neg hc0, if_true, insertUnlessDollar, ne_eq,
              hhead, not_false_eq_true]),
      cookie_run_ignore t X _ rfl ht]

end HTTPRequestParser

namespace HTTPRequestParser

/-- Claim C22.  For every cookie name n that does not begin with a dollar sign, every
quote character c (an apostrophe or a double quote), every text q of at most 1,048,576
bytes without c, and every run t of bytes without a semicolon or comma: parsing
n, the equals sign, c, q, c and t inserts exactly the pair of n in lower case and q
byte for byte, spaces, semicolons and commas included and the quotes left out, and t
is discarded: at the end of the header, before a separator at the start of a header,
and before a separator wherever a name is about to begin. -/
theorem quoted_cookie_value (dict : StringDictionary) (n q t : Str) (c : Int)
    (hn : cookieName n) (hd : n.head? ≠ some 36) (hc : c = 39 ∨ c = 34)
    (hq : q.length ≤ 1048576) (hqc : c ∉ q) (ht : ∀ x ∈ t, x ≠ 59 ∧ x ≠ 44) :
    parseCookieHeader dict (n ++ [61, c] ++ q ++ [c] ++ t)
        = (true, dict.insert (n.map tolower) q)
    ∧ (∀ sep rest, sep = 59 ∨ sep = 44 →
        parseCookieHeader dict (n ++ [61, c] ++ q ++ [c] ++ t ++ sep :: rest)
          = parseCookieHeader (dict.insert (n.map tolower) q) rest)
    ∧ (∀ (s : CookieState) sep rest, s.parse_state = .COOKIE_PARSE_NAME →
        s.cookie_name = [] → s.cookie_value = [] → sep = 59 ∨ sep = 44 →
        parseCookieHeaderLoop s (n ++ [61, c] ++ q ++ [c] ++ t ++ sep :: rest)
          = parseCookieHeaderLoop { s with dict := s.dict.insert (n.map tolower) q } rest) := by
  have hq2 : q.length ≤ COOKIE_VALUE_MAX := hq
  have key : ∀ (s : CookieState) sep rest, s.parse_state = .COOKIE_PARSE_NAME →
      s.cookie_name = [] → s.cookie_value = [] → sep = 59 ∨ sep = 44 →
      parseCookieHeaderLoop s (n ++ [61, c] ++ q ++ [c] ++ t ++ sep :: rest)
        = parseCookieHeaderLoop { s with dict := s.dict.insert (n.map tolower) q } rest := by
    intro s sep rest hst hn0 hv0 hsep
    rw [cookie_quoted_pair s n q t c hst hn0 hv0 hn hd hc hq2 hqc ht (sep :: rest),
      parseCookieHeaderLoop_cons_some _
        { parse_state := .COOKIE_PARSE_NAME, cookie_name := [], cookie_value := [],
          value_quote_character := c, dict := s.dict.insert (n.map tolower) q } sep rest
        (by simp only [parseCookieHeaderStep, if_pos hsep]),
      cookie_name_quote rest [] [] c s.value_quote_character]
    congr 1
    cases s
    simp_all
  refine ⟨?_, ?_, key⟩
  · have := cookie_quoted_pair
      { parse_state := .COOKIE_PARSE_NAME, cookie_name := [], cookie_value := [],
        value_quote_character := 0, dict := dict } n q t c rfl rfl rfl hn hd hc hq2 hqc ht []
    rw [List.append_nil] at this
    rw [parseCookieHeader, this]
    simp [parseCookieHeaderLoop]
  · intro sep rest hsep
    exact key _ sep rest rfl rfl rfl hsep

/-- Claim C22 at the header B="a b;c,d" x, whose quoted text holds a space, a semicolon
and a comma. -/
theorem quoted_cookie_value_witness :
    parseCookieHeader [] (str "B" ++ [61, 34] ++ str "a b;c,d" ++ [34] ++ str " x")
      = (true, StringDictionary.insert [] ((str "B").map tolower) (str "a b;c,d")) :=
  (quoted_cookie_value [] (str "B") (str "a b;c,d") (str " x") 34
    (by decide) (by decide) (by decide) (by decide) (by decide) (by decide)).1

end HTTPRequestParser

namespace HTTPRequestParser

/-! ## The pairs inserted are those of the cookies as written -/

theorem cookieRefines_fail (s : CookieState) (h : Str) (spec : List (Str × Str))
    (hf : parseCookieHeaderLoop s h = (false, s.dict)) : CookieRefines s h spec :=
  ⟨[], spec, by rw [hf]; simp, rfl, by rw [hf]; intro h; cases h⟩

theorem cookieRefines_end (s : CookieState) (h : Str) (spec : List (Str × Str))
    (he : parseCookieHeaderLoop s h = (true, s.dict ++ spec)) : CookieRefines s h spec :=
  ⟨spec, [], by rw [he], by simp, fun _ => rfl⟩

theorem cookieRefines_step (s s2 : CookieState) (h r : Str) (pre spec : List (Str × Str))
    (hrun : parseCookieHeaderLoop s h = parseCookieHeaderLoop s2 r)
    (hd : s2.dict = s.dict ++ pre) (href : CookieRefines s2 r spec) :
    CookieRefines s h (pre ++ spec) := by
  obtain ⟨added, rest, h1, h2, h3⟩ := href
  refine ⟨pre ++ added, rest, ?_, ?_, ?_⟩
  · rw [hrun, h1, hd, List.append_assoc]
  · rw [h2, List.append_assoc]
  · rw [hrun]; exact h3

theorem dropWhile_head_false (p : Int → Bool) (l : Str) (c : Int) (r : Str)
    (h : l.dropWhile p = c :: r) : p c = false := by
  induction l with
  | nil => simp at h
  | cons x xs ih =>
    rw [List.dropWhile_cons] at h
    split_ifs at h with hx
    · exact ih h
    · simp only [List.cons.injEq] at h
      rw [← h.1]
      simpa using hx

theorem cookieKeyOf_cons (c : Int) (w : Str) :
    cookieKeyOf (c :: w) = if c = 32 then cookieKeyOf w else tolower c :: cookieKeyOf w := by
  by_cases h : c = 32 <;> simp [cookieKeyOf, List.filter_cons, h]

theorem withoutSpaces_cons (c : Int) (u : Str) :
    withoutSpaces (c :: u) = if c = 32 then withoutSpaces u else c :: withoutSpaces u := by
  by_cases h : c = 32 <;> simp [withoutSpaces, List.filter_cons, h]

theorem parseCookieHeaderLoop_cons_none (s : CookieState) (c : Int) (rest : Str)
    (h : parseCookieHeaderStep s c = none) :
    parseCookieHeaderLoop s (c :: rest) = (false, s.dict) := by
  simp [parseCookieHeaderLoop, h]

/-- The bytes of a name as written: spaces are skipped, the other bytes are pushed in
lower case, unless one of them is a control character or the name is full. -/
theorem cookie_name_phase (w : Str) (s : CookieState)
    (hst : s.parse_state = .COOKIE_PARSE_NAME)
    (hw : ∀ c ∈ w, cookieNameByte c = true) :
    (∀ X, parseCookieHeaderLoop s (w ++ X) = (false, s.dict))
    ∨ (∀ X, parseCookieHeaderLoop s (w ++ X)
        = parseCookieHeaderLoop { s with cookie_name := s.cookie_name ++ cookieKeyOf w } X) := by
  induction w generalizing s with
  | nil => right; intro X; simp [cookieKeyOf]
  | cons c w ih =>
    have hc := hw c (List.mem_cons_self _ _)
    simp only [cookieNameByte, decide_eq_true_eq] at hc
    obtain ⟨h61, h59, h44⟩ := hc
    have hw2 : ∀ d ∈ w, cookieNameByte d = true := fun d hd => hw d (List.mem_cons_of_mem _ hd)
    by_cases h32 : c = 32
    · have hstep : parseCookieHeaderStep s c = some s := by
        simp [parseCookieHeaderStep, hst, h32]
      rcases ih s hst hw2 with hf | hr
      · left; intro X
        rw [List.cons_append, parseCookieHeaderLoop_cons_some s s c _ hstep]
        exact hf X
      · right; intro X
        rw [List.cons_append, parseCookieHeaderLoop_cons_some s s c _ hstep, hr X,
          cookieKeyOf_cons, if_pos h32]
    · by_cases hbad : isControl c = true ∨ s.cookie_name.length ≥ COOKIE_NAME_MAX
      · left; intro X
        rw [List.cons_append]
        apply parseCookieHeaderLoop_cons_none
        rcases hbad with hb | hb <;> simp [parseCookieHeaderStep, hst, h61, h59, h44, h32, hb]
      · simp only [not_or, Bool.not_eq_true] at hbad
        have hstep : parseCookieHeaderStep s c
            = some { s with cookie_name := s.cookie_name ++ [tolower c] } := by
          simp [parseCookieHeaderStep, hst, h61, h59, h44, h32, hbad.1, hbad.2]
        rcases ih { s with cookie_name := s.cookie_name ++ [tolower c] } hst hw2 with hf | hr
        · left; intro X
          rw [List.cons_append, parseCookieHeaderLoop_cons_some s _ c _ hstep]
          exact hf X
        · right; intro X
          rw [List.cons_append, parseCookieHeaderLoop_cons_some s _ c _ hstep, hr X,
            cookieKeyOf_cons, if_neg h32]
          simp

/-- Spaces before a value: they are skipped. -/
theorem cookie_skip_spaces (sp : Str) (s : CookieState)
    (hst : s.parse_state = .COOKIE_PARSE_VALUE) (hq : s.value_quote_character = 0)
    (hsp : ∀ c ∈ sp, isSP c = true) (X : Str) :
    parseCookieHeaderLoop s (sp ++ X) = parseCookieHeaderLoop s X := by
  induction sp with
  | nil => simp
  | cons c sp ih =>
    have hc := hsp c (List.mem_cons_self _ _)
    simp only [isSP, decide_eq_true_eq] at hc
    have hstep : parseCookieHeaderStep s c = some s := by
      subst hc
      simp [parseCookieHeaderStep, hst, hq]
    rw [List.cons_append, parseCookieHeaderLoop_cons_some s s c _ hstep]
    exact ih (fun d hd => hsp d (List.mem_cons_of_mem _ hd))

/-- The bytes of a value that is not quoted: spaces are skipped, the other bytes are
pushed as they are, unless one of them is a control character or the value is full. -/
theorem cookie_unquoted_phase (u : Str) (s : CookieState)
    (hst : s.parse_state = .COOKIE_PARSE_VALUE) (hq : s.value_quote_character = 0)
    (hu : ∀ c ∈ u, notSeparator c = true)
    (hstart : s.cookie_value ≠ [] ∨ ∀ q v, u.dropWhile isSP = q :: v → ¬ (q = 39 ∨ q = 34)) :
    (∀ X, parseCookieHeaderLoop s (u ++ X) = (false, s.dict))
    ∨ (∀ X, parseCookieHeaderLoop s (u ++ X)
        = parseCookieHeaderLoop { s with cookie_value := s.cookie_value ++ withoutSpaces u } X) := by
  induction u generalizing s with
  | nil => right; intro X; simp [withoutSpaces]
  | cons c u ih =>
    have hc := hu c (List.mem_cons_self _ _)
    simp only [notSeparator, decide_eq_true_eq] at hc
    obtain ⟨h59, h44⟩ := hc
    have hu2 : ∀ d ∈ u, notSeparator d = true := fun d hd => hu d (List.mem_cons_of_mem _ hd)
    by_cases h32 : c = 32
    · have hstep : parseCookieHeaderStep s c = some s := by
        subst h32
        simp [parseCookieHeaderStep, hst, hq]
      have hstart2 : s.cookie_value ≠ []
          ∨ ∀ q v, u.dropWhile isSP = q :: v → ¬ (q = 39 ∨ q = 34) := by
        rcases hstart with h | h
        · exact Or.inl h
        · right
          intro q v hqv
          apply h q v
          rw [List.dropWhile_cons, if_pos (by simp [isSP, h32])]
          exact hqv
      rcases ih s hst hq hu2 hstart2 with hf | hr
      · left; intro X
        rw [List.cons_append, parseCookieHeaderLoop_cons_some s s c _ hstep]
        exact hf X
      · right; intro X
        rw [List.cons_append, parseCookieHeaderLoop_cons_some s s c _ hstep, hr X,
          withoutSpaces_cons, if_pos h32]
    · have hne : (c = 39 ∨ c = 34) → s.cookie_value ≠ [] := by
        intro hquote
        rcases hstart with h | h
        · exact h
        · exfalso
          apply h c u _ hquote
          rw [List.dropWhile_cons, if_neg (by simp [isSP, h32])]
      by_cases hbad : (¬ (c = 39 ∨ c = 34) ∧ isControl c = true)
          ∨ s.cookie_value.length ≥ COOKIE_VALUE_MAX
      · left; intro X
        rw [List.cons_append]
        apply parseCookieHeaderLoop_cons_none
        by_cases hquote : c = 39 ∨ c = 34
        · have hfull : s.cookie_value.length ≥ COOKIE_VALUE_MAX := by
            rcases hbad with hb | hb
            · exact absurd hquote hb.1
            · exact hb
          simp [parseCookieHeaderStep, hst, hq, h59, h44, hquote, hne hquote, hfull]
        · rcases hbad with hb | hb
          · simp [parseCookieHeaderStep, hst, hq, h59, h44, hquote, h32, hb.2]
          · simp [parseCookieHeaderStep, hst, hq, h59, h44, hquote, h32, hb]
      · simp only [not_or, not_and, not_not, Bool.not_eq_true] at hbad
        have hfull : ¬ s.cookie_value.length ≥ COOKIE_VALUE_MAX := hbad.2
        have hstep : parseCookieHeaderStep s c
            = some { s with cookie_value := s.cookie_value ++ [c] } := by
          by_cases hquote : c = 39 ∨ c = 34
          · simp [parseCookieHeaderStep, hst, hq, h59, h44, hquote, hne hquote, hfull]
          · have hctl : isControl c = false :=
              hbad.1 ⟨fun h => hquote (Or.inl h), fun h => hquote (Or.inr h)⟩
            simp [parseCookieHeaderStep, hst, hq, h59, h44, hquote, h32, hctl, hfull]
        rcases ih { s with cookie_value := s.cookie_value ++ [c] } hst hq hu2
            (Or.inl (by simp)) with hf | hr
        · left; intro X
          rw [List.cons_append, parseCookieHeaderLoop_cons_some s _ c _ hstep]
          exact hf X
        · right; intro X
          rw [List.cons_append, parseCookieHeaderLoop_cons_some s _ c _ hstep, hr X,
            withoutSpaces_cons, if_neg h32]
          simp

/-- The bytes of a quoted value: they are pushed as they are, unless the value is
full. -/
theorem cookie_quoted_phase (b : Str) (s : CookieState)
    (hst : s.parse_state = .COOKIE_PARSE_VALUE) (hquote : s.value_quote_character ≠ 0)
    (hb : ∀ c ∈ b, c ≠ s.value_quote_character) :
    (∀ X, parseCookieHeaderLoop s (b ++ X) = (false, s.dict))
    ∨ (∀ X, parseCookieHeaderLoop s (b ++ X)
        = parseCookieHeaderLoop { s with cookie_value := s.cookie_value ++ b } X) := by
  induction b generalizing s with
  | nil => right; intro X; simp
  | cons c b ih =>
    have hc := hb c (List.mem_cons_self _ _)
    have hb2 : ∀ d ∈ b, d ≠ s.value_quote_character :=
      fun d hd => hb d (List.mem_cons_of_mem _ hd)
    by_cases hfull : s.cookie_value.length ≥ COOKIE_VALUE_MAX
    · left; intro X
      rw [List.cons_append]
      apply parseCookieHeaderLoop_cons_none
      simp [parseCookieHeaderStep, hst, hquote, hc, hfull]
    · have hstep : parseCookieHeaderStep s c
          = some { s with cookie_value := s.cookie_value ++ [c] } := by
        simp [parseCookieHeaderStep, hst, hquote, hc, hfull]
      rcases ih { s with cookie_value := s.cookie_value ++ [c] } hst hquote hb2 with hf | hr
      · left; intro X
        rw [List.cons_append, parseCookieHeaderLoop_cons_some s _ c _ hstep]
        exact hf X
      · right; intro X
        rw [List.cons_append, parseCookieHeaderLoop_cons_some s _ c _ hstep, hr X]
        simp

theorem takeWhile_all (p : Int → Bool) (l : Str) : ∀ c ∈ l.takeWhile p, p c = true := by
  induction l with
  | nil => simp
  | cons x xs ih =>
    intro c hc
    rw [List.takeWhile_cons] at hc
    split_ifs at hc with hx
    · rcases List.mem_cons.1 hc with h | h
      · rw [h]; exact hx
      · exact ih c h
    · simp at hc

theorem dropWhile_append_cons (p : Int → Bool) (a b : Str) (q : Int) (v : Str)
    (h : a.dropWhile p = q :: v) : (a ++ b).dropWhile p = q :: (v ++ b) := by
  induction a with
  | nil => simp at h
  | cons x xs ih =>
    rw [List.dropWhile_cons] at h
    rw [List.cons_append, List.dropWhile_cons]
    split_ifs at h ⊢ with hx
    · exact ih h
    · rw [← List.cons_append, h, List.cons_append]

theorem insertablePairs_cons (i : CookieItem) (l : List CookieItem) :
    insertablePairs (i :: l) = [i.pair].filter insertablePair ++ insertablePairs l := by
  unfold insertablePairs
  rw [List.map_cons, List.filter_cons, List.filter_cons, List.filter_nil]
  split_ifs <;> rfl

theorem insertablePairs_cookieItems_nil (fuel : Nat) :
    insertablePairs (cookieItems fuel []) = [] := by
  cases fuel <;> simp [cookieItems, insertablePairs]

theorem filter_insertablePair_pos (k v : Str) (h1 : k ≠ []) (h2 : k.headD 0 ≠ 36) :
    [(k, v)].filter insertablePair = [(k, v)] := by
  have h : insertablePair (k, v) = true := by
    simp only [insertablePair, Bool.and_eq_true, decide_eq_true_eq]
    exact ⟨h1, h2⟩
  rw [List.filter_cons, if_pos h, List.filter_nil]

theorem filter_insertablePair_neg (k v : Str) (h : ¬ (k ≠ [] ∧ k.headD 0 ≠ 36)) :
    [(k, v)].filter insertablePair = [] := by
  have hf : ¬ insertablePair (k, v) = true := by
    simp only [insertablePair, Bool.and_eq_true, decide_eq_true_eq]
    exact h
  rw [List.filter_cons, if_neg hf, List.filter_nil]

theorem parseCookieHeaderLoop_nil (s : CookieState) :
    parseCookieHeaderLoop s []
      = (true, s.dict ++ [(s.cookie_name, s.cookie_value)].filter insertablePair) := by
  simp only [parseCookieHeaderLoop]
  by_cases h : s.cookie_name ≠ [] ∧ s.cookie_name.headD 0 ≠ 36
  · rw [if_pos h, filter_insertablePair_pos _ _ h.1 h.2]
    rfl
  · rw [if_neg h, filter_insertablePair_neg _ _ h, List.append_nil]

theorem insertUnlessDollar_eq (s : CookieState) (hn : s.cookie_name ≠ []) :
    insertUnlessDollar s
      = s.dict ++ [(s.cookie_name, s.cookie_value)].filter insertablePair := by
  unfold insertUnlessDollar
  by_cases h : s.cookie_name.headD 0 ≠ 36
  · rw [if_pos h, filter_insertablePair_pos _ _ hn h]
    rfl
  · rw [if_neg h, filter_insertablePair_neg _ _ (fun hh => h hh.2), List.append_nil]

theorem cookieRefines_run (s s2 : CookieState) (h r : Str) (spec : List (Str × Str))
    (hrun : parseCookieHeaderLoop s h = parseCookieHeaderLoop s2 r)
    (hd : s2.dict = s.dict) (href : CookieRefines s2 r spec) : CookieRefines s h spec := by
  obtain ⟨added, rest, h1, h2, h3⟩ := href
  refine ⟨added, rest, ?_, h2, ?_⟩
  · rw [hrun, h1, hd]
  · rw [hrun]; exact h3

/-- A value that is not quoted, from its first byte to the separator behind it. -/
theorem cookie_unquoted_case (fuel : Nat) (key r : Str) (d : StringDictionary)
    (ih : ∀ (h : Str) (qc : Int) (d : StringDictionary), h.length < fuel →
      CookieRefines ⟨.COOKIE_PARSE_NAME, [], [], qc, d⟩ h (insertablePairs (cookieItems fuel h)))
    (hkey : key ≠ []) (hlen : r.length ≤ fuel)
    (hstart : ∀ q v, r.dropWhile isSP = q :: v → ¬ (q = 39 ∨ q = 34)) :
    CookieRefines ⟨.COOKIE_PARSE_VALUE, key, [], 0, d⟩ r
      ([(key, withoutSpaces (r.takeWhile notSeparator))].filter insertablePair
        ++ insertablePairs (cookieItems fuel (afterSeparator r))) := by
  have hu := takeWhile_all notSeparator r
  have hsplit : r = r.takeWhile notSeparator ++ r.dropWhile notSeparator :=
    (List.takeWhile_append_dropWhile ..).symm
  have hstart2 : ∀ q v, (r.takeWhile notSeparator).dropWhile isSP = q :: v →
      ¬ (q = 39 ∨ q = 34) := by
    intro q v hqv
    apply hstart q (v ++ r.dropWhile notSeparator)
    conv_lhs => rw [hsplit]
    exact dropWhile_append_cons _ _ _ _ _ hqv
  unfold afterSeparator
  generalize r.takeWhile notSeparator = u at hu hsplit hstart2 ⊢
  rcases ht : r.dropWhile notSeparator with _ | ⟨c2, r2⟩
  · rw [ht] at hsplit
    rw [List.drop_nil, insertablePairs_cookieItems_nil, List.append_nil]
    rcases cookie_unquoted_phase u ⟨.COOKIE_PARSE_VALUE, key, [], 0, d⟩ rfl rfl hu
      (Or.inr hstart2) with hf | hr
    · apply cookieRefines_fail
      rw [hsplit]
      exact hf []
    · apply cookieRefines_end
      rw [hsplit, hr [], parseCookieHeaderLoop_nil]
      simp
  · have hc2 := dropWhile_head_false _ _ _ _ ht
    simp only [notSeparator, decide_eq_false_iff_not, not_and_or, not_not] at hc2
    rw [ht] at hsplit
    rw [List.drop_succ_cons, List.drop_zero]
    rcases cookie_unquoted_phase u ⟨.COOKIE_PARSE_VALUE, key, [], 0, d⟩ rfl rfl hu
      (Or.inr hstart2) with hf | hr
    · apply cookieRefines_fail
      rw [hsplit]
      exact hf _
    · have hlen2 : r2.length < fuel := by
        have := congrArg List.length hsplit
        simp only [List.length_append, List.length_cons] at this
        omega
      have hstep : parseCookieHeaderStep
          ⟨.COOKIE_PARSE_VALUE, key, [] ++ withoutSpaces u, 0, d⟩ c2
          = some ⟨.COOKIE_PARSE_NAME, [], [], 0,
              d ++ [(key, withoutSpaces u)].filter insertablePair⟩ := by
        have hi := insertUnlessDollar_eq ⟨.COOKIE_PARSE_VALUE, key, [] ++ withoutSpaces u, 0, d⟩ hkey
        simp only [List.nil_append] at hi ⊢
        simp [parseCookieHeaderStep, hc2, hi]
      refine cookieRefines_step _ _ _ r2 _ _ ?_ ?_
        (ih r2 0 (d ++ [(key, withoutSpaces u)].filter insertablePair) hlen2)
      · conv_lhs => rw [hsplit]
        rw [hr (c2 :: r2)]
        exact parseCookieHeaderLoop_cons_some _ _ _ _ hstep
      · rfl

/-- A quoted value, from the byte behind the opening quote to the separator behind the
closing quote. -/
theorem cookie_quoted_case (fuel : Nat) (key v : Str) (q : Int) (d : StringDictionary)
    (ih : ∀ (h : Str) (qc : Int) (d : StringDictionary), h.length < fuel →
      CookieRefines ⟨.COOKIE_PARSE_NAME, [], [], qc, d⟩ h (insertablePairs (cookieItems fuel h)))
    (hkey : key ≠ []) (hq : q ≠ 0) (hlen : v.length ≤ fuel) :
    CookieRefines ⟨.COOKIE_PARSE_VALUE, key, [], q, d⟩ v
      ([(key, v.takeWhile (fun x => decide (x ≠ q)))].filter insertablePair
        ++ insertablePairs (cookieItems fuel
            (afterSeparator ((v.dropWhile (fun x => decide (x ≠ q))).drop 1)))) := by
  have hb0 := takeWhile_all (fun x => decide (x ≠ q)) v
  have hsplit : v = v.takeWhile (fun x => decide (x ≠ q))
      ++ v.dropWhile (fun x => decide (x ≠ q)) := (List.takeWhile_append_dropWhile ..).symm
  generalize v.takeWhile (fun x => decide (x ≠ q)) = b at hb0 hsplit ⊢
  have hb : ∀ c ∈ b, c ≠ q := fun c hc => by simpa using hb0 c hc
  rcases ht : v.dropWhile (fun x => decide (x ≠ q)) with _ | ⟨q2, t2⟩
  · rw [ht] at hsplit
    have hnil : afterSeparator (([] : Str).drop 1) = [] := rfl
    rw [hnil, insertablePairs_cookieItems_nil, List.append_nil]
    rcases cookie_quoted_phase b ⟨.COOKIE_PARSE_VALUE, key, [], q, d⟩ rfl hq hb with hf | hr
    · apply cookieRefines_fail
      rw [hsplit]
      exact hf []
    · apply cookieRefines_end
      rw [hsplit, hr [], parseCookieHeaderLoop_nil]
      simp
  · have hq2 := dropWhile_head_false _ _ _ _ ht
    simp only [decide_eq_false_iff_not, not_not] at hq2
    rw [ht] at hsplit
    rw [List.drop_succ_cons, List.drop_zero]
    rcases cookie_quoted_phase b ⟨.COOKIE_PARSE_VALUE, key, [], q, d⟩ rfl hq hb with hf | hr
    · apply cookieRefines_fail
      rw [hsplit]
      exact hf _
    · have hstep : parseCookieHeaderStep ⟨.COOKIE_PARSE_VALUE, key, [] ++ b, q, d⟩ q2
          = some ⟨.COOKIE_PARSE_IGNORE, [], [], q,
              d ++ [(key, b)].filter insertablePair⟩ := by
        have hi := insertUnlessDollar_eq ⟨.COOKIE_PARSE_VALUE, key, [] ++ b, q, d⟩ hkey
        simp only [List.nil_append] at hi ⊢
        simp [parseCookieHeaderStep, hq, hq2, hi]
      unfold afterSeparator
      have hig := takeWhile_all notSeparator t2
      have hsplit2 : t2 = t2.takeWhile notSeparator ++ t2.dropWhile notSeparator :=
        (List.takeWhile_append_dropWhile ..).symm
      generalize t2.takeWhile notSeparator = ig at hig hsplit2
      have hig2 : ∀ x ∈ ig, x ≠ 59 ∧ x ≠ 44 := fun x hx => by
        simpa [notSeparator] using hig x hx
      have hrun : parseCookieHeaderLoop ⟨.COOKIE_PARSE_VALUE, key, [], q, d⟩ v
          = parseCookieHeaderLoop ⟨.COOKIE_PARSE_IGNORE, [], [], q,
              d ++ [(key, b)].filter insertablePair⟩ (t2.dropWhile notSeparator) := by
        conv_lhs => rw [hsplit]
        rw [hr (q2 :: t2)]
        refine (parseCookieHeaderLoop_cons_some _ _ _ _ hstep).trans ?_
        conv_lhs => rw [hsplit2]
        exact cookie_run_ignore ig _ _ rfl hig2
      rcases ht3 : t2.dropWhile notSeparator with _ | ⟨c3, r3⟩
      · rw [ht3] at hrun
        rw [List.drop_nil, insertablePairs_cookieItems_nil, List.append_nil]
        apply cookieRefines_end
        rw [hrun, parseCookieHeaderLoop_nil]
        show (true, (d ++ [(key, b)].filter insertablePair)
            ++ [(([] : Str), ([] : Str))].filter insertablePair)
          = (true, d ++ [(key, b)].filter insertablePair)
        rw [filter_insertablePair_neg [] [] (by simp), List.append_nil]
      · rw [ht3] at hrun hsplit2
        rw [List.drop_succ_cons, List.drop_zero]
        have hc3 := dropWhile_head_false _ _ _ _ ht3
        simp only [notSeparator, decide_eq_false_iff_not, not_and_or, not_not] at hc3
        have hlen3 : r3.length < fuel := by
          have h1 := congrArg List.length hsplit
          have h2 := congrArg List.length hsplit2
          simp only [List.length_append, List.length_cons] at h1 h2
          omega
        have hstep3 : parseCookieHeaderStep ⟨.COOKIE_PARSE_IGNORE, [], [], q,
              d ++ [(key, b)].filter insertablePair⟩ c3
            = some ⟨.COOKIE_PARSE_NAME, [], [], q,
                d ++ [(key, b)].filter insertablePair⟩ := by
          simp [parseCookieHeaderStep, hc3]
        refine cookieRefines_step _ _ _ r3 _ _ ?_ ?_
          (ih r3 q (d ++ [(key, b)].filter insertablePair) hlen3)
        · rw [hrun]
          exact parseCookieHeaderLoop_cons_some _ _ _ _ hstep3
        · rfl

theorem insertablePairs_nil : insertablePairs [] = [] := rfl

theorem cookieItems_empty (fuel : Nat) : cookieItems fuel [] = [] := by
  cases fuel <;> simp [cookieItems]

theorem cookieItems_end (fuel : Nat) (h : Str) (hne : h ≠ [])
    (h1 : h.dropWhile cookieNameByte = []) :
    cookieItems (fuel + 1) h = [⟨h.takeWhile cookieNameByte, false, []⟩] := by
  simp only [cookieItems, if_neg hne, h1]

theorem cookieItems_separator (fuel : Nat) (h : Str) (c : Int) (r : Str)
    (h1 : h.dropWhile cookieNameByte = c :: r) (hc : c ≠ 61) :
    cookieItems (fuel + 1) h
      = ⟨h.takeWhile cookieNameByte, false, []⟩ :: cookieItems fuel r := by
  have hne : h ≠ [] := by rintro rfl; simp at h1
  simp only [cookieItems, if_neg hne, h1, if_neg hc]

theorem cookieItems_unquoted (fuel : Nat) (h r : Str)
    (h1 : h.dropWhile cookieNameByte = 61 :: r)
    (h2 : ∀ q v, r.dropWhile isSP = q :: v → ¬ (q = 39 ∨ q = 34)) :
    cookieItems (fuel + 1) h
      = ⟨h.takeWhile cookieNameByte, false, r.takeWhile notSeparator⟩
          :: cookieItems fuel (afterSeparator r) := by
  have hne : h ≠ [] := by rintro rfl; simp at h1
  rcases hv : r.dropWhile isSP with _ | ⟨q, v⟩
  · simp only [cookieItems, if_neg hne, h1, if_true, hv]
  · simp only [cookieItems, if_neg hne, h1, if_true, hv, if_neg (h2 q v hv)]

theorem cookieItems_quoted (fuel : Nat) (h r : Str) (q : Int) (v : Str)
    (h1 : h.dropWhile cookieNameByte = 61 :: r) (h2 : r.dropWhile isSP = q :: v)
    (h3 : q = 39 ∨ q = 34) :
    cookieItems (fuel + 1) h
      = ⟨h.takeWhile cookieNameByte, true, v.takeWhile (fun x => decide (x ≠ q))⟩
          :: cookieItems fuel
              (afterSeparator ((v.dropWhile (fun x => decide (x ≠ q))).drop 1)) := by
  have hne : h ≠ [] := by rintro rfl; simp at h1
  simp only [cookieItems, if_neg hne, h1, if_true, h2, if_pos h3]

theorem pair_unquoted (w u : Str) :
    (CookieItem.mk w false u).pair = (cookieKeyOf w, withoutSpaces u) := rfl

theorem pair_quoted (w u : Str) : (CookieItem.mk w true u).pair = (cookieKeyOf w, u) := rfl

/-- From the start of a cookie, the loop of `parseCookieHeader` inserts the pairs of the
cookies as written, in their order: all of them when it returns true, the first of
them when it returns false. -/
theorem cookieItems_refines (fuel : Nat) :
    ∀ (h : Str) (qc : Int) (d : StringDictionary), h.length < fuel →
      CookieRefines ⟨.COOKIE_PARSE_NAME, [], [], qc, d⟩ h
        (insertablePairs (cookieItems fuel h)) := by
  induction fuel with
  | zero => intro h qc d hlen; exact absurd hlen (Nat.not_lt_zero _)
  | succ fuel ih =>
    intro h qc d hlen
    have hw := takeWhile_all cookieNameByte h
    have hsplit : h = h.takeWhile cookieNameByte ++ h.dropWhile cookieNameByte :=
      (List.takeWhile_append_dropWhile ..).symm
    rcases htail : h.dropWhile cookieNameByte with _ | ⟨c, r⟩
    · by_cases hne : h = []
      · subst hne
        rw [insertablePairs_cookieItems_nil]
        apply cookieRefines_end
        rw [parseCookieHeaderLoop_nil]
        show (true, d ++ [(([] : Str), ([] : Str))].filter insertablePair) = (true, d ++ [])
        rw [filter_insertablePair_neg [] [] (by simp)]
      · rw [cookieItems_end fuel h hne htail, insertablePairs_cons, insertablePairs_nil,
          List.append_nil, pair_unquoted]
        rw [htail, List.append_nil] at hsplit
        generalize h.takeWhile cookieNameByte = w at hw hsplit ⊢
        subst hsplit
        rcases cookie_name_phase h ⟨.COOKIE_PARSE_NAME, [], [], qc, d⟩ rfl hw with hf | hr
        · apply cookieRefines_fail
          have h1 := hf []
          rw [List.append_nil] at h1
          exact h1
        · apply cookieRefines_end
          have h1 := hr []
          rw [List.append_nil] at h1
          rw [h1, parseCookieHeaderLoop_nil]
          rfl
    · have hc := dropWhile_head_false _ _ _ _ htail
      simp only [cookieNameByte, decide_eq_false_iff_not, not_and_or, not_not] at hc
      rw [htail] at hsplit
      have hlen2 : (h.takeWhile cookieNameByte).length + r.length < fuel := by
        have h1 := congrArg List.length hsplit
        simp only [List.length_append, List.length_cons] at h1
        omega
      by_cases h61 : c = 61
      · subst h61
        by_cases hquote : ∃ q v, r.dropWhile isSP = q :: v ∧ (q = 39 ∨ q = 34)
        · obtain ⟨q, v, hv, hquote⟩ := hquote
          rw [cookieItems_quoted fuel h r q v htail hv hquote, insertablePairs_cons,
            pair_quoted]
          have hsp := takeWhile_all isSP r
          have hrsplit : r = r.takeWhile isSP ++ r.dropWhile isSP :=
            (List.takeWhile_append_dropWhile ..).symm
          rw [hv] at hrsplit
          generalize r.takeWhile isSP = sp at hsp hrsplit
          generalize h.takeWhile cookieNameByte = w at hw hsplit hlen2 ⊢
          rcases cookie_name_phase w ⟨.COOKIE_PARSE_NAME, [], [], qc, d⟩ rfl hw with hf | hr
          · apply cookieRefines_fail
            conv_lhs => rw [hsplit]
            exact hf _
          · by_cases hkey : cookieKeyOf w = []
            · apply cookieRefines_fail
              conv_lhs => rw [hsplit]
              rw [hr]
              apply parseCookieHeaderLoop_cons_none
              simp [parseCookieHeaderStep, hkey]
            · have hstep : parseCookieHeaderStep
                  ⟨.COOKIE_PARSE_NAME, [] ++ cookieKeyOf w, [], qc, d⟩ 61
                  = some ⟨.COOKIE_PARSE_VALUE, cookieKeyOf w, [], 0, d⟩ := by
                simp [parseCookieHeaderStep, hkey]
              have hq0 : q ≠ 0 := by rcases hquote with h | h <;> rw [h] <;> decide
              have hstepq : parseCookieHeaderStep
                  ⟨.COOKIE_PARSE_VALUE, cookieKeyOf w, [], 0, d⟩ q
                  = some ⟨.COOKIE_PARSE_VALUE, cookieKeyOf w, [], q, d⟩ := by
                rcases hquote with h | h <;> rw [h] <;> simp [parseCookieHeaderStep]
              have hlen3 : v.length ≤ fuel := by
                have h1 := congrArg List.length hrsplit
                simp only [List.length_append, List.length_cons] at h1
                omega
              refine cookieRefines_run _ ⟨.COOKIE_PARSE_VALUE, cookieKeyOf w, [], q, d⟩ _ v _
                ?_ rfl (cookie_quoted_case fuel (cookieKeyOf w) v q d ih hkey hq0 hlen3)
              conv_lhs => rw [hsplit]
              rw [hr]
              refine (parseCookieHeaderLoop_cons_some _ _ _ _ hstep).trans ?_
              conv_lhs => rw [hrsplit]
              rw [cookie_skip_spaces sp _ rfl rfl hsp]
              exact parseCookieHeaderLoop_cons_some _ _ _ _ hstepq
        · have hstart : ∀ q v, r.dropWhile isSP = q :: v → ¬ (q = 39 ∨ q = 34) :=
            fun q v h1 h2 => hquote ⟨q, v, h1, h2⟩
          rw [cookieItems_unquoted fuel h r htail hstart, insertablePairs_cons,
            pair_unquoted]
          generalize h.takeWhile cookieNameByte = w at hw hsplit hlen2 ⊢
          rcases cookie_name_phase w ⟨.COOKIE_PARSE_NAME, [], [], qc, d⟩ rfl hw with hf | hr
          · apply cookieRefines_fail
            conv_lhs => rw [hsplit]
            exact hf _
          · by_cases hkey : cookieKeyOf w = []
            · apply cookieRefines_fail
              conv_lhs => rw [hsplit]
              rw [hr]
              apply parseCookieHeaderLoop_cons_none
              simp [parseCookieHeaderStep, hkey]
            · have hstep : parseCookieHeaderStep
                  ⟨.COOKIE_PARSE_NAME, [] ++ cookieKeyOf w, [], qc, d⟩ 61
                  = some ⟨.COOKIE_PARSE_VALUE, cookieKeyOf w, [], 0, d⟩ := by
                simp [parseCookieHeaderStep, hkey]
              refine cookieRefines_run _ ⟨.COOKIE_PARSE_VALUE, cookieKeyOf w, [], 0, d⟩ _ r _
                ?_ rfl
                (cookie_unquoted_case fuel (cookieKeyOf w) r d ih hkey (by omega) hstart)
              conv_lhs => rw [hsplit]
              rw [hr]
              exact parseCookieHeaderLoop_cons_some _ _ _ _ hstep
      · have hsep : c = 59 ∨ c = 44 := by
          rcases hc with h | h | h
          · exact absurd h h61
          · exact Or.inl h
          · exact Or.inr h
        rw [cookieItems_separator fuel h c r htail h61, insertablePairs_cons, pair_unquoted]
        generalize h.takeWhile cookieNameByte = w at hw hsplit hlen2 ⊢
        rcases cookie_name_phase w ⟨.COOKIE_PARSE_NAME, [], [], qc, d⟩ rfl hw with hf | hr
        · apply cookieRefines_fail
          conv_lhs => rw [hsplit]
          exact hf _
        · have hstep : parseCookieHeaderStep
              ⟨.COOKIE_PARSE_NAME, [] ++ cookieKeyOf w, [], qc, d⟩ c
              = some ⟨.COOKIE_PARSE_NAME, [], [], qc,
                  d ++ [(cookieKeyOf w, withoutSpaces [])].filter insertablePair⟩ := by
            by_cases hkey : cookieKeyOf w = []
            · rw [filter_insertablePair_neg _ _ (fun hh => hh.1 hkey)]
              simp [parseCookieHeaderStep, h61, hsep, hkey]
            · have hi := insertUnlessDollar_eq
                ⟨.COOKIE_PARSE_NAME, [] ++ cookieKeyOf w, [], qc, d⟩
                (by simpa using hkey)
              simp only [List.nil_append] at hi ⊢
              simp [parseCookieHeaderStep, h61, hsep, hkey, hi, withoutSpaces]
          refine cookieRefines_step _ _ _ r _ _ ?_ rfl (ih r qc _ (by omega))
          conv_lhs => rw [hsplit]
          rw [hr]
          exact parseCookieHeaderLoop_cons_some _ _ _ _ hstep

theorem mem_of_append_eq (spec added rest : List (Str × Str)) (h : spec = added ++ rest)
    (e : Str × Str) (he : e ∈ added) : e ∈ spec := by
  rw [h]
  exact List.mem_append_left _ he

theorem afterSeparator_suffix (t : Str) : afterSeparator t <:+ t :=
  (List.drop_suffix _ _).trans (List.dropWhile_suffix _)

/-- The name and the value of every cookie as written are stretches of the header, and
the name has no `=`, `;` or `,`. -/
theorem cookieItems_infix (fuel : Nat) :
    ∀ (h : Str), ∀ i ∈ cookieItems fuel h,
      i.name <:+: h ∧ i.value <:+: h ∧ ∀ c ∈ i.name, c ≠ 61 ∧ c ≠ 59 ∧ c ≠ 44 := by
  induction fuel with
  | zero => intro h i hi; simp [cookieItems] at hi
  | succ fuel ih =>
    intro h i hi
    have hname : (h.takeWhile cookieNameByte) <:+: h ∧
        ∀ c ∈ h.takeWhile cookieNameByte, c ≠ 61 ∧ c ≠ 59 ∧ c ≠ 44 :=
      ⟨( List.takeWhile_prefix _).isInfix, fun c hc => by
        simpa [cookieNameByte] using takeWhile_all cookieNameByte h c hc⟩
    have hrec : ∀ t : Str, t <:+ h → i ∈ cookieItems fuel t →
        i.name <:+: h ∧ i.value <:+: h ∧ ∀ c ∈ i.name, c ≠ 61 ∧ c ≠ 59 ∧ c ≠ 44 :=
      fun t ht hit =>
        ⟨(ih t i hit).1.trans ht.isInfix, (ih t i hit).2.1.trans ht.isInfix, (ih t i hit).2.2⟩
    rcases htail : h.dropWhile cookieNameByte with _ | ⟨c, r⟩
    · by_cases hne : h = []
      · subst hne
        simp [cookieItems] at hi
      · rw [cookieItems_end fuel h hne htail, List.mem_singleton] at hi
        subst hi
        exact ⟨hname.1, List.nil_infix, hname.2⟩
    · have hr : r <:+ h := by
        have h1 : (c :: r) <:+ h := htail ▸ List.dropWhile_suffix _
        exact (List.suffix_cons c r).trans h1
      by_cases h61 : c = 61
      · subst h61
        by_cases hquote : ∃ q v, r.dropWhile isSP = q :: v ∧ (q = 39 ∨ q = 34)
        · obtain ⟨q, v, hv, hquote⟩ := hquote
          have hvs : v <:+ h := by
            have h1 : (q :: v) <:+ r := hv ▸ List.dropWhile_suffix _
            exact ((List.suffix_cons q v).trans h1).trans hr
          rw [cookieItems_quoted fuel h r q v htail hv hquote, List.mem_cons] at hi
          rcases hi with hi | hi
          · subst hi
            exact ⟨hname.1, ( List.takeWhile_prefix _).isInfix.trans hvs.isInfix, hname.2⟩
          · exact hrec _ ((afterSeparator_suffix _).trans
              (((List.drop_suffix _ _).trans (List.dropWhile_suffix _)).trans hvs)) hi
        · have hstart : ∀ q v, r.dropWhile isSP = q :: v → ¬ (q = 39 ∨ q = 34) :=
            fun q v h1 h2 => hquote ⟨q, v, h1, h2⟩
          rw [cookieItems_unquoted fuel h r htail hstart, List.mem_cons] at hi
          rcases hi with hi | hi
          · subst hi
            exact ⟨hname.1, ( List.takeWhile_prefix _).isInfix.trans hr.isInfix, hname.2⟩
          · exact hrec _ ((afterSeparator_suffix _).trans hr) hi
      · rw [cookieItems_separator fuel h c r htail h61, List.mem_cons] at hi
        rcases hi with hi | hi
        · subst hi
          exact ⟨hname.1, List.nil_infix, hname.2⟩
        · exact hrec r hr hi

/-- Claim C21. For every Cookie header and every dictionary, the pairs that
`parseCookieHeader` inserts are, in their order, the pairs of the cookies as the header
writes them (`cookiesOf`: the name as written is the stretch of the header before `=`,
the value as written the stretch behind it) whose key is not empty and does not begin
with `$`: all of them when the call returns true, the first of them when it returns
false.  The key of every inserted pair is the name as written with its spaces removed
and its ASCII letters lowercased, so it has no space and no uppercase ASCII letter; the
value is the value as written, byte for byte and so in the case of the header, without
its spaces when it is not quoted.  E.g. `A=1; B=Two` inserts a -> `1` and
b -> `Two`. -/
theorem cookie_keys_lowercased (dict : StringDictionary) (header : Str) :
    (∃ added rest, (parseCookieHeader dict header).2 = dict ++ added
      ∧ insertablePairs (cookiesOf header) = added ++ rest
      ∧ ((parseCookieHeader dict header).1 = true → rest = [])
      ∧ ∀ e ∈ added,
          (∃ i ∈ cookiesOf header, e.1 = cookieKeyOf i.name
              ∧ e.2 = (if i.quoted then i.value else withoutSpaces i.value))
          ∧ CookieAsWritten header e
          ∧ ∀ c ∈ e.1, c ≠ 32 ∧ ¬ (65 ≤ c ∧ c ≤ 90))
    ∧ (∀ i ∈ cookiesOf header,
        i.name <:+: header ∧ i.value <:+: header ∧ ∀ c ∈ i.name, c ≠ 61 ∧ c ≠ 59 ∧ c ≠ 44)
    ∧ cookiesOf (str "A=1; B=Two")
        = [⟨str "A", false, str "1"⟩, ⟨str " B", false, str "Two"⟩]
    ∧ parseCookieHeader [] (str "A=1; B=Two")
        = (true, [(str "a", str "1"), (str "b", str "Two")]) := by
  refine ⟨?_, cookieItems_infix _ header, by decide, by decide⟩
  obtain ⟨added, rest, h1, h2, h3⟩ :=
    cookieItems_refines (header.length + 1) header 0 dict (Nat.lt_succ_self _)
  refine ⟨added, rest, h1, h2, h3, ?_⟩
  intro e he
  obtain ⟨added2, hadd2, hgood⟩ :=
    parseCookieHeaderLoop_asWritten header [] _ (cookieInv_start dict)
  have hsame : added2 = added := List.append_cancel_left (hadd2.symm.trans h1)
  subst hsame
  have hmem : e ∈ insertablePairs (cookiesOf header) := mem_of_append_eq _ _ _ h2 e he
  unfold insertablePairs at hmem
  obtain ⟨i, hi, hie⟩ := List.mem_map.1 (List.mem_filter.1 hmem).1
  refine ⟨⟨i, hi, by rw [← hie]; rfl, by rw [← hie]; rfl⟩, by simpa using hgood e he, ?_⟩
  obtain ⟨⟨_, w, _, _, _, hkey⟩, _⟩ := hgood e he
  rw [hkey]
  exact cookieKeyOf_chars w

end HTTPRequestParser

namespace HTTPRequestParser

/-! ## The accumulators stay within their limits -/

theorem accInv_new : AccInv HTTPRequestParser.new := by
  simp [AccInv, accumulatorsBounded, HTTPRequestParser.new]

theorem accInv_step (p q : HTTPRequestParser) (c : Int) (h : parseStep p c = .next q)
    (hinv : AccInv p) : AccInv q := by
  obtain ⟨⟨h1, h2, h3, h4, h5⟩, h6⟩ := hinv
  simp only [METHOD_MAX, RESOURCE_MAX, QUERY_STRING_MAX, HEADER_NAME_MAX, HEADER_VALUE_MAX]
    at h1 h2 h3 h4 h5
  unfold parseStep at h
  split at h <;> rename_i hs <;> split_ifs at h <;> simp at h <;> subst h <;>
    simp_all [AccInv, accumulatorsBounded, METHOD_MAX, RESOURCE_MAX, QUERY_STRING_MAX,
      HEADER_NAME_MAX, HEADER_VALUE_MAX] <;> omega

theorem accInv_parse (buf : Str) (p : HTTPRequestParser) (hinv : AccInv p) :
    AccInv (parseRequestHeaders p buf).2.2 := by
  induction buf generalizing p with
  | nil => simpa [parseRequestHeaders] using hinv
  | cons c rest ih =>
    simp only [parseRequestHeaders]
    cases hs : parseStep p c with
    | next q => exact ih q (accInv_step p q c hs hinv)
    | ret result adv q =>
      have := parseStep_ret_unchanged p c result adv q hs
      simp only
      rw [this]
      exact hinv

theorem accInv_afterCalls (bufs : List Str) (p : HTTPRequestParser) (hinv : AccInv p) :
    AccInv (afterCalls p bufs) := by
  induction bufs generalizing p with
  | nil => exact hinv
  | cons buf bufs ih => exact ih _ (accInv_parse buf p hinv)

/-- Claim C27.  In the parser state after any sequence of parseRequestHeaders calls on
any buffers, started from the parser as its constructor leaves it and continued after
true and false results as well, the method holds at most 1,024 bytes, the resource at
most 262,144, the query string at most 1,048,576, the header name at most 1,024 and
the header value at most 1,048,576. -/
theorem accumulators_within_limits (bufs : List Str) :
    (afterCalls HTTPRequestParser.new bufs).m_method.length ≤ 1024
    ∧ (afterCalls HTTPRequestParser.new bufs).m_resource.length ≤ 262144
    ∧ (afterCalls HTTPRequestParser.new bufs).m_query_string.length ≤ 1048576
    ∧ (afterCalls HTTPRequestParser.new bufs).m_header_name.length ≤ 1024
    ∧ (afterCalls HTTPRequestParser.new bufs).m_header_value.length ≤ 1048576 :=
  (accInv_afterCalls bufs HTTPRequestParser.new accInv_new).1

end HTTPRequestParser

/-! ## The engine -/

namespace PionEngine

theorem find_insert (m : TCPServerMap) (e : Nat × TCPServer) (key : Nat) :
    TCPServerMap.find (TCPServerMap.insert m e).1 key
      = match TCPServerMap.find m key with
        | some i => some i
        | none => if e.1 = key then some e else none := by
  unfold TCPServerMap.insert
  cases hf : TCPServerMap.find m e.1 with
  | some i =>
    simp only
    cases hk : TCPServerMap.find m key with
    | some j => rfl
    | none =>
      simp only
      split_ifs with he
      · rw [he, hk] at hf; cases hf
      · rfl
  | none =>
    simp only [TCPServerMap.find] at hf ⊢
    have hm : m = List.takeWhile (fun x => decide (x.1 < e.1)) m
        ++ List.dropWhile (fun x => decide (x.1 < e.1)) m :=
      (List.takeWhile_append_dropWhile _ m).symm
    generalize List.takeWhile (fun x => decide (x.1 < e.1)) m = tw at hm ⊢
    generalize List.dropWhile (fun x => decide (x.1 < e.1)) m = dw at hm ⊢
    subst hm
    rw [List.find?_append] at hf ⊢
    rw [List.find?_append]
    by_cases he : e.1 = key
    · subst he
      simp only [Option.or_eq_none] at hf
      simp [hf.1, hf.2]
    · simp only [List.find?_cons, he, decide_False, if_false]
      cases h1 : List.find? (fun x => decide (x.1 = key)) tw <;>
        cases h2 : List.find? (fun x => decide (x.1 = key)) dw <;> simp

theorem getServer_addServer (e : PionEngine) (s : TCPServer) (port : Nat) :
    (e.addServer s).2.getServer port
      = match e.getServer port with
        | some t => some t
        | none => if s.getPort = port then some s else none := by
  simp only [getServer, addServer, find_insert]
  cases TCPServerMap.find e.m_servers port with
  | some i => rfl
  | none =>
    simp only
    split_ifs <;> rfl

theorem getServer_addServers (servers : List TCPServer) (e : PionEngine) (port : Nat) :
    (e.addServers servers).getServer port
      = match e.getServer port with
        | some t => some t
        | none => servers.find? (fun s => decide (s.getPort = port)) := by
  induction servers generalizing e with
  | nil => simp only [addServers, List.find?_nil]; cases e.getServer port <;> rfl
  | cons s rest ih =>
    rw [addServers, ih, getServer_addServer]
    cases e.getServer port with
    | some t => rfl
    | none =>
      simp only [List.find?_cons]
      by_cases h : s.getPort = port <;> simp [h]

end PionEngine

namespace PionEngine

theorem getServer_eq_none_iff (e : PionEngine) (port : Nat) :
    e.getServer port = none ↔ TCPServerMap.find e.m_servers port = none := by
  unfold getServer
  cases TCPServerMap.find e.m_servers port <;> simp

theorem insert_flag (m : TCPServerMap) (x : Nat × TCPServer) :
    ((TCPServerMap.insert m x).2 = true ↔ TCPServerMap.find m x.1 = none)
    ∧ ((TCPServerMap.insert m x).2 = false → (TCPServerMap.insert m x).1 = m) := by
  unfold TCPServerMap.insert
  cases TCPServerMap.find m x.1 <;> simp

/-- Claim C28.  addServer returns true exactly when no server is registered for the
port of the server, and then getServer returns that server for the port; when it
returns false the engine, its map included, is unchanged.  addHTTPServer returns
a null pointer exactly when the port is taken, leaving the engine unchanged, and
otherwise returns the new server, which getServer then returns.  After addServer,
getServer returns for every port the server that was registered for it before, if
there was one; so after any run of registrations getServer returns the server
registered first for the port, and null for a port that was never registered. -/
theorem addServer_registers_by_port (e : PionEngine) (server : TCPServer) (tcp_port : Nat)
    (servers : List TCPServer) :
    ((e.addServer server).1 = true ↔ e.getServer server.getPort = none)
    ∧ (e.getServer server.getPort = none →
        (e.addServer server).2.getServer server.getPort = some server)
    ∧ ((e.addServer server).1 = false → (e.addServer server).2 = e)
    ∧ ((e.addHTTPServer tcp_port).1 = none ↔ e.getServer tcp_port ≠ none)
    ∧ ((e.addHTTPServer tcp_port).1 = none → (e.addHTTPServer tcp_port).2 = e)
    ∧ (e.getServer tcp_port = none →
        (e.addHTTPServer tcp_port).1 = some (HTTPServer.create tcp_port)
        ∧ (e.addHTTPServer tcp_port).2.getServer tcp_port = some (HTTPServer.create tcp_port))
    ∧ (e.addServer server).2.getServer tcp_port
        = (match e.getServer tcp_port with
          | some t => some t
          | none => if server.getPort = tcp_port then some server else none)
    ∧ (e.addServers servers).getServer tcp_port
        = (match e.getServer tcp_port with
          | some t => some t
          | none => servers.find? (fun s => decide (s.getPort = tcp_port))) := by
  have hflag := insert_flag e.m_servers (server.getPort, server)
  have hflag2 := insert_flag e.m_servers (tcp_port, HTTPServer.create tcp_port)
  refine ⟨?_, ?_, ?_, ?_, ?_, ?_, getServer_addServer e server tcp_port,
    getServer_addServers servers e tcp_port⟩
  · rw [getServer_eq_none_iff]
    exact hflag.1
  · intro h
    rw [getServer_addServer, h]
    simp
  · intro h
    have := hflag.2 h
    simp only [addServer]
    rw [this]
  · rw [Ne, getServer_eq_none_iff, ← hflag2.1]
    simp only [addHTTPServer]
    cases (TCPServerMap.insert e.m_servers (tcp_port, HTTPServer.create tcp_port)).2 <;> simp
  · intro h
    have hf : (TCPServerMap.insert e.m_servers (tcp_port, HTTPServer.create tcp_port)).2
        = false := by
      simp only [addHTTPServer] at h
      cases hb : (TCPServerMap.insert e.m_servers (tcp_port, HTTPServer.create tcp_port)).2
      · rfl
      · rw [hb] at h; simp at h
    have := hflag2.2 hf
    simp only [addHTTPServer]
    rw [this]
  · intro h
    have hf := hflag2.1.2 ((getServer_eq_none_iff e tcp_port).1 h)
    constructor
    · simp only [addHTTPServer, hf]
      rfl
    · have := getServer_addServer e (HTTPServer.create tcp_port) tcp_port
      rw [h] at this
      simp only [addServer, TCPServer.getPort, HTTPServer.create, if_true] at this
      simp only [addHTTPServer, HTTPServer.create]
      exact this

theorem startThreads_eq (n : Nat) (pool : List Thread) :
    (List.range n).foldl (fun pool _ => pool ++ [Thread.run]) pool
      = pool ++ List.replicate n Thread.run := by
  induction n with
  | zero => simp
  | succ n ih =>
    rw [List.range_succ, List.foldl_append, ih, List.replicate_succ']
    simp

/-- Claim C29.  start throws AlreadyStartedException exactly when the engine is running
and NoServersException exactly when it is not running and no server is registered;
whenever it throws, the engine (running flag, server map, thread pool) is unchanged.
Otherwise every registered server is started, exactly num_threads threads, each
running the event loop, are added to the pool, and the running flag is set. -/
theorem start_spec (e : PionEngine) :
    (e.start.1 = some .AlreadyStartedException ↔ e.m_is_running = true)
    ∧ (e.start.1 = some .NoServersException ↔ e.m_is_running = false ∧ e.m_servers = [])
    ∧ (e.start.1 ≠ none → e.start.2 = e)
    ∧ (e.start.1 = none →
        e.start.2.m_servers = List.map (fun (i : Nat × TCPServer) => (i.1, i.2.start)) e.m_servers
        ∧ (∀ i ∈ e.start.2.m_servers, i.2.m_is_listening = true)
        ∧ List.map (fun (i : Nat × TCPServer) => i.1) e.start.2.m_servers
            = List.map (fun (i : Nat × TCPServer) => i.1) e.m_servers
        ∧ e.start.2.m_thread_pool = e.m_thread_pool ++ List.replicate e.m_num_threads Thread.run
        ∧ e.start.2.m_thread_pool.length = e.m_thread_pool.length + e.m_num_threads
        ∧ e.start.2.m_num_threads = e.m_num_threads
        ∧ e.start.2.m_is_running = true) := by
  unfold start
  by_cases hr : e.m_is_running = true
  · simp [hr]
  · simp only [Bool.not_eq_true] at hr
    cases hs : e.m_servers with
    | nil => simp [hr]
    | cons s rest =>
      simp only [hr, startThreads_eq]
      simp [TCPServer.start, Function.comp_def]
      intro a b x y _ _ hb
      rw [← hb]

end PionEngine

/-! ## The content buffer and the content length -/

namespace HTTPMessage

theorem createContentBuffer_invariant (SIZE_MAX : Nat) (fresh : Nat → Int) (m m2 : HTTPMessage)
    (h : m.createContentBuffer SIZE_MAX fresh = some m2) :
    m2.m_content_length = m.m_content_length
    ∧ ∃ buf, m2.m_content_buf = some buf ∧ buf.length = m.m_content_length + 1
        ∧ buf.get? m.m_content_length = some 0 := by
  unfold createContentBuffer at h
  simp only at h
  split_ifs at h with hlt
  simp only [Option.some.injEq] at h
  subst h
  have hle : (m.m_content_length + 1) % (SIZE_MAX + 1) ≤ m.m_content_length + 1 :=
    Nat.mod_le _ _
  have hsize : (m.m_content_length + 1) % (SIZE_MAX + 1) = m.m_content_length + 1 := by omega
  refine ⟨rfl, _, rfl, ?_, ?_⟩
  · simp [hsize]
  · rw [List.get?_eq_getElem?, List.getElem?_set_self (by simp [hsize])]

theorem createContentBuffer_isSome (SIZE_MAX : Nat) (fresh : Nat → Int) (m : HTTPMessage)
    (h : m.m_content_length < SIZE_MAX) :
    (m.createContentBuffer SIZE_MAX fresh).isSome = true := by
  unfold createContentBuffer
  have : (m.m_content_length + 1) % (SIZE_MAX + 1) = m.m_content_length + 1 :=
    Nat.mod_eq_of_lt (by omega)
  simp [this]

theorem invariant_of_buffer (m : HTTPMessage) (buf : Str) (h : m.m_content_buf = some buf)
    (h1 : buf.length = m.m_content_length + 1) (h2 : buf.get? m.m_content_length = some 0) :
    m.contentBufferInvariant = true := by
  unfold contentBufferInvariant
  rw [h]
  simp only [h1, h2, decide_True, Bool.and_self]

theorem invariant_of_no_buffer (m : HTTPMessage) (h : m.m_content_buf = none) :
    m.contentBufferInvariant = true := by
  simp [contentBufferInvariant, h]

theorem copy_invariant (SIZE_MAX : Nat) (fresh : Nat → Int) (m m2 : HTTPMessage)
    (h : m.copy SIZE_MAX fresh = some m2) : m2.contentBufferInvariant = true := by
  unfold copy at h
  simp only at h
  cases hb : m.m_content_buf with
  | none =>
    rw [hb] at h
    simp only [Option.some.injEq] at h
    subst h
    rfl
  | some src =>
    rw [hb] at h
    simp only at h
    cases hc : createContentBuffer SIZE_MAX fresh { m with m_content_buf := none } with
    | none => rw [hc] at h; cases h
    | some m3 =>
      rw [hc] at h
      simp only at h
      split_ifs at h with hlen
      simp only [Option.some.injEq] at h
      obtain ⟨hl, buf, hbuf, hlen2, hzero⟩ := createContentBuffer_invariant _ _ _ _ hc
      simp only at hl hlen2 hzero
      subst h
      apply invariant_of_buffer _ (src.take m.m_content_length ++ buf.drop m.m_content_length)
      · simp [hbuf]
      · simp only [hl, List.length_append, List.length_take, List.length_drop]
        omega
      · simp only [hl]
        rw [List.get?_eq_getElem?, List.getElem?_append_right (by simp)]
        simp only [List.length_take]
        have : min m.m_content_length src.length = m.m_content_length := by omega
        rw [this, Nat.sub_self, List.getElem?_drop, Nat.add_zero, ← List.get?_eq_getElem?]
        exact hzero

theorem createContentBuffer_eq_none (SIZE_MAX : Nat) (fresh : Nat → Int) (m : HTTPMessage)
    (h : SIZE_MAX ≤ m.m_content_length) : m.createContentBuffer SIZE_MAX fresh = none := by
  unfold createContentBuffer
  have hlt : (m.m_content_length + 1) % (SIZE_MAX + 1) < SIZE_MAX + 1 :=
    Nat.mod_lt _ (Nat.succ_pos _)
  simp only
  rw [if_neg (by omega)]

/-- The copy constructor is defined exactly when the source has no content buffer, or
has one that holds at least `m_content_length` bytes while `m_content_length + 1` does
not wrap around. -/
theorem copy_isSome_iff (SIZE_MAX : Nat) (fresh : Nat → Int) (m : HTTPMessage) :
    (m.copy SIZE_MAX fresh).isSome = true
      ↔ ∀ src, m.m_content_buf = some src →
          m.m_content_length < SIZE_MAX ∧ m.m_content_length ≤ src.length := by
  unfold copy
  simp only
  cases hb : m.m_content_buf with
  | none => simp
  | some src =>
    simp only [Option.some.injEq, forall_eq']
    by_cases hlt : m.m_content_length < SIZE_MAX
    · have hs := createContentBuffer_isSome SIZE_MAX fresh { m with m_content_buf := none } hlt
      cases hc : createContentBuffer SIZE_MAX fresh { m with m_content_buf := none } with
      | none => rw [hc] at hs; cases hs
      | some m3 =>
        simp only
        by_cases hlen : src.length < m.m_content_length
        · simp only [hlen, if_true, Option.isSome_none, Bool.false_eq_true, false_iff]
          intro h
          omega
        · simp only [hlen, if_false, Option.isSome_some, true_iff]
          exact ⟨hlt, by omega⟩
    · rw [createContentBuffer_eq_none SIZE_MAX fresh { m with m_content_buf := none }
        (by simp only; omega)]
      simp only [Option.isSome_none, Bool.false_eq_true, false_iff, not_and]
      intro h
      exact absurd h hlt

/-- The copy has the content length of the source and, when the source has a content
buffer, a buffer of its own with the first `m_content_length` bytes of the source
buffer and the terminating zero. -/
theorem copy_content (SIZE_MAX : Nat) (fresh : Nat → Int) (m m2 : HTTPMessage)
    (h : m.copy SIZE_MAX fresh = some m2) :
    m2.m_content_length = m.m_content_length
    ∧ m2.m_content_buf = m.m_content_buf.map (fun src => src.take m.m_content_length ++ [0]) := by
  unfold copy at h
  simp only at h
  cases hb : m.m_content_buf with
  | none =>
    rw [hb] at h
    simp only [Option.some.injEq] at h
    subst h
    exact ⟨rfl, rfl⟩
  | some src =>
    rw [hb] at h
    simp only at h
    cases hc : createContentBuffer SIZE_MAX fresh { m with m_content_buf := none } with
    | none => rw [hc] at h; cases h
    | some m3 =>
      rw [hc] at h
      simp only at h
      split_ifs at h with hlen
      simp only [Option.some.injEq] at h
      obtain ⟨hl, buf, hbuf, hlen2, hzero⟩ := createContentBuffer_invariant _ _ _ _ hc
      simp only at hl hlen2 hzero
      subst h
      refine ⟨hl, ?_⟩
      simp only [hbuf, Option.map_some']
      have hd : buf.drop m.m_content_length = [0] := by
        apply List.ext_get?
        intro i
        cases i with
        | zero =>
          rw [List.get?_eq_getElem?, List.getElem?_drop, Nat.add_zero, ← List.get?_eq_getElem?,
            hzero]
          rfl
        | succ i =>
          rw [List.get?_eq_getElem?, List.getElem?_drop,
            List.getElem?_eq_none (by omega)]
          rfl
      rw [hd]

/-- Of two messages with the same content buffer, the first satisfying the invariant,
the second satisfies it exactly when there is no buffer or the content lengths agree. -/
theorem invariant_same_buffer (m m2 : HTTPMessage) (hb : m2.m_content_buf = m.m_content_buf)
    (hinv : m.contentBufferInvariant = true) :
    m2.contentBufferInvariant = true
      ↔ m.m_content_buf = none ∨ m2.m_content_length = m.m_content_length := by
  unfold contentBufferInvariant at hinv ⊢
  rw [hb]
  cases hbuf : m.m_content_buf with
  | none => simp
  | some buf =>
    rw [hbuf] at hinv
    simp only [Bool.and_eq_true, decide_eq_true_eq] at hinv ⊢
    constructor
    · intro h
      right
      omega
    · intro h
      rcases h with h | h
      · cases h
      · rw [h]
        exact hinv

/-- Claim C30, as the code has it.  createContentBuffer and clear each leave a message
that satisfies the invariant, whatever the message was before: if the content buffer
exists it has content_length + 1 bytes and the byte at index content_length is zero;
createContentBuffer is defined exactly when content_length + 1 does not wrap around.
Copy construction preserves the invariant: the copy of a message that satisfies it,
with content_length + 1 not wrapping around, is defined, satisfies it, and has the
content length and the first content_length bytes of the source; in general the copy
is defined exactly when the source has no buffer or has one of at least content_length
bytes without wrap-around, and whenever it is defined it satisfies the invariant.
setContentLength and updateContentLengthUsingHeader change the content length and
leave the buffer alone: they keep the invariant of a message without a content buffer,
and setContentLength keeps it when the length set is the length there was; on a message
that satisfies the invariant each of the two keeps it exactly when the message has no
content buffer or the content length does not change. -/
theorem content_buffer_invariant (SIZE_MAX ULONG_MAX : Nat) (fresh : Nat → Int)
    (m : HTTPMessage) (n : Nat) :
    (∀ m2, m.createContentBuffer SIZE_MAX fresh = some m2 → m2.contentBufferInvariant = true)
    ∧ ((m.createContentBuffer SIZE_MAX fresh).isSome = true ↔ m.m_content_length < SIZE_MAX)
    ∧ m.clear.contentBufferInvariant = true
    ∧ (m.copy SIZE_MAX fresh).all contentBufferInvariant = true
    ∧ (m.contentBufferInvariant = true → m.m_content_length < SIZE_MAX →
        (m.copy SIZE_MAX fresh).isSome = true)
    ∧ ((m.copy SIZE_MAX fresh).isSome = true
        ↔ ∀ src, m.m_content_buf = some src →
            m.m_content_length < SIZE_MAX ∧ m.m_content_length ≤ src.length)
    ∧ (∀ m2, m.copy SIZE_MAX fresh = some m2 →
        m2.m_content_length = m.m_content_length
        ∧ m2.m_content_buf
            = m.m_content_buf.map (fun src => src.take m.m_content_length ++ [0]))
    ∧ (m.m_content_buf = none → (m.setContentLength n).contentBufferInvariant = true
        ∧ (m.updateContentLengthUsingHeader ULONG_MAX).contentBufferInvariant = true)
    ∧ (m.contentBufferInvariant = true →
        (m.setContentLength m.m_content_length).contentBufferInvariant = true)
    ∧ (m.setContentLength n).m_content_buf = m.m_content_buf
    ∧ (m.updateContentLengthUsingHeader ULONG_MAX).m_content_buf = m.m_content_buf
    ∧ (m.contentBufferInvariant = true →
        ((m.setContentLength n).contentBufferInvariant = true
          ↔ m.m_content_buf = none ∨ n = m.m_content_length))
    ∧ (m.contentBufferInvariant = true →
        ((m.updateContentLengthUsingHeader ULONG_MAX).contentBufferInvariant = true
          ↔ m.m_content_buf = none
            ∨ (m.updateContentLengthUsingHeader ULONG_MAX).m_content_length
                = m.m_content_length)) := by
  have hupd : (m.updateContentLengthUsingHeader ULONG_MAX).m_content_buf = m.m_content_buf := by
    unfold updateContentLengthUsingHeader
    split <;> rfl
  refine ⟨?_, ?_, rfl, ?_, ?_, copy_isSome_iff SIZE_MAX fresh m,
    fun m2 h => copy_content SIZE_MAX fresh m m2 h, ?_, fun h => h, rfl, hupd,
    fun h => invariant_same_buffer m (m.setContentLength n) rfl h,
    fun h => invariant_same_buffer m _ hupd h⟩
  · intro m2 h
    obtain ⟨hl, buf, hbuf, hlen, hzero⟩ := createContentBuffer_invariant _ _ _ _ h
    exact invariant_of_buffer m2 buf hbuf (by rw [hl]; exact hlen) (by rw [hl]; exact hzero)
  · constructor
    · intro h
      by_contra hlt
      rw [createContentBuffer_eq_none SIZE_MAX fresh m (by omega)] at h
      cases h
    · exact createContentBuffer_isSome SIZE_MAX fresh m
  · cases hc : m.copy SIZE_MAX fresh with
    | none => rfl
    | some m2 => exact copy_invariant SIZE_MAX fresh m m2 hc
  · intro hinv hlt
    rw [copy_isSome_iff]
    intro src hsrc
    refine ⟨hlt, ?_⟩
    simp only [contentBufferInvariant, hsrc, Bool.and_eq_true, decide_eq_true_eq] at hinv
    omega
  · intro h
    constructor
    · exact invariant_of_no_buffer _ h
    · apply invariant_of_no_buffer
      unfold updateContentLengthUsingHeader
      split <;> exact h

/-- Claim C30 refuted as written.  A message with content length 5 gets its buffer of
6 bytes and satisfies the invariant; after setContentLength(7), and likewise after
updateContentLengthUsingHeader with a Content-Length header of 7, the buffer still has
6 bytes while the content length is 7, and copy construction from that message reads
7 bytes from the 6 of the source buffer.  With the content length at the largest size_t
the size of the array wraps around to 0 and the terminating zero falls outside it. -/
theorem content_buffer_counterexample :
    (bufferSampleMessage.createContentBuffer 18446744073709551615 (fun _ => 0)).map
        contentBufferInvariant = some true
    ∧ (bufferSampleMessage.createContentBuffer 18446744073709551615 (fun _ => 0)).map
        (fun m => (m.setContentLength 7).contentBufferInvariant) = some false
    ∧ (bufferSampleMessage.createContentBuffer 18446744073709551615 (fun _ => 0)).map
        (fun m => (m.updateContentLengthUsingHeader 18446744073709551615).contentBufferInvariant)
        = some false
    ∧ (bufferSampleMessage.createContentBuffer 18446744073709551615 (fun _ => 0)).map
        (fun m => (m.updateContentLengthUsingHeader 18446744073709551615).m_content_length)
        = some 7
    ∧ (bufferSampleMessage.createContentBuffer 18446744073709551615 (fun _ => 0)).map
        (fun m => (m.updateContentLengthUsingHeader
          18446744073709551615).m_content_buf.map List.length) = some (some 6)
    ∧ (bufferSampleMessage.createContentBuffer 18446744073709551615 (fun _ => 0)).map
        (fun m => ((m.setContentLength 7).copy 18446744073709551615 (fun _ => 0)).isSome)
        = some false
    ∧ (bufferSampleMessage.setContentLength 18446744073709551615).createContentBuffer
        18446744073709551615 (fun _ => 0) = none := by
  decide

/-- Claim C30, as the code has it, at a message with content length 5 and the content
hello: its copy is defined and satisfies the invariant, and the buffer created for a
message with content length 5 does. -/
theorem content_buffer_invariant_witness :
    (bufferedSampleMessage.copy 18446744073709551615 (fun _ => 0)).isSome = true
    ∧ (bufferedSampleMessage.copy 18446744073709551615 (fun _ => 0)).all
        HTTPMessage.contentBufferInvariant = true
    ∧ (bufferSampleMessage.createContentBuffer 18446744073709551615 (fun _ => 0)).isSome = true
    ∧ bufferSampleMessage.clear.contentBufferInvariant = true :=
  ⟨(content_buffer_invariant 18446744073709551615 18446744073709551615 (fun _ => 0)
      bufferedSampleMessage 0).2.2.2.2.1 (by decide) (by decide),
   (content_buffer_invariant 18446744073709551615 18446744073709551615 (fun _ => 0)
      bufferedSampleMessage 0).2.2.2.1,
   (content_buffer_invariant 18446744073709551615 18446744073709551615 (fun _ => 0)
      bufferSampleMessage 0).2.1.2 (by decide),
   (content_buffer_invariant 18446744073709551615 18446744073709551615 (fun _ => 0)
      bufferSampleMessage 0).2.2.1⟩

end HTTPMessage

namespace HTTPRequestParser

/-! ## The read pipeline -/

theorem parseCookieHeaders_eq (headers : List (Str × Str)) (d : StringDictionary) :
    parseCookieHeaders d headers
      = (headers.map Prod.snd).foldl (fun d v => (parseCookieHeader d v).2) d := by
  induction headers generalizing d with
  | nil => rfl
  | cons h rest ih => simp only [parseCookieHeaders, ih, List.map_cons, List.foldl_cons]

theorem parseURLEncodedStep_dict (s s2 : URLEncodedState) (c : Int)
    (h : parseURLEncodedStep s c = some s2) :
    s2.dict = s.dict ∨ s2.dict = s.dict ++ [(s.query_name, s.query_value)] := by
  unfold parseURLEncodedStep at h
  split at h <;> split_ifs at h <;> simp at h <;> subst h <;>
    simp [StringDictionary.insert]

/-- The URL-encoded sub-parser only adds pairs to the dictionary. -/
theorem parseURLEncodedLoop_appends (buf : Str) (s : URLEncodedState) :
    ∃ added, (parseURLEncodedLoop s buf).2 = s.dict ++ added := by
  induction buf generalizing s with
  | nil =>
    simp only [parseURLEncodedLoop, StringDictionary.insert]
    split_ifs
    · exact ⟨_, rfl⟩
    · exact ⟨[], by simp⟩
  | cons c rest ih =>
    simp only [parseURLEncodedLoop]
    cases hs : parseURLEncodedStep s c with
    | none => exact ⟨[], by simp⟩
    | some s2 =>
      obtain ⟨added, hadd⟩ := ih s2
      rcases parseURLEncodedStep_dict s s2 c hs with hd | hd
      · exact ⟨added, by simp only [hadd, hd]⟩
      · exact ⟨(s.query_name, s.query_value) :: added, by simp [hadd, hd]⟩

/-- What `readContentBytes` hands to the request handler after a read without error. -/
theorem readContentBytes_eq (p : HTTPRequestParser) (bytes_read : Nat) :
    readContentBytes p false bytes_read
      = .request_handler
          { p.m_http_request with
            m_is_valid := true,
            m_query_params :=
              if p.m_http_request.getHeader HEADER_CONTENT_TYPE = CONTENT_TYPE_URLENCODED then
                (parseURLEncoded (uriQueryParams p.m_http_request) (postBody p.m_http_request)).2
              else uriQueryParams p.m_http_request,
            m_cookie_params := cookieParamsOf p.m_http_request } := by
  simp only [readContentBytes, HTTPRequest.setIsValid, HTTPRequest.getQueryString,
    HTTPRequest.getQueryParams, HTTPRequest.getCookieParams, HTTPRequest.getPostContent,
    HTTPMessage.getContentLength, HTTPMessage.getHeader, HTTPMessage.getHeaders,
    parseCookieHeaders_eq, uriQueryParams, postBody, cookieParamsOf, cookieHeaderValues,
    StringDictionary.equal_range, Bool.false_eq_true, if_false, ne_eq, ite_not]
  by_cases hq : p.m_http_request.m_query_string = [] <;>
    by_cases hc : getValue p.m_http_request.m_headers HEADER_CONTENT_TYPE
      = CONTENT_TYPE_URLENCODED <;>
    simp [hq, hc]

end HTTPRequestParser

namespace HTTPRequestParser

theorem readHeaderBytes_complete (ULONG_MAX : Nat) (ssl_flag have_ssl : Bool)
    (fresh : Nat → Int) (p : HTTPRequestParser) (data : Str)
    (h : (parseRequestHeaders p data).1 = .true_value) :
    readHeaderBytes ULONG_MAX ssl_flag have_ssl fresh p false data
      = if contentLengthOf ULONG_MAX (parseRequestHeaders p data).2.2.m_http_request = 0 then
          readContentBytes (parseRequestHeaders p data).2.2 false 0
        else
          readPostContent ssl_flag have_ssl fresh (parseRequestHeaders p data).2.2
            (contentLengthOf ULONG_MAX (parseRequestHeaders p data).2.2.m_http_request)
            (data.drop (parseRequestHeaders p data).2.1) := by
  simp only [readHeaderBytes, Bool.false_eq_true, if_false, h]

/-- Claim C23.  After a read without error readContentBytes hands to the request handler
the request marked valid, with the query parameters that parseURLEncoded produces from
the query string when it is not empty (followed, for a form content type, by those of
the post body), with the cookie parameters that parseCookieHeader produces from the
value of every Cookie header in turn, and with nothing else changed; readHeaderBytes
goes there at once when the headers are complete and the content length is zero.  For
the request S2 the headers are complete, the handler receives the query parameters
x = 1 and y = two and the cookie parameters a = 1 and b = two, and checkKeepAlive is
true. -/
theorem finalization_fills_dictionaries (ULONG_MAX : Nat) (ssl_flag have_ssl : Bool)
    (fresh : Nat → Int) (p : HTTPRequestParser) (data : Str) (bytes_read : Nat) :
    readContentBytes p false bytes_read
      = .request_handler
          { p.m_http_request with
            m_is_valid := true,
            m_query_params :=
              if p.m_http_request.getHeader HEADER_CONTENT_TYPE = CONTENT_TYPE_URLENCODED then
                (parseURLEncoded (uriQueryParams p.m_http_request) (postBody p.m_http_request)).2
              else uriQueryParams p.m_http_request,
            m_cookie_params := cookieParamsOf p.m_http_request }
    ∧ ((parseRequestHeaders p data).1 = .true_value →
        contentLengthOf ULONG_MAX (parseRequestHeaders p data).2.2.m_http_request = 0 →
        readHeaderBytes ULONG_MAX ssl_flag have_ssl fresh p false data
          = readContentBytes (parseRequestHeaders p data).2.2 false 0)
    ∧ (parseRequestHeaders HTTPRequestParser.new sampleGetRequest).1 = .true_value
    ∧ readHeaderBytes ULONG_MAX ssl_flag have_ssl fresh HTTPRequestParser.new false
        sampleGetRequest = .request_handler sampleGetResult
    ∧ sampleGetResult.m_is_valid = true
    ∧ sampleGetResult.m_query_params = [(str "x", str "1"), (str "y", str "two")]
    ∧ sampleGetResult.m_cookie_params = [(str "a", str "1"), (str "b", str "two")]
    ∧ sampleGetResult.checkKeepAlive = true := by
  refine ⟨readContentBytes_eq p bytes_read, ?_, by decide, ?_, rfl, rfl, rfl, by decide⟩
  · intro h h0
    rw [readHeaderBytes_complete _ _ _ _ _ _ h, if_pos h0]
  · have hp : (parseRequestHeaders HTTPRequestParser.new sampleGetRequest).1 = .true_value := by
      decide
    have h0 : contentLengthOf ULONG_MAX
        (parseRequestHeaders HTTPRequestParser.new sampleGetRequest).2.2.m_http_request = 0 := by
      unfold contentLengthOf
      rw [if_neg (by decide)]
    rw [readHeaderBytes_complete _ _ _ _ _ _ hp, if_pos h0]
    decide

/-- Claim C24.  When the Content-Type header of the request equals
application/x-www-form-urlencoded, readContentBytes runs parseURLEncoded over the
first content_length bytes of the content buffer into the dictionary that already
holds the pairs of the URI query string: those pairs stay, in front, and the pairs of
the body are added.  For the request S3 the headers are complete, the handler receives
a valid request whose query parameters hold q = hello, and the content length is 7. -/
theorem post_form_into_query_params (p : HTTPRequestParser) (bytes_read : Nat)
    (h : p.m_http_request.getHeader HEADER_CONTENT_TYPE = CONTENT_TYPE_URLENCODED) :
    readContentBytes p false bytes_read
      = .request_handler
          { p.m_http_request with
            m_is_valid := true,
            m_query_params :=
              (parseURLEncoded (uriQueryParams p.m_http_request) (postBody p.m_http_request)).2,
            m_cookie_params := cookieParamsOf p.m_http_request }
    ∧ (∃ added, (parseURLEncoded (uriQueryParams p.m_http_request)
          (postBody p.m_http_request)).2 = uriQueryParams p.m_http_request ++ added)
    ∧ (parseRequestHeaders HTTPRequestParser.new samplePostRequest).1 = .true_value
    ∧ readHeaderBytes 18446744073709551615 false false (fun _ => 0) HTTPRequestParser.new
        false samplePostRequest = .request_handler samplePostResult
    ∧ samplePostResult.m_is_valid = true
    ∧ samplePostResult.m_query_params = [(str "q", str "hello")]
    ∧ samplePostResult.m_content_length = 7 := by
  refine ⟨?_, parseURLEncodedLoop_appends _ _, by decide, by decide, rfl, rfl, rfl⟩
  rw [readContentBytes_eq, if_pos h]

/-- Claim C24 at a request with the query string a=1 and the form body b=2: the pair of
the URI is kept and the pair of the body is added after it. -/
theorem post_form_into_query_params_witness :
    readContentBytes sampleFormParser false 0
      = .request_handler
          { sampleFormParser.m_http_request with
            m_is_valid := true,
            m_query_params := [(str "a", str "1"), (str "b", str "2")] } :=
  (post_form_into_query_params sampleFormParser 0 (by decide)).1.trans (by decide)

end HTTPRequestParser

namespace HTTPRequestParser

/-! ## Body bytes that arrive with the headers -/

theorem drop_fresh_zero (fresh : Nat → Int) (n k : Nat) (hk : k ≤ n) :
    ((List.range n).map fresh ++ [0]).drop k = ((List.range n).map fresh).drop k ++ [0] := by
  rw [List.drop_append_of_le_length (by simpa using hk)]

theorem spilledBuffer_length (fresh : Nat → Int) (n : Nat) (L : Str) :
    (spilledBuffer fresh n L).length = n + 1 := by
  simp only [spilledBuffer, List.length_append, List.length_take, List.length_drop,
    List.length_map, List.length_range, List.length_singleton]
  omega

theorem spilledBuffer_take (fresh : Nat → Int) (n : Nat) (L : Str) :
    (spilledBuffer fresh n L).take (min L.length n) = L.take (min L.length n) := by
  simp only [spilledBuffer, List.append_assoc]
  rw [List.take_left' (by simp)]

/-- The bytes that the later read stores after the copied ones complete the content. -/
theorem spilledBuffer_store (fresh : Nat → Int) (n : Nat) (L more : Str)
    (hmore : more.length = n - min L.length n) :
    storeBytes (spilledBuffer fresh n L) (min L.length n) more = (L ++ more).take n ++ [0] := by
  have hk : min L.length n ≤ n := Nat.min_le_right _ _
  have hlen := spilledBuffer_length fresh n L
  have h1 : (spilledBuffer fresh n L).drop (min L.length n + more.length) = [0] := by
    have hsum : min L.length n + more.length = n := by omega
    rw [hsum]
    simp only [spilledBuffer, List.append_assoc]
    rw [← List.append_assoc, List.drop_left' (by
      simp only [List.length_append, List.length_take, List.length_drop, List.length_map,
        List.length_range]
      omega)]
  have h2 : (L ++ more).take n = L.take (min L.length n) ++ more := by
    by_cases hLn : L.length ≤ n
    · have hm : min L.length n = L.length := Nat.min_eq_left hLn
      rw [hm, List.take_length, List.take_of_length_le (by simp; omega)]
    · have hm : min L.length n = n := Nat.min_eq_right (by omega)
      have hnil : more = [] := List.eq_nil_of_length_eq_zero (by omega)
      rw [hm, hnil, List.append_nil, List.append_nil]
  rw [storeBytes, spilledBuffer_take, h1, h2]

/-- What `readPostContent` does with the leftover of the header read. -/
theorem readPostContent_eq (ssl_flag have_ssl : Bool) (fresh : Nat → Int)
    (p : HTTPRequestParser) (n : Nat) (L : Str) (hn : 0 < n) (hL : L.length < 4294967296) :
    readPostContent ssl_flag have_ssl fresh p n L
      = if n ≤ L.length then readContentBytes (withPostContent p n (spilledBuffer fresh n L)) false 0
        else if ssl_flag = true ∧ have_ssl = false then .finish
        else .async_read (withPostContent p n (spilledBuffer fresh n L)) L.length (n - L.length) := by
  have hmod : L.length % 4294967296 = L.length := Nat.mod_eq_of_lt hL
  simp only [readPostContent, HTTPRequest.createPostContentBuffer, HTTPRequest.setContentLength,
    HTTPRequest.getPostContent, Option.getD_some, hmod, storeBytes, List.take_zero,
    List.nil_append, Nat.zero_add, ge_iff_le]
  by_cases hnil : L = []
  · subst hnil
    have hn0 : ¬ n ≤ 0 := by omega
    have hn1 : ¬ n = 0 := by omega
    simp only [ne_eq, not_true_eq_false, if_false, List.length_nil, hn0, hn1, Nat.sub_zero]
    have hb : spilledBuffer fresh n [] = (List.range n).map fresh ++ [0] := by
      simp [spilledBuffer]
    rw [hb]
    cases ssl_flag <;> cases have_ssl <;> simp [withPostContent]
  · by_cases hle : n ≤ L.length
    · have hb : spilledBuffer fresh n L
          = L.take n ++ ((List.range n).map fresh ++ [0]).drop (L.take n).length := by
        have hm : min L.length n = n := Nat.min_eq_right hle
        have hm2 : min n L.length = n := Nat.min_eq_left hle
        rw [spilledBuffer, hm, List.length_take, hm2, drop_fresh_zero fresh n n (le_refl _),
          List.append_assoc]
      simp only [ne_eq, hnil, not_false_eq_true, if_true, hle, hb]
      rfl
    · have hlt : L.length < n := by omega
      have hb : spilledBuffer fresh n L
          = L.take L.length ++ ((List.range n).map fresh ++ [0]).drop (L.take L.length).length := by
        have hm : min L.length n = L.length := Nat.min_eq_left (by omega)
        rw [spilledBuffer, hm, List.length_take, Nat.min_self,
          drop_fresh_zero fresh n L.length (by omega), List.append_assoc]
      have hne : ¬ n - L.length = 0 := by omega
      simp only [ne_eq, hnil, not_false_eq_true, if_true, hle, if_false, hne, hb]
      cases ssl_flag <;> cases have_ssl <;> simp [withPostContent]

end HTTPRequestParser

namespace HTTPRequestParser

theorem postBody_withPostContent (p : HTTPRequestParser) (n : Nat) (body : Str)
    (h : body.length = n) :
    postBody (withPostContent p n (body ++ [0])).m_http_request = body := by
  simp only [postBody, withPostContent, Option.getD_some]
  rw [List.take_left' h]

/-- Claim C25.  For every content length n above zero and every leftover L of the header
read (at most the 8,192 bytes of the read buffer), on a connection that can be read:
readHeaderBytes, once the headers are complete, sets the content length to n and
fills the new buffer of n + 1 bytes with the first min(|L|, n) bytes of L at its
start; when L holds n bytes or more it goes on to readContentBytes at once, otherwise
it asks for exactly n - min(|L|, n) more bytes to be stored from index min(|L|, n) on.
When those bytes have been stored the buffer holds the first n bytes of L followed by
them, in order, and the terminating zero. -/
theorem spill_over_copy (ssl_flag have_ssl : Bool) (fresh : Nat → Int) (p : HTTPRequestParser)
    (n : Nat) (L more : Str) (hn : 0 < n) (hL : L.length ≤ READ_BUFFER_SIZE)
    (hssl : ssl_flag = true → have_ssl = true) (hmore : more.length = n - min L.length n) :
    readPostContent ssl_flag have_ssl fresh p n L
        = (if n ≤ L.length then
            readContentBytes (withPostContent p n (spilledBuffer fresh n L)) false 0
          else
            .async_read (withPostContent p n (spilledBuffer fresh n L))
              (min L.length n) (n - min L.length n))
    ∧ (spilledBuffer fresh n L).take (min L.length n) = L.take (min L.length n)
    ∧ (spilledBuffer fresh n L).length = n + 1
    ∧ (contentRead (withPostContent p n (spilledBuffer fresh n L)) (min L.length n)
          more).m_http_request.m_content_buf = some ((L ++ more).take n ++ [0])
    ∧ postBody (contentRead (withPostContent p n (spilledBuffer fresh n L)) (min L.length n)
          more).m_http_request = (L ++ more).take n
    ∧ (n ≤ L.length →
        postBody (withPostContent p n (spilledBuffer fresh n L)).m_http_request = L.take n)
    ∧ (∀ (ULONG_MAX : Nat) (p0 : HTTPRequestParser) (data : Str),
        (parseRequestHeaders p0 data).1 = .true_value →
        (parseRequestHeaders p0 data).2.2 = p →
        contentLengthOf ULONG_MAX p.m_http_request = n →
        data.drop (parseRequestHeaders p0 data).2.1 = L →
        readHeaderBytes ULONG_MAX ssl_flag have_ssl fresh p0 false data
          = readPostContent ssl_flag have_ssl fresh p n L) := by
  have hL2 : L.length < 4294967296 := by
    have : READ_BUFFER_SIZE = 8192 := rfl
    omega
  have hstore := spilledBuffer_store fresh n L more hmore
  have htake : ((L ++ more).take n).length = n := by
    simp only [List.length_take, List.length_append]
    omega
  have hbuf : (contentRead (withPostContent p n (spilledBuffer fresh n L)) (min L.length n)
      more).m_http_request.m_content_buf = some ((L ++ more).take n ++ [0]) := by
    simp only [contentRead, withPostContent, HTTPRequest.getPostContent, Option.getD_some,
      hstore]
  refine ⟨?_, spilledBuffer_take fresh n L, spilledBuffer_length fresh n L, hbuf, ?_, ?_, ?_⟩
  · rw [readPostContent_eq ssl_flag have_ssl fresh p n L hn hL2]
    by_cases hle : n ≤ L.length
    · simp only [hle, if_true]
    · have hm : min L.length n = L.length := Nat.min_eq_left (by omega)
      have hs : ¬ (ssl_flag = true ∧ have_ssl = false) := by
        rintro ⟨h1, h2⟩
        rw [hssl h1] at h2
        cases h2
      simp only [hle, if_false, hs, hm]
  · have := postBody_withPostContent p n ((L ++ more).take n) htake
    simp only [postBody, withPostContent, contentRead, HTTPRequest.getPostContent,
      Option.getD_some, hstore] at this ⊢
    exact this
  · intro hle
    have hm : min L.length n = n := Nat.min_eq_right hle
    have hb : spilledBuffer fresh n L = L.take n ++ [0] := by
      simp only [spilledBuffer, hm]
      rw [List.drop_of_length_le (by simp), List.append_nil]
    rw [hb]
    exact postBody_withPostContent p n (L.take n) (by simp; omega)
  · intro ULONG_MAX p0 data hp hq hc hd
    have hc2 : contentLengthOf ULONG_MAX (parseRequestHeaders p0 data).2.2.m_http_request = n := by
      rw [hq]; exact hc
    rw [readHeaderBytes_complete _ _ _ _ _ _ hp, hc2, if_neg (by omega), hq, hd]

/-- Claim C25 at the content length 7 with the leftover q=he and the later bytes llo. -/
theorem spill_over_copy_witness :
    postBody (contentRead
        (withPostContent HTTPRequestParser.new 7 (spilledBuffer (fun _ => 0) 7 (str "q=he")))
        (min (str "q=he").length 7) (str "llo")).m_http_request
      = (str "q=he" ++ str "llo").take 7 :=
  (spill_over_copy false false (fun _ => 0) HTTPRequestParser.new 7 (str "q=he") (str "llo")
    (by decide) (by decide) (by decide) (by decide)).2.2.2.2.1

/-- Claim C26 against the code.  Complete headers with Content-Length 1,048,577, one
more than POST_CONTENT_MAX, are not failed: readHeaderBytes sets the content length,
creates a content buffer of 1,048,578 bytes and asks for the 1,048,577 bytes of
content, and no test against POST_CONTENT_MAX is made on the way. -/
theorem post_content_limit_not_enforced (fresh : Nat → Int) :
    (parseRequestHeaders HTTPRequestParser.new overLimitRequest).1 = .true_value
    ∧ contentLengthOf 18446744073709551615
        (parseRequestHeaders HTTPRequestParser.new overLimitRequest).2.2.m_http_request
        = POST_CONTENT_MAX + 1
    ∧ readHeaderBytes 18446744073709551615 false false fresh HTTPRequestParser.new false
        overLimitRequest
        = .async_read
            (withPostContent (parseRequestHeaders HTTPRequestParser.new overLimitRequest).2.2
              1048577 (spilledBuffer fresh 1048577 []))
            0 1048577
    ∧ (spilledBuffer fresh 1048577 []).length = 1048578 := by
  have hp : (parseRequestHeaders HTTPRequestParser.new overLimitRequest).1 = .true_value := by
    decide
  have hc : contentLengthOf 18446744073709551615
      (parseRequestHeaders HTTPRequestParser.new overLimitRequest).2.2.m_http_request
      = 1048577 := by decide
  have hd : overLimitRequest.drop
      (parseRequestHeaders HTTPRequestParser.new overLimitRequest).2.1 = [] := by decide
  refine ⟨hp, hc, ?_, spilledBuffer_length fresh 1048577 []⟩
  rw [readHeaderBytes_complete _ _ _ _ _ _ hp, hc, if_neg (by omega), hd,
    readPostContent_eq false false fresh _ 1048577 [] (by omega) (by simp)]
  simp

end HTTPRequestParser

/-! ## The character classes -/

theorem mem_specialCharacters (c : Int) :
    c ∈ specialCharacters ↔
      c = 40 ∨ c = 41 ∨ c = 60 ∨ c = 62 ∨ c = 64 ∨ c = 44 ∨ c = 59 ∨ c = 58 ∨ c = 92 ∨ c = 34
        ∨ c = 47 ∨ c = 91 ∨ c = 93 ∨ c = 63 ∨ c = 61 ∨ c = 123 ∨ c = 125 ∨ c = 32 ∨ c = 9 := by
  unfold specialCharacters
  repeat rw [List.mem_cons]
  rw [List.mem_nil_iff, or_false]

theorem isSpecial_iff (c : Int) : isSpecial c = true ↔ c ∈ specialCharacters := by
  rw [mem_specialCharacters]
  constructor
  · intro h
    by_contra hn
    simp only [not_or] at hn
    obtain ⟨h1, h2, h3, h4, h5, h6, h7, h8, h9, h10, h11, h12, h13, h14, h15, h16, h17, h18,
      h19⟩ := hn
    unfold isSpecial at h
    rw [if_neg h1, if_neg h2, if_neg h3, if_neg h4, if_neg h5, if_neg h6, if_neg h7, if_neg h8,
      if_neg h9, if_neg h10, if_neg h11, if_neg h12, if_neg h13, if_neg h14, if_neg h15,
      if_neg h16, if_neg h17, if_neg h18, if_neg h19] at h
    cases h
  · intro h
    rcases h with h | h | h | h | h | h | h | h | h | h | h | h | h | h | h | h | h | h | h <;>
      subst h <;> rfl

/-- Claim C32.  For every integer c: isChar(c) holds exactly when 0 <= c <= 127;
isControl(c) exactly when 0 <= c <= 31 or c = 127; isDigit(c) exactly when c lies
between the digits 0 (48) and 9 (57); isSpecial(c) exactly when c is one of the nineteen
characters ( ) < > @ , ; : \ " / [ ] ? = { } SP TAB, which are nineteen different
values. -/
theorem classifiers_spec (c : Int) :
    (isChar c = true ↔ 0 ≤ c ∧ c ≤ 127)
    ∧ (isControl c = true ↔ (0 ≤ c ∧ c ≤ 31) ∨ c = 127)
    ∧ (isDigit c = true ↔ 48 ≤ c ∧ c ≤ 57)
    ∧ (isSpecial c = true ↔ c ∈ specialCharacters)
    ∧ (isSpecial c = false ↔ c ∉ specialCharacters)
    ∧ specialCharacters.length = 19
    ∧ specialCharacters.Nodup
    ∧ specialCharacters
        = str "()<>@,;:" ++ [92, 34] ++ str "/[]?=" ++ [123, 125] ++ str " " ++ [9] := by
  refine ⟨?_, ?_, ?_, isSpecial_iff c, ?_, by decide, by decide, by decide⟩
  · simp [isChar]
  · simp [isControl]
  · simp [isDigit]
  · rw [← isSpecial_iff, Bool.not_eq_true]

namespace HTTPRequestParser

/-! ## Leading whitespace -/

/-- Claim C35.  For every byte sequence S and every W made of SP, CR and LF only,
parsing W followed by S from the initial state gives the same result and the same
parser, hence the same request fields, as parsing S alone, with exactly |W| more bytes
consumed.  The first byte c that is none of SP, CR, LF makes the result Invalid unless
it is an ASCII byte that is neither a control nor a special character, in which case
it becomes the first byte of the method. -/
theorem leading_whitespace_skipped (W S : Str) (hW : ∀ c ∈ W, c = 32 ∨ c = 13 ∨ c = 10) :
    (parseRequestHeaders HTTPRequestParser.new (W ++ S)).1
        = (parseRequestHeaders HTTPRequestParser.new S).1
    ∧ (parseRequestHeaders HTTPRequestParser.new (W ++ S)).2.1
        = W.length + (parseRequestHeaders HTTPRequestParser.new S).2.1
    ∧ (parseRequestHeaders HTTPRequestParser.new (W ++ S)).2.2
        = (parseRequestHeaders HTTPRequestParser.new S).2.2
    ∧ (∀ (c : Int) (rest : Str), c ≠ 32 → c ≠ 13 → c ≠ 10 →
        (isChar c = false ∨ isControl c = true ∨ isSpecial c = true) →
        (parseRequestHeaders HTTPRequestParser.new (W ++ c :: rest)).1 = .false_value)
    ∧ (∀ (c : Int) (rest : Str), c ≠ 32 → c ≠ 13 → c ≠ 10 →
        isChar c = true → isControl c = false → isSpecial c = false →
        parseRequestHeaders HTTPRequestParser.new (W ++ c :: rest)
          = advance (W.length + 1)
              (parseRequestHeaders
                { HTTPRequestParser.new with m_parse_state := .PARSE_METHOD, m_method := [c] }
                rest)) := by
  have hrun := run_leading_whitespace HTTPRequestParser.new W rfl hW
  refine ⟨?_, ?_, ?_, ?_, ?_⟩
  · rw [hrun S]; rfl
  · rw [hrun S]; rfl
  · rw [hrun S]; rfl
  · intro c rest h1 h2 h3 hbad
    have ht : isToken c = false := by
      rcases hbad with h | h | h <;> simp [isToken, h]
    rw [hrun (c :: rest), advance_fst,
      parseRequestHeaders_cons_ret _ HTTPRequestParser.new c rest .false_value 0
        (by rw [parseStep_method_start _ c rfl]; simp [h1, h2, h3, ht])]
  · intro c rest h1 h2 h3 hc1 hc2 hc3
    have ht : ¬ isToken c = false := by simp [isToken, hc1, hc2, hc3]
    rw [hrun (c :: rest),
      parse_cons_next _
        { HTTPRequestParser.new with m_parse_state := .PARSE_METHOD, m_method := [c] } c rest
        (by rw [parseStep_method_start _ c rfl]; simp [h1, h2, h3, ht]),
      advance_advance]

/-- Claim C35 at a request preceded by CR, LF and SP. -/
theorem leading_whitespace_skipped_witness :
    (parseRequestHeaders HTTPRequestParser.new
        (str "\r\n " ++ str "GET / HTTP/1.0\r\n\r\n")).2.1
      = (str "\r\n ").length
        + (parseRequestHeaders HTTPRequestParser.new (str "GET / HTTP/1.0\r\n\r\n")).2.1 :=
  (leading_whitespace_skipped (str "\r\n ") (str "GET / HTTP/1.0\r\n\r\n") (by decide)).2.1

/-! ## The first byte of a header value -/

/-- Claim C36 refuted as written.  The header line A:/x, without a space after the
colon, makes the request Invalid, and so do a double quote, an opening parenthesis
and a colon in the place of the slash; with a space after the colon the same value is
accepted. -/
theorem header_value_first_byte_counterexample :
    (parseRequestHeaders HTTPRequestParser.new (str "GET / HTTP/1.1\r\nA:/x\r\n\r\n")).1
        = .false_value
    ∧ (parseRequestHeaders HTTPRequestParser.new
        (str "GET / HTTP/1.1\r\nA:" ++ [34] ++ str "x\r\n\r\n")).1 = .false_value
    ∧ (parseRequestHeaders HTTPRequestParser.new (str "GET / HTTP/1.1\r\nA:(x\r\n\r\n")).1
        = .false_value
    ∧ (parseRequestHeaders HTTPRequestParser.new (str "GET / HTTP/1.1\r\nA::x\r\n\r\n")).1
        = .false_value
    ∧ (parseRequestHeaders HTTPRequestParser.new (str "GET / HTTP/1.1\r\nA: /x\r\n\r\n")).1
        = .true_value := by
  decide

/-- Claim C36, as the code has it.  In the state PARSE_SPACE_BEFORE_HEADER_VALUE a space
moves to PARSE_HEADER_VALUE; CR and LF add the header (name, value) and move to the
state that expects the rest of the line end; any other byte that is an ASCII byte,
not a control and not a special character, is pushed onto the header value and moves
to PARSE_HEADER_VALUE; every remaining byte makes the call return false at that
byte. -/
theorem space_before_header_value_step (p : HTTPRequestParser) (c : Int) (rest : Str)
    (hst : p.m_parse_state = .PARSE_SPACE_BEFORE_HEADER_VALUE) :
    parseRequestHeaders p (c :: rest)
      = if c = 32 then
          advance 1 (parseRequestHeaders { p with m_parse_state := .PARSE_HEADER_VALUE } rest)
        else if c = 13 then
          advance 1 (parseRequestHeaders
            { p with m_http_request := p.m_http_request.addHeader p.m_header_name p.m_header_value,
                     m_parse_state := .PARSE_EXPECTING_NEWLINE } rest)
        else if c = 10 then
          advance 1 (parseRequestHeaders
            { p with m_http_request := p.m_http_request.addHeader p.m_header_name p.m_header_value,
                     m_parse_state := .PARSE_EXPECTING_CR } rest)
        else if isChar c = true ∧ isControl c = false ∧ isSpecial c = false then
          advance 1 (parseRequestHeaders
            { p with m_header_value := p.m_header_value ++ [c],
                     m_parse_state := .PARSE_HEADER_VALUE } rest)
        else (.false_value, 0, p) := by
  have hstep := parseStep_space_before_header_value p c hst
  by_cases h32 : c = 32
  · rw [if_pos h32] at hstep ⊢
    exact parse_cons_next _ _ c rest hstep
  · rw [if_neg h32] at hstep ⊢
    by_cases h13 : c = 13
    · rw [if_pos h13] at hstep ⊢
      exact parse_cons_next _ _ c rest hstep
    · rw [if_neg h13] at hstep ⊢
      by_cases h10 : c = 10
      · rw [if_pos h10] at hstep ⊢
        exact parse_cons_next _ _ c rest hstep
      · rw [if_neg h10] at hstep ⊢
        by_cases ht : isChar c = true ∧ isControl c = false ∧ isSpecial c = false
        · have ht2 : ¬ isToken c = false := by simp [isToken, ht.1, ht.2.1, ht.2.2]
          rw [if_neg ht2] at hstep
          rw [if_pos ht]
          exact parse_cons_next _ _ c rest hstep
        · have ht2 : isToken c = false := by
            cases h1 : isChar c <;> cases h2 : isControl c <;> cases h3 : isSpecial c <;>
              simp_all [isToken]
          rw [if_pos ht2] at hstep
          rw [if_neg ht]
          exact parseRequestHeaders_cons_ret _ _ c rest _ _ hstep

/-- Claim C36, as the code has it, at a slash met right after the colon of the header
name A. -/
theorem space_before_header_value_step_witness :
    parseRequestHeaders
        { HTTPRequestParser.new with
          m_parse_state := .PARSE_SPACE_BEFORE_HEADER_VALUE, m_header_name := str "A" }
        (47 :: str "x")
      = (.false_value, 0,
          { HTTPRequestParser.new with
            m_parse_state := .PARSE_SPACE_BEFORE_HEADER_VALUE, m_header_name := str "A" }) :=
  (space_before_header_value_step _ 47 (str "x") rfl).trans (by decide)

end HTTPRequestParser

namespace HTTPRequestParser

/-! ## Invalid requests and malformed parameters -/

/-- The loop body leaves alone what only the read pipeline sets: the validity flag, the
content length and buffer, and the two parameter dictionaries. -/
theorem parseStep_next_untouched (p q : HTTPRequestParser) (c : Int)
    (h : parseStep p c = .next q) :
    q.m_http_request.m_is_valid = p.m_http_request.m_is_valid
    ∧ q.m_http_request.m_content_length = p.m_http_request.m_content_length
    ∧ q.m_http_request.m_content_buf = p.m_http_request.m_content_buf
    ∧ q.m_http_request.m_query_params = p.m_http_request.m_query_params
    ∧ q.m_http_request.m_cookie_params = p.m_http_request.m_cookie_params := by
  unfold parseStep at h
  split at h <;> split_ifs at h <;> simp at h <;> subst h <;>
    simp [HTTPRequest.setMethod, HTTPRequest.setResource, HTTPRequest.setQueryString,
      HTTPRequest.setVersionMajor, HTTPRequest.setVersionMinor, HTTPRequest.addHeader]

theorem parse_untouched (buf : Str) (p : HTTPRequestParser) :
    (parseRequestHeaders p buf).2.2.m_http_request.m_is_valid = p.m_http_request.m_is_valid
    ∧ (parseRequestHeaders p buf).2.2.m_http_request.m_content_length
        = p.m_http_request.m_content_length
    ∧ (parseRequestHeaders p buf).2.2.m_http_request.m_content_buf
        = p.m_http_request.m_content_buf
    ∧ (parseRequestHeaders p buf).2.2.m_http_request.m_query_params
        = p.m_http_request.m_query_params
    ∧ (parseRequestHeaders p buf).2.2.m_http_request.m_cookie_params
        = p.m_http_request.m_cookie_params := by
  induction buf generalizing p with
  | nil => simp [parseRequestHeaders]
  | cons c rest ih =>
    simp only [parseRequestHeaders]
    cases hs : parseStep p c with
    | next q =>
      obtain ⟨h1, h2, h3, h4, h5⟩ := parseStep_next_untouched p q c hs
      obtain ⟨i1, i2, i3, i4, i5⟩ := ih q
      simp only
      exact ⟨i1.trans h1, i2.trans h2, i3.trans h3, i4.trans h4, i5.trans h5⟩
    | ret result adv q =>
      have := parseStep_ret_unchanged p c result adv q hs
      simp only
      rw [this]
      exact ⟨rfl, rfl, rfl, rfl, rfl⟩

/-- Claim C34.  Whenever parseRequestHeaders returns false for the bytes of a header
read, readHeaderBytes hands the request to the request handler with its validity flag
set to false, and that is all it does: no content length is set, no content buffer is
created, no read of a body is asked for, and the query and cookie parameters are what
they were before the call, empty for a parser started in its initial state. -/
theorem invalid_request_dispatched (ULONG_MAX : Nat) (ssl_flag have_ssl : Bool)
    (fresh : Nat → Int) (p : HTTPRequestParser) (data : Str)
    (h : (parseRequestHeaders p data).1 = .false_value) :
    readHeaderBytes ULONG_MAX ssl_flag have_ssl fresh p false data
        = .request_handler ((parseRequestHeaders p data).2.2.m_http_request.setIsValid false)
    ∧ ((parseRequestHeaders p data).2.2.m_http_request.setIsValid false).m_is_valid = false
    ∧ ((parseRequestHeaders p data).2.2.m_http_request.setIsValid false).m_query_params
        = p.m_http_request.m_query_params
    ∧ ((parseRequestHeaders p data).2.2.m_http_request.setIsValid false).m_cookie_params
        = p.m_http_request.m_cookie_params
    ∧ ((parseRequestHeaders p data).2.2.m_http_request.setIsValid false).m_content_buf
        = p.m_http_request.m_content_buf
    ∧ ((parseRequestHeaders p data).2.2.m_http_request.setIsValid false).m_content_length
        = p.m_http_request.m_content_length
    ∧ HTTPRequestParser.new.m_http_request.m_query_params = []
    ∧ HTTPRequestParser.new.m_http_request.m_cookie_params = []
    ∧ HTTPRequestParser.new.m_http_request.m_content_buf = none := by
  obtain ⟨_, h2, h3, h4, h5⟩ := parse_untouched data p
  refine ⟨?_, rfl, h4, h5, h3, h2, rfl, rfl, rfl⟩
  simp only [readHeaderBytes, Bool.false_eq_true, if_false, h]

/-- Claim C34 at a request line with a bad version and a query string: the handler
receives the invalid request, whose parameters are empty. -/
theorem invalid_request_dispatched_witness :
    readHeaderBytes 18446744073709551615 false false (fun _ => 0) HTTPRequestParser.new false
        (str "GET /a?x=1 HTTQ/1.1\r\nCookie: A=1\r\n\r\n")
      = .request_handler
          { HTTPRequest.create with
            m_method := str "GET", m_resource := str "/a", m_query_string := str "x=1" } :=
  (invalid_request_dispatched 18446744073709551615 false false (fun _ => 0)
    HTTPRequestParser.new (str "GET /a?x=1 HTTQ/1.1\r\nCookie: A=1\r\n\r\n") (by decide)).1.trans
    (by decide)

/-- Claim C38.  Whenever the read did not fail, readContentBytes hands the request to
the request handler with its validity flag set to true, whatever parseURLEncoded and
parseCookieHeader return.  For a request whose query string is =x, whose form body is &
and whose Cookie header is =1 the three calls return false, and the request is
dispatched as valid all the same, with empty parameters; the headers of
GET /?=x HTTP/1.1 with the Cookie header =1 go through readHeaderBytes in the same
way. -/
theorem malformed_parameters_still_valid (p : HTTPRequestParser) (bytes_read : Nat) :
    (readContentBytes p false bytes_read
      = .request_handler
          { p.m_http_request with
            m_is_valid := true,
            m_query_params :=
              if p.m_http_request.getHeader HEADER_CONTENT_TYPE = CONTENT_TYPE_URLENCODED then
                (parseURLEncoded (uriQueryParams p.m_http_request) (postBody p.m_http_request)).2
              else uriQueryParams p.m_http_request,
            m_cookie_params := cookieParamsOf p.m_http_request })
    ∧ (parseURLEncoded [] (str "=x")).1 = false
    ∧ (parseURLEncoded [] (str "&")).1 = false
    ∧ (parseCookieHeader [] (str "=1")).1 = false
    ∧ readContentBytes malformedPartsParser false 0
        = .request_handler { malformedPartsParser.m_http_request with m_is_valid := true }
    ∧ readHeaderBytes 18446744073709551615 false false (fun _ => 0) HTTPRequestParser.new false
        (str "GET /?=x HTTP/1.1\r\nCookie: =1\r\n\r\n")
        = .request_handler
            { HTTPRequest.create with
              m_is_valid := true, m_version_major := 1, m_version_minor := 1,
              m_headers := [(str "Cookie", str "=1")],
              m_method := str "GET", m_resource := str "/", m_query_string := str "=x" } := by
  exact ⟨readContentBytes_eq p bytes_read, by decide, by decide, by decide, by decide, by decide⟩

end HTTPRequestParser

namespace HTTPRequestParser

/-! ## Bytes beyond the content length -/

theorem spilledBuffer_of_le (fresh : Nat → Int) (n : Nat) (L : Str) (hle : n ≤ L.length) :
    spilledBuffer fresh n L = L.take n ++ [0] := by
  have hm : min L.length n = n := Nat.min_eq_right hle
  simp only [spilledBuffer, hm]
  rw [List.drop_of_length_le (by simp), List.append_nil]

theorem readContentBytes_dispatchedValid (p : HTTPRequestParser) (bytes_read : Nat) :
    (readContentBytes p false bytes_read).dispatchedValid = true := by
  rw [readContentBytes_eq]
  rfl

/-- Claim C31 refuted as written.  The request S2, whose content length is 0, followed
by the five bytes EXTRA, and the request S3, whose content length is 7, followed by
four more bytes, are handed to the request handler as valid requests, the same
requests as without the excess bytes. -/
theorem excess_bytes_counterexample :
    readHeaderBytes 18446744073709551615 false false (fun _ => 0) HTTPRequestParser.new false
        (sampleGetRequest ++ str "EXTRA") = .request_handler sampleGetResult
    ∧ readHeaderBytes 18446744073709551615 false false (fun _ => 0) HTTPRequestParser.new false
        (samplePostRequest ++ str "&r=1") = .request_handler samplePostResult
    ∧ sampleGetResult.m_is_valid = true
    ∧ samplePostResult.m_is_valid = true := by
  decide

/-- Claim C31, as the code has it.  When the headers are complete and the header read
(at most the 8,192 bytes of the read buffer) holds at least as many bytes after them as
the content length announces, any number when the content length is 0, readHeaderBytes
goes on to readContentBytes at once, with the first content_length bytes of the
leftover as the post content and the bytes beyond them ignored, and the request is
handed to the request handler as valid. -/
theorem excess_bytes_ignored (ULONG_MAX : Nat) (ssl_flag have_ssl : Bool) (fresh : Nat → Int)
    (p : HTTPRequestParser) (data : Str)
    (hp : (parseRequestHeaders p data).1 = .true_value)
    (hdata : data.length ≤ READ_BUFFER_SIZE)
    (hle : contentLengthOf ULONG_MAX (parseRequestHeaders p data).2.2.m_http_request
      ≤ (data.drop (parseRequestHeaders p data).2.1).length) :
    readHeaderBytes ULONG_MAX ssl_flag have_ssl fresh p false data
        = readContentBytes
            (if contentLengthOf ULONG_MAX (parseRequestHeaders p data).2.2.m_http_request = 0 then
              (parseRequestHeaders p data).2.2
            else
              withPostContent (parseRequestHeaders p data).2.2
                (contentLengthOf ULONG_MAX (parseRequestHeaders p data).2.2.m_http_request)
                ((data.drop (parseRequestHeaders p data).2.1).take
                    (contentLengthOf ULONG_MAX (parseRequestHeaders p data).2.2.m_http_request)
                  ++ [0]))
            false 0
    ∧ (readHeaderBytes ULONG_MAX ssl_flag have_ssl fresh p false data).dispatchedValid = true := by
  have hL : (data.drop (parseRequestHeaders p data).2.1).length < 4294967296 := by
    have : READ_BUFFER_SIZE = 8192 := rfl
    simp only [List.length_drop]
    omega
  have key : readHeaderBytes ULONG_MAX ssl_flag have_ssl fresh p false data
      = readContentBytes
          (if contentLengthOf ULONG_MAX (parseRequestHeaders p data).2.2.m_http_request = 0 then
            (parseRequestHeaders p data).2.2
          else
            withPostContent (parseRequestHeaders p data).2.2
              (contentLengthOf ULONG_MAX (parseRequestHeaders p data).2.2.m_http_request)
              ((data.drop (parseRequestHeaders p data).2.1).take
                  (contentLengthOf ULONG_MAX (parseRequestHeaders p data).2.2.m_http_request)
                ++ [0]))
          false 0 := by
    rw [readHeaderBytes_complete _ _ _ _ _ _ hp]
    by_cases h0 : contentLengthOf ULONG_MAX (parseRequestHeaders p data).2.2.m_http_request = 0
    · rw [if_pos h0, if_pos h0]
    · rw [if_neg h0, if_neg h0,
        readPostContent_eq ssl_flag have_ssl fresh _ _ _ (Nat.pos_of_ne_zero h0) hL, if_pos hle,
        spilledBuffer_of_le fresh _ _ hle]
  exact ⟨key, by rw [key]; exact readContentBytes_dispatchedValid _ _⟩

/-- Claim C31, as the code has it, at the request S3 followed by four more bytes. -/
theorem excess_bytes_ignored_witness :
    (readHeaderBytes 18446744073709551615 false false (fun _ => 0) HTTPRequestParser.new false
        (samplePostRequest ++ str "&r=1")).dispatchedValid = true :=
  (excess_bytes_ignored 18446744073709551615 false false (fun _ => 0) HTTPRequestParser.new
    (samplePostRequest ++ str "&r=1") (by decide) (by decide) (by decide)).2

end HTTPRequestParser

namespace HTTPRequestParser

/-! ## What follows the headers -/

/-- A call that returned true or false is not changed by bytes that follow. -/
theorem parse_prefix_stable (p : HTTPRequestParser) (S B : Str)
    (h : (parseRequestHeaders p S).1 ≠ .indeterminate_value) :
    parseRequestHeaders p (S ++ B) = parseRequestHeaders p S := by
  rw [parseRequestHeaders_append]
  cases hr : (parseRequestHeaders p S).1 with
  | indeterminate_value => exact absurd hr h
  | true_value => rfl
  | false_value => rfl

/-- Claim C37 refuted as written.  The block GET / HTTP/1.1 CR LF CR CR ends with CR CR
and parses Complete, but 17 of its 18 bytes are consumed, so that with B = abc the
leftover is CR abc; the block GET / HTTP/1.1 CR CR X: y CR LF CR LF ends with
CRLF CRLF and parses Complete after 16 of its 24 bytes. -/
theorem prefix_stability_counterexample :
    (parseRequestHeaders HTTPRequestParser.new (str "GET / HTTP/1.1\r\n\r\r")).1 = .true_value
    ∧ (parseRequestHeaders HTTPRequestParser.new (str "GET / HTTP/1.1\r\n\r\r")).2.1 = 17
    ∧ (str "GET / HTTP/1.1\r\n\r\r").length = 18
    ∧ (str "GET / HTTP/1.1\r\n\r\r" ++ str "abc").drop
        (parseRequestHeaders HTTPRequestParser.new
          (str "GET / HTTP/1.1\r\n\r\r" ++ str "abc")).2.1 = str "\rabc"
    ∧ (parseRequestHeaders HTTPRequestParser.new
        (str "GET / HTTP/1.1\r\rX: y\r\n\r\n")).1 = .true_value
    ∧ (parseRequestHeaders HTTPRequestParser.new
        (str "GET / HTTP/1.1\r\rX: y\r\n\r\n")).2.1 = 16
    ∧ (str "GET / HTTP/1.1\r\rX: y\r\n\r\n").length = 24 := by
  decide

/-- Claim C37, as the code has it.  When parseRequestHeaders, started in any state,
returns true or false on S, it returns the same result, the same number of bytes
consumed and the same parser, hence the same request fields, on S followed by any B.
For a header block made of a request line L, header lines NAME ":" [SP] VALUE and the
empty line, every line ended by the same terminator (CRLF, LF or CR), that parses
Complete from the initial state, exactly the bytes of the block are consumed, and the
leftover of the block followed by B is exactly B. -/
theorem prefix_stability (p : HTTPRequestParser) (S B : Str) (nl : LineEnd) (L : Str)
    (ls : List HeaderLine)
    (h : (parseRequestHeaders p S).1 ≠ .indeterminate_value)
    (hne : L ≠ [])
    (hhead : ∀ c, L.head? = some c → c ≠ 32)
    (hL : ∀ c ∈ L, c ≠ 13 ∧ c ≠ 10)
    (hwf : ∀ h ∈ ls, h.wellFormed)
    (hok : (parseRequestHeaders HTTPRequestParser.new
              (L ++ nl.bytes ++ renderLines nl ls ++ nl.bytes)).1 = .true_value) :
    parseRequestHeaders p (S ++ B) = parseRequestHeaders p S
    ∧ (S ++ B).drop (parseRequestHeaders p (S ++ B)).2.1
        = S.drop (parseRequestHeaders p S).2.1 ++ B
    ∧ (parseRequestHeaders HTTPRequestParser.new
          (L ++ nl.bytes ++ renderLines nl ls ++ nl.bytes ++ B)).1 = .true_value
    ∧ (parseRequestHeaders HTTPRequestParser.new
          (L ++ nl.bytes ++ renderLines nl ls ++ nl.bytes ++ B)).2.1
        = (L ++ nl.bytes ++ renderLines nl ls ++ nl.bytes).length
    ∧ (L ++ nl.bytes ++ renderLines nl ls ++ nl.bytes ++ B).drop
          (parseRequestHeaders HTTPRequestParser.new
            (L ++ nl.bytes ++ renderLines nl ls ++ nl.bytes ++ B)).2.1 = B := by
  have h1 := parse_prefix_stable p S B h
  have hk : (parseRequestHeaders p S).2.1 ≤ S.length := parseRequestHeaders_consumed_le p S
  have hstable := parse_prefix_stable HTTPRequestParser.new
    (L ++ nl.bytes ++ renderLines nl ls ++ nl.bytes) B (by rw [hok]; decide)
  have hcons : (parseRequestHeaders HTTPRequestParser.new
      (L ++ nl.bytes ++ renderLines nl ls ++ nl.bytes)).2.1
      = (L ++ nl.bytes ++ renderLines nl ls ++ nl.bytes).length := by
    have e : L ++ nl.bytes ++ renderLines nl ls ++ nl.bytes
        = (L ++ nl.bytes) ++ (renderLines nl ls ++ (nl.bytes ++ [])) := by simp
    rw [e] at hok ⊢
    rcases request_line_and_end_scan nl L hne hhead hL with hf | ⟨q, r1, hq1, _⟩
    · rw [hf] at hok
      cases hok
    · rw [r1, advance_fst] at hok
      rw [r1]
      rcases header_lines_scan nl q ls hq1 hwf with hf | ⟨r, r2, hr1, _⟩
      · rw [hf] at hok
        cases hok
      · rw [r2]
        have hfin := (parse_final_line_end nl r [] hr1).2.1
        simp only [List.append_nil] at hfin
        simp only [advance, List.length_append, List.append_nil, hfin]
  refine ⟨h1, ?_, ?_, ?_, ?_⟩
  · rw [h1, List.drop_append_of_le_length hk]
  · rw [hstable, hok]
  · rw [hstable, hcons]
  · rw [hstable, hcons, List.drop_left']
    rfl

/-- Claim C37, as the code has it, at the block GET / HTTP/1.1 CRLF Host: h CRLF CRLF
followed by the bytes q=hello. -/
theorem prefix_stability_witness :
    (str "GET / HTTP/1.1" ++ LineEnd.crlf.bytes
        ++ renderLines .crlf [{ name := str "Host", space := true, value := str "h" }]
        ++ LineEnd.crlf.bytes ++ str "q=hello").drop
      (parseRequestHeaders HTTPRequestParser.new
        (str "GET / HTTP/1.1" ++ LineEnd.crlf.bytes
          ++ renderLines .crlf [{ name := str "Host", space := true, value := str "h" }]
          ++ LineEnd.crlf.bytes ++ str "q=hello")).2.1
      = str "q=hello" :=
  (prefix_stability HTTPRequestParser.new (str "GET / HTTP/1.1\r\n\r\n") (str "q=hello") .crlf
    (str "GET / HTTP/1.1") [{ name := str "Host", space := true, value := str "h" }]
    (by decide) (by decide) (by decide) (by decide) (by decide) (by decide)).2.2.2.2

end HTTPRequestParser

namespace HTTPRequestParser

/-! ## The dictionary after a failed parse of a URL-encoded string -/

theorem completedPairs_snoc (P : Str) (c : Int) :
    completedPairs (P ++ [c])
      = completedPairs P ++ (if c = 38 then [(currentName P, currentValue P)] else []) := by
  unfold completedPairs
  rw [List.length_append, List.length_singleton, List.range_succ, List.filter_append,
    List.map_append]
  congr 1
  · have hf : (List.range P.length).filter (fun i => decide ((P ++ [c]).get? i = some 38))
        = (List.range P.length).filter (fun i => decide (P.get? i = some 38)) := by
      apply List.filter_congr
      intro i hi
      have hi2 : i < P.length := List.mem_range.1 hi
      simp only [List.get?_eq_getElem?, List.getElem?_append_left hi2]
    rw [hf]
    apply List.map_congr_left
    intro i hi
    have hi2 : i < P.length := List.mem_range.1 (List.mem_filter.1 hi).1
    rw [List.take_append_of_le_length (Nat.le_of_lt hi2)]
  · have hget : (P ++ [c]).get? P.length = some c := by
      rw [List.get?_eq_getElem?, List.getElem?_append_right (le_refl _)]
      simp
    by_cases hc : c = 38
    · subst hc
      simp [hget]
    · simp [hget, hc]

theorem currentValue_of_not_inValue (P : Str) (h : inValue P = false) : currentValue P = [] := by
  have hmem : 61 ∉ currentPair P := by simpa [inValue] using h
  rw [currentValue, dropWhile_of_not_mem _ hmem]
  rfl

/-- The loop body adds a pair to the dictionary exactly at an `&`. -/
theorem scanInv_step_dict (s s2 : URLEncodedState) (P : Str) (c : Int) (h : ScanInv s P)
    (hs : parseURLEncodedStep s c = some s2) :
    s2.dict = s.dict ++ (if c = 38 then [(currentName P, currentValue P)] else []) := by
  unfold ScanInv at h
  by_cases hin : inValue P = true
  · rw [if_pos hin] at h
    obtain ⟨hst, hname, _, hval⟩ := h
    simp only [parseURLEncodedStep, hst] at hs
    split_ifs at hs with h38 <;> simp only [Option.some.injEq] at hs <;> subst hs <;>
      simp [StringDictionary.insert, hname, hval, h38]
  · rw [if_neg hin] at h
    obtain ⟨hst, hname, hval⟩ := h
    simp only [Bool.not_eq_true] at hin
    have hcv := currentValue_of_not_inValue P hin
    simp only [parseURLEncodedStep, hst] at hs
    split_ifs at hs with h61 hn h38 hn2 <;> simp only [Option.some.injEq] at hs <;>
      subst hs <;> simp_all [StringDictionary.insert]

/-- When the loop returns false, the dictionary holds what it held plus the pairs
completed before the first offending character. -/
theorem parseURLEncodedLoop_false_dict (rest : Str) (s : URLEncodedState) (P : Str)
    (D : StringDictionary) (hinv : ScanInv s P) (hd : s.dict = D ++ completedPairs P)
    (hf : (parseURLEncodedLoop s rest).1 = false) :
    ∃ (Q : Str) (c : Int) (R : Str), rest = Q ++ c :: R ∧ offending (P ++ Q) c = true
      ∧ (∀ (Q1 : Str) (d : Int) (Q2 : Str), Q = Q1 ++ d :: Q2 → offending (P ++ Q1) d = false)
      ∧ (parseURLEncodedLoop s rest).2 = D ++ completedPairs (P ++ Q) := by
  induction rest generalizing s P with
  | nil => simp [parseURLEncodedLoop] at hf
  | cons c rest ih =>
    obtain ⟨h1, h2⟩ := scanInv_step s P c hinv
    cases hs : parseURLEncodedStep s c with
    | none =>
      refine ⟨[], c, rest, rfl, by simpa using h1.1 hs, ?_, ?_⟩
      · intro Q1 d Q2 hq
        cases Q1 <;> cases hq
      · rw [parseURLEncodedLoop_cons_none s c rest hs, List.append_nil]
        exact hd
    | some s2 =>
      rw [parseURLEncodedLoop_cons_some s s2 c rest hs] at hf ⊢
      have hd2 : s2.dict = D ++ completedPairs (P ++ [c]) := by
        rw [scanInv_step_dict s s2 P c hinv hs, hd, completedPairs_snoc, List.append_assoc]
      have hnot : offending P c = false := by
        cases ho : offending P c
        · rfl
        · rw [h1.2 ho] at hs
          cases hs
      obtain ⟨Q, c2, R, hr, ho, hfirst, hdict⟩ := ih s2 (P ++ [c]) (h2 s2 hs) hd2 hf
      refine ⟨c :: Q, c2, R, by rw [hr]; rfl, by simpa using ho, ?_, by simpa using hdict⟩
      intro Q1 d Q2 hq
      cases Q1 with
      | nil =>
        simp only [List.nil_append, List.cons.injEq] at hq
        rw [List.append_nil, ← hq.1]
        exact hnot
      | cons q Q1 =>
        simp only [List.cons_append, List.cons.injEq] at hq
        have := hfirst Q1 d Q2 hq.2
        rw [← hq.1]
        simpa using this

/-- Claim C39.  parseURLEncoded is not atomic on failure: for a=1&=2 it returns false
and leaves the pair of a and 1 in the dictionary.  In general, when it returns false
the input has a first offending character, and the dictionary holds its previous
entries, in their order, followed by exactly the pairs completed by an ampersand before
that character; and whatever it returns, the entries present before the call are still
there, unchanged, in front of what was added. -/
theorem parseURLEncoded_not_atomic (dict : StringDictionary) (buf : Str) :
    parseURLEncoded [] (str "a=1&=2") = (false, [(str "a", str "1")])
    ∧ ((parseURLEncoded dict buf).1 = false →
        ∃ (P : Str) (c : Int) (R : Str), buf = P ++ c :: R ∧ offending P c = true
          ∧ (∀ (Q1 : Str) (d : Int) (Q2 : Str), P = Q1 ++ d :: Q2 → offending Q1 d = false)
          ∧ (parseURLEncoded dict buf).2 = dict ++ completedPairs P)
    ∧ (∃ added, (parseURLEncoded dict buf).2 = dict ++ added)
    ∧ completedPairs (str "a=1&b&c=3") = [(str "a", str "1"), (str "b", [])] := by
  refine ⟨by decide, ?_, parseURLEncodedLoop_appends _ _, by decide⟩
  intro hf
  have := parseURLEncodedLoop_false_dict buf _ [] dict (scanInv_nil dict) (by simp [completedPairs])
    hf
  simpa [parseURLEncoded] using this

end HTTPRequestParser

namespace HTTPRequestParser

/-! ## The cookie name is there whenever its first character is read -/

theorem cookieStep_value_name (s s2 : CookieState) (c : Int)
    (h : parseCookieHeaderStep s c = some s2)
    (hinv : s.parse_state = .COOKIE_PARSE_VALUE → s.cookie_name ≠ []) :
    s2.parse_state = .COOKIE_PARSE_VALUE → s2.cookie_name ≠ [] := by
  unfold parseCookieHeaderStep at h
  split at h <;> rename_i hs <;> split_ifs at h <;> simp at h <;> subst h <;> simp_all

theorem cookieStateAfter_value_name (pre : Str) (s s2 : CookieState)
    (hinv : s.parse_state = .COOKIE_PARSE_VALUE → s.cookie_name ≠ [])
    (h : cookieStateAfter s pre = some s2) :
    s2.parse_state = .COOKIE_PARSE_VALUE → s2.cookie_name ≠ [] := by
  induction pre generalizing s with
  | nil =>
    simp only [cookieStateAfter, Option.some.injEq] at h
    subst h
    exact hinv
  | cons c rest ih =>
    simp only [cookieStateAfter] at h
    cases hs : parseCookieHeaderStep s c with
    | none => rw [hs] at h; cases h
    | some s3 =>
      rw [hs] at h
      exact ih s3 (cookieStep_value_name s s3 c hs hinv) h

theorem readsFirstNameCharacter_name (s : CookieState) (c : Int)
    (hinv : s.parse_state = .COOKIE_PARSE_VALUE → s.cookie_name ≠ [])
    (h : readsFirstNameCharacter s c = true) : s.cookie_name ≠ [] := by
  unfold readsFirstNameCharacter at h
  split at h <;> rename_i hs
  · simp only [Bool.and_eq_true, decide_eq_true_eq] at h
    exact h.2
  · exact hinv hs
  · cases h

theorem cookieLoopPasses_le (header : Str) (s : CookieState) :
    cookieLoopPasses s header ≤ header.length := by
  induction header generalizing s with
  | nil => simp [cookieLoopPasses]
  | cons c rest ih =>
    simp only [cookieLoopPasses, List.length_cons]
    cases parseCookieHeaderStep s c with
    | none => simp only; omega
    | some s2 =>
      have := ih s2
      simp only
      omega

theorem cookieLoop_true_iff (header : Str) (s : CookieState) :
    ((parseCookieHeaderLoop s header).1 = true ↔ (cookieStateAfter s header).isSome = true)
    ∧ ((parseCookieHeaderLoop s header).1 = true → cookieLoopPasses s header = header.length) := by
  induction header generalizing s with
  | nil => simp [parseCookieHeaderLoop, cookieStateAfter, cookieLoopPasses]
  | cons c rest ih =>
    simp only [parseCookieHeaderLoop, cookieStateAfter, cookieLoopPasses, List.length_cons]
    cases parseCookieHeaderStep s c with
    | none => simp
    | some s2 =>
      obtain ⟨h1, h2⟩ := ih s2
      simp only
      refine ⟨h1, fun h => ?_⟩
      have := h2 h
      omega

/-- Claim C40.  For every header and every part of it that the loop of parseCookieHeader
has gone through without returning: in the value state the cookie name is not empty,
and wherever the loop body evaluates cookie_name[0] for the next character the name is
not empty, so that the index 0 is within the name (the read after the loop stands
behind the test that the name is not empty).  The loop body is executed at most once
for each character of the header, exactly once for each when the call returns true,
and the call returns true exactly when the loop goes through the whole header. -/
theorem cookie_name_reads_in_bounds (dict : StringDictionary) (header : Str) :
    (∀ (pre post : Str) (s : CookieState), header = pre ++ post →
        cookieStateAfter (cookieStart dict) pre = some s →
        s.parse_state = .COOKIE_PARSE_VALUE → s.cookie_name ≠ [])
    ∧ (∀ (pre : Str) (c : Int) (post : Str) (s : CookieState), header = pre ++ c :: post →
        cookieStateAfter (cookieStart dict) pre = some s →
        readsFirstNameCharacter s c = true → s.cookie_name ≠ [])
    ∧ cookieLoopPasses (cookieStart dict) header ≤ header.length
    ∧ ((parseCookieHeader dict header).1 = true
        ↔ (cookieStateAfter (cookieStart dict) header).isSome = true)
    ∧ ((parseCookieHeader dict header).1 = true →
        cookieLoopPasses (cookieStart dict) header = header.length)
    ∧ ((parseCookieHeader dict header).1 = true ∨ (parseCookieHeader dict header).1 = false) := by
  have hstart : (cookieStart dict).parse_state = .COOKIE_PARSE_VALUE →
      (cookieStart dict).cookie_name ≠ [] := by
    intro h
    cases h
  refine ⟨?_, ?_, cookieLoopPasses_le header _, (cookieLoop_true_iff header _).1,
    (cookieLoop_true_iff header _).2, ?_⟩
  · intro pre post s _ hs
    exact cookieStateAfter_value_name pre _ s hstart hs
  · intro pre c post s _ hs hr
    exact readsFirstNameCharacter_name s c (cookieStateAfter_value_name pre _ s hstart hs) hr
  · cases (parseCookieHeader dict header).1
    · exact Or.inr rfl
    · exact Or.inl rfl

end HTTPRequestParser

end pion
